import Mathlib

/-!
# Batch-normalization performance model (`src/gpu/intel/bnorm/model.cpp`)

Shallow embedding of the parameter planner of the NHWC batch normalization
and of the properties its specification states.

Conventions of the embedding.

* C++ `int`, `dim_t` and `size_t` values are carried as `Int`, with the
  truncating `/` and `%` of C++.  A run of the C++ code that would divide by
  zero, reach `gpu_error_not_expected()` or leave through `CHECK(...)` is an
  `Except.error` carrying a `fault_t`.  The `int` product of
  `get_nhwc_vect_size` and the `int` and `dim_t` products and the narrowing
  `into<int>` of `get_nhwc_sp_block_size` are checked for overflow, which is a
  fault; the other integer expressions are taken at their mathematical value,
  which is the machine value for tensor sizes within the range of their types.
* Loops are unrolled by structural recursion on a step budget;
  `fault_t.out_of_fuel` stands for a loop that does not end within its budget.
  The budgets of `get_nhwc_vect_size` and of the search loop of
  `get_nhwc_sp_block_size` are shown never to be used up, the budget of the
  candidate loop not to be used up for a positive sub-group size.
* A C++ `float` is carried as the value it denotes (`float`): a rational, an
  infinity or NaN, with the IEEE-754 rounding applied after each operation.
-/

namespace bn_model

/-! ## Faults and machine integers -/

/-- Status codes returned through `CHECK(...)`. -/
inductive status_t
  | success
  | out_of_memory
  | invalid_arguments
  | unimplemented
  | last_impl_reached
  | runtime_error
  | not_required
  deriving DecidableEq, Repr

/-- The ways a run of the modelled code stops without a value. -/
inductive fault_t
  /-- integer `/` or `%` with a zero right operand -/
  | div_by_zero
  /-- an `int` expression whose value is not representable -/
  | int_overflow
  /-- `gpu_error_not_expected()` was reached -/
  | not_expected
  /-- a `CHECK(...)` left the function with this status -/
  | status (s : status_t)
  /-- the step budget of a loop was used up -/
  | out_of_fuel
  deriving DecidableEq, Repr

instance {ε α : Type} [DecidableEq ε] [DecidableEq α] : DecidableEq (Except ε α)
  | .ok a, .ok b => if h : a = b then isTrue (by rw [h]) else isFalse (by simpa using h)
  | .error a, .error b => if h : a = b then isTrue (by rw [h]) else isFalse (by simpa using h)
  | .ok _, .error _ => isFalse (by simp)
  | .error _, .ok _ => isFalse (by simp)

/-- Smallest value of a 32-bit `int`. -/
def INT_MIN : Int := -2147483648

/-- Largest value of a 32-bit `int`. -/
def INT_MAX : Int := 2147483647

/-- The value is representable as a 32-bit `int`. -/
def fits_int (x : Int) : Prop := INT_MIN ≤ x ∧ x ≤ INT_MAX

instance (x : Int) : Decidable (fits_int x) := by
  unfold fits_int; exact inferInstance

/-- Smallest value of a `dim_t` (`int64_t`). -/
def DIM_MIN : Int := -9223372036854775808

/-- Largest value of a `dim_t` (`int64_t`). -/
def DIM_MAX : Int := 9223372036854775807

/-- The value is representable as a `dim_t`. -/
def fits_dim (x : Int) : Prop := DIM_MIN ≤ x ∧ x ≤ DIM_MAX

instance (x : Int) : Decidable (fits_dim x) := by
  unfold fits_dim; exact inferInstance

/-- The value is a power of two (1, 2, 4, ...). -/
def is_pow2 (x : Int) : Prop := ∃ k : Nat, x = 2 ^ k

/-! ## `get_nhwc_vect_size` (model.cpp, lines 32-39) -/

/-- The `while (true)` loop of `get_nhwc_vect_size`: `vect_size` is returned as
soon as `ic / (vect_size * simd)` is non-zero and is halved otherwise.  The
product is an `int` product and the quotient a truncating `int` division. -/
def get_nhwc_vect_size_loop (ic simd : Int) : Nat → Int → Except fault_t Int
  | 0, _ => .error .out_of_fuel
  | fuel + 1, vect_size =>
    let d := vect_size * simd
    if ¬ fits_int d then .error .int_overflow
    else if d = 0 then .error .div_by_zero
    else if ic = INT_MIN ∧ d = -1 then .error .int_overflow
    else if Int.tdiv ic d ≠ 0 then .ok vect_size
    else get_nhwc_vect_size_loop ic simd fuel (Int.tdiv vect_size 2)

/-- `int get_nhwc_vect_size(int ic, int max_vect_size, int simd)`.  An `int`
reaches zero after at most 32 halvings, and a zero `vect_size` stops the loop
(division by zero), so 34 steps are a budget the loop never uses up. -/
def get_nhwc_vect_size (ic max_vect_size simd : Int) : Except fault_t Int :=
  get_nhwc_vect_size_loop ic simd 34 max_vect_size

/-! ## Floating-point values -/

/-- The value of a C++ `float` or `double`: NaN, an infinity, or the rational a
finite value denotes (every finite binary floating-point number is a rational;
the two zeros are not told apart, which no comparison does either). -/
inductive float
  | nan
  | ninf
  | pinf
  | fin (q : ℚ)
  deriving DecidableEq

/-- C++ `a <= b` on floating-point values: false as soon as one side is NaN. -/
def float.le : float → float → Bool
  | .nan, _ => false
  | _, .nan => false
  | .ninf, _ => true
  | _, .pinf => true
  | .pinf, _ => false
  | _, .ninf => false
  | .fin a, .fin b => decide (a ≤ b)

/-- C++ `a < b` on floating-point values: false as soon as one side is NaN. -/
def float.lt : float → float → Bool
  | .nan, _ => false
  | _, .nan => false
  | .pinf, _ => false
  | _, .ninf => false
  | .ninf, _ => true
  | _, .pinf => true
  | .fin a, .fin b => decide (a < b)

/-- C++ `a == b` on floating-point values: false as soon as one side is NaN. -/
def float.eq : float → float → Bool
  | .ninf, .ninf => true
  | .pinf, .pinf => true
  | .fin a, .fin b => decide (a = b)
  | _, _ => false

/-- Two to an integer power, as a rational. -/
def pow2q (e : Int) : ℚ := if 0 ≤ e then (2 : ℚ) ^ e.toNat else 1 / (2 : ℚ) ^ (-e).toNat

/-- Floor of the binary logarithm of a positive rational. -/
def ilog2 (a : ℚ) : Int :=
  let e0 : Int := (Nat.log2 a.num.natAbs : Int) - (Nat.log2 a.den : Int)
  if a < pow2q e0 then e0 - 1 else e0

/-- Nearest integer of a non-negative rational, ties to the even one. -/
def round_half_even (a : ℚ) : Int :=
  let f : Int := a.num / (a.den : Int)
  let r : ℚ := a - f
  if r < 1 / 2 then f else if 1 / 2 < r then f + 1 else if f % 2 = 0 then f else f + 1

/-- A binary floating-point format: significand bits, exponent of the smallest
normal number, exponent of the largest finite number. -/
structure float_format where
  prec : Nat
  emin : Int
  emax : Int

/-- IEEE-754 single precision, the C++ `float`. -/
def binary32 : float_format := ⟨24, -126, 127⟩

/-- IEEE-754 double precision, the C++ `double`. -/
def binary64 : float_format := ⟨53, -1022, 1023⟩

/-- The floating-point number of the format nearest to `q` (ties to even,
gradual underflow, overflow to an infinity). -/
def float.round (fmt : float_format) (q : ℚ) : float :=
  if q = 0 then .fin 0 else
    let a := if q < 0 then -q else q
    let e := max (ilog2 a) fmt.emin
    let ulp := pow2q (e - ((fmt.prec : Int) - 1))
    let r := (round_half_even (a / ulp) : ℚ) * ulp
    if pow2q (fmt.emax + 1) ≤ r then (if q < 0 then .ninf else .pinf)
    else .fin (if q < 0 then -r else r)

/-- Conversion of an integer to the format, `(float)x`. -/
def float.of_int (fmt : float_format) (x : Int) : float := float.round fmt x

/-- C++ `a + b` in the format. -/
def float.add (fmt : float_format) : float → float → float
  | .nan, _ => .nan
  | _, .nan => .nan
  | .pinf, .ninf => .nan
  | .ninf, .pinf => .nan
  | .pinf, _ => .pinf
  | _, .pinf => .pinf
  | .ninf, _ => .ninf
  | _, .ninf => .ninf
  | .fin a, .fin b => float.round fmt (a + b)

/-- The infinity, or NaN, that the product of an infinity of the given sign
(`neg` for minus infinity) and the finite value `a` is. -/
def float.inf_times (neg : Bool) (a : ℚ) : float :=
  if a = 0 then .nan else if (a < 0) = neg then .pinf else .ninf

/-- C++ `a * b` in the format. -/
def float.mul (fmt : float_format) : float → float → float
  | .nan, _ => .nan
  | _, .nan => .nan
  | .pinf, .pinf => .pinf
  | .ninf, .ninf => .pinf
  | .pinf, .ninf => .ninf
  | .ninf, .pinf => .ninf
  | .pinf, .fin b => float.inf_times false b
  | .ninf, .fin b => float.inf_times true b
  | .fin a, .pinf => float.inf_times false a
  | .fin a, .ninf => float.inf_times true a
  | .fin a, .fin b => float.round fmt (a * b)

/-- C++ `a / b` in the format.  A zero divisor is taken as `+0`: the divisors of
the modelled code are converted integers. -/
def float.div (fmt : float_format) : float → float → float
  | .nan, _ => .nan
  | _, .nan => .nan
  | .pinf, .pinf => .nan
  | .pinf, .ninf => .nan
  | .ninf, .pinf => .nan
  | .ninf, .ninf => .nan
  | .pinf, .fin b => if b < 0 then .ninf else .pinf
  | .ninf, .fin b => if b < 0 then .pinf else .ninf
  | .fin _, .pinf => .fin 0
  | .fin _, .ninf => .fin 0
  | .fin a, .fin b =>
    if b = 0 then (if a = 0 then .nan else if a < 0 then .ninf else .pinf)
    else float.round fmt (a / b)

/-- `FLT_MAX`, the largest finite `float`. -/
def FLT_MAX : float := .fin ((2 ^ 24 - 1) * 2 ^ 104)

/-! ## The occupancy buckets (model.cpp, lines 438 and 478-482) -/

/-- `std::vector<float> ss_util_set = {0.125, 0.25, 1, 2, 4, 8}`. -/
def ss_util_set : List float :=
  [.fin (1 / 8), .fin (1 / 4), .fin 1, .fin 2, .fin 4, .fin 8]

/-- The `for` loop of `get_ss_util_idx` over the breakpoints from position `i`
on: the first position whose breakpoint is `>= v`, `none` when the loop runs to
its end. -/
def get_ss_util_idx_loop (v : float) : List float → Nat → Option Nat
  | [], _ => none
  | b :: rest, i => if v.le b then some i else get_ss_util_idx_loop v rest (i + 1)

/-- `size_t get_ss_util_idx(float v)`. -/
def get_ss_util_idx (v : float) : Nat :=
  match get_ss_util_idx_loop v ss_util_set 0 with
  | some i => i
  | none => ss_util_set.length - 1

/-! ## Data model of the planner -/

/-- `kernel_kind_t`: the kernels `to_string` names (model.cpp, lines 128-158). -/
inductive kernel_kind_t
  | calc_mean_ker
  | calc_var_ker
  | calc_mean_var_ker
  | calc_stats_ker
  | reduce_stats_fwd_ker
  | reusable_reduce_stats_fwd_ker
  | reduce_mean_var_ker
  | reduce_stats_bwd_ker
  | reduce_aux_init_ker
  | reduce_aux_finalize_ker
  | default_fwd_ker
  | default_bwd_ker
  deriving DecidableEq, Repr

/-- `data_location_t`: the memory tiers `to_string` names (model.cpp, lines 160-172). -/
inductive data_location_t
  | L3
  | HBM
  | SLM
  deriving DecidableEq, Repr

/-- Modelled from the spec: the element types of `data_type_t`, which is declared
outside the sources; the model only tells `f16` and `bf16` from the others. -/
inductive data_type_t
  | f16
  | bf16
  | f32
  | f64
  | s32
  | s8
  | u8
  deriving DecidableEq, Repr

/-- Modelled from the spec: `compute::gpu_arch_t`, the ordered generation enum of
the hardware profile, declared outside the sources.  The model compares an
architecture with `xe_hpg` and `xe_hpc` only. -/
inductive gpu_arch_t
  | unknown
  | xe_lp
  | xe_hp
  | xe_hpg
  | xe_hpc
  | xe2
  | xe3
  deriving DecidableEq, Repr

/-- Position of an architecture in the generation order. -/
def gpu_arch_t.rank : gpu_arch_t → Nat
  | .unknown => 0
  | .xe_lp => 1
  | .xe_hp => 2
  | .xe_hpg => 3
  | .xe_hpc => 4
  | .xe2 => 5
  | .xe3 => 6

/-- C++ `a >= b` on architectures. -/
def gpu_arch_t.ge (a b : gpu_arch_t) : Bool := decide (b.rank ≤ a.rank)

/-- `hw_params_t`: the fields `init_hw_params` fills (model.cpp, lines 82-111),
the engine pointer left out. -/
structure hw_params_t where
  gpu_arch : gpu_arch_t
  eu_count : Int
  threads_per_eu : Int
  max_lws : Int
  eus_per_ss : Int
  max_ss : Int
  max_slm_size : Int
  HBM_bw : float
  L3_size : Int
  L3_bw : float
  host_overheads_per_kernel : float
  deriving DecidableEq

/-- Modelled from the spec: a tunable field of the workload descriptor together
with its pinned marker (`name_param().is_overridden()`, `name()`); the parameter
classes are declared outside the sources. -/
structure param_t where
  value : Int
  is_overridden : Bool
  deriving DecidableEq, Repr

/-- Modelled from the spec: `conf.set_name(val)` stores the value and leaves the
pinned marker as it is. -/
def param_t.set (p : param_t) (val : Int) : param_t := { p with value := val }

/-- `nhwc_bnorm_params_t`: the members of the workload descriptor that
model.cpp reads or writes. -/
structure nhwc_bnorm_params_t where
  is_forward : Bool
  is_backward : Bool
  calculate_stats : Bool
  calculate_diff_stats : Bool
  use_stats_one_pass : Bool
  fuse_norm_relu : Bool
  fuse_norm_add_relu : Bool
  use_scale : Bool
  use_shift : Bool
  data_type : data_type_t
  elsz : Int
  ic : Int
  sp : Int
  sub_group_size : Int
  max_ic_block : Int
  calc_stat_ic : Int
  vect_size : Int
  expected_time_ms : float
  found_in_table : Bool
  use_fused_atomics_reduction : param_t
  max_vect_size : param_t
  ic_block : param_t
  stat_sp_block : param_t
  update_sp_block : param_t
  update_sp_unroll : param_t
  deriving DecidableEq

/-- `kernel_desc_t`: the members model.cpp reads or writes. -/
structure kernel_desc_t where
  kernel : kernel_kind_t
  ncalls : Int
  reusable_version : Bool
  input_nbytes : Int
  output_nbytes : Int
  input_location : data_location_t
  output_location : data_location_t
  num_wgs : Int
  used_ss_thr_util : float
  ss_util : float
  time_ns : float
  deriving DecidableEq

/-- `model_params_t`: one candidate configuration and its kernel sequence. -/
structure model_params_t where
  use_fused_atomics_reduction : Int
  ic_block : Int
  stat_sp_block : Int
  vect_size : Int
  kernel_descs : List kernel_desc_t
  deriving DecidableEq

/-! ## Kernel decomposition (model.cpp, lines 248-279 and 637-716) -/

/-- `int get_ncalls(p, conf, kernel)`; the `default:` branch of the forward
`switch` is `gpu_error_not_expected()`. -/
def get_ncalls (p : model_params_t) (conf : nhwc_bnorm_params_t)
    (kernel : kernel_kind_t) : Except fault_t Int :=
  if conf.is_forward then
    match kernel with
    | .default_fwd_ker => .ok 1
    | .calc_mean_ker => .ok (if conf.calculate_stats then 1 else 0)
    | .calc_var_ker => .ok (if conf.calculate_stats then 1 else 0)
    | .calc_mean_var_ker => .ok (if conf.calculate_stats then 1 else 0)
    | .reusable_reduce_stats_fwd_ker =>
      .ok (if conf.calculate_stats ∧ p.use_fused_atomics_reduction = 0 then 2 else 0)
    | .reduce_stats_fwd_ker =>
      .ok (if conf.calculate_stats ∧ p.use_fused_atomics_reduction = 0 then 2 else 0)
    | .reduce_mean_var_ker =>
      .ok (if conf.calculate_stats ∧ p.use_fused_atomics_reduction = 0 then 1 else 0)
    | .reduce_aux_init_ker =>
      .ok (if conf.calculate_stats ∧ p.use_fused_atomics_reduction ≠ 0 then 1 else 0)
    | .reduce_aux_finalize_ker =>
      .ok (if conf.calculate_stats ∧ p.use_fused_atomics_reduction ≠ 0
        then (if conf.use_stats_one_pass then 1 else 2) else 0)
    | _ => .error .not_expected
  else .ok 1

/-- `void init_ker_desc(p, conf, hw_params, desc, reusable_version, kernel)`:
sets the kind, the version flag and the number of calls of `desc`. -/
def init_ker_desc (p : model_params_t) (conf : nhwc_bnorm_params_t)
    (_hw_params : hw_params_t) (desc : kernel_desc_t) (reusable_version : Bool)
    (kernel : kernel_kind_t) : Except fault_t kernel_desc_t := do
  let ncalls ← get_ncalls p conf kernel
  pure { desc with kernel := kernel, reusable_version := reusable_version, ncalls := ncalls }

/-- One `init_ker_desc(...); p.kernel_descs.push_back(desc);` pair of
`init_kernel_descriptors`, on the pair of the candidate and the local `desc`. -/
def push_ker_desc (conf : nhwc_bnorm_params_t) (hw_params : hw_params_t)
    (reusable_version : Bool) (kernel : kernel_kind_t)
    (st : model_params_t × kernel_desc_t) : Except fault_t (model_params_t × kernel_desc_t) := do
  let desc ← init_ker_desc st.1 conf hw_params st.2 reusable_version kernel
  pure ({ st.1 with kernel_descs := st.1.kernel_descs ++ [desc] }, desc)

/-- `void init_kernel_descriptors(p, conf, hw_params, reusable_version)`.  The
last argument is the value of the default-constructed local `kernel_desc_t desc`
(the struct declaration is outside the sources). -/
def init_kernel_descriptors (p : model_params_t) (conf : nhwc_bnorm_params_t)
    (hw_params : hw_params_t) (reusable_version : Bool) (desc : kernel_desc_t) :
    Except fault_t model_params_t :=
  let push := push_ker_desc conf hw_params reusable_version
  if conf.is_forward then do
    let st ← push .default_fwd_ker (p, desc)
    if conf.calculate_stats then do
      let st ← if conf.use_stats_one_pass then push .calc_mean_var_ker st
        else do
          let st ← push .calc_mean_ker st
          push .calc_var_ker st
      let st ← if p.use_fused_atomics_reduction ≠ 0 then do
          let st ← push .reduce_aux_init_ker st
          push .reduce_aux_finalize_ker st
        else if conf.use_stats_one_pass then push .reduce_mean_var_ker st
        else push (if reusable_version then .reusable_reduce_stats_fwd_ker
          else .reduce_stats_fwd_ker) st
      pure st.1
    else pure st.1
  else do
    let st ← push .default_bwd_ker (p, desc)
    let st ← push .calc_stats_ker st
    let st ← if p.use_fused_atomics_reduction ≠ 0 then do
        let st ← push .reduce_aux_init_ker st
        push .reduce_aux_finalize_ker st
      else push .reduce_stats_bwd_ker st
    pure st.1

/-- The kind and the number of calls of every descriptor of a sequence. -/
def kinds_and_ncalls (descs : List kernel_desc_t) : List (kernel_kind_t × Int) :=
  descs.map (fun d => (d.kernel, d.ncalls))

/-! ## Block sizes (model.cpp, lines 40-80) -/

/-- Modelled from the spec: `utils::div_up(a, b)`, the ceiling of `a / b`
computed as `(a + b - 1) / b` with the truncating division of C++; the helper
is declared outside the sources. -/
def div_up (a b : Int) : Except fault_t Int :=
  if b = 0 then .error .div_by_zero else .ok (Int.tdiv (a + b - 1) b)

/-- Modelled from the spec: `utils::rnd_up(a, b)`, `a` rounded up to a multiple
of `b`, `div_up(a, b) * b`; the helper is declared outside the sources. -/
def rnd_up (a b : Int) : Except fault_t Int := do
  let q ← div_up a b
  pure (q * b)

/-- The four variables the search loop of `get_nhwc_sp_block_size` updates. -/
structure sp_block_search_t where
  efficiency_thr : float
  efficiency_peak_eu_thr : float
  block_size_thr : Int
  block_size_peak_eu_thr : Int
  deriving DecidableEq

/-- Modelled from the spec: `into<int>(x)`, the checked narrowing of a `dim_t`
to `int`; the helper is declared outside the sources.  A value outside the
range of `int` is a fault. -/
def into_int (x : Int) : Except fault_t Int :=
  if fits_int x then .ok x else .error .int_overflow

/-- The body of the `while (nthr_mul <= 32)` loop of `get_nhwc_sp_block_size`.
`nthr` and `eu_count * threads_per_eu` are `int` products, `sp * ic_nsg` and
`nblock * ic_nsg` are `dim_t` products: a product outside the range of its type
is a fault (signed overflow). -/
def get_nhwc_sp_block_size_step (sp ic_nsg eu_count threads_per_eu nthr_mul : Int)
    (st : sp_block_search_t) : Except fault_t sp_block_search_t := do
  let nthr := nthr_mul * eu_count
  if ¬ fits_int nthr then throw .int_overflow
  if ¬ fits_dim (sp * ic_nsg) then throw .int_overflow
  let curr_block_size ← div_up (sp * ic_nsg) nthr
  let nblock ← div_up sp curr_block_size
  let nthr_gen := nblock * ic_nsg
  if ¬ fits_dim nthr_gen then throw .int_overflow
  let rnd_eus ← rnd_up nthr_gen eu_count
  let curr_efficiency_eus :=
    float.div binary32 (float.of_int binary32 nthr_gen) (float.of_int binary32 rnd_eus)
  if ¬ fits_int (eu_count * threads_per_eu) then throw .int_overflow
  let rnd_thr ← rnd_up nthr_gen (eu_count * threads_per_eu)
  let curr_efficiency_thr :=
    float.div binary32 (float.of_int binary32 nthr_gen) (float.of_int binary32 rnd_thr)
  let st := if st.efficiency_thr.lt curr_efficiency_thr
    then { st with efficiency_thr := curr_efficiency_thr, block_size_thr := curr_block_size }
    else st
  let st := if curr_efficiency_eus.eq (float.of_int binary32 1) ∧
      st.efficiency_peak_eu_thr.lt curr_efficiency_thr
    then { st with efficiency_peak_eu_thr := curr_efficiency_thr,
                   block_size_peak_eu_thr := curr_block_size }
    else st
  pure st

/-- The `while (nthr_mul <= 32)` loop of `get_nhwc_sp_block_size`. -/
def get_nhwc_sp_block_size_loop (sp ic_nsg eu_count threads_per_eu : Int) :
    Nat → Int → sp_block_search_t → Except fault_t sp_block_search_t
  | 0, nthr_mul, st => if nthr_mul ≤ 32 then .error .out_of_fuel else .ok st
  | fuel + 1, nthr_mul, st =>
    if nthr_mul ≤ 32 then do
      let st ← get_nhwc_sp_block_size_step sp ic_nsg eu_count threads_per_eu nthr_mul st
      get_nhwc_sp_block_size_loop sp ic_nsg eu_count threads_per_eu fuel (nthr_mul + 1) st
    else .ok st

/-- `int get_nhwc_sp_block_size(sp, ic_dim, eu_count, threads_per_eu, simd)`; the
result is narrowed by `into<int>`. -/
def get_nhwc_sp_block_size (sp ic_dim eu_count threads_per_eu simd : Int) :
    Except fault_t Int := do
  if simd = 0 then throw .div_by_zero
  let ic_nsg := Int.tdiv ic_dim simd
  let st ← get_nhwc_sp_block_size_loop sp ic_nsg eu_count threads_per_eu 32 1
    ⟨.fin 0, .fin 0, 1, 1⟩
  if (float.fin 0).lt st.efficiency_peak_eu_thr then into_int st.block_size_peak_eu_thr
  else into_int st.block_size_thr

/-- `dim_t get_nhwc_calc_stat_ic(ic, ic_block, sg_size)`. -/
def get_nhwc_calc_stat_ic (ic ic_block sg_size : Int) : Except fault_t Int := do
  let q ← div_up ic ic_block
  pure (q * sg_size)

/-! ## Parameter selection (model.cpp, lines 758-883) -/

/-- What `get_params_by_model` takes from declarations and collaborators that
are outside the sources. -/
structure extern_t where
  /-- the default value of the parameter `simd` of `get_nhwc_vect_size`, declared
  in model.hpp and used by the two-argument call at line 803 -/
  default_simd : Int
  /-- the value of a default-constructed `model_params_t` (its vector is empty) -/
  default_params : model_params_t
  /-- the value of a default-constructed `kernel_desc_t` -/
  default_desc : kernel_desc_t
  /-- the result of `make_kernel_perf_estimation(p, conf, desc, hw_params)`: the
  descriptor with its dispatch dry run, byte volumes, locations and time filled
  in, or the status its `CHECK` leaves with -/
  make_kernel_perf_estimation :
    model_params_t → nhwc_bnorm_params_t → kernel_desc_t → hw_params_t →
      Except fault_t kernel_desc_t

/-- The `while` loop that creates the set of possible parameters (lines
795-814), from the block size `ic_block` on, appending to `params`. -/
def create_params_loop (ext : extern_t) (conf : nhwc_bnorm_params_t) (deterministic : Bool)
    (hw_params : hw_params_t) (reusable_version : Bool) :
    Nat → Int → List model_params_t → Except fault_t (List model_params_t)
  | 0, ic_block, params =>
    if ic_block ≤ conf.ic ∧ (if reusable_version then ic_block ≤ conf.max_ic_block else True)
    then .error .out_of_fuel else .ok params
  | fuel + 1, ic_block, params =>
    if ic_block ≤ conf.ic ∧ (if reusable_version then ic_block ≤ conf.max_ic_block else True)
    then
      if ic_block = 0 then .error .div_by_zero
      else if Int.tmod conf.ic ic_block = 0 then do
        let calc_stat_ic ← get_nhwc_calc_stat_ic conf.ic ic_block conf.sub_group_size
        let stat_sp_block ← get_nhwc_sp_block_size conf.sp calc_stat_ic hw_params.eu_count
          hw_params.threads_per_eu conf.sub_group_size
        let vect_size ← get_nhwc_vect_size ic_block conf.max_vect_size.value ext.default_simd
        let p : model_params_t :=
          { use_fused_atomics_reduction := 0, ic_block := ic_block,
            stat_sp_block := stat_sp_block, vect_size := vect_size, kernel_descs := [] }
        let params := params ++ [p]
        let params :=
          if hw_params.gpu_arch.ge .xe_hpc ∧ ¬ deterministic
          then params ++ [{ p with use_fused_atomics_reduction := 1 }] else params
        create_params_loop ext conf deterministic hw_params reusable_version fuel
          (ic_block + conf.sub_group_size) params
      else
        create_params_loop ext conf deterministic hw_params reusable_version fuel
          (ic_block + conf.sub_group_size) params
    else .ok params

/-- The set of possible parameters of `get_params_by_model` (lines 789-814):
the loop started at `ic_block = conf.sub_group_size` with no candidate.  With a
positive sub-group size the loop makes at most `conf.ic` steps. -/
def create_params (ext : extern_t) (conf : nhwc_bnorm_params_t) (deterministic : Bool)
    (hw_params : hw_params_t) (reusable_version : Bool) :
    Except fault_t (List model_params_t) :=
  create_params_loop ext conf deterministic hw_params reusable_version
    (conf.ic.toNat + 1) conf.sub_group_size []

/-- The `for` loop of `make_perf_estimations` over the kernel descriptors. -/
def make_perf_estimations_loop (ext : extern_t) (p : model_params_t)
    (conf : nhwc_bnorm_params_t) (hw_params : hw_params_t) :
    List kernel_desc_t → Except fault_t (List kernel_desc_t)
  | [] => .ok []
  | desc :: rest => do
    let desc ← ext.make_kernel_perf_estimation p conf desc hw_params
    let rest ← make_perf_estimations_loop ext p conf hw_params rest
    pure (desc :: rest)

/-- `status_t make_perf_estimations(p, conf, hw_params)`. -/
def make_perf_estimations (ext : extern_t) (p : model_params_t)
    (conf : nhwc_bnorm_params_t) (hw_params : hw_params_t) :
    Except fault_t model_params_t := do
  let descs ← make_perf_estimations_loop ext p conf hw_params p.kernel_descs
  pure { p with kernel_descs := descs }

/-- The inner loop of the search (lines 828-836): `exp_time` after adding, for
every descriptor, `ncalls * time_ns` and then
`host_overheads_per_kernel * ncalls`, in single precision, each product and each
sum rounded on its own. -/
def expected_time (hw_params : hw_params_t) : List kernel_desc_t → float → float
  | [], exp_time => exp_time
  | desc :: rest, exp_time =>
    let exp_time := float.add binary32 exp_time
      (float.mul binary32 (float.of_int binary32 desc.ncalls) desc.time_ns)
    let exp_time := float.add binary32 exp_time
      (float.mul binary32 hw_params.host_overheads_per_kernel
        (float.of_int binary32 desc.ncalls))
    expected_time hw_params rest exp_time

/-- The loop that finds the best set (lines 818-846), on the pair of
`best_params` and `best_expected_time`. -/
def find_best_params (ext : extern_t) (conf : nhwc_bnorm_params_t) (hw_params : hw_params_t)
    (reusable_version : Bool) :
    List model_params_t → model_params_t × float → Except fault_t (model_params_t × float)
  | [], best => .ok best
  | p :: rest, best => do
    let p ← init_kernel_descriptors p conf hw_params reusable_version ext.default_desc
    let p ← make_perf_estimations ext p conf hw_params
    let exp_time := expected_time hw_params p.kernel_descs (.fin 0)
    find_best_params ext conf hw_params reusable_version rest
      (if exp_time.lt best.2 then (p, exp_time) else best)

/-- The macro `SAVE_PARAM(name, val)`:
`if (!conf.name_param().is_overridden()) conf.set_name(val);`. -/
def SAVE_PARAM (name : param_t) (val : Int) : param_t :=
  if ¬ name.is_overridden then name.set val else name

/-- The end of `get_params_by_model` (lines 848-882): the best parameters are
saved to `conf`, a pinned field being kept unless its guard replaces it.  Each
local below is the member of `conf` of the same name, and the members are
written back together at the end.  The value stored in `expected_time_ms` is
the double-precision product `best_expected_time * 1e-6`. -/
def save_best_params (conf : nhwc_bnorm_params_t) (best_params : model_params_t)
    (best_expected_time : float) : Except fault_t nhwc_bnorm_params_t := do
  let expected_time_ms :=
    float.mul binary64 best_expected_time (float.round binary64 (1 / 1000000))
  let use_fused_atomics_reduction :=
    SAVE_PARAM conf.use_fused_atomics_reduction best_params.use_fused_atomics_reduction
  let ic_block :=
    if ¬ conf.ic_block.is_overridden ∨
      (conf.ic_block.is_overridden ∧ conf.ic_block.value > conf.ic)
    then conf.ic_block.set best_params.ic_block else conf.ic_block
  let calc_stat_ic ← get_nhwc_calc_stat_ic conf.ic ic_block.value conf.sub_group_size
  let stat_sp_block := SAVE_PARAM conf.stat_sp_block best_params.stat_sp_block
  let update_sp_block := SAVE_PARAM conf.update_sp_block stat_sp_block.value
  let update_sp_unroll := SAVE_PARAM conf.update_sp_unroll 1
  let vect_size ← get_nhwc_vect_size ic_block.value conf.max_vect_size.value
    conf.sub_group_size
  if update_sp_unroll.value = 0 then throw .div_by_zero
  let bad_update_sp_unroll ←
    if Int.tmod update_sp_block.value update_sp_unroll.value ≠ 0 then pure true
    else if update_sp_block.value = 0 then throw .div_by_zero
    else pure (decide (Int.tmod (Int.tmod conf.sp update_sp_block.value)
      update_sp_unroll.value ≠ 0))
  let update_sp_unroll :=
    if update_sp_unroll.is_overridden ∧ bad_update_sp_unroll
    then update_sp_unroll.set 1 else update_sp_unroll
  pure { conf with
    expected_time_ms := expected_time_ms
    use_fused_atomics_reduction := use_fused_atomics_reduction
    ic_block := ic_block
    calc_stat_ic := calc_stat_ic
    stat_sp_block := stat_sp_block
    update_sp_block := update_sp_block
    update_sp_unroll := update_sp_unroll
    vect_size := vect_size }

/-- `status_t get_params_by_model(conf, pd, hw_params, reusable_version)`, with
`deterministic` for `pd->attr()->deterministic_`; `Except.ok` carries `conf` as
it is when the function returns `status::success`. -/
def get_params_by_model (ext : extern_t) (conf : nhwc_bnorm_params_t) (deterministic : Bool)
    (hw_params : hw_params_t) (reusable_version : Bool) :
    Except fault_t nhwc_bnorm_params_t := do
  let params ← create_params ext conf deterministic hw_params reusable_version
  let best ← find_best_params ext conf hw_params reusable_version params
    (ext.default_params, FLT_MAX)
  save_best_params conf best.1 best.2

/-! ## Specification-side definitions -/

/-- The channel block sizes the specification admits: positive multiples of the
sub-group width that divide `conf.ic` evenly, do not exceed `conf.ic` and, for
the reusable version, do not exceed `conf.max_ic_block`. -/
def admissible_ic_block (conf : nhwc_bnorm_params_t) (reusable_version : Bool)
    (ic_block : Int) : Prop :=
  (∃ k : Int, 1 ≤ k ∧ ic_block = k * conf.sub_group_size) ∧
    Int.tmod conf.ic ic_block = 0 ∧ ic_block ≤ conf.ic ∧
    (reusable_version = true → ic_block ≤ conf.max_ic_block)

/-- The atomics-based variant is generated: the architecture is `xe_hpc` or
later and the primitive attribute `deterministic_` is false. -/
def atomics_allowed (hw_params : hw_params_t) (deterministic : Bool) : Prop :=
  hw_params.gpu_arch.ge .xe_hpc = true ∧ deterministic = false

/-- Inputs on which the creation of the candidates runs without a fault: a
positive sub-group size, spatial size, execution-unit and thread count, a
positive `max_vect_size` whose product with the default `simd` is a
representable `int`, the default `simd` lying between 1 and the sub-group
size, and sizes in the range of their C++ types: the thread counts
`32 * eu_count` and `eu_count * threads_per_eu` are `int` values, the largest
block of the spatial search is one (`sp * ic <= INT_MAX * eu_count`), and the
channel count leaves room for the last increment of `ic_block`. -/
def candidate_inputs_ok (ext : extern_t) (conf : nhwc_bnorm_params_t)
    (hw_params : hw_params_t) : Prop :=
  1 ≤ conf.sub_group_size ∧ 1 ≤ conf.sp ∧ 1 ≤ hw_params.eu_count ∧
    1 ≤ hw_params.threads_per_eu ∧ 1 ≤ conf.max_vect_size.value ∧
    conf.max_vect_size.value * ext.default_simd ≤ INT_MAX ∧
    1 ≤ ext.default_simd ∧ ext.default_simd ≤ conf.sub_group_size ∧
    32 * hw_params.eu_count ≤ INT_MAX ∧
    hw_params.eu_count * hw_params.threads_per_eu ≤ INT_MAX ∧
    conf.sp * conf.ic ≤ INT_MAX * hw_params.eu_count ∧
    conf.ic + conf.sub_group_size ≤ INT_MAX

/-- The order of two candidates of the list: a smaller channel block first, and
for one channel block the two-pass variant before the atomics variant. -/
def candidate_order (p q : model_params_t) : Prop :=
  p.ic_block < q.ic_block ∨
    (p.ic_block = q.ic_block ∧ p.use_fused_atomics_reduction = 0 ∧
      q.use_fused_atomics_reduction = 1)

/-- What the creation loop appends when started at the block size `b`: every
appended candidate has an admissible block size `>= b`, is the two-pass variant
or, where atomics are allowed, the atomics variant, and has positive computed
sizes and no kernel descriptor; every admissible block size `>= b` is present in
its variants; the candidates are in `candidate_order`. -/
def appended_from (conf : nhwc_bnorm_params_t) (deterministic : Bool) (hw_params : hw_params_t)
    (reusable_version : Bool) (b : Int) (out : List model_params_t) : Prop :=
  (∀ p ∈ out, b ≤ p.ic_block ∧ admissible_ic_block conf reusable_version p.ic_block ∧
    (p.use_fused_atomics_reduction = 0 ∨
      (p.use_fused_atomics_reduction = 1 ∧ atomics_allowed hw_params deterministic)) ∧
    1 ≤ p.stat_sp_block ∧ 1 ≤ p.vect_size ∧ p.kernel_descs = []) ∧
  (∀ b2, b ≤ b2 → admissible_ic_block conf reusable_version b2 →
    (∃ p ∈ out, p.ic_block = b2 ∧ p.use_fused_atomics_reduction = 0) ∧
    (atomics_allowed hw_params deterministic →
      ∃ p ∈ out, p.ic_block = b2 ∧ p.use_fused_atomics_reduction = 1)) ∧
  List.Pairwise candidate_order out

/-- Two candidates make the same choice: the same reduction strategy, block
sizes and vector width (their kernel sequences may differ). -/
def same_choice (p q : model_params_t) : Prop :=
  q.use_fused_atomics_reduction = p.use_fused_atomics_reduction ∧
    q.ic_block = p.ic_block ∧ q.stat_sp_block = p.stat_sp_block ∧
    q.vect_size = p.vect_size

/-- Inputs on which the search for the best candidate and the saving of its
parameters run without a fault: the estimation of a kernel always succeeds, the
product of `max_vect_size` and the sub-group size is a representable `int`, the
default-constructed parameters hold usable block sizes, and so does every pinned
field. -/
def selection_inputs_ok (ext : extern_t) (conf : nhwc_bnorm_params_t) : Prop :=
  (∀ p c d h, ∃ d2, ext.make_kernel_perf_estimation p c d h = .ok d2) ∧
    conf.max_vect_size.value * conf.sub_group_size ≤ INT_MAX ∧
    conf.sub_group_size ≤ ext.default_params.ic_block ∧
    1 ≤ ext.default_params.stat_sp_block ∧
    (conf.ic_block.is_overridden = true → conf.sub_group_size ≤ conf.ic_block.value) ∧
    (conf.stat_sp_block.is_overridden = true → 1 ≤ conf.stat_sp_block.value) ∧
    (conf.update_sp_block.is_overridden = true → 1 ≤ conf.update_sp_block.value) ∧
    (conf.update_sp_unroll.is_overridden = true → 1 ≤ conf.update_sp_unroll.value)

/-- A kernel descriptor with every member zero. -/
def sample_desc : kernel_desc_t :=
  { kernel := .default_fwd_ker, ncalls := 0, reusable_version := false,
    input_nbytes := 0, output_nbytes := 0, input_location := .HBM,
    output_location := .HBM, num_wgs := 0, used_ss_thr_util := .fin 0,
    ss_util := .fin 0, time_ns := .fin 0 }

/-- A hardware profile of the `xe_hpc` generation with 64 execution units, the
bandwidths and sizes being those `init_hw_params` sets for it. -/
def sample_hw : hw_params_t :=
  { gpu_arch := .xe_hpc, eu_count := 64, threads_per_eu := 8, max_lws := 1024,
    eus_per_ss := 8, max_ss := 8, max_slm_size := 131072, HBM_bw := .fin 1000,
    L3_size := 201326592, L3_bw := .fin 3000, host_overheads_per_kernel := .fin 6000 }

/-- A forward f32 workload that computes statistics: 32 channels, 1024 spatial
points, sub-groups of 16, no field pinned. -/
def sample_conf (use_stats_one_pass : Bool) : nhwc_bnorm_params_t :=
  { is_forward := true, is_backward := false, calculate_stats := true,
    calculate_diff_stats := false, use_stats_one_pass := use_stats_one_pass,
    fuse_norm_relu := false, fuse_norm_add_relu := false, use_scale := true,
    use_shift := true, data_type := .f32, elsz := 4, ic := 32, sp := 1024,
    sub_group_size := 16, max_ic_block := 128, calc_stat_ic := 0, vect_size := 0,
    expected_time_ms := .fin 0, found_in_table := false,
    use_fused_atomics_reduction := ⟨0, false⟩, max_vect_size := ⟨8, false⟩,
    ic_block := ⟨0, false⟩, stat_sp_block := ⟨0, false⟩,
    update_sp_block := ⟨0, false⟩, update_sp_unroll := ⟨0, false⟩ }

/-- A two-pass candidate (no atomics) with an empty kernel sequence. -/
def sample_params : model_params_t :=
  { use_fused_atomics_reduction := 0, ic_block := 16, stat_sp_block := 16,
    vect_size := 1, kernel_descs := [] }

/-- Declarations and collaborators for the samples: `simd` defaults to 16, the
default-constructed parameters hold the block sizes 16 and 1, and every kernel
is estimated at 1000 ns. -/
def sample_ext : extern_t :=
  { default_simd := 16,
    default_params := { use_fused_atomics_reduction := 0, ic_block := 16, stat_sp_block := 1,
                        vect_size := 1, kernel_descs := [] },
    default_desc := sample_desc,
    make_kernel_perf_estimation := fun _ _ desc _ => .ok { desc with time_ns := .fin 1000 } }

/-- The sample workload with `ic_block`, `stat_sp_block` and `update_sp_unroll`
pinned to values the planner accepts. -/
def sample_conf_pinned : nhwc_bnorm_params_t :=
  { sample_conf false with
    ic_block := ⟨32, true⟩, stat_sp_block := ⟨8, true⟩, update_sp_unroll := ⟨2, true⟩ }

/-- The sample workload with `ic_block` pinned to 64, more than its 32 channels. -/
def sample_conf_wrong_ic_block : nhwc_bnorm_params_t :=
  { sample_conf false with ic_block := ⟨64, true⟩ }

/-- The sample workload with `update_sp_block` pinned to 4 and `update_sp_unroll`
pinned to 3, which does not divide it. -/
def sample_conf_wrong_unroll : nhwc_bnorm_params_t :=
  { sample_conf false with update_sp_block := ⟨4, true⟩, update_sp_unroll := ⟨3, true⟩ }

/-! ## Byte volumes and data locations (model.cpp, lines 281-400) -/

/-- C++ `(int)b` for a `bool`. -/
def bool_to_int (b : Bool) : Int := if b then 1 else 0

/-- `size_t get_kernel_input_size(p, conf, desc)`, with `sizeof(float) = 4` and
`sizeof(char) = 1`.  `num_sp_blocks` is computed before the `switch`, `rnd_up`
only in the branches that use it; the `switch` names every kernel kind, so its
`default:` branch has no kind left. -/
def get_kernel_input_size (p : model_params_t) (conf : nhwc_bnorm_params_t)
    (desc : kernel_desc_t) : Except fault_t Int := do
  let tensor_sz := conf.sp * conf.ic * conf.elsz
  let stat_vect_sz := conf.ic * 4
  let num_sp_blocks ← div_up conf.sp p.stat_sp_block
  let ws_sz := conf.sp * conf.ic * 1
  match desc.kernel with
  | .calc_mean_ker => pure tensor_sz
  | .calc_mean_var_ker => pure tensor_sz
  | .calc_var_ker => pure (tensor_sz + stat_vect_sz * num_sp_blocks)
  | .reusable_reduce_stats_fwd_ker => do
    let r ← rnd_up conf.ic conf.sub_group_size
    pure (num_sp_blocks * r * 4)
  | .reduce_stats_fwd_ker => do
    let r ← rnd_up conf.ic conf.sub_group_size
    pure (num_sp_blocks * r * 4)
  | .reduce_mean_var_ker => do
    let r ← rnd_up conf.ic conf.sub_group_size
    pure (2 * num_sp_blocks * r * 4)
  | .default_fwd_ker =>
    pure ((bool_to_int conf.fuse_norm_add_relu + 1) * tensor_sz
      + (bool_to_int conf.use_scale + bool_to_int conf.use_shift + 2) * stat_vect_sz)
  | .reduce_aux_init_ker => pure 0
  | .reduce_aux_finalize_ker =>
    pure (stat_vect_sz * (if conf.is_backward then 2
      else (if conf.use_stats_one_pass then 2 else 1)))
  | .default_bwd_ker =>
    pure (2 * tensor_sz
      + (1 + bool_to_int conf.calculate_diff_stats * 3 + bool_to_int conf.use_scale)
        * stat_vect_sz
      + bool_to_int conf.fuse_norm_relu * ws_sz)
  | .calc_stats_ker =>
    pure (2 * tensor_sz + stat_vect_sz * num_sp_blocks
      + bool_to_int conf.fuse_norm_relu * ws_sz)
  | .reduce_stats_bwd_ker => do
    let r ← rnd_up conf.ic conf.sub_group_size
    pure (2 * num_sp_blocks * r * 4)

/-- `size_t get_kernel_output_size(p, conf, desc)`. -/
def get_kernel_output_size (p : model_params_t) (conf : nhwc_bnorm_params_t)
    (desc : kernel_desc_t) : Except fault_t Int := do
  let tensor_sz := conf.sp * conf.ic * conf.elsz
  let stat_vect_sz := conf.ic * 4
  let num_sp_blocks ← div_up conf.sp p.stat_sp_block
  match desc.kernel with
  | .calc_mean_ker =>
    if p.use_fused_atomics_reduction ≠ 0 then pure (stat_vect_sz * desc.num_wgs)
    else do
      let r ← rnd_up conf.ic conf.sub_group_size
      pure (num_sp_blocks * r * 4)
  | .calc_var_ker =>
    if p.use_fused_atomics_reduction ≠ 0 then pure (stat_vect_sz * desc.num_wgs)
    else do
      let r ← rnd_up conf.ic conf.sub_group_size
      pure (num_sp_blocks * r * 4)
  | .calc_mean_var_ker =>
    if p.use_fused_atomics_reduction ≠ 0 then pure (2 * stat_vect_sz * desc.num_wgs)
    else do
      let r ← rnd_up conf.ic conf.sub_group_size
      pure (2 * num_sp_blocks * r * 4)
  | .reduce_aux_init_ker => pure (2 * stat_vect_sz)
  | .reusable_reduce_stats_fwd_ker => pure stat_vect_sz
  | .reduce_stats_fwd_ker => pure stat_vect_sz
  | .reduce_mean_var_ker => pure (2 * stat_vect_sz)
  | .reduce_aux_finalize_ker =>
    pure (stat_vect_sz * (if conf.is_forward ∧ conf.use_stats_one_pass then 2 else 1))
  | .default_fwd_ker => pure tensor_sz
  | .default_bwd_ker => pure ((1 + bool_to_int conf.fuse_norm_add_relu) * tensor_sz)
  | .calc_stats_ker =>
    if p.use_fused_atomics_reduction ≠ 0 then pure (2 * stat_vect_sz * desc.num_wgs)
    else do
      let r ← rnd_up conf.ic conf.sub_group_size
      pure (2 * num_sp_blocks * r * 4)
  | .reduce_stats_bwd_ker => pure (2 * stat_vect_sz)

/-- `void get_expected_data_location(p, conf, hw_params, desc)`: the descriptor
with its two locations set. -/
def get_expected_data_location (_p : model_params_t) (conf : nhwc_bnorm_params_t)
    (hw_params : hw_params_t) (desc : kernel_desc_t) : kernel_desc_t :=
  let desc := { desc with input_location := .HBM, output_location := .HBM }
  if hw_params.gpu_arch = .xe_hpg then desc
  else
    let desc :=
      if desc.kernel = .calc_mean_ker ∨ desc.kernel = .calc_var_ker then
        if desc.input_nbytes + desc.output_nbytes < hw_params.L3_size
        then { desc with input_location := .L3 } else desc
      else if (desc.kernel = .default_fwd_ker ∧ ¬ conf.calculate_stats)
          ∨ (desc.kernel = .default_bwd_ker ∧ ¬ conf.calculate_diff_stats) then
        { desc with input_location := .HBM }
      else
        if desc.input_nbytes < hw_params.L3_size
        then { desc with input_location := .L3 } else desc
    if desc.output_nbytes < hw_params.L3_size
    then { desc with output_location := .L3 } else desc

/-- `bool is_reduction_kernel(kernel)` (model.cpp, lines 556-560). -/
def is_reduction_kernel (kernel : kernel_kind_t) : Bool :=
  decide (kernel = .reduce_stats_fwd_ker ∨ kernel = .reduce_mean_var_ker
    ∨ kernel = .reduce_stats_bwd_ker ∨ kernel = .reusable_reduce_stats_fwd_ker)

/-- The sample forward workload without statistics (`calculate_stats = false`). -/
def sample_conf_no_stats : nhwc_bnorm_params_t :=
  { sample_conf false with calculate_stats := false }

/-- A `default_fwd` descriptor writing 4096 bytes and reading 4352 bytes. -/
def sample_default_fwd_desc : kernel_desc_t :=
  { sample_desc with kernel := .default_fwd_ker, ncalls := 1, input_nbytes := 4352,
                     output_nbytes := 4096 }

/-- The sample workload with `max_ic_block = 8`, less than its sub-group size 16:
for the reusable version no channel block is admissible. -/
def sample_conf_small_max_ic_block : nhwc_bnorm_params_t :=
  { sample_conf false with max_ic_block := 8 }

/-! ## Utilization factors and kernel time (model.cpp, lines 113-126, 205-246 and 402-635) -/

/-- C++ `-a`. -/
def float.neg : float → float
  | .nan => .nan
  | .ninf => .pinf
  | .pinf => .ninf
  | .fin q => .fin (-q)

/-- C++ `a - b` in the format. -/
def float.sub (fmt : float_format) (a b : float) : float := float.add fmt a (float.neg b)

/-- Conversion of a floating-point value to the format (`double` to `float`). -/
def float.cast (fmt : float_format) : float → float
  | .fin q => float.round fmt q
  | x => x

/-- `std::min(a, b)`: `b` when `b < a`, else `a`. -/
def float.min (a b : float) : float := if b.lt a then b else a

/-- A `float` literal such as `0.27f`. -/
def f32 (q : ℚ) : float := float.round binary32 q

/-- A `double` literal such as `0.9` stored into a `float`. -/
def f32_of_double (q : ℚ) : float := float.cast binary32 (float.round binary64 q)

/-- Modelled from the spec: the operation direction `mem_operation_t` of the
composite key, declared outside the sources. -/
inductive mem_operation_t
  | read
  | write
  deriving DecidableEq, Repr

/-- Modelled from the spec: the two curve shapes `appr_alg_t` of an
approximation entry, declared outside the sources. -/
inductive appr_alg_t
  | linear
  | ln
  deriving DecidableEq, Repr

/-- Modelled from the spec: `appr_formula_t`, an entry `{a, b, alg}` of the
approximation table; the struct is declared outside the sources. -/
structure appr_formula_t where
  a : float
  b : float
  alg : appr_alg_t
  deriving DecidableEq

/-- `appr_formula_t appr_table[]` (model.cpp, lines 440-475), in the order of the
source; the four blocks are the ones its comments name: HBM reusable, HBM opt,
L3 reusable, L3 opt. -/
def appr_table : List appr_formula_t :=
  [
   ⟨f32 191, f32 (27 / 100), .linear⟩, ⟨f32 347, f32 (503 / 100), .linear⟩, ⟨f32 156, f32 595, .ln⟩,
   ⟨f32 190, f32 785, .ln⟩, ⟨f32 165, f32 793, .ln⟩, ⟨f32 170, f32 926, .ln⟩,
   ⟨f32 101, f32 (2 / 100), .linear⟩, ⟨f32 192, f32 (15 / 10), .linear⟩, ⟨f32 592, f32 27, .linear⟩,
   ⟨f32 147, f32 571, .ln⟩, ⟨f32 174, f32 737, .ln⟩, ⟨f32 167, f32 811, .ln⟩,
   ⟨f32 103, f32 394, .ln⟩, ⟨f32 99, f32 434, .ln⟩, ⟨f32 116, f32 707, .ln⟩,
   ⟨f32 140, f32 969, .ln⟩, ⟨f32 82, f32 949, .ln⟩, ⟨f32 82, f32 1128, .ln⟩,
   ⟨f32 60, f32 220, .ln⟩, ⟨f32 82, f32 324, .ln⟩, ⟨f32 196, f32 832, .ln⟩,
   ⟨f32 186, f32 936, .ln⟩, ⟨f32 201, f32 1192, .ln⟩, ⟨f32 176, f32 1330, .ln⟩
  ] ++ [
   ⟨f32 83, f32 313, .ln⟩, ⟨f32 131, f32 509, .ln⟩, ⟨f32 146, f32 733, .ln⟩,
   ⟨f32 153, f32 871, .ln⟩, ⟨f32 120, f32 816, .ln⟩, ⟨f32 129, f32 914, .ln⟩,
   ⟨f32 296, f32 (76 / 10), .linear⟩, ⟨f32 94, f32 345, .ln⟩, ⟨f32 177, f32 731, .ln⟩,
   ⟨f32 154, f32 740, .ln⟩, ⟨f32 159, f32 857, .ln⟩, ⟨f32 143, f32 907, .ln⟩,
   ⟨f32 93, f32 389, .ln⟩, ⟨f32 125, f32 568, .ln⟩, ⟨f32 125, f32 820, .ln⟩,
   ⟨f32 123, f32 1023, .ln⟩, ⟨f32 50, f32 938, .ln⟩, ⟨f32 40, f32 1057, .ln⟩,
   ⟨f32 68, f32 263, .ln⟩, ⟨f32 87, f32 370, .ln⟩, ⟨f32 194, f32 889, .ln⟩,
   ⟨f32 170, f32 978, .ln⟩, ⟨f32 165, f32 1192, .ln⟩, ⟨f32 133, f32 1296, .ln⟩
  ] ++ [
   ⟨f32 188, f32 (23 / 10), .linear⟩, ⟨f32 340, f32 (92 / 10), .linear⟩, ⟨f32 158, f32 604, .ln⟩,
   ⟨f32 159, f32 813, .ln⟩, ⟨f32 185, f32 813, .ln⟩, ⟨f32 115, f32 954, .ln⟩,
   ⟨f32 97, f32 (229 / 100), .linear⟩, ⟨f32 186, f32 (598 / 100), .linear⟩, ⟨f32 591, f32 41, .linear⟩,
   ⟨f32 145, f32 598, .ln⟩, ⟨f32 171, f32 800, .ln⟩, ⟨f32 144, f32 901, .ln⟩,
   ⟨f32 102, f32 393, .ln⟩, ⟨f32 99, f32 436, .ln⟩, ⟨f32 119, f32 734, .ln⟩,
   ⟨f32 136, f32 985, .ln⟩, ⟨f32 51, f32 906, .ln⟩, ⟨f32 46, f32 1008, .linear⟩,
   ⟨f32 59, f32 218, .ln⟩, ⟨f32 77, f32 308, .ln⟩, ⟨f32 195, f32 831, .ln⟩,
   ⟨f32 179, f32 911, .ln⟩, ⟨f32 180, f32 1112, .ln⟩, ⟨f32 139, f32 1209, .ln⟩
  ] ++ [
   ⟨f32 79, f32 309, .ln⟩, ⟨f32 126, f32 512, .ln⟩, ⟨f32 121, f32 734, .ln⟩,
   ⟨f32 114, f32 827, .ln⟩, ⟨f32 4, f32 798, .linear⟩, ⟨f32 (-116), f32 788, .ln⟩,
   ⟨f32 285, f32 16, .linear⟩, ⟨f32 89, f32 345, .ln⟩, ⟨f32 173, f32 788, .ln⟩,
   ⟨f32 132, f32 823, .ln⟩, ⟨f32 99, f32 964, .ln⟩, ⟨f32 (-121), f32 1040, .ln⟩,
   ⟨f32 91, f32 384, .ln⟩, ⟨f32 120, f32 552, .ln⟩, ⟨f32 122, f32 825, .ln⟩,
   ⟨f32 109, f32 990, .ln⟩, ⟨f32 (-(18 / 100)), f32 867, .linear⟩, ⟨f32 (-55), f32 910, .ln⟩,
   ⟨f32 65, f32 253, .ln⟩, ⟨f32 76, f32 333, .ln⟩, ⟨f32 189, f32 875, .ln⟩,
   ⟨f32 158, f32 927, .ln⟩, ⟨f32 137, f32 1096, .ln⟩, ⟨f32 84, f32 1169, .ln⟩
  ]

/-- The launch geometry of a dispatch dry run, reduced to `nelems()` of its
global and of its local range. -/
structure nd_range_t where
  global_nelems : Int
  local_nelems : Int
  deriving DecidableEq, Repr

/-- What the cost estimator takes from declarations and collaborators that are
outside the sources: constants of model.hpp, functions of the C math library
and of `utils`, and the kernel dispatching of the batch normalization. -/
structure estimator_t where
  /-- the constant `max_appr_ss_util` of model.hpp -/
  max_appr_ss_util : float
  /-- the constant `max_appr_thr_util` of model.hpp -/
  max_appr_thr_util : float
  /-- the constant `def_reduction_vect` -/
  def_reduction_vect : Int
  /-- `pow(x, y)` of the C math library -/
  pow : float → float → float
  /-- `log(x)` of the C math library -/
  log : float → float
  /-- `log2(x)` of the C math library -/
  log2 : float → float
  /-- the conversion `(int)round(x)` -/
  round_to_int : float → Int
  /-- `utils::rnd_up_pow2(a)` -/
  rnd_up_pow2 : Int → Int
  /-- `nhwc_bnorm_kernel_dispatching(kernel, conf, engine, dispatch)`: its status
  and the `nd_range()` of the dispatch it fills -/
  nhwc_bnorm_kernel_dispatching : kernel_kind_t → nhwc_bnorm_params_t → status_t × nd_range_t
  /-- `get_ss_utilization(max_ss, gws, lws)` -/
  get_ss_utilization : Int → nd_range_t → float

/-- `float get_used_ss_thr_utilization(hw_params, sg_size, gws, lws)`, on the
element counts of the two ranges. -/
def get_used_ss_thr_utilization (hw_params : hw_params_t) (sg_size : Int)
    (gws_size lws_size : Int) : Except fault_t float := do
  if sg_size = 0 then throw .div_by_zero
  let num_thrs_generated := Int.tdiv gws_size sg_size
  if lws_size = 0 then throw .div_by_zero
  let num_wgs := Int.tdiv gws_size lws_size
  pure (float.div binary32 (float.of_int binary32 num_thrs_generated)
    (float.of_int binary32
      (min (num_wgs * hw_params.eus_per_ss * hw_params.threads_per_eu)
        (hw_params.eu_count * hw_params.threads_per_eu))))

/-- `float get_vectorization_factor(vect_size, dt, is_reusable)`. -/
def get_vectorization_factor (vect_size : Int) (dt : data_type_t) (is_reusable : Bool) :
    float :=
  let is_dt16 := dt = .f16 ∨ dt = .bf16
  if is_reusable then
    if is_dt16 then
      if vect_size = 1 then f32 (25 / 10)
      else if vect_size = 2 then f32 (18 / 10)
      else if vect_size = 4 then f32 (12 / 10)
      else f32 1
    else
      if vect_size = 1 then f32 (25 / 10)
      else if vect_size = 2 then f32 (15 / 10)
      else f32 1
  else
    if is_dt16 then
      if vect_size = 1 then f32 4
      else if vect_size = 2 then f32 (15 / 10)
      else if vect_size = 4 then f32 (13 / 10)
      else f32 1
    else
      if vect_size = 1 then f32 4
      else if vect_size = 2 then f32 (13 / 10)
      else f32 1

/-- `float solve_2p_line(x, xa, xb, ya, yb)`: the line through `(xa, ya)` and
`(xb, yb)` at `x`. -/
def solve_2p_line (x xa xb ya yb : float) : float :=
  let dx := float.sub binary32 xb xa
  let dy := float.sub binary32 yb ya
  float.add binary32 (float.mul binary32 (float.div binary32 dy dx) (float.sub binary32 x xa)) ya

/-- `float solve_2pieces_linear_function(x, x0, x1, x2, y0, y1, y2)`. -/
def solve_2pieces_linear_function (x x0 x1 x2 y0 y1 y2 : float) : float :=
  if x.lt x1 then solve_2p_line x x0 x1 y0 y1 else solve_2p_line x x1 x2 y1 y2

/-- `float get_pow_ratio(x1, x2, a, b)`, `a * pow(x1, b) / pow(x2, b)`: `pow` is
taken as the C function of `double`, the product and the quotient are
`double` operations and the result is stored into a `float`. -/
def get_pow_ratio (m : estimator_t) (x1 x2 a b : float) : float :=
  float.cast binary32 (float.div binary64 (float.mul binary64 a (m.pow x1 b)) (m.pow x2 b))

/-- `float get_ss_utilization_factor(util, dt, is_reusable)`. -/
def get_ss_utilization_factor (m : estimator_t) (util : float) (dt : data_type_t)
    (is_reusable : Bool) : float :=
  if is_reusable then
    if dt = .f16 ∨ dt = .bf16 then get_pow_ratio m util (f32 1) (f32 2) (f32 (-(8 / 10)))
    else get_pow_ratio m util (f32 1) (f32 (53 / 10)) (f32 (-(7 / 10)))
  else float.div binary32 (f32 1) (float.min util (f32 1))

/-- `size_t get_appr_table_idx(ss_util, dt, op, is_reusable, location)`. -/
def get_appr_table_idx (ss_util : float) (dt : data_type_t) (op : mem_operation_t)
    (is_reusable : Bool) (location : data_location_t) : Nat :=
  let idx := get_ss_util_idx ss_util
  let ss_dim := ss_util_set.length
  let dt_idx := if dt = .f16 ∨ dt = .bf16 then 1 else 0
  let opt_idx := if op = .read then 0 else 1
  let reusable_idx := if is_reusable then 0 else 1
  let location_idx := if location = .HBM then 0 else 1
  idx + dt_idx * ss_dim + opt_idx * (2 * ss_dim) + reusable_idx * (2 * 2 * ss_dim)
    + location_idx * (2 * 2 * 2 * ss_dim)

/-- `float get_appr_val(a, b, x, alg)`: `a * x + b` in single precision for
`linear`; for `ln`, `log` is taken as the C function of `double`, so that
`a * log(x) + b` is a `double` expression stored into a `float`. -/
def get_appr_val (m : estimator_t) (a b x : float) (alg : appr_alg_t) : float :=
  match alg with
  | .linear => float.add binary32 (float.mul binary32 a x) b
  | .ln => float.cast binary32 (float.add binary64 (float.mul binary64 a (m.log x)) b)

/-- `float get_thr_utilization_factor(ss_util, thr_util, location, gpu_arch, op,
dt, is_reusable)`.  The literals `0.9`, `0.5` and `0.7` are `double` literals
stored into a `float`; the `x_br` of `xe_hpg` is the `double` expression
`pow(2, log2(rnd_up_pow2((int)round(ss_util))) - 4)` stored into a `float`. -/
def get_thr_utilization_factor (m : estimator_t) (ss_util thr_util : float)
    (location : data_location_t) (gpu_arch : gpu_arch_t) (op : mem_operation_t)
    (dt : data_type_t) (is_reusable : Bool) : float :=
  let ss_util_adj := float.min ss_util m.max_appr_ss_util
  let thr_util_adj := float.min thr_util m.max_appr_thr_util
  if is_reusable then
    let idx := get_appr_table_idx ss_util_adj dt op is_reusable location
    match appr_table[idx]? with
    | none => .nan
    | some entry =>
      let y := get_appr_val m entry.a entry.b thr_util_adj entry.alg
      let y_max := get_appr_val m entry.a entry.b m.max_appr_thr_util entry.alg
      float.div binary32 y_max y
  else if location = .L3 then
    let ss_util_adj := float.min ss_util (f32 1)
    let thr_util_adj := float.min thr_util (f32 1)
    let y_br := float.sub binary32 (f32 1) (float.div binary32 ss_util_adj (f32 2))
    float.div binary32 (f32 1)
      (solve_2pieces_linear_function thr_util_adj (f32 0) (f32 (25 / 100)) (f32 1) (f32 0)
        y_br (f32 1))
  else if gpu_arch = .xe_hpg then
    let x_br := float.cast binary32
      (m.pow (float.of_int binary64 2)
        (float.sub binary64
          (m.log2 (float.of_int binary64 (m.rnd_up_pow2 (m.round_to_int ss_util))))
          (float.of_int binary64 4)))
    let y_br := if (f32 4).lt ss_util then f32_of_double (9 / 10) else f32_of_double (5 / 10)
    float.div binary32 (f32 1)
      (solve_2pieces_linear_function thr_util (f32 0) x_br (f32 32) (f32 0) y_br (f32 1))
  else if gpu_arch.ge .xe_hpc then
    let ss_util_adj := float.min ss_util (f32 1)
    let thr_util_adj := float.min thr_util (f32 1)
    let y_br := if ss_util_adj.lt (float.round binary64 (25 / 100))
      then f32_of_double (9 / 10) else f32_of_double (7 / 10)
    float.div binary32 (f32 1)
      (solve_2pieces_linear_function thr_util_adj (f32 0) (f32 (125 / 1000)) (f32 1) (f32 0)
        y_br (f32 1))
  else f32 1

/-- The local variables of `get_estimated_kernel_time` that hold the read and
the write time: after the utilization factors and the atomics cost
(`r_ns_location`, `w_ns_location`) and after the vectorization coefficient
(`read_ns`, `write_ns`). -/
structure kernel_time_t where
  r_ns_location : float
  w_ns_location : float
  read_ns : float
  write_ns : float
  deriving DecidableEq

/-- The body of `get_estimated_kernel_time(p, conf, hw_params, desc)` up to the
final sum (lines 564-619). -/
def get_estimated_kernel_time_locals (m : estimator_t) (p : model_params_t)
    (conf : nhwc_bnorm_params_t) (hw_params : hw_params_t) (desc : kernel_desc_t) :
    kernel_time_t :=
  let input_location := desc.input_location
  let output_location := desc.output_location
  let read_nbytes := desc.input_nbytes
  let write_nbytes := desc.output_nbytes
  let read_ns := float.div binary32 (float.of_int binary32 read_nbytes)
    (if input_location = .L3 then hw_params.L3_bw else hw_params.HBM_bw)
  let write_ns := float.div binary32 (float.of_int binary32 write_nbytes)
    (if output_location = .L3 then hw_params.L3_bw else hw_params.HBM_bw)
  let adj_util := float.min desc.ss_util (f32 1)
  let ss_utilization_factor :=
    get_ss_utilization_factor m adj_util conf.data_type desc.reusable_version
  let read_ns := float.mul binary32 read_ns ss_utilization_factor
  let write_ns := float.mul binary32 write_ns ss_utilization_factor
  let read_ns := float.mul binary32 read_ns
    (get_thr_utilization_factor m desc.ss_util desc.used_ss_thr_util input_location
      hw_params.gpu_arch .read conf.data_type desc.reusable_version)
  let write_ns := float.mul binary32 write_ns
    (get_thr_utilization_factor m desc.ss_util desc.used_ss_thr_util output_location
      hw_params.gpu_arch .write conf.data_type desc.reusable_version)
  let write_ns :=
    if p.use_fused_atomics_reduction ≠ 0 ∧
      (desc.kernel = .calc_mean_ker ∨ desc.kernel = .calc_var_ker
        ∨ desc.kernel = .calc_mean_var_ker ∨ desc.kernel = .calc_stats_ker)
    then float.mul binary32 write_ns (float.of_int binary32 64) else write_ns
  let r_ns_location := read_ns
  let w_ns_location := write_ns
  let vect_size :=
    if is_reduction_kernel desc.kernel ∧ desc.reusable_version then m.def_reduction_vect
    else p.vect_size
  let v_coeff := get_vectorization_factor vect_size conf.data_type desc.reusable_version
  let read_ns := float.mul binary32 read_ns v_coeff
  let write_ns := float.mul binary32 write_ns v_coeff
  { r_ns_location := r_ns_location, w_ns_location := w_ns_location,
    read_ns := read_ns, write_ns := write_ns }

/-- `void get_estimated_kernel_time(p, conf, hw_params, desc)`: the descriptor
with `time_ns = read_ns + write_ns`. -/
def get_estimated_kernel_time (m : estimator_t) (p : model_params_t)
    (conf : nhwc_bnorm_params_t) (hw_params : hw_params_t) (desc : kernel_desc_t) :
    kernel_desc_t :=
  let t := get_estimated_kernel_time_locals m p conf hw_params desc
  { desc with time_ns := float.add binary32 t.read_ns t.write_ns }

/-- The copy `conf_dry_run` of `get_estimated_hw_utilization` (lines 738-743). -/
def conf_dry_run (p : model_params_t) (conf : nhwc_bnorm_params_t) : nhwc_bnorm_params_t :=
  { conf with
    use_fused_atomics_reduction :=
      conf.use_fused_atomics_reduction.set p.use_fused_atomics_reduction
    ic_block := conf.ic_block.set p.ic_block
    stat_sp_block := conf.stat_sp_block.set p.stat_sp_block
    update_sp_block := conf.update_sp_block.set p.stat_sp_block
    update_sp_unroll := conf.update_sp_unroll.set 1 }

/-- `status_t get_estimated_hw_utilization(p, conf, hw_params, desc)`: a status
other than `success` of the dispatching leaves through `CHECK`, a local range
without elements is `status::runtime_error`. -/
def get_estimated_hw_utilization (m : estimator_t) (p : model_params_t)
    (conf : nhwc_bnorm_params_t) (hw_params : hw_params_t) (desc : kernel_desc_t) :
    Except fault_t kernel_desc_t := do
  let r := m.nhwc_bnorm_kernel_dispatching desc.kernel (conf_dry_run p conf)
  if r.1 ≠ .success then throw (.status r.1)
  let nd_range := r.2
  if nd_range.local_nelems = 0 then throw (.status .runtime_error)
  let num_wgs := Int.tdiv nd_range.global_nelems nd_range.local_nelems
  let used_ss_thr_util ← get_used_ss_thr_utilization hw_params conf.sub_group_size
    nd_range.global_nelems nd_range.local_nelems
  let ss_util := m.get_ss_utilization hw_params.max_ss nd_range
  pure { desc with num_wgs := num_wgs, used_ss_thr_util := used_ss_thr_util,
                   ss_util := ss_util }

/-- `status_t make_kernel_perf_estimation(p, conf, desc, hw_params)`. -/
def make_kernel_perf_estimation (m : estimator_t) (p : model_params_t)
    (conf : nhwc_bnorm_params_t) (desc : kernel_desc_t) (hw_params : hw_params_t) :
    Except fault_t kernel_desc_t := do
  let desc ← get_estimated_hw_utilization m p conf hw_params desc
  let input_nbytes ← get_kernel_input_size p conf desc
  let desc := { desc with input_nbytes := input_nbytes }
  let output_nbytes ← get_kernel_output_size p conf desc
  let desc := { desc with output_nbytes := output_nbytes }
  let desc := get_expected_data_location p conf hw_params desc
  pure (get_estimated_kernel_time m p conf hw_params desc)

/-- The collaborators of `get_params_by_model` with the kernel estimation of the
sources in the place of `make_kernel_perf_estimation`. -/
def extern_of (m : estimator_t) (default_simd : Int) (default_params : model_params_t)
    (default_desc : kernel_desc_t) : extern_t :=
  { default_simd := default_simd, default_params := default_params,
    default_desc := default_desc,
    make_kernel_perf_estimation := make_kernel_perf_estimation m }

/-- The magnitude `float.round` computes for a positive `a` before the overflow
test: the multiple of the unit in the last place nearest to `a`. -/
def round_mag (fmt : float_format) (a : ℚ) : ℚ :=
  let e := max (ilog2 a) fmt.emin
  let ulp := pow2q (e - ((fmt.prec : Int) - 1))
  (round_half_even (a / ulp) : ℚ) * ulp

/-- A value that is not NaN and not negative: `+inf` or a finite value `>= 0`. -/
def float.nonneg : float → Prop
  | .pinf => True
  | .fin q => 0 ≤ q
  | _ => False

/-- A finite value `> 0`. -/
def float.pos_fin : float → Prop
  | .fin q => 0 < q
  | _ => False

/-- An estimator for the samples: the constants `max_appr_ss_util = 8`,
`max_appr_thr_util = 32` and `def_reduction_vect = 8`; `pow` at the base 1, `log`
at 1/64 and at 32 (the `double` nearest to the logarithm) and `log2` at 1, NaN
standing for the points the samples do not use; a dispatch that gives every
kernel 1024 work items in groups of 16, and a sub-slice utilization of 1. -/
def sample_estimator : estimator_t :=
  { max_appr_ss_util := .fin 8, max_appr_thr_util := .fin 32, def_reduction_vect := 8,
    pow := fun x _ => if x = .fin 1 then .fin 1 else .nan,
    log := fun x =>
      if x = .fin (1 / 64) then .fin (-(4682486076124019 / 1125899906842624))
      else if x = .fin 32 then .fin (7804143460206699 / 2251799813685248)
      else .nan,
    log2 := fun x => if x = .fin 1 then .fin 0 else .nan,
    round_to_int := fun x => match x with
      | .fin q => ⌊q + 1 / 2⌋
      | _ => 0,
    rnd_up_pow2 := fun a => 2 ^ Nat.clog 2 a.toNat,
    nhwc_bnorm_kernel_dispatching := fun _ _ => (.success, ⟨1024, 16⟩),
    get_ss_utilization := fun _ _ => .fin 1 }

/-- A `calc_mean` kernel that reads 4000 and writes 1000 bytes of HBM, on one
sub-slice with a thread utilization of 1. -/
def sample_calc_mean_desc : kernel_desc_t :=
  { kernel := .calc_mean_ker, ncalls := 1, reusable_version := false,
    input_nbytes := 4000, output_nbytes := 1000, input_location := .HBM,
    output_location := .HBM, num_wgs := 64, used_ss_thr_util := .fin 1,
    ss_util := .fin 1, time_ns := .fin 0 }

/-- The sample estimator with a dispatch that gives a local range without
elements to the kernels of the candidates with `ic_block = 32`. -/
def sample_estimator_zero_lws : estimator_t :=
  { sample_estimator with
    nhwc_bnorm_kernel_dispatching := fun _ c =>
      (.success, if c.ic_block.value = 32 then ⟨0, 0⟩ else ⟨1024, 16⟩) }

/-- The values the body of the search loop of `get_nhwc_sp_block_size` computes
for one multiplier `nthr_mul` (lines 54-62). -/
structure sp_block_trial_t where
  curr_block_size : Int
  nthr_gen : Int
  curr_efficiency_eus : float
  curr_efficiency_thr : float
  deriving DecidableEq

/-- The first part of the loop body of `get_nhwc_sp_block_size` (lines 54-62):
the block size, the number of generated threads and the two efficiencies of the
trial with the multiplier `nthr_mul`, with the same faults as the loop body. -/
def get_nhwc_sp_block_size_trial (sp ic_nsg eu_count threads_per_eu nthr_mul : Int) :
    Except fault_t sp_block_trial_t := do
  let nthr := nthr_mul * eu_count
  if ¬ fits_int nthr then throw .int_overflow
  if ¬ fits_dim (sp * ic_nsg) then throw .int_overflow
  let curr_block_size ← div_up (sp * ic_nsg) nthr
  let nblock ← div_up sp curr_block_size
  let nthr_gen := nblock * ic_nsg
  if ¬ fits_dim nthr_gen then throw .int_overflow
  let rnd_eus ← rnd_up nthr_gen eu_count
  let curr_efficiency_eus :=
    float.div binary32 (float.of_int binary32 nthr_gen) (float.of_int binary32 rnd_eus)
  if ¬ fits_int (eu_count * threads_per_eu) then throw .int_overflow
  let rnd_thr ← rnd_up nthr_gen (eu_count * threads_per_eu)
  let curr_efficiency_thr :=
    float.div binary32 (float.of_int binary32 nthr_gen) (float.of_int binary32 rnd_thr)
  pure ⟨curr_block_size, nthr_gen, curr_efficiency_eus, curr_efficiency_thr⟩

/-- The second part of the loop body of `get_nhwc_sp_block_size` (lines 64-72):
the two updates of the best block sizes. -/
def sp_block_update (st : sp_block_search_t) (t : sp_block_trial_t) : sp_block_search_t :=
  let st := if st.efficiency_thr.lt t.curr_efficiency_thr
    then { st with efficiency_thr := t.curr_efficiency_thr,
                   block_size_thr := t.curr_block_size }
    else st
  let st := if t.curr_efficiency_eus.eq (float.of_int binary32 1) ∧
      st.efficiency_peak_eu_thr.lt t.curr_efficiency_thr
    then { st with efficiency_peak_eu_thr := t.curr_efficiency_thr,
                   block_size_peak_eu_thr := t.curr_block_size }
    else st
  st

/-- A trial reaches the full packing of the compute units:
`curr_efficiency_eus == 1`. -/
def peak_eus (t : sp_block_trial_t) : Bool :=
  t.curr_efficiency_eus.eq (float.of_int binary32 1)

/-- The update of one of the two running maxima of the search: the pair of
efficiency and block size becomes that of the trial when the trial qualifies and
its thread efficiency is above the recorded one. -/
def keep_max (qualifies : sp_block_trial_t → Bool) (best : float × Int)
    (t : sp_block_trial_t) : float × Int :=
  if qualifies t = true ∧ best.1.lt t.curr_efficiency_thr = true
  then (t.curr_efficiency_thr, t.curr_block_size) else best

/-- The values of a trial that runs without a fault, with the divisions written
out: what `get_nhwc_sp_block_size_trial` returns for positive sizes in the range
of their C++ types (`get_nhwc_sp_block_size_trial_ok`). -/
def sp_block_trial_value (sp ic_nsg eu_count threads_per_eu nthr_mul : Int) :
    sp_block_trial_t :=
  let nthr := nthr_mul * eu_count
  let curr_block_size := Int.tdiv (sp * ic_nsg + nthr - 1) nthr
  let nblock := Int.tdiv (sp + curr_block_size - 1) curr_block_size
  let nthr_gen := nblock * ic_nsg
  let rnd_eus := Int.tdiv (nthr_gen + eu_count - 1) eu_count * eu_count
  let rnd_thr := Int.tdiv (nthr_gen + eu_count * threads_per_eu - 1)
    (eu_count * threads_per_eu) * (eu_count * threads_per_eu)
  { curr_block_size := curr_block_size, nthr_gen := nthr_gen,
    curr_efficiency_eus :=
      float.div binary32 (float.of_int binary32 nthr_gen) (float.of_int binary32 rnd_eus),
    curr_efficiency_thr :=
      float.div binary32 (float.of_int binary32 nthr_gen) (float.of_int binary32 rnd_thr) }

/-- The 32 trials of the search, in the order of the sweep. -/
def sp_block_trials (sp ic_nsg eu_count threads_per_eu : Int) : List sp_block_trial_t :=
  (List.range 32).map (fun (i : Nat) => sp_block_trial_value sp ic_nsg eu_count threads_per_eu
    ((i : Int) + 1))

/-- The value the search returns (lines 75-76) in terms of the two running
maxima over the trials: the block size of the peak maximum when its efficiency
is above 0, else the block size of the overall maximum. -/
def sp_block_result (ts : List sp_block_trial_t) : Int :=
  if (float.fin 0).lt (ts.foldl (keep_max peak_eus) (.fin 0, 1)).1 = true
  then (ts.foldl (keep_max peak_eus) (.fin 0, 1)).2
  else (ts.foldl (keep_max (fun _ => true)) (.fin 0, 1)).2

/-- A `default_fwd` kernel of the reusable version that reads 4000 and writes
1000 bytes of HBM, on one sub-slice, with one thread where 64 fit: a thread
utilization of 1/64. -/
def sample_reusable_desc : kernel_desc_t :=
  { kernel := .default_fwd_ker, ncalls := 1, reusable_version := true,
    input_nbytes := 4000, output_nbytes := 1000, input_location := .HBM,
    output_location := .HBM, num_wgs := 1, used_ss_thr_util := .fin (1 / 64),
    ss_util := .fin 1, time_ns := .fin 0 }

end bn_model

/-! # The other components: definitions -/

/-! ## `std::string` operations used by the command-line code -/

namespace std_string

/-- The search of `find` in the rest of the string that starts at position `i`:
the first position where `pat` begins, `none` for `npos`. -/
def find_from (pat : List Char) : List Char → Nat → Option Nat
  | [], i => if pat = [] then some i else none
  | c :: cs, i => if pat.isPrefixOf (c :: cs) then some i else find_from pat cs (i + 1)

/-- `s.find(pat, pos)`: the first position `>= pos` where `pat` begins, `none`
for `npos` (also when `pos` is beyond the end). -/
def find (s pat : List Char) (pos : Nat) : Option Nat :=
  if pos ≤ s.length then find_from pat (s.drop pos) pos else none

/-- `s.substr(pos, n)` for `pos <= s.size()`. -/
def substr (s : List Char) (pos n : Nat) : List Char := (s.drop pos).take n

/-- What `s.replace(pos, n, "")` leaves in `s`, for `pos <= s.size()`. -/
def erase (s : List Char) (pos n : Nat) : List Char := s.take pos ++ s.drop (pos + n)

/-- The characters a `const char *` views: those before the first NUL. -/
def c_str (s : List Char) : List Char := s.takeWhile (fun c => c ≠ Char.ofNat 0)

end std_string

/-! ## The option parser of benchdnn (tests/benchdnn/utils/parser.hpp) -/

namespace parser

/-- The ways a run of the parser stops without returning. -/
inductive fault_t
  /-- `SAFE_V(FAIL)` ended the process -/
  | safe_v_fail
  /-- the step budget of a loop was used up -/
  | out_of_fuel
  deriving DecidableEq, Repr

/-- `parser_utils::option_matched(option_str, str)` (lines 55-60), `str` being
the characters of the C string before its terminating NUL, so that `strlen(str)`
is its length.  The range `[str, str + option_str.size())` handed to `find` is
read only when the first operand of `&&` holds. -/
def option_matched (option_str str : List Char) : Bool :=
  if str.length ≥ option_str.length then
    decide (std_string.find option_str (str.take option_str.length) 0 ≠ none)
  else false

/-- `str.find_first_of(delimiter, pos)` in the rest of the string that starts at
position `i`. -/
def find_first_of_from (delimiter : Char) : List Char → Nat → Option Nat
  | [], _ => none
  | c :: cs, i => if c = delimiter then some i else find_first_of_from delimiter cs (i + 1)

/-- `str.find_first_of(delimiter, pos)`, `none` for `npos`. -/
def find_first_of (str : List Char) (delimiter : Char) (pos : Nat) : Option Nat :=
  find_first_of_from delimiter (str.drop pos) pos

/-- The `for` loop of `parse_vector_str` (lines 88-110) from the chunk that
starts at `pos_st`, with `eol` taken as `std::string::npos`.  The chunk is
`str.substr(pos_st, pos_en - pos_st)`, which runs to the end of the string when
`pos_en` is `npos`, and `process_func` gets its `c_str()`. -/
def parse_vector_str_loop {α : Type} (process_func : List Char → α) (str : List Char)
    (delimiter : Char) (allow_empty : Bool) : Nat → Nat → List α → Except fault_t (List α)
  | 0, _, _ => .error .out_of_fuel
  | fuel + 1, pos_st, vec =>
    let pos_en := find_first_of str delimiter pos_st
    if ¬ allow_empty ∧ str.length = pos_st then .error .safe_v_fail
    else
      let n := match pos_en with
        | some e => e - pos_st
        | none => str.length - pos_st
      let vec := vec ++ [process_func (std_string.c_str (std_string.substr str pos_st n))]
      match pos_en with
      | none => .ok vec
      | some e => parse_vector_str_loop process_func str delimiter allow_empty fuel (e + 1) vec

/-- `bool parse_vector_str(vec, def, process_func, str, delimiter, allow_empty)`:
the returned value and `vec` as the call leaves it.  Every step of the loop
passes at least one character, so `str.size() + 1` steps are a budget the loop
never uses up. -/
def parse_vector_str {α : Type} (_vec : List α) (defv : List α)
    (process_func : List Char → α) (str : List Char) (delimiter : Char)
    (allow_empty : Bool) : Except fault_t (Bool × List α) :=
  if str = [] then .ok (true, defv)
  else
    match parse_vector_str_loop process_func str delimiter allow_empty (str.length + 1) 0 [] with
    | .ok vec => .ok (true, vec)
    | .error e => .error e

/-- The chunks of a string split at every occurrence of the delimiter. -/
def chunks (delimiter : Char) : List Char → List (List Char)
  | [] => [[]]
  | c :: cs =>
    if c = delimiter then [] :: chunks delimiter cs
    else
      match chunks delimiter cs with
      | [] => [[c]]
      | h :: t => (c :: h) :: t

end parser

/-! ## The planner driver (gpu/intel/jit/v2/conv/planner/planner.cpp) -/

namespace planner

/-- `std::string find_remove_key_value_impl(key, s)` (lines 47-56): the returned
value and `s` as the call leaves it.  The end `j` of the value is searched with
`key.find(" ", i + key.length())`, as in the source. -/
def find_remove_key_value_impl (key s : List Char) : List Char × List Char :=
  match std_string.find s key 0 with
  | none => ([], s)
  | some i =>
    let j := match std_string.find key " ".toList (i + key.length) with
      | none => s.length
      | some j => j
    let i := i + key.length
    let value := std_string.substr s i (j - i)
    (value, std_string.erase s i (j - i))

/-- `std::string find_remove_key_value(key, s)` (lines 58-62). -/
def find_remove_key_value (key s : List Char) : List Char × List Char :=
  let r := find_remove_key_value_impl ("--".toList ++ key ++ " ".toList) s
  if r.1 ≠ [] then r else find_remove_key_value_impl (key ++ "=".toList) r.2

end planner

/-! ## Shape inference of the DNNL backend (graph/backend/dnnl/dnnl_shape_infer.cpp) -/

namespace shape_infer

/-- The status codes the shape inference returns. -/
inductive status_t
  | success
  | invalid_arguments
  | unimplemented
  | invalid_shape
  deriving DecidableEq, Repr

/-- The ways a run of the modelled code stops without a status (undefined
behaviour of the C++ code). -/
inductive fault_t
  /-- a vector is indexed at or beyond its size, or `erase(begin())` meets an
  empty vector -/
  | out_of_bounds
  /-- integer `/` with a zero right operand -/
  | div_by_zero
  /-- `get_attr` of an attribute the op does not have -/
  | missing_attr
  deriving DecidableEq, Repr

/-- Modelled from the spec: `DNNL_GRAPH_UNKNOWN_DIM`, `INT64_MIN`; the macro is
defined outside the sources. -/
def DNNL_GRAPH_UNKNOWN_DIM : Int := -9223372036854775808

/-- Modelled from the spec: the members `ndims` and `dims` of a
`logical_tensor_t`, `ndims` being negative for an unknown rank; the struct is
declared outside the sources. -/
structure logical_tensor_t where
  ndims : Int
  dims : List Int
  deriving DecidableEq, Repr

/-- Modelled from the spec: `logical_tensor_wrapper_t::vdims()`, the first
`ndims` entries of `dims` (none for an unknown rank). -/
def vdims (lt : logical_tensor_t) : List Int :=
  if lt.ndims < 0 then [] else lt.dims.take lt.ndims.toNat

/-- Modelled from the spec: `logical_tensor_wrapper_t::is_shape_unknown()`, an
unknown rank or an unknown dimension. -/
def is_shape_unknown (lt : logical_tensor_t) : Bool :=
  decide (lt.ndims < 0 ∨ DNNL_GRAPH_UNKNOWN_DIM ∈ vdims lt)

/-- Modelled from the spec: `set_shape_and_strides(lt, dims)`, which stores the
rank and the dimensions (the strides are not part of the model). -/
def set_shape_and_strides (lt : logical_tensor_t) (dims : List Int) : logical_tensor_t :=
  { lt with ndims := dims.length, dims := dims ++ lt.dims.drop dims.length }

/-- Modelled from the spec: the attributes of an `op_t` that the modelled
functions read, `none` for an attribute the op does not have. -/
structure op_t where
  groups : Int
  canonicalized : Option Bool
  is_convtranspose : Option Bool
  axes : Option (List Int)
  permutation : List Int
  dw_type : Option String
  data_format : String
  deriving DecidableEq

/-- The `for` loop of `infer_permute_output_shape` from position `i` on:
`inferred_out_dims[perm[i]] = in_dims[i]`. -/
def permute_assign (in_dims : List Int) : List Int → Nat → List Int → Except fault_t (List Int)
  | [], _, out => .ok out
  | p :: ps, i, out =>
    if p < 0 ∨ (out.length : Int) ≤ p then .error .out_of_bounds
    else
      match in_dims[i]? with
      | none => .error .out_of_bounds
      | some v => permute_assign in_dims ps (i + 1) (out.set p.toNat v)

/-- `status_t infer_permute_output_shape(n, inputs, outputs)` on `inputs[0]` and
`outputs[0]`: the status and `outputs[0]` as the call leaves it.  `validate` is
the compatibility check of the frontend, which is outside the sources. -/
def infer_permute_output_shape (validate : List Int → List Int → Bool) (n : op_t)
    (in0 out0 : logical_tensor_t) : Except fault_t (status_t × logical_tensor_t) := do
  let in_dims := vdims in0
  let perm := n.permutation
  let inferred_out_dims ← permute_assign in_dims perm 0
    (List.replicate perm.length DNNL_GRAPH_UNKNOWN_DIM)
  if ¬ is_shape_unknown out0 ∧ ¬ validate inferred_out_dims (vdims out0) then
    pure (.invalid_shape, out0)
  else pure (.success, set_shape_and_strides out0 inferred_out_dims)

/-- The truth value of an optional boolean attribute,
`n->has_attr(a) && n->get_attr<bool>(a)`. -/
def attr_is_true (a : Option Bool) : Bool := a = some true

/-- `status_t infer_to_group_output_shape(n, inputs, outputs)`.  -/
def infer_to_group_output_shape (n : op_t) (in0 out0 : logical_tensor_t) :
    Except fault_t (status_t × logical_tensor_t) := do
  if ¬ is_shape_unknown out0 then pure (.success, out0)
  else
    let groups := n.groups
    let in_dims := vdims in0
    let axis := if attr_is_true n.is_convtranspose then 1 else 0
    match in_dims[axis]? with
    | none => throw .out_of_bounds
    | some v =>
      if groups = 0 then throw .div_by_zero
      let in_dims := in_dims.set axis (Int.tdiv v groups)
      let in_dims := groups :: in_dims
      pure (.success, set_shape_and_strides out0 in_dims)

/-- `status_t infer_from_group_output_shape(n, inputs, outputs)`. -/
def infer_from_group_output_shape (n : op_t) (in0 out0 : logical_tensor_t) :
    Except fault_t (status_t × logical_tensor_t) := do
  if ¬ is_shape_unknown out0 then pure (.success, out0)
  else
    let groups := n.groups
    match vdims in0 with
    | [] => throw .out_of_bounds
    | _ :: inferred_out_dims =>
      let axis := if attr_is_true n.is_convtranspose then 1 else 0
      match inferred_out_dims[axis]? with
      | none => throw .out_of_bounds
      | some v =>
        pure (.success,
          set_shape_and_strides out0 (inferred_out_dims.set axis (v * groups)))

/-- The lambda of the `std::transform` calls that convert a negative axis to a
positive one: `axis < 0 ? ndim + axis : axis`. -/
def normalize_axis (ndim : Int) (axis : Int) : Int := if axis < 0 then ndim + axis else axis

/-- The last `for` loop of `infer_unsqueeze_output_shape` over the indices
`i, i + 1, ...` (`count` of them): a position that is not an axis gets the next
input dimension.  The comparison of `std::find` between an `int64_t` axis and
the `size_t` index is taken at the values, which agree for indices below
`2^63`. -/
def unsqueeze_loop (axes in_dims : List Int) :
    Nat → Nat → Nat → List Int → Except fault_t (List Int)
  | 0, _, _, out => .ok out
  | count + 1, i, in_dims_idx, out =>
    if (i : Int) ∉ axes then
      match in_dims[in_dims_idx]? with
      | none => .error .out_of_bounds
      | some v => unsqueeze_loop axes in_dims count (i + 1) (in_dims_idx + 1) (out.set i v)
    else unsqueeze_loop axes in_dims count (i + 1) in_dims_idx out

/-- `status_t infer_unsqueeze_output_shape(n, inputs, outputs)`. -/
def infer_unsqueeze_output_shape (n : op_t) (in0 out0 : logical_tensor_t) :
    Except fault_t (status_t × logical_tensor_t) :=
  if ¬ is_shape_unknown out0 then .ok (.success, out0)
  else
    let axes := n.axes.getD []
    let in_dims := vdims in0
    let out_ndim : Int := (in_dims.length + axes.length : Nat)
    if axes.any (fun axis => axis < -out_ndim ∨ axis ≥ out_ndim) then .ok (.unimplemented, out0)
    else
      let axes := axes.map (normalize_axis out_ndim)
      if axes.dedup.length < axes.length then .ok (.unimplemented, out0)
      else
        match unsqueeze_loop axes in_dims out_ndim.toNat 0 0
            (List.replicate out_ndim.toNat 1) with
        | .error e => .error e
        | .ok inferred_output_shape =>
          .ok (.success, set_shape_and_strides out0 inferred_output_shape)

/-- The `for` loop of `infer_squeeze_output_shape` over the input dimensions
from position `i` on: `none` for the return of `invalid_arguments`. -/
def squeeze_loop (axes : List Int) : List Int → Nat → List Int → Option (List Int)
  | [], _, out => some out
  | d :: ds, i, out =>
    if axes = [] ∧ d = 1 then squeeze_loop axes ds (i + 1) out
    else if axes ≠ [] ∧ (i : Int) ∈ axes then
      if d ≠ 1 then none else squeeze_loop axes ds (i + 1) out
    else squeeze_loop axes ds (i + 1) (out ++ [d])

/-- `status_t infer_squeeze_output_shape(n, inputs, outputs)`. -/
def infer_squeeze_output_shape (n : op_t) (in0 out0 : logical_tensor_t) :
    Except fault_t (status_t × logical_tensor_t) :=
  if ¬ is_shape_unknown out0 then .ok (.success, out0)
  else
    let in_dims := vdims in0
    let in_ndim : Int := (in_dims.length : Nat)
    match n.axes with
    | none => .error .missing_attr
    | some axes =>
      let axes := axes.map (normalize_axis in_ndim)
      match squeeze_loop axes in_dims 0 [] with
      | none => .ok (.invalid_arguments, out0)
      | some inferred_output_shape =>
        .ok (.success, set_shape_and_strides out0 inferred_output_shape)

/-- `status_t infer_dnnl_sdpa_output_shape(n, inputs, outputs)` on the query,
the key, the value and `outputs[0]`. -/
def infer_dnnl_sdpa_output_shape (validate : List Int → List Int → Bool)
    (query key value out0 : logical_tensor_t) : Except fault_t (status_t × logical_tensor_t) :=
  let query_dims := vdims query
  let key_dims := vdims key
  let value_dims := vdims value
  if ¬ (query_dims.length = key_dims.length ∧ key_dims.length = value_dims.length) then
    .ok (.invalid_shape, out0)
  else if ¬ (query_dims.length = 4) then .ok (.invalid_shape, out0)
  else
    match query_dims[3]?, key_dims[2]?, key_dims[3]?, value_dims[2]? with
    | some q3, some k2, some k3, some v2 =>
      if ¬ (q3 = k2) then .ok (.invalid_shape, out0)
      else if ¬ (k3 = v2) then .ok (.invalid_shape, out0)
      else
        match query_dims[0]?, query_dims[1]?, query_dims[2]?, value_dims[3]? with
        | some q0, some q1, some q2, some v3 =>
          let inferred_output_shape := [q0, q1, q2, v3]
          if out0.ndims ≠ -1 ∧ ¬ validate inferred_output_shape (vdims out0) then
            .ok (.invalid_shape, out0)
          else .ok (.success, set_shape_and_strides out0 inferred_output_shape)
        | _, _, _, _ => .error .out_of_bounds
    | _, _, _, _ => .error .out_of_bounds

/-- The folding of the group dimension into the weights `inputs[1]` (lines
82-91 and 383-392): `dims[1] *= dims[0]`, `dims.erase(dims.begin())`, then the
rank and the first entries of the array `dims` of the tensor are overwritten. -/
def fold_group_dim (in1 : logical_tensor_t) : Except fault_t logical_tensor_t :=
  let ndims := in1.ndims - 1
  match vdims in1 with
  | d0 :: d1 :: rest =>
    let dims := (d1 * d0) :: rest
    .ok { ndims := ndims, dims := dims ++ in1.dims.drop dims.length }
  | _ => .error .out_of_bounds

/-- `status_t infer_dnnl_conv_output_shape(n, inputs, outputs)` (lines 69-119) on
`inputs[0]`, `inputs[1]` and `outputs[0]`: the status, and the op, `inputs[1]`
and `outputs[0]` as the call leaves them.  `infer_conv_output_shape` is the
inference of the frontend, which is outside the sources: it is given the op and
the tensors and yields `outputs[0]`; its status is not looked at.  The quotient
`output_dims[oh_offset] / stride` is a quotient of two `dim_t`, on which
`std::ceil` and the conversion back to `dim_t` change nothing. -/
def infer_dnnl_conv_output_shape
    (infer_conv_output_shape :
      op_t → logical_tensor_t → logical_tensor_t → logical_tensor_t → logical_tensor_t)
    (n : op_t) (in0 in1 out0 : logical_tensor_t) :
    Except fault_t (status_t × op_t × logical_tensor_t × logical_tensor_t) := do
  let org_out_shape_unknown := is_shape_unknown out0
  let backup_wei_shape := in1
  let backup_groups := n.groups
  let folded ←
    if attr_is_true n.canonicalized ∧ in1.ndims = in0.ndims + 1 then
      match (vdims in1)[0]? with
      | none => throw .out_of_bounds
      | some d0 => do
        let in1 ← fold_group_dim in1
        pure ({ n with groups := d0 }, in1)
    else pure (n, in1)
  let out0 := infer_conv_output_shape folded.1 in0 folded.2 out0
  let in1 := backup_wei_shape
  let n := { folded.1 with groups := backup_groups }
  let output_dims := vdims out0
  if org_out_shape_unknown ∧ n.dw_type = some "k3s2p1" then
    let src_fmt := n.data_format
    if src_fmt = "NCX" ∧ output_dims.length < 2 then throw .out_of_bounds
    let oh_offset := if src_fmt = "NCX" then output_dims.length - 2 else 1
    let ow_offset := if src_fmt = "NCX" then output_dims.length - 1 else 2
    match output_dims[oh_offset]?, output_dims[ow_offset]? with
    | some oh, some ow =>
      let new_oh := Int.tdiv oh 2
      let new_ow := Int.tdiv ow 2
      let output_dims := (output_dims.set oh_offset new_oh).set ow_offset new_ow
      pure (.success, n, in1, set_shape_and_strides out0 output_dims)
    | _, _ => throw .out_of_bounds
  else pure (.success, n, in1, out0)

/-- `status_t infer_dnnl_conv_bwd_data_output_shape(n, inputs, outputs)` (lines
376-398) on `inputs[0]`, `inputs[1]` and `outputs[0]`: the status, and
`inputs[1]` and `outputs[0]` as the call leaves them.
`infer_conv_bprop_data_output_shape` is the inference of the frontend, which is
outside the sources: it is given the op and the tensors and yields its status
and `outputs[0]`. -/
def infer_dnnl_conv_bwd_data_output_shape
    (infer_conv_bprop_data_output_shape :
      op_t → logical_tensor_t → logical_tensor_t → logical_tensor_t →
        status_t × logical_tensor_t)
    (n : op_t) (in0 in1 out0 : logical_tensor_t) :
    Except fault_t (status_t × logical_tensor_t × logical_tensor_t) := do
  let backup := in1
  let in1 ← if n.groups > 1 then fold_group_dim in1 else pure in1
  let ret := infer_conv_bprop_data_output_shape n in0 in1 out0
  if ret.1 ≠ .success then pure (ret.1, in1, ret.2)
  else pure (.success, backup, ret.2)


/-- A tensor of unknown rank. -/
def unknown_tensor : logical_tensor_t := { ndims := -1, dims := [] }

/-- An op with two groups and no other attribute set. -/
def sample_op : op_t :=
  { groups := 2, canonicalized := none, is_convtranspose := none, axes := none,
    permutation := [], dw_type := none, data_format := "NCX" }

/-- A convolution with a fused `k3s2p1` depthwise convolution on `NCX` data. -/
def sample_dw_op : op_t := { sample_op with groups := 1, dw_type := some "k3s2p1" }

/-- A source tensor of shape `[1, 16, 5, 7]`. -/
def sample_src : logical_tensor_t := { ndims := 4, dims := [1, 16, 5, 7] }

/-- Weights of shape `[16, 16, 1, 1]`. -/
def sample_weights : logical_tensor_t := { ndims := 4, dims := [16, 16, 1, 1] }

/-- Weights with the group dimension in front, of shape `[2, 4, 8, 3, 3]`. -/
def sample_group_weights : logical_tensor_t := { ndims := 5, dims := [2, 4, 8, 3, 3] }

/-- An inference of the frontend that gives the destination of a 1x1
convolution the shape `[1, 16, 5, 7]`. -/
def sample_infer_conv_output_shape (_n : op_t) (_in0 _in1 out0 : logical_tensor_t) :
    logical_tensor_t :=
  set_shape_and_strides out0 [1, 16, 5, 7]

/-- An inference of the frontend that rejects its inputs. -/
def sample_infer_conv_bprop_data_output_shape (_n : op_t)
    (_in0 _in1 out0 : logical_tensor_t) : status_t × logical_tensor_t :=
  (.invalid_shape, out0)


/-- The dimensions from position `i` on with the positions listed in `axes`
removed, in their order. -/
def remove_positions (axes : List Int) : List Int → Nat → List Int
  | [], _ => []
  | d :: ds, i =>
    if (i : Int) ∈ axes then remove_positions axes ds (i + 1)
    else d :: remove_positions axes ds (i + 1)

/-- An op with the axes `[0, -1]`. -/
def sample_axes_op : op_t := { sample_op with axes := some [0, -1] }

/-- A tensor of shape `[1, 5, 6, 1]`. -/
def sample_squeezable : logical_tensor_t := { ndims := 4, dims := [1, 5, 6, 1] }

/-- A tensor of shape `[5, 6]`. -/
def sample_squeezed : logical_tensor_t := { ndims := 2, dims := [5, 6] }

/-- An op with the permutation `[2, 0, 1]`. -/
def sample_permute_op : op_t := { sample_op with permutation := [2, 0, 1] }

/-- A tensor of shape `[3, 5, 7]`. -/
def sample_3d : logical_tensor_t := { ndims := 3, dims := [3, 5, 7] }

/-- A compatibility check that accepts equal shapes only. -/
def sample_validate (a b : List Int) : Bool := decide (a = b)

end shape_infer

/-! ## The memory pool of benchdnn (tests/benchdnn/graph/memory_pool.hpp) -/

namespace memory_pool

/-- The state of a `simple_memory_pool_t`: the multimap `map_size_ptr_` as the
list of its (size, pointer) entries, the map `is_free_ptr_` as the list of its
assignments (latest first), and the number of buffers obtained from the
allocator so far.  Pointers are addresses, 0 being `nullptr`. -/
structure simple_memory_pool_t where
  map_size_ptr_ : List (Nat × Nat)
  is_free_ptr_ : List (Nat × Bool)
  mallocs : Nat
  deriving DecidableEq, Repr

/-- The value `is_free_ptr_[ptr]` reads: the latest assignment, `false` for a key
that was never assigned (the value `operator[]` inserts). -/
def is_free : List (Nat × Bool) → Nat → Bool
  | [], _ => false
  | (q, b) :: rest, ptr => if q = ptr then b else is_free rest ptr

/-- The loop of `check_allocated_mem` over the entries of size `size`: the first
pointer that is free, `none` when there is no such entry. -/
def find_free (is_free_ptr_ : List (Nat × Bool)) : List (Nat × Nat) → Nat → Option Nat
  | [], _ => none
  | (sz, p) :: rest, size =>
    if sz = size ∧ is_free is_free_ptr_ p = true then some p
    else find_free is_free_ptr_ rest size

/-- `bool check_allocated_mem(void *&ptr, size_t size)` (lines 104-119): the
returned value, `ptr` and the pool as the call leaves them. -/
def check_allocated_mem (pool : simple_memory_pool_t) (ptr size : Nat) :
    Bool × Nat × simple_memory_pool_t :=
  match find_free pool.is_free_ptr_ pool.map_size_ptr_ size with
  | some p => (false, p, { pool with is_free_ptr_ := (p, false) :: pool.is_free_ptr_ })
  | none => (true, ptr, pool)

/-- `void *allocate(size_t size, size_t alignment)` (lines 122-137): the returned
pointer and the pool as the call leaves it.  `host_malloc i` is the address the
allocator returns at its call number `i`. -/
def allocate (host_malloc : Nat → Nat) (pool : simple_memory_pool_t) (size _alignment : Nat) :
    Nat × simple_memory_pool_t :=
  if size = 0 then (0, pool)
  else
    let r := check_allocated_mem pool 0 size
    if r.1 then
      let ptr := host_malloc r.2.2.mallocs
      (ptr, { map_size_ptr_ := r.2.2.map_size_ptr_ ++ [(size, ptr)],
              is_free_ptr_ := (ptr, false) :: r.2.2.is_free_ptr_,
              mallocs := r.2.2.mallocs + 1 })
    else (r.2.1, r.2.2)

/-- `void deallocate(void *ptr)` (lines 182-185). -/
def deallocate (pool : simple_memory_pool_t) (ptr : Nat) : simple_memory_pool_t :=
  { pool with is_free_ptr_ := (ptr, true) :: pool.is_free_ptr_ }

/-- `void clear()` (lines 187-190); the allocator keeps its count. -/
def clear (pool : simple_memory_pool_t) : simple_memory_pool_t :=
  { pool with map_size_ptr_ := [], is_free_ptr_ := [] }

/-- A call of the pool by its user. -/
inductive call_t
  | allocate (size alignment : Nat)
  | deallocate (ptr : Nat)
  | clear
  deriving DecidableEq, Repr

/-- The pool after one call, together with the buffers in use: a buffer is in
use from the `allocate` that returns it to the `deallocate` of it. -/
def step (host_malloc : Nat → Nat) (st : simple_memory_pool_t × List Nat) :
    call_t → simple_memory_pool_t × List Nat
  | .allocate size alignment =>
    let r := allocate host_malloc st.1 size alignment
    (r.2, if r.1 = 0 then st.2 else r.1 :: st.2)
  | .deallocate ptr => (deallocate st.1 ptr, st.2.filter (fun q => q ≠ ptr))
  | .clear => (clear st.1, st.2)

/-- The pool and the buffers in use after a sequence of calls on an empty pool. -/
def run (host_malloc : Nat → Nat) (calls : List call_t) : simple_memory_pool_t × List Nat :=
  calls.foldl (step host_malloc) ({ map_size_ptr_ := [], is_free_ptr_ := [], mallocs := 0 }, [])

/-- The invariant of the pool and the buffers in use: every pointer of the pool
and every buffer in use came from the allocator, and a pointer of the pool
that is marked free is not in use. -/
def pool_inv (host_malloc : Nat → Nat) (st : simple_memory_pool_t × List Nat) : Prop :=
  (∀ e ∈ st.1.map_size_ptr_, ∃ i, i < st.1.mallocs ∧ e.2 = host_malloc i) ∧
  (∀ q ∈ st.2, ∃ i, i < st.1.mallocs ∧ q = host_malloc i) ∧
  (∀ e ∈ st.1.map_size_ptr_, is_free st.1.is_free_ptr_ e.2 = true → e.2 ∉ st.2)

/-- An allocator that returns the addresses 1, 2, 3, ... -/
def sample_host_malloc (i : Nat) : Nat := i + 1

/-- Two buffers of 8 bytes are allocated and the first one is given back. -/
def sample_calls : List call_t :=
  [.allocate 8 64, .allocate 8 64, .deallocate 1]

end memory_pool

/-! # The other components: theorems -/

/-! ## Theorems about the string operations and the option parser -/

namespace std_string

theorem find_from_some (pat : List Char) :
    ∀ (s : List Char) (i e : Nat), find_from pat s i = some e →
      ∃ k, e = i + k ∧ k ≤ s.length ∧ pat <+: s.drop k ∧ ∀ j, j < k → ¬ pat <+: s.drop j := by
  intro s
  induction s with
  | nil =>
    intro i e h
    by_cases hp : pat = []
    · simp [find_from, hp] at h
      exact ⟨0, by simp [h], by simp, by simp [hp], by simp⟩
    · simp [find_from, hp] at h
  | cons c cs ih =>
    intro i e h
    by_cases hp : pat.isPrefixOf (c :: cs) = true
    · simp only [find_from, hp, if_true, Option.some.injEq] at h
      exact ⟨0, by simp [h], by simp, by simpa using List.isPrefixOf_iff_prefix.mp hp, by simp⟩
    · simp only [find_from, hp] at h
      obtain ⟨k, he, hk, hpre, hmin⟩ := ih (i + 1) e h
      refine ⟨k + 1, by omega, by simp; omega, by simpa using hpre, ?_⟩
      intro j hj
      cases j with
      | zero =>
        intro hpz
        exact hp (List.isPrefixOf_iff_prefix.mpr (by simpa using hpz))
      | succ j => simpa using hmin j (by omega)

theorem find_from_none (pat : List Char) :
    ∀ (s : List Char) (i : Nat), find_from pat s i = none →
      ∀ k, k ≤ s.length → ¬ pat <+: s.drop k := by
  intro s
  induction s with
  | nil =>
    intro i h k hk
    by_cases hp : pat = []
    · simp [find_from, hp] at h
    · simp at hk
      subst hk
      simpa using hp
  | cons c cs ih =>
    intro i h k hk
    by_cases hp : pat.isPrefixOf (c :: cs) = true
    · simp [find_from, hp] at h
    · simp only [find_from, hp] at h
      cases k with
      | zero =>
        intro hpz
        exact hp (List.isPrefixOf_iff_prefix.mpr (by simpa using hpz))
      | succ k =>
        have := ih (i + 1) h k (by simpa using hk)
        simpa using this

/-- `s.find(pat)` finds `pat` exactly when `pat` begins at some position of `s`. -/
theorem find_zero_ne_none_iff (s pat : List Char) :
    find s pat 0 ≠ none ↔ ∃ k, k ≤ s.length ∧ pat <+: s.drop k := by
  simp only [find, Nat.zero_le, if_true, List.drop_zero]
  constructor
  · intro h
    cases hf : find_from pat s 0 with
    | none => exact absurd hf h
    | some e =>
      obtain ⟨k, -, hk, hpre, -⟩ := find_from_some pat s 0 e hf
      exact ⟨k, hk, hpre⟩
  · rintro ⟨k, hk, hpre⟩ hnone
    exact find_from_none pat s 0 hnone k hk hpre

end std_string

namespace parser

theorem option_matched_spec (option_str str : List Char) :
    option_matched option_str str = true ↔ option_str <+: str := by
  unfold option_matched
  by_cases hlen : str.length ≥ option_str.length
  · simp only [hlen, if_true, decide_eq_true_eq, std_string.find_zero_ne_none_iff]
    constructor
    · rintro ⟨k, hk, hpre⟩
      have h1 := hpre.length_le
      simp only [List.length_take, List.length_drop] at h1
      have hk0 : k = 0 := by omega
      subst hk0
      simp only [List.drop_zero] at hpre
      have heq : List.take option_str.length str = option_str :=
        hpre.eq_of_length (by simp; omega)
      rw [← heq]
      exact List.take_prefix _ _
    · intro hp
      refine ⟨0, by simp, ?_⟩
      rw [List.prefix_iff_eq_take.mp hp]
      simp
  · simp only [hlen, if_false]
    constructor
    · intro h; cases h
    · intro hp
      exact absurd hp.length_le hlen


theorem find_first_of_from_none (d : Char) :
    ∀ (s : List Char) (i : Nat), find_first_of_from d s i = none ↔ d ∉ s := by
  intro s
  induction s with
  | nil => intro i; simp [find_first_of_from]
  | cons c cs ih =>
    intro i
    by_cases h : c = d
    · simp [find_first_of_from, h]
    · simp [find_first_of_from, h, ih, Ne.symm h]

theorem find_first_of_from_some (d : Char) :
    ∀ (s : List Char) (i e : Nat), find_first_of_from d s i = some e →
      ∃ pre rest, s = pre ++ d :: rest ∧ d ∉ pre ∧ e = i + pre.length := by
  intro s
  induction s with
  | nil => intro i e h; simp [find_first_of_from] at h
  | cons c cs ih =>
    intro i e h
    by_cases hc : c = d
    · simp [find_first_of_from, hc] at h
      exact ⟨[], cs, by simp [hc], by simp, by simp [h]⟩
    · simp only [find_first_of_from, hc, if_false] at h
      obtain ⟨pre, rest, hs, hpre, he⟩ := ih (i + 1) e h
      refine ⟨c :: pre, rest, by simp [hs], ?_, by simp [he]; omega⟩
      simp [hpre, Ne.symm hc]

theorem chunks_ne_nil (d : Char) : ∀ s : List Char, chunks d s ≠ [] := by
  intro s
  induction s with
  | nil => simp [chunks]
  | cons c cs ih =>
    by_cases hc : c = d
    · simp [chunks, hc]
    · cases h : chunks d cs with
      | nil => exact absurd h ih
      | cons a t => simp [chunks, hc, h]

theorem chunks_of_not_mem (d : Char) : ∀ s : List Char, d ∉ s → chunks d s = [s] := by
  intro s
  induction s with
  | nil => intro _; rfl
  | cons c cs ih =>
    intro h
    have hc : c ≠ d := fun e => h (by simp [e])
    have hcs : d ∉ cs := fun e => h (by simp [e])
    simp [chunks, hc, ih hcs]

theorem chunks_append (d : Char) (rest : List Char) :
    ∀ pre : List Char, d ∉ pre → chunks d (pre ++ d :: rest) = pre :: chunks d rest := by
  intro pre
  induction pre with
  | nil => intro _; simp [chunks]
  | cons c cs ih =>
    intro h
    have hc : c ≠ d := fun e => h (by simp [e])
    have hcs : d ∉ cs := fun e => h (by simp [e])
    simp [chunks, hc, ih hcs]

theorem chunks_length (d : Char) : ∀ s : List Char, (chunks d s).length = s.count d + 1 := by
  intro s
  induction s with
  | nil => rfl
  | cons c cs ih =>
    by_cases hc : c = d
    · simp [chunks, hc, ih]
    · cases h : chunks d cs with
      | nil => exact absurd h (chunks_ne_nil d cs)
      | cons a t =>
        rw [h] at ih
        simp [chunks, hc, h, List.count_cons] at ih ⊢
        omega

theorem chunks_join (d : Char) : ∀ s : List Char, [d].intercalate (chunks d s) = s := by
  intro s
  induction s with
  | nil => rfl
  | cons c cs ih =>
    by_cases hc : c = d
    · cases h : chunks d cs with
      | nil => exact absurd h (chunks_ne_nil d cs)
      | cons a t =>
        rw [h] at ih
        simp [chunks, hc, h, List.intercalate, List.intersperse] at ih ⊢
        exact ih
    · cases h : chunks d cs with
      | nil => exact absurd h (chunks_ne_nil d cs)
      | cons a t =>
        rw [h] at ih
        cases t with
        | nil => simp [chunks, hc, h, List.intercalate, List.intersperse] at ih ⊢; exact ih
        | cons b u => simp [chunks, hc, h, List.intercalate, List.intersperse] at ih ⊢; exact ih

theorem chunks_not_mem (d : Char) : ∀ s : List Char, ∀ c ∈ chunks d s, d ∉ c := by
  intro s
  induction s with
  | nil => simp [chunks]
  | cons x xs ih =>
    by_cases hx : x = d
    · simp only [chunks, hx, if_true, List.mem_cons]
      rintro c (rfl | hc)
      · simp
      · exact ih c hc
    · cases h : chunks d xs with
      | nil => exact absurd h (chunks_ne_nil d xs)
      | cons a t =>
        rw [h] at ih
        simp only [chunks, hx, if_false, h, List.mem_cons]
        rintro c (rfl | hc)
        · have := ih a (by simp)
          simp [this, Ne.symm hx]
        · exact ih c (by simp [hc])


/-- The rest of the string is empty or ends with the delimiter: the last chunk
of the rest is empty. -/
theorem getLast_append_delim (d : Char) (pre rest : List Char) :
    (pre ++ d :: rest).getLast? = some d ↔ (rest = [] ∨ rest.getLast? = some d) := by
  cases rest with
  | nil => simp
  | cons r rs => simp [List.getLast?_append, List.getLast?_cons_cons]

theorem getLast_of_not_mem (d : Char) (s : List Char) (h : d ∉ s) : s.getLast? ≠ some d := by
  intro hl
  exact h (List.mem_of_getLast?_eq_some hl)

theorem parse_vector_str_loop_spec {α : Type} (process_func : List Char → α) (str : List Char)
    (d : Char) (allow_empty : Bool) :
    ∀ (fuel : Nat) (s : List Char) (pos : Nat) (vec : List α),
      str.drop pos = s → pos + s.length = str.length → s.length < fuel →
      parse_vector_str_loop process_func str d allow_empty fuel pos vec =
        if allow_empty = false ∧ (s = [] ∨ s.getLast? = some d) then .error .safe_v_fail
        else .ok (vec ++ (chunks d s).map (fun c => process_func (std_string.c_str c))) := by
  intro fuel
  induction fuel with
  | zero => intro s pos vec _ _ h; omega
  | succ n ih =>
    intro s pos vec hs hlen hfuel
    unfold parse_vector_str_loop
    simp only [find_first_of, hs]
    by_cases hnil : s = []
    · subst hnil
      have hpos : pos = str.length := by simpa using hlen
      subst hpos
      cases allow_empty <;>
        simp [find_first_of_from, chunks, std_string.substr]
    · have hne : str.length ≠ pos := by
        intro h
        have : s.length = 0 := by omega
        exact hnil (List.length_eq_zero.mp this)
      cases hf : find_first_of_from d s pos with
      | none =>
        have hmem : d ∉ s := (find_first_of_from_none d s pos).mp hf
        have hlast := getLast_of_not_mem d s hmem
        have hsub : std_string.substr str pos (str.length - pos) = s := by
          simp [std_string.substr, hs]
          omega
        simp [hne, hnil, hlast, chunks_of_not_mem d s hmem, hsub]
      | some e =>
        obtain ⟨pre, rest, hsplit, hpre, he⟩ := find_first_of_from_some d s pos e hf
        have hsub : std_string.substr str pos (e - pos) = pre := by
          simp [std_string.substr, hs, hsplit, he]
        have hdrop : str.drop (e + 1) = rest := by
          have : e + 1 = pos + (pre.length + 1) := by omega
          rw [this, ← List.drop_drop, hs, hsplit]
          simp
        have hlen2 : (e + 1) + rest.length = str.length := by
          rw [← hlen, hsplit]; simp; omega
        have hf2 : rest.length < n := by
          rw [hsplit] at hfuel; simp at hfuel; omega
        have hrec := ih rest (e + 1)
          (vec ++ [process_func (std_string.c_str pre)]) hdrop hlen2 hf2
        have hiff := getLast_append_delim d pre rest
        rw [← hsplit] at hiff
        simp only [hne, and_false, if_false, hsub, hrec, hnil, false_or, hiff]
        rw [hsplit, chunks_append d rest pre hpre]
        simp

theorem chunks_subset (d : Char) : ∀ s : List Char, ∀ c ∈ chunks d s, ∀ x ∈ c, x ∈ s := by
  intro s
  induction s with
  | nil => simp [chunks]
  | cons y ys ih =>
    by_cases hy : y = d
    · simp only [chunks, hy, if_true, List.mem_cons]
      rintro c (rfl | hc) x hx
      · simp at hx
      · exact Or.inr (ih c hc x hx)
    · cases h : chunks d ys with
      | nil => exact absurd h (chunks_ne_nil d ys)
      | cons a t =>
        rw [h] at ih
        simp only [chunks, hy, if_false, h, List.mem_cons]
        rintro c (rfl | hc) x hx
        · rcases List.mem_cons.mp hx with rfl | hx2
          · exact Or.inl rfl
          · exact Or.inr (ih a (by simp) x hx2)
        · exact Or.inr (ih c (by simp [hc]) x hx)

theorem c_str_of_not_mem (c : List Char) (h : Char.ofNat 0 ∉ c) : std_string.c_str c = c := by
  unfold std_string.c_str
  rw [List.takeWhile_eq_self_iff]
  intro x hx
  simp only [ne_eq, decide_eq_true_eq]
  rintro rfl
  exact h hx

theorem parse_vector_str_spec {α : Type} (vec defv : List α) (process_func : List Char → α)
    (str : List Char) (d : Char) (allow_empty : Bool) (hne : str ≠ []) :
    parse_vector_str vec defv process_func str d allow_empty =
      if allow_empty = false ∧ str.getLast? = some d then .error .safe_v_fail
      else .ok (true, (chunks d str).map (fun c => process_func (std_string.c_str c))) := by
  unfold parse_vector_str
  rw [if_neg hne, parse_vector_str_loop_spec process_func str d allow_empty (str.length + 1) str 0
    [] (by simp) (by simp) (by omega)]
  simp only [hne, false_or, List.nil_append]
  split_ifs <;> rfl

/-- C18 (amended): `parse_vector_str` returns `true` and sets `vec` to `def` when
`str` is empty.  When `allow_empty` is `true`, or `str` does not end with the
delimiter, then for every non-empty `str` it returns `true`, discards the
previous content of `vec` and sets `vec` to the list obtained by applying
`process_func`, in order, to (the `c_str()` of) the chunks of `str` split at
every occurrence of the delimiter; `vec` has number-of-delimiters + 1 elements,
joining the chunks with the delimiter gives back `str`, and for a string
without NUL characters `process_func` gets the chunks themselves. -/
theorem parse_vector_str_chunks {α : Type} (vec defv : List α) (process_func : List Char → α)
    (str : List Char) (delimiter : Char) (allow_empty : Bool)
    (h : allow_empty = true ∨ str.getLast? ≠ some delimiter) :
    (str = [] →
      parse_vector_str vec defv process_func str delimiter allow_empty = .ok (true, defv)) ∧
    (str ≠ [] →
      parse_vector_str vec defv process_func str delimiter allow_empty =
        .ok (true, (chunks delimiter str).map (fun c => process_func (std_string.c_str c))) ∧
      ((chunks delimiter str).map (fun c => process_func (std_string.c_str c))).length =
        str.count delimiter + 1) ∧
    [delimiter].intercalate (chunks delimiter str) = str ∧
    (∀ c ∈ chunks delimiter str, delimiter ∉ c) ∧
    (Char.ofNat 0 ∉ str →
      (chunks delimiter str).map (fun c => process_func (std_string.c_str c)) =
        (chunks delimiter str).map process_func) := by
  refine ⟨fun he => by simp [parse_vector_str, he], fun hne => ⟨?_, ?_⟩,
    chunks_join delimiter str, chunks_not_mem delimiter str, fun h0 => ?_⟩
  · rw [parse_vector_str_spec vec defv process_func str delimiter allow_empty hne]
    rcases h with h | h
    · simp [h]
    · simp [h]
  · simp [chunks_length]
  · apply List.map_congr_left
    intro c hc
    rw [c_str_of_not_mem c (fun hx => h0 (chunks_subset delimiter str c hc _ hx))]

theorem parse_vector_str_chunks_witness :
    (("a,b".toList = [] →
      parse_vector_str ([] : List (List Char)) [] (fun c => c) "a,b".toList ',' true
        = .ok (true, [])) ∧
    ("a,b".toList ≠ [] →
      parse_vector_str ([] : List (List Char)) [] (fun c => c) "a,b".toList ',' true =
        .ok (true, (chunks ',' "a,b".toList).map (fun c => (fun c => c) (std_string.c_str c))) ∧
      ((chunks ',' "a,b".toList).map (fun c => (fun c => c) (std_string.c_str c))).length =
        "a,b".toList.count ',' + 1) ∧
    [','].intercalate (chunks ',' "a,b".toList) = "a,b".toList ∧
    (∀ c ∈ chunks ',' "a,b".toList, ',' ∉ c) ∧
    (Char.ofNat 0 ∉ "a,b".toList →
      (chunks ',' "a,b".toList).map (fun c => (fun c => c) (std_string.c_str c)) =
        (chunks ',' "a,b".toList).map (fun c => c))) ∧
    chunks ',' "a,b".toList = ["a".toList, "b".toList] :=
  ⟨parse_vector_str_chunks [] [] (fun c => c) "a,b".toList ',' true (Or.inl rfl), by decide⟩

/-- C18 (counterexample): with `allow_empty = false` the non-empty string `"a,"`
does not set `vec` to its two chunks: the call stops in `SAFE_V(FAIL)`. -/
theorem parse_vector_str_trailing_counterexample :
    "a,".toList ≠ [] ∧
    parse_vector_str ([] : List (List Char)) [] (fun c => c) "a,".toList ',' false
      = .error .safe_v_fail ∧
    chunks ',' "a,".toList = ["a".toList, []] := by
  decide

/-- C19 (code): with `allow_empty = false` only a trailing empty chunk stops the
parsing.  For `",a"` and for `"a,,b"` the call returns `true` after
`process_func` was called on an empty chunk (here `process_func` returns its
argument, so `vec` lists the chunks it was called on); for `"a,"` the call stops
in `SAFE_V(FAIL)`. -/
theorem parse_vector_str_empty_chunk_passed :
    parse_vector_str ([] : List (List Char)) [] (fun c => c) ",a".toList ',' false
      = .ok (true, [[], "a".toList]) ∧
    parse_vector_str ([] : List (List Char)) [] (fun c => c) "a,,b".toList ',' false
      = .ok (true, ["a".toList, [], "b".toList]) ∧
    parse_vector_str ([] : List (List Char)) [] (fun c => c) "a,".toList ',' false
      = .error .safe_v_fail := by
  decide

/-- C31: `option_matched(option_str, str)` is true exactly when `str` begins
with `option_str`: it returns `true` iff `option_str` is a prefix of `str`; the
range of `option_str.size()` characters of `str` that `find` reads is formed
only when `strlen(str) >= option_str.size()`, and then lies within `str`. -/
theorem option_matched_prefix (option_str str : List Char) :
    (option_matched option_str str = true ↔ option_str <+: str) ∧
    (str.length < option_str.length → option_matched option_str str = false) ∧
    (option_str.length ≤ str.length →
      (str.take option_str.length).length = option_str.length ∧
      str.take option_str.length <+: str) := by
  refine ⟨option_matched_spec option_str str, fun hlt => ?_, fun hle => ⟨?_, ?_⟩⟩
  · unfold option_matched
    rw [if_neg (by omega)]
  · simp [hle]
  · exact List.take_prefix _ _

end parser

/-! ## Theorems about the planner driver -/

namespace planner

/-- C32 (code): `find_remove_key_value("model", s)` does not stop the value at
the next space, because the end of the value is searched in `key` instead of
`s`: for `" model=V --iter x"` and for `" --model V --iter x"` it returns
`"V --iter x"` and leaves only the key in `s`, the further arguments being
removed with the value; when the key does not occur it returns the empty string
and leaves `s` unchanged. -/
theorem find_remove_key_value_takes_rest :
    find_remove_key_value "model".toList " model=V --iter x".toList
      = ("V --iter x".toList, " model=".toList) ∧
    find_remove_key_value "model".toList " --model V --iter x".toList
      = ("V --iter x".toList, " --model ".toList) ∧
    find_remove_key_value "model".toList " --iter x".toList = ([], " --iter x".toList) := by
  decide

end planner

/-! ## Theorems about the shape inference -/

namespace shape_infer

theorem vdims_set_shape_and_strides (lt : logical_tensor_t) (dims : List Int) :
    vdims (set_shape_and_strides lt dims) = dims := by
  simp [vdims, set_shape_and_strides]

theorem ndims_set_shape_and_strides (lt : logical_tensor_t) (dims : List Int) :
    (set_shape_and_strides lt dims).ndims = dims.length := rfl

theorem list_length_four {l : List Int} (h : l.length = 4) :
    ∃ a b c d, l = [a, b, c, d] := by
  rcases l with _ | ⟨a, _ | ⟨b, _ | ⟨c, _ | ⟨d, _ | ⟨e, r⟩⟩⟩⟩⟩ <;> simp at h
  exact ⟨a, b, c, d, rfl⟩

/-- C33: `infer_dnnl_sdpa_output_shape` never indexes out of bounds and returns
`success` or `invalid_shape`.  It succeeds only if query, key and value all have
exactly 4 dimensions, `query[3] == key[2]` and `key[3] == value[2]`; when one of
these fails it returns `invalid_shape` and leaves the output as it is; on
success the output shape is `[query[0], query[1], query[2], value[3]]`, and it
succeeds under the conditions whenever the output rank is unknown or the given
output shape is compatible. -/
theorem infer_dnnl_sdpa_output_shape_spec (validate : List Int → List Int → Bool)
    (query key value out0 : logical_tensor_t) :
    ∃ st out, infer_dnnl_sdpa_output_shape validate query key value out0 = .ok (st, out) ∧
      (st = .success ∨ (st = .invalid_shape ∧ out = out0)) ∧
      (st = .success →
        (vdims query).length = 4 ∧ (vdims key).length = 4 ∧ (vdims value).length = 4 ∧
        (vdims query)[3]? = (vdims key)[2]? ∧ (vdims key)[3]? = (vdims value)[2]? ∧
        (∃ q0 q1 q2 v3, (vdims query)[0]? = some q0 ∧ (vdims query)[1]? = some q1 ∧
          (vdims query)[2]? = some q2 ∧ (vdims value)[3]? = some v3 ∧
          vdims out = [q0, q1, q2, v3] ∧ out.ndims = 4)) ∧
      (¬ ((vdims query).length = 4 ∧ (vdims key).length = 4 ∧ (vdims value).length = 4 ∧
          (vdims query)[3]? = (vdims key)[2]? ∧ (vdims key)[3]? = (vdims value)[2]?) →
        st = .invalid_shape ∧ out = out0) ∧
      ((vdims query).length = 4 → (vdims key).length = 4 → (vdims value).length = 4 →
        (vdims query)[3]? = (vdims key)[2]? → (vdims key)[3]? = (vdims value)[2]? →
        (out0.ndims = -1 ∨ ∀ d, validate d (vdims out0) = true) → st = .success) := by
  unfold infer_dnnl_sdpa_output_shape
  by_cases hlen : (vdims query).length = (vdims key).length ∧
      (vdims key).length = (vdims value).length
  · by_cases h4 : (vdims query).length = 4
    · have hk : (vdims key).length = 4 := by omega
      have hv : (vdims value).length = 4 := by omega
      obtain ⟨q0, q1, q2, q3, hq⟩ := list_length_four h4
      obtain ⟨k0, k1, k2, k3, hkk⟩ := list_length_four hk
      obtain ⟨v0, v1, v2, v3, hvv⟩ := list_length_four hv
      rw [hq, hkk, hvv]
      by_cases e1 : q3 = k2
      · by_cases e2 : k3 = v2
        · by_cases hval : out0.ndims ≠ -1 ∧ ¬ validate [q0, q1, q2, v3] (vdims out0)
          · refine ⟨.invalid_shape, out0, ?_, Or.inr ⟨rfl, rfl⟩, (fun h => by cases h),
              fun _ => ⟨rfl, rfl⟩, ?_⟩
            · simp only [List.length_cons, List.length_nil, and_self, not_true_eq_false,
                if_false, List.getElem?_cons_succ, List.getElem?_cons_zero]
              rw [if_neg (not_not.mpr e1), if_neg (not_not.mpr e2), if_pos hval]
            · intro _ _ _ _ _ h
              rcases h with h | h
              · exact absurd h hval.1
              · exact absurd (h _) hval.2
          · refine ⟨.success, set_shape_and_strides out0 [q0, q1, q2, v3], ?_, Or.inl rfl, ?_,
              ?_, fun _ _ _ _ _ _ => rfl⟩
            · simp only [List.length_cons, List.length_nil, and_self, not_true_eq_false,
                if_false, List.getElem?_cons_succ, List.getElem?_cons_zero]
              rw [if_neg (not_not.mpr e1), if_neg (not_not.mpr e2), if_neg hval]
            · intro _
              simp [e1, e2, vdims_set_shape_and_strides, ndims_set_shape_and_strides]
            · intro hc
              exact absurd ⟨rfl, rfl, rfl, by simp [e1], by simp [e2]⟩ hc
        · refine ⟨.invalid_shape, out0, ?_, Or.inr ⟨rfl, rfl⟩, (fun h => by cases h),
            fun _ => ⟨rfl, rfl⟩, ?_⟩
          · simp only [List.length_cons, List.length_nil, and_self, not_true_eq_false,
              if_false, List.getElem?_cons_succ, List.getElem?_cons_zero]
            rw [if_neg (not_not.mpr e1), if_pos e2]
          · intro _ _ _ _ h
            simp at h
            exact absurd h e2
      · refine ⟨.invalid_shape, out0, ?_, Or.inr ⟨rfl, rfl⟩, (fun h => by cases h),
          fun _ => ⟨rfl, rfl⟩, ?_⟩
        · simp only [List.length_cons, List.length_nil, and_self, not_true_eq_false,
            if_false, List.getElem?_cons_succ, List.getElem?_cons_zero]
          rw [if_pos e1]
        · intro _ _ _ h
          simp at h
          exact absurd h e1
    · refine ⟨.invalid_shape, out0, ?_, Or.inr ⟨rfl, rfl⟩, (fun h => by cases h),
        fun _ => ⟨rfl, rfl⟩, fun h => absurd h h4⟩
      rw [if_neg (not_not.mpr hlen), if_pos h4]
  · refine ⟨.invalid_shape, out0, ?_, Or.inr ⟨rfl, rfl⟩, (fun h => by cases h),
      fun _ => ⟨rfl, rfl⟩, fun h1 h2 h3 => absurd ⟨by omega, by omega⟩ hlen⟩
    rw [if_pos hlen]


/-- C36: `from_group` undoes `to_group`.  For every weight shape `d` and
`groups >= 1` such that the grouped axis (axis 0, or axis 1 when
`is_convtranspose`) exists and is divisible by `groups`, and output tensors of
unknown shape, `infer_to_group_output_shape` yields `groups` followed by `d` with
that axis divided by `groups`, `infer_from_group_output_shape` applied to that
result with the same attributes yields `d` again, and the element count is
preserved. -/
theorem from_group_undoes_to_group (n : op_t) (in0 out0 out1 : logical_tensor_t) (d : Int)
    (hg : 1 ≤ n.groups) (hout0 : is_shape_unknown out0 = true)
    (hout1 : is_shape_unknown out1 = true)
    (haxis : (vdims in0)[if attr_is_true n.is_convtranspose then 1 else 0]? = some d)
    (hdiv : Int.tmod d n.groups = 0) :
    ∃ t, infer_to_group_output_shape n in0 out0 = .ok (.success, t) ∧
      vdims t = n.groups ::
        (vdims in0).set (if attr_is_true n.is_convtranspose then 1 else 0)
          (Int.tdiv d n.groups) ∧
      (vdims t).prod = (vdims in0).prod ∧
      ∃ r, infer_from_group_output_shape n t out1 = .ok (.success, r) ∧
        vdims r = vdims in0 := by
  have hg0 : n.groups ≠ 0 := by omega
  have hmul : Int.tdiv d n.groups * n.groups = d := by
    have := Int.tdiv_add_tmod d n.groups
    rw [hdiv] at this
    rw [Int.mul_comm]; omega
  cases hc : attr_is_true n.is_convtranspose
  · simp only [hc, Bool.false_eq_true, if_false] at haxis ⊢
    rcases hv : vdims in0 with _ | ⟨a, rest⟩
    · rw [hv] at haxis; simp at haxis
    · rw [hv] at haxis
      simp at haxis
      subst haxis
      refine ⟨set_shape_and_strides out0 (n.groups :: Int.tdiv a n.groups :: rest), ?_, ?_, ?_,
        set_shape_and_strides out1 (a :: rest), ?_, ?_⟩
      · simp [infer_to_group_output_shape, hout0, hc, hv, hg0, bind, Except.bind, pure,
          Except.pure, throw, throwThe, MonadExceptOf.throw]
      · simp [vdims_set_shape_and_strides]
      · simp [vdims_set_shape_and_strides]
        linear_combination rest.prod * hmul
      · simp [infer_from_group_output_shape, hout1, hc, vdims_set_shape_and_strides, hmul,
          bind, Except.bind, pure, Except.pure]
      · simp [vdims_set_shape_and_strides]
  · simp only [hc, if_true] at haxis ⊢
    rcases hv : vdims in0 with _ | ⟨a, _ | ⟨b, rest⟩⟩
    · rw [hv] at haxis; simp at haxis
    · rw [hv] at haxis; simp at haxis
    · rw [hv] at haxis
      simp at haxis
      subst haxis
      refine ⟨set_shape_and_strides out0 (n.groups :: a :: Int.tdiv b n.groups :: rest),
        ?_, ?_, ?_, set_shape_and_strides out1 (a :: b :: rest), ?_, ?_⟩
      · simp [infer_to_group_output_shape, hout0, hc, hv, hg0, bind, Except.bind, pure,
          Except.pure, throw, throwThe, MonadExceptOf.throw]
      · simp [vdims_set_shape_and_strides]
      · simp [vdims_set_shape_and_strides]
        linear_combination (a * rest.prod) * hmul
      · simp [infer_from_group_output_shape, hout1, hc, vdims_set_shape_and_strides, hmul,
          bind, Except.bind, pure, Except.pure]
      · simp [vdims_set_shape_and_strides]


/-- C38 (code): with a fused `k3s2p1` depthwise convolution and an output shape
unknown on entry, `infer_dnnl_conv_output_shape` replaces the height and the
width by the quotient of the integer division by 2, not by the ceiling of half
their value: the destination `[1, 16, 5, 7]` becomes `[1, 16, 2, 3]`, where the
ceilings are 3 and 4; the other dimensions and the weights are unchanged. -/
theorem infer_dnnl_conv_output_shape_dw_floor :
    is_shape_unknown unknown_tensor = true ∧
    infer_dnnl_conv_output_shape sample_infer_conv_output_shape sample_dw_op sample_src
        sample_weights unknown_tensor =
      .ok (.success, sample_dw_op, sample_weights, { ndims := 4, dims := [1, 16, 2, 3] }) ∧
    Int.tdiv 5 2 = 2 ∧ ⌈(5 : ℚ) / 2⌉ = 3 ∧ Int.tdiv 7 2 = 3 ∧ ⌈(7 : ℚ) / 2⌉ = 4 := by
  refine ⟨by decide, by decide, by decide, ?_, by decide, ?_⟩
  · rw [Int.ceil_eq_iff]; norm_num
  · rw [Int.ceil_eq_iff]; norm_num

theorem fold_group_dim_ndims {in1 folded : logical_tensor_t}
    (h : fold_group_dim in1 = .ok folded) : folded.ndims = in1.ndims - 1 := by
  unfold fold_group_dim at h
  split at h
  · cases h; rfl
  · cases h

/-- C39 (code): `infer_dnnl_conv_bwd_data_output_shape` restores the weight
tensor `inputs[1]` only on the successful path.  For `groups <= 1` the weights
are never touched; for `groups > 1` the group dimension is folded, and the
weights are restored when the inner shape inference succeeds, but when it fails
the function returns its status with the weights still folded (rank lowered by
one): for the weights `[2, 4, 8, 3, 3]` and two groups a failing inner inference
leaves `inputs[1]` with rank 4 and the dimensions `[8, 8, 3, 3]`. -/
theorem infer_dnnl_conv_bwd_data_output_shape_weights
    (infer_conv_bprop_data_output_shape :
      op_t → logical_tensor_t → logical_tensor_t → logical_tensor_t →
        status_t × logical_tensor_t)
    (n : op_t) (in0 in1 out0 : logical_tensor_t) :
    (n.groups ≤ 1 →
      ∃ st out, infer_dnnl_conv_bwd_data_output_shape infer_conv_bprop_data_output_shape n in0
        in1 out0 = .ok (st, in1, out)) ∧
    (n.groups > 1 → ∀ folded, fold_group_dim in1 = .ok folded →
      ((infer_conv_bprop_data_output_shape n in0 folded out0).1 = .success →
        infer_dnnl_conv_bwd_data_output_shape infer_conv_bprop_data_output_shape n in0 in1 out0
          = .ok (.success, in1, (infer_conv_bprop_data_output_shape n in0 folded out0).2)) ∧
      ((infer_conv_bprop_data_output_shape n in0 folded out0).1 ≠ .success →
        infer_dnnl_conv_bwd_data_output_shape infer_conv_bprop_data_output_shape n in0 in1 out0
          = .ok ((infer_conv_bprop_data_output_shape n in0 folded out0).1, folded,
              (infer_conv_bprop_data_output_shape n in0 folded out0).2) ∧
        folded.ndims = in1.ndims - 1 ∧ folded ≠ in1)) ∧
    infer_dnnl_conv_bwd_data_output_shape sample_infer_conv_bprop_data_output_shape sample_op
        sample_src sample_group_weights unknown_tensor =
      .ok (.invalid_shape, { ndims := 4, dims := [8, 8, 3, 3, 3] }, unknown_tensor) ∧
    vdims { ndims := 4, dims := [8, 8, 3, 3, 3] } = [8, 8, 3, 3] := by
  refine ⟨fun hg => ?_, fun hg folded hf => ⟨fun hs => ?_, fun hs => ⟨?_, ?_, ?_⟩⟩,
    by decide, by decide⟩
  · have hg2 : ¬ n.groups > 1 := by omega
    unfold infer_dnnl_conv_bwd_data_output_shape
    simp only [hg2, if_false, bind, Except.bind, pure, Except.pure]
    by_cases hs : (infer_conv_bprop_data_output_shape n in0 in1 out0).1 = .success
    · exact ⟨.success, (infer_conv_bprop_data_output_shape n in0 in1 out0).2, by simp [hs]⟩
    · exact ⟨(infer_conv_bprop_data_output_shape n in0 in1 out0).1,
        (infer_conv_bprop_data_output_shape n in0 in1 out0).2, by simp [hs]⟩
  · unfold infer_dnnl_conv_bwd_data_output_shape
    simp [hg, hf, hs, bind, Except.bind, pure, Except.pure]
  · unfold infer_dnnl_conv_bwd_data_output_shape
    simp [hg, hf, hs, bind, Except.bind, pure, Except.pure]
  · exact fold_group_dim_ndims hf
  · intro he
    have := fold_group_dim_ndims hf
    rw [he] at this
    omega


theorem squeeze_loop_none (axes : List Int) (hne : axes ≠ []) :
    ∀ (ds : List Int) (i : Nat) (out : List Int),
      (∃ k d, ds[k]? = some d ∧ ((i + k : Nat) : Int) ∈ axes ∧ d ≠ 1) →
      squeeze_loop axes ds i out = none := by
  intro ds
  induction ds with
  | nil => rintro i out ⟨k, d, h, -⟩; simp at h
  | cons x xs ih =>
    rintro i out ⟨k, d, hk, hmem, hd⟩
    unfold squeeze_loop
    rw [if_neg (fun h => hne h.1)]
    cases k with
    | zero =>
      simp at hk
      subst hk
      rw [if_pos ⟨hne, by simpa using hmem⟩, if_pos hd]
    | succ k =>
      have hrec : ∀ out2, squeeze_loop axes xs (i + 1) out2 = none := fun out2 =>
        ih (i + 1) out2 ⟨k, d, by simpa using hk, by
          have : i + 1 + k = i + (k + 1) := by omega
          rw [this]; exact hmem, hd⟩
      by_cases hi : (i : Int) ∈ axes
      · rw [if_pos ⟨hne, hi⟩]
        by_cases hx : x ≠ 1
        · rw [if_pos hx]
        · rw [if_neg hx]; exact hrec _
      · rw [if_neg (fun h => hi h.2)]; exact hrec _

theorem squeeze_loop_some (axes : List Int) (hne : axes ≠ []) :
    ∀ (ds : List Int) (i : Nat) (out : List Int),
      (¬ ∃ k d, ds[k]? = some d ∧ ((i + k : Nat) : Int) ∈ axes ∧ d ≠ 1) →
      squeeze_loop axes ds i out = some (out ++ remove_positions axes ds i) := by
  intro ds
  induction ds with
  | nil => intro i out _; simp [squeeze_loop, remove_positions]
  | cons x xs ih =>
    intro i out hno
    have hrec : ∀ out2, squeeze_loop axes xs (i + 1) out2 =
        some (out2 ++ remove_positions axes xs (i + 1)) := fun out2 =>
      ih (i + 1) out2 (by
        rintro ⟨k, d, hk, hmem, hd⟩
        exact hno ⟨k + 1, d, by simpa using hk, by
          have : i + (k + 1) = i + 1 + k := by omega
          rw [this]; exact hmem, hd⟩)
    unfold squeeze_loop remove_positions
    rw [if_neg (fun h => hne h.1)]
    by_cases hi : (i : Int) ∈ axes
    · rw [if_pos ⟨hne, hi⟩, if_pos hi]
      have hx : ¬ x ≠ 1 := fun hx => hno ⟨0, x, by simp, by simpa using hi, hx⟩
      rw [if_neg hx]
      exact hrec _
    · rw [if_neg (fun h => hi h.2), if_neg hi, hrec]
      simp

theorem squeeze_loop_nil_axes :
    ∀ (ds : List Int) (i : Nat) (out : List Int),
      squeeze_loop [] ds i out = some (out ++ ds.filter (fun d => d ≠ 1)) := by
  intro ds
  induction ds with
  | nil => intro i out; simp [squeeze_loop]
  | cons x xs ih =>
    intro i out
    unfold squeeze_loop
    by_cases hx : x = 1
    · simp [hx, ih]
    · simp [hx, ih]

/-- C34: `infer_squeeze_output_shape` leaves an already-known output shape
untouched.  For an unknown output shape and a non-empty list of axes (negative
ones counted from the end) it returns `invalid_arguments` iff some listed
position holds a dimension different from 1, and otherwise sets the output to
the input dims with exactly the listed positions removed, order preserved; with
an empty list of axes it removes exactly the dimensions equal to 1. -/
theorem infer_squeeze_output_shape_spec (n : op_t) (in0 out0 : logical_tensor_t)
    (axes : List Int) (haxes : n.axes = some axes) :
    (is_shape_unknown out0 = false →
      infer_squeeze_output_shape n in0 out0 = .ok (.success, out0)) ∧
    (is_shape_unknown out0 = true → axes ≠ [] →
      ((∃ (k : Nat) (d : Int), (vdims in0)[k]? = some d ∧
          (k : Int) ∈ axes.map (normalize_axis ((vdims in0).length : Nat)) ∧ d ≠ 1) →
        infer_squeeze_output_shape n in0 out0 = .ok (.invalid_arguments, out0)) ∧
      ((¬ ∃ (k : Nat) (d : Int), (vdims in0)[k]? = some d ∧
          (k : Int) ∈ axes.map (normalize_axis ((vdims in0).length : Nat)) ∧ d ≠ 1) →
        infer_squeeze_output_shape n in0 out0 =
          .ok (.success, set_shape_and_strides out0
            (remove_positions (axes.map (normalize_axis ((vdims in0).length : Nat)))
              (vdims in0) 0)))) ∧
    (is_shape_unknown out0 = true → axes = [] →
      infer_squeeze_output_shape n in0 out0 =
        .ok (.success, set_shape_and_strides out0 ((vdims in0).filter (fun d => d ≠ 1)))) := by
  refine ⟨fun hk => ?_, fun hu hne => ⟨fun hbad => ?_, fun hgood => ?_⟩, fun hu he => ?_⟩
  · simp [infer_squeeze_output_shape, hk]
  · have hne2 : axes.map (normalize_axis ((vdims in0).length : Nat)) ≠ [] := by
      simpa using hne
    have h := squeeze_loop_none _ hne2 (vdims in0) 0 [] (by simpa using hbad)
    simp only [infer_squeeze_output_shape, hu, haxes]
    simp [h]
  · have hne2 : axes.map (normalize_axis ((vdims in0).length : Nat)) ≠ [] := by
      simpa using hne
    have h := squeeze_loop_some _ hne2 (vdims in0) 0 [] (by simpa using hgood)
    simp only [infer_squeeze_output_shape, hu, haxes]
    simp [h]
  · subst he
    simp only [infer_squeeze_output_shape, hu, haxes]
    simp [squeeze_loop_nil_axes]


theorem permute_assign_spec (in_dims : List Int) (n : Nat) :
    ∀ (ps : List Int) (i : Nat) (out : List Int),
      out.length = n → (∀ p ∈ ps, 0 ≤ p ∧ p < n) → i + ps.length ≤ in_dims.length →
      ps.Nodup →
      ∃ out2, permute_assign in_dims ps i out = .ok out2 ∧ out2.length = n ∧
        (∀ k, k < ps.length → ∃ p, ps[k]? = some p ∧ out2[p.toNat]? = in_dims[i + k]?) ∧
        (∀ j : Nat, (j : Int) ∉ ps → out2[j]? = out[j]?) := by
  intro ps
  induction ps with
  | nil =>
    intro i out hlen _ _ _
    exact ⟨out, rfl, hlen, by simp, by simp⟩
  | cons p ps ih =>
    intro i out hlen hrange hi hnd
    have hp := hrange p (by simp)
    have hpn : p.toNat < n := by omega
    have hilt : i < in_dims.length := by simp at hi; omega
    obtain ⟨v, hv⟩ : ∃ v, in_dims[i]? = some v := ⟨in_dims[i], by simp [hilt]⟩
    have hnd2 := List.nodup_cons.mp hnd
    obtain ⟨out2, hrun, hlen2, hk, hj⟩ := ih (i + 1) (out.set p.toNat v) (by simpa using hlen)
      (fun q hq => hrange q (by simp [hq])) (by simp at hi ⊢; omega) hnd2.2
    refine ⟨out2, ?_, hlen2, ?_, ?_⟩
    · unfold permute_assign
      have hc : ¬ (p < 0 ∨ (out.length : Int) ≤ p) := by rw [hlen]; omega
      rw [if_neg hc, hv]
      exact hrun
    · intro k hklt
      cases k with
      | zero =>
        refine ⟨p, by simp, ?_⟩
        have hnot : ((p.toNat : Nat) : Int) ∉ ps := by
          rw [Int.toNat_of_nonneg hp.1]; exact hnd2.1
        rw [hj p.toNat hnot]
        simp [hv, hlen, hpn]
      | succ k =>
        obtain ⟨q, hq, hval⟩ := hk k (by simpa using hklt)
        refine ⟨q, by simpa using hq, ?_⟩
        rw [hval]
        congr 1
        omega
    · intro j hjn
      have hjp : (j : Int) ≠ p := fun h => hjn (by simp [h])
      have hjps : (j : Int) ∉ ps := fun h => hjn (by simp [h])
      rw [hj j hjps]
      have : p.toNat ≠ j := by omega
      simp [List.getElem?_set, this]

/-- C37: for every input shape of rank `n` and every permutation `perm` of
`0..n-1`, `infer_permute_output_shape` computes an output shape `out` of rank `n`
with `out[perm[i]] = in[i]` for all `i`, so that every output position holds an
input dimension and no unknown dimension is left (unless the input has one); the
output tensor is set to it with status `success`, unless an output shape was
already given and is not compatible with it, in which case the function returns
`invalid_shape` and leaves the output as it is. -/
theorem infer_permute_output_shape_spec (validate : List Int → List Int → Bool) (n : op_t)
    (in0 out0 : logical_tensor_t)
    (hperm : List.Perm n.permutation
      ((List.range (vdims in0).length).map (fun (i : Nat) => (i : Int)))) :
    ∃ out, out.length = (vdims in0).length ∧
      (∀ i, i < (vdims in0).length →
        ∃ p, n.permutation[i]? = some p ∧ 0 ≤ p ∧ out[p.toNat]? = (vdims in0)[i]?) ∧
      (∀ j, j < (vdims in0).length → ∃ i, i < (vdims in0).length ∧
        n.permutation[i]? = some (j : Int) ∧ out[j]? = (vdims in0)[i]?) ∧
      (DNNL_GRAPH_UNKNOWN_DIM ∉ vdims in0 → DNNL_GRAPH_UNKNOWN_DIM ∉ out) ∧
      infer_permute_output_shape validate n in0 out0 =
        (if is_shape_unknown out0 = false ∧ validate out (vdims out0) = false
          then .ok (.invalid_shape, out0)
          else .ok (.success, set_shape_and_strides out0 out)) := by
  have hlen : n.permutation.length = (vdims in0).length := by
    rw [hperm.length_eq]; simp
  have hrange : ∀ p ∈ n.permutation, 0 ≤ p ∧ p < ((vdims in0).length : Nat) := by
    intro p hp
    have := hperm.mem_iff.mp hp
    simp only [List.mem_map, List.mem_range] at this
    obtain ⟨i, hi, rfl⟩ := this
    omega
  have hnd : n.permutation.Nodup := by
    rw [hperm.nodup_iff]
    exact (List.nodup_range _).map (fun a b h => by simpa using h)
  obtain ⟨out, hrun, holen, hk, -⟩ := permute_assign_spec (vdims in0) (vdims in0).length
    n.permutation 0 (List.replicate n.permutation.length DNNL_GRAPH_UNKNOWN_DIM)
    (by simp [hlen]) hrange (by simp [hlen]) hnd
  have hfwd : ∀ i, i < (vdims in0).length →
      ∃ p, n.permutation[i]? = some p ∧ 0 ≤ p ∧ out[p.toNat]? = (vdims in0)[i]? := by
    intro i hi
    obtain ⟨p, hp, hval⟩ := hk i (by omega)
    refine ⟨p, hp, (hrange p (List.mem_iff_getElem?.mpr ⟨_, hp⟩)).1, ?_⟩
    simpa using hval
  have hbwd : ∀ j, j < (vdims in0).length → ∃ i, i < (vdims in0).length ∧
      n.permutation[i]? = some (j : Int) ∧ out[j]? = (vdims in0)[i]? := by
    intro j hj
    have hmem : (j : Int) ∈ n.permutation :=
      hperm.mem_iff.mpr (by simp only [List.mem_map, List.mem_range]; exact ⟨j, hj, rfl⟩)
    obtain ⟨i, hi, hget⟩ := List.getElem_of_mem hmem
    have hi2 : i < (vdims in0).length := by omega
    obtain ⟨p, hp, -, hval⟩ := hfwd i hi2
    have hpe : p = (j : Int) := by
      rw [List.getElem?_eq_getElem hi] at hp
      rw [← hget]; exact (Option.some.inj hp).symm
    subst hpe
    exact ⟨i, hi2, hp, by simpa using hval⟩
  refine ⟨out, holen, hfwd, hbwd, ?_, ?_⟩
  · intro hin hout
    obtain ⟨j, hj, hval⟩ := List.getElem_of_mem hout
    obtain ⟨i, hi, -, hv2⟩ := hbwd j (by omega)
    rw [List.getElem?_eq_getElem hj, List.getElem?_eq_getElem hi, hval] at hv2
    exact hin (by rw [Option.some.inj hv2]; exact List.getElem_mem _)
  · unfold infer_permute_output_shape
    simp only [hrun, bind, Except.bind, pure, Except.pure]
    by_cases hc : is_shape_unknown out0 = false ∧ validate out (vdims out0) = false
    · rw [if_pos hc, if_pos (by simpa using hc)]
    · rw [if_neg hc, if_neg (by simpa using hc)]


theorem unsqueeze_loop_spec (axes in_dims : List Int) :
    ∀ (c i idx : Nat) (pre : List Int), pre.length = i →
      idx + ((List.range' i c).filter (fun (p : Nat) => (p : Int) ∉ axes)).length ≤ in_dims.length →
      ∃ E, unsqueeze_loop axes in_dims c i idx (pre ++ List.replicate c 1) = .ok (pre ++ E) ∧
        E.length = c ∧
        (∀ j d, E[j]? = some d → ((i + j : Nat) : Int) ∈ axes → d = 1) ∧
        remove_positions axes E i = (in_dims.drop idx).take
          ((List.range' i c).filter (fun (p : Nat) => (p : Int) ∉ axes)).length := by
  intro c
  induction c with
  | zero =>
    intro i idx pre _ _
    exact ⟨[], by simp [unsqueeze_loop], rfl, by simp, by simp [remove_positions]⟩
  | succ c ih =>
    intro i idx pre hpre hk
    rw [List.range'_succ] at hk ⊢
    by_cases hi : (i : Int) ∈ axes
    · have hf : ((i :: List.range' (i + 1) c).filter (fun (p : Nat) => (p : Int) ∉ axes)) =
          (List.range' (i + 1) c).filter (fun (p : Nat) => (p : Int) ∉ axes) := by
        simp [List.filter_cons, hi]
      rw [hf] at hk ⊢
      obtain ⟨E, hrun, hlen, hone, hrem⟩ := ih (i + 1) idx (pre ++ [1]) (by simp [hpre]) hk
      refine ⟨1 :: E, ?_, by simp [hlen], ?_, ?_⟩
      · unfold unsqueeze_loop
        rw [if_neg (not_not.mpr hi)]
        have : pre ++ List.replicate (c + 1) 1 = (pre ++ [1]) ++ List.replicate c 1 := by
          simp [List.replicate_succ]
        rw [this, hrun]
        simp
      · intro j d hj hm
        cases j with
        | zero => simpa using hj.symm
        | succ j =>
          exact hone j d (by simpa using hj) (by
            have : i + 1 + j = i + (j + 1) := by omega
            rw [this]; exact hm)
      · simp [remove_positions, hi, hrem]
    · have hf : ((i :: List.range' (i + 1) c).filter (fun (p : Nat) => (p : Int) ∉ axes)) =
          i :: (List.range' (i + 1) c).filter (fun (p : Nat) => (p : Int) ∉ axes) := by
        simp [List.filter_cons, hi]
      rw [hf] at hk ⊢
      simp only [List.length_cons] at hk ⊢
      have hidx : idx < in_dims.length := by omega
      obtain ⟨E, hrun, hlen, hone, hrem⟩ := ih (i + 1) (idx + 1) (pre ++ [in_dims[idx]])
        (by simp [hpre]) (by omega)
      refine ⟨in_dims[idx] :: E, ?_, by simp [hlen], ?_, ?_⟩
      · unfold unsqueeze_loop
        rw [if_pos hi]
        have hget : in_dims[idx]? = some in_dims[idx] := by simp [hidx]
        rw [hget]
        have : (pre ++ List.replicate (c + 1) 1).set i in_dims[idx] =
            (pre ++ [in_dims[idx]]) ++ List.replicate c 1 := by
          rw [← hpre]
          simp [List.replicate_succ, List.set_append]
        simp only [this, hrun]
        simp
      · intro j d hj hm
        cases j with
        | zero => exact absurd (by simpa using hm) hi
        | succ j =>
          exact hone j d (by simpa using hj) (by
            have : i + 1 + j = i + (j + 1) := by omega
            rw [this]; exact hm)
      · simp only [remove_positions, hi, if_false, hrem]
        rw [List.drop_eq_getElem_cons hidx, List.take_succ_cons]

theorem count_non_axes (axes : List Int) (n : Nat) (hnd : axes.Nodup)
    (hrange : ∀ a ∈ axes, 0 ≤ a ∧ a < n) :
    ((List.range' 0 n).filter (fun (p : Nat) => (p : Int) ∉ axes)).length + axes.length = n := by
  have hperm : List.Perm (((List.range n).filter (fun (p : Nat) => decide ((p : Int) ∈ axes))).map
      (fun (i : Nat) => (i : Int))) axes := by
    rw [List.perm_ext_iff_of_nodup _ hnd]
    · intro a
      simp only [List.mem_map, List.mem_filter, List.mem_range, decide_eq_true_eq]
      constructor
      · rintro ⟨i, ⟨-, hi⟩, rfl⟩; exact hi
      · intro ha
        have := hrange a ha
        exact ⟨a.toNat, ⟨by omega, by rwa [Int.toNat_of_nonneg this.1]⟩,
          Int.toNat_of_nonneg this.1⟩
    · exact ((List.nodup_range n).filter _).map (fun a b h => by simpa using h)
  have hlen := hperm.length_eq
  simp only [List.length_map] at hlen
  have hsplit := List.length_eq_length_filter_add (l := List.range n)
    (fun (p : Nat) => decide ((p : Int) ∈ axes))
  rw [List.range_eq_range'] at hsplit hlen
  simp only [List.length_range'] at hsplit
  have heq : (List.range' 0 n).filter (fun (p : Nat) => decide ((p : Int) ∉ axes)) =
      (List.range' 0 n).filter (fun (p : Nat) => !decide ((p : Int) ∈ axes)) := by
    congr 1
    funext p
    simp
  rw [heq]
  omega


/-- C35: squeeze undoes unsqueeze.  For every input shape and every non-empty
list of axes that are valid for `rank(in) + len(axes)` (negative axes allowed)
and name distinct positions, and output tensors of unknown shape, the shape
produced by `infer_unsqueeze_output_shape` has `rank(in) + len(axes)` dims with 1
at each listed axis, and `infer_squeeze_output_shape` applied to it with the same
axes gives back the input shape. -/
theorem squeeze_undoes_unsqueeze (n : op_t) (in0 out0 out1 : logical_tensor_t)
    (axes : List Int) (haxes : n.axes = some axes) (hne : axes ≠ [])
    (hrange : ∀ a ∈ axes, -(((vdims in0).length + axes.length : Nat) : Int) ≤ a ∧
      a < (((vdims in0).length + axes.length : Nat) : Int))
    (hnd : (axes.map (normalize_axis (((vdims in0).length + axes.length : Nat) : Int))).Nodup)
    (hout0 : is_shape_unknown out0 = true) (hout1 : is_shape_unknown out1 = true) :
    ∃ t, infer_unsqueeze_output_shape n in0 out0 = .ok (.success, t) ∧
      (vdims t).length = (vdims in0).length + axes.length ∧
      (∀ a ∈ axes, (vdims t)[(normalize_axis
        (((vdims in0).length + axes.length : Nat) : Int) a).toNat]? = some 1) ∧
      ∃ r, infer_squeeze_output_shape n t out1 = .ok (.success, r) ∧ vdims r = vdims in0 := by
  have hArange : ∀ a ∈ axes.map
      (normalize_axis (((vdims in0).length + axes.length : Nat) : Int)),
      0 ≤ a ∧ a < (((vdims in0).length + axes.length : Nat) : Int) := by
    intro a ha
    obtain ⟨b, hb, rfl⟩ := List.mem_map.mp ha
    have := hrange b hb
    unfold normalize_axis
    split_ifs <;> omega
  have hcount := count_non_axes _ ((vdims in0).length + axes.length) hnd hArange
  simp only [List.length_map] at hcount
  have hk : ((List.range' 0 ((vdims in0).length + axes.length)).filter
      (fun (p : Nat) => (p : Int) ∉ axes.map
        (normalize_axis (((vdims in0).length + axes.length : Nat) : Int)))).length
      = (vdims in0).length := by omega
  obtain ⟨E, hrun, hlen, hone, hrem⟩ := unsqueeze_loop_spec
    (axes.map (normalize_axis (((vdims in0).length + axes.length : Nat) : Int))) (vdims in0)
    ((vdims in0).length + axes.length) 0 0 [] rfl (by rw [hk]; omega)
  rw [hk] at hrem
  simp only [List.nil_append, List.drop_zero, List.take_length] at hrun hrem
  have hany : axes.any (fun axis =>
      decide (axis < -(((vdims in0).length + axes.length : Nat) : Int) ∨
        axis ≥ (((vdims in0).length + axes.length : Nat) : Int))) = false := by
    rw [List.any_eq_false]
    intro a ha
    have := hrange a ha
    simp only [decide_eq_true_eq]
    omega
  have hdedup : ¬ ((axes.map
      (normalize_axis (((vdims in0).length + axes.length : Nat) : Int))).dedup.length
      < (axes.map
        (normalize_axis (((vdims in0).length + axes.length : Nat) : Int))).length) := by
    rw [hnd.dedup]; omega
  refine ⟨set_shape_and_strides out0 E, ?_, by rw [vdims_set_shape_and_strides, hlen], ?_, ?_⟩
  · unfold infer_unsqueeze_output_shape
    simp only [hout0, haxes, Option.getD_some, not_true_eq_false, if_false, hany,
      Bool.false_eq_true, hdedup, Int.toNat_ofNat, hrun]
  · intro a ha
    rw [vdims_set_shape_and_strides]
    have hmem : normalize_axis (((vdims in0).length + axes.length : Nat) : Int) a ∈
        axes.map (normalize_axis (((vdims in0).length + axes.length : Nat) : Int)) :=
      List.mem_map.mpr ⟨a, ha, rfl⟩
    have hr := hArange _ hmem
    have hlt : (normalize_axis (((vdims in0).length + axes.length : Nat) : Int) a).toNat
        < E.length := by rw [hlen]; omega
    rw [List.getElem?_eq_getElem hlt]
    congr 1
    apply hone _ _ (List.getElem?_eq_getElem hlt)
    simp only [Nat.zero_add]
    rw [Int.toNat_of_nonneg hr.1]
    exact hmem
  · have hne2 : axes.map
        (normalize_axis (((vdims in0).length + axes.length : Nat) : Int)) ≠ [] := by
      simpa using hne
    have hsq := squeeze_loop_some _ hne2 E 0 [] (by
      rintro ⟨k, d, hkd, hmem, hd⟩
      exact hd (hone k d hkd hmem))
    refine ⟨set_shape_and_strides out1 (vdims in0), ?_, vdims_set_shape_and_strides _ _⟩
    unfold infer_squeeze_output_shape
    simp only [hout1, haxes, not_true_eq_false, if_false, vdims_set_shape_and_strides, hlen,
      hsq, List.nil_append, hrem]


theorem from_group_undoes_to_group_witness :
    ∃ t, infer_to_group_output_shape sample_op sample_weights unknown_tensor
        = .ok (.success, t) ∧
      vdims t = sample_op.groups ::
        (vdims sample_weights).set (if attr_is_true sample_op.is_convtranspose then 1 else 0)
          (Int.tdiv 16 sample_op.groups) ∧
      (vdims t).prod = (vdims sample_weights).prod ∧
      ∃ r, infer_from_group_output_shape sample_op t unknown_tensor = .ok (.success, r) ∧
        vdims r = vdims sample_weights :=
  from_group_undoes_to_group sample_op sample_weights unknown_tensor unknown_tensor 16
    (by decide) (by decide) (by decide) (by decide) (by decide)

theorem infer_squeeze_output_shape_spec_witness :
    (is_shape_unknown unknown_tensor = false →
      infer_squeeze_output_shape sample_axes_op sample_squeezable unknown_tensor
        = .ok (.success, unknown_tensor)) ∧
    (is_shape_unknown unknown_tensor = true → [(0 : Int), -1] ≠ [] →
      ((∃ (k : Nat) (d : Int), (vdims sample_squeezable)[k]? = some d ∧
          (k : Int) ∈ [(0 : Int), -1].map
            (normalize_axis ((vdims sample_squeezable).length : Nat)) ∧ d ≠ 1) →
        infer_squeeze_output_shape sample_axes_op sample_squeezable unknown_tensor
          = .ok (.invalid_arguments, unknown_tensor)) ∧
      ((¬ ∃ (k : Nat) (d : Int), (vdims sample_squeezable)[k]? = some d ∧
          (k : Int) ∈ [(0 : Int), -1].map
            (normalize_axis ((vdims sample_squeezable).length : Nat)) ∧ d ≠ 1) →
        infer_squeeze_output_shape sample_axes_op sample_squeezable unknown_tensor =
          .ok (.success, set_shape_and_strides unknown_tensor
            (remove_positions ([(0 : Int), -1].map
              (normalize_axis ((vdims sample_squeezable).length : Nat)))
              (vdims sample_squeezable) 0)))) ∧
    (is_shape_unknown unknown_tensor = true → [(0 : Int), -1] = [] →
      infer_squeeze_output_shape sample_axes_op sample_squeezable unknown_tensor =
        .ok (.success, set_shape_and_strides unknown_tensor
          ((vdims sample_squeezable).filter (fun d => d ≠ 1)))) :=
  infer_squeeze_output_shape_spec sample_axes_op sample_squeezable unknown_tensor [0, -1] rfl

theorem squeeze_undoes_unsqueeze_witness :
    ∃ t, infer_unsqueeze_output_shape sample_axes_op sample_squeezed unknown_tensor
        = .ok (.success, t) ∧
      (vdims t).length = (vdims sample_squeezed).length + [(0 : Int), -1].length ∧
      (∀ a ∈ [(0 : Int), -1], (vdims t)[(normalize_axis
        (((vdims sample_squeezed).length + [(0 : Int), -1].length : Nat) : Int) a).toNat]?
          = some 1) ∧
      ∃ r, infer_squeeze_output_shape sample_axes_op t unknown_tensor = .ok (.success, r) ∧
        vdims r = vdims sample_squeezed :=
  squeeze_undoes_unsqueeze sample_axes_op sample_squeezed unknown_tensor unknown_tensor
    [0, -1] rfl (by decide) (by decide) (by decide) (by decide) (by decide)

theorem infer_permute_output_shape_spec_witness :
    ∃ out, out.length = (vdims sample_3d).length ∧
      (∀ i, i < (vdims sample_3d).length →
        ∃ p, sample_permute_op.permutation[i]? = some p ∧ 0 ≤ p ∧
          out[p.toNat]? = (vdims sample_3d)[i]?) ∧
      (∀ j, j < (vdims sample_3d).length → ∃ i, i < (vdims sample_3d).length ∧
        sample_permute_op.permutation[i]? = some (j : Int) ∧
          out[j]? = (vdims sample_3d)[i]?) ∧
      (DNNL_GRAPH_UNKNOWN_DIM ∉ vdims sample_3d → DNNL_GRAPH_UNKNOWN_DIM ∉ out) ∧
      infer_permute_output_shape sample_validate sample_permute_op sample_3d unknown_tensor =
        (if is_shape_unknown unknown_tensor = false ∧
            sample_validate out (vdims unknown_tensor) = false
          then .ok (.invalid_shape, unknown_tensor)
          else .ok (.success, set_shape_and_strides unknown_tensor out)) :=
  infer_permute_output_shape_spec sample_validate sample_permute_op sample_3d unknown_tensor
    (by decide)

end shape_infer

/-! ## The memory pool of benchdnn: theorems -/

namespace memory_pool

theorem find_free_some (m : List (Nat × Bool)) (l : List (Nat × Nat)) (size p : Nat)
    (h : find_free m l size = some p) : (size, p) ∈ l ∧ is_free m p = true := by
  induction l with
  | nil => simp [find_free] at h
  | cons e rest ih =>
    obtain ⟨sz, q⟩ := e
    unfold find_free at h
    split_ifs at h with hc
    · cases h
      exact ⟨by simp [hc.1], hc.2⟩
    · exact ⟨List.mem_cons_of_mem _ (ih h).1, (ih h).2⟩

theorem find_free_none (m : List (Nat × Bool)) (l : List (Nat × Nat)) (size : Nat)
    (h : find_free m l size = none) : ∀ p, (size, p) ∈ l → is_free m p = false := by
  induction l with
  | nil => simp
  | cons e rest ih =>
    obtain ⟨sz, q⟩ := e
    unfold find_free at h
    split_ifs at h with hc
    intro p hp
    rcases List.mem_cons.mp hp with heq | hin
    · cases heq
      simpa using hc
    · exact ih h p hin

theorem allocate_zero (host_malloc : Nat → Nat) (pool : simple_memory_pool_t) (alignment : Nat) :
    allocate host_malloc pool 0 alignment = (0, pool) := by
  simp [allocate]

theorem allocate_reuse (host_malloc : Nat → Nat) (pool : simple_memory_pool_t)
    (size alignment p : Nat) (hs : size ≠ 0)
    (h : find_free pool.is_free_ptr_ pool.map_size_ptr_ size = some p) :
    allocate host_malloc pool size alignment
      = (p, { pool with is_free_ptr_ := (p, false) :: pool.is_free_ptr_ }) := by
  simp [allocate, check_allocated_mem, hs, h]

theorem allocate_new (host_malloc : Nat → Nat) (pool : simple_memory_pool_t)
    (size alignment : Nat) (hs : size ≠ 0)
    (h : find_free pool.is_free_ptr_ pool.map_size_ptr_ size = none) :
    allocate host_malloc pool size alignment
      = (host_malloc pool.mallocs,
         { map_size_ptr_ := pool.map_size_ptr_ ++ [(size, host_malloc pool.mallocs)],
           is_free_ptr_ := (host_malloc pool.mallocs, false) :: pool.is_free_ptr_,
           mallocs := pool.mallocs + 1 }) := by
  simp [allocate, check_allocated_mem, hs, h]

theorem pool_inv_step (host_malloc : Nat → Nat) (hnn : ∀ i, host_malloc i ≠ 0)
    (st : simple_memory_pool_t × List Nat) (c : call_t) (hinv : pool_inv host_malloc st) :
    pool_inv host_malloc (step host_malloc st c) := by
  obtain ⟨pool, used⟩ := st
  obtain ⟨h1, h2, h3⟩ := hinv
  simp only at h1 h2 h3
  cases c with
  | allocate size alignment =>
    by_cases hs : size = 0
    · subst hs
      simp only [step, allocate_zero, if_true]
      exact ⟨h1, h2, h3⟩
    · cases hf : find_free pool.is_free_ptr_ pool.map_size_ptr_ size with
      | some p =>
        obtain ⟨hmem, hfree⟩ := find_free_some _ _ _ _ hf
        obtain ⟨i, hi, hpi⟩ := h1 _ hmem
        simp only at hpi
        have hp0 : p ≠ 0 := by rw [hpi]; exact hnn i
        simp only [step, allocate_reuse host_malloc pool size alignment p hs hf, if_neg hp0]
        refine ⟨h1, ?_, ?_⟩
        · intro q hq
          rcases List.mem_cons.mp hq with rfl | hq
          · exact ⟨i, hi, hpi⟩
          · exact h2 q hq
        · intro e he hfe
          have hpe : ¬ p = e.2 := by
            intro hpe
            simp [is_free, hpe] at hfe
          have hfe2 : is_free pool.is_free_ptr_ e.2 = true := by
            simpa [is_free, hpe] using hfe
          intro hin
          rcases List.mem_cons.mp hin with heq | hin
          · exact hpe heq.symm
          · exact h3 e he hfe2 hin
      | none =>
        have hp0 : host_malloc pool.mallocs ≠ 0 := hnn _
        simp only [step, allocate_new host_malloc pool size alignment hs hf, if_neg hp0]
        refine ⟨?_, ?_, ?_⟩
        · intro e he
          rcases List.mem_append.mp he with he | he
          · obtain ⟨i, hi, hei⟩ := h1 e he
            exact ⟨i, Nat.lt_succ_of_lt hi, hei⟩
          · simp only [List.mem_singleton] at he
            subst he
            exact ⟨pool.mallocs, Nat.lt_succ_self _, rfl⟩
        · intro q hq
          rcases List.mem_cons.mp hq with rfl | hq
          · exact ⟨pool.mallocs, Nat.lt_succ_self _, rfl⟩
          · obtain ⟨i, hi, hqi⟩ := h2 q hq
            exact ⟨i, Nat.lt_succ_of_lt hi, hqi⟩
        · intro e he hfe
          have hpe : ¬ host_malloc pool.mallocs = e.2 := by
            intro hpe
            simp [is_free, hpe] at hfe
          have hfe2 : is_free pool.is_free_ptr_ e.2 = true := by
            simpa [is_free, hpe] using hfe
          intro hin
          rcases List.mem_cons.mp hin with heq | hin
          · exact hpe heq.symm
          · rcases List.mem_append.mp he with he | he
            · exact h3 e he hfe2 hin
            · simp only [List.mem_singleton] at he
              subst he
              exact hpe rfl
  | deallocate ptr =>
    simp only [step, deallocate]
    refine ⟨h1, ?_, ?_⟩
    · intro q hq
      exact h2 q (List.mem_of_mem_filter hq)
    · intro e he hfe hin
      have hin2 := List.mem_filter.mp hin
      by_cases hpe : ptr = e.2
      · simp [hpe] at hin2
      · have hfe2 : is_free pool.is_free_ptr_ e.2 = true := by
          simpa [is_free, hpe] using hfe
        exact h3 e he hfe2 hin2.1
  | clear =>
    simp only [step, clear]
    exact ⟨by simp, h2, by simp⟩

theorem pool_inv_foldl (host_malloc : Nat → Nat) (hnn : ∀ i, host_malloc i ≠ 0)
    (calls : List call_t) (st : simple_memory_pool_t × List Nat) (hinv : pool_inv host_malloc st) :
    pool_inv host_malloc (calls.foldl (step host_malloc) st) := by
  induction calls generalizing st with
  | nil => exact hinv
  | cons c rest ih => exact ih _ (pool_inv_step host_malloc hnn st c hinv)

theorem pool_inv_run (host_malloc : Nat → Nat) (hnn : ∀ i, host_malloc i ≠ 0)
    (calls : List call_t) : pool_inv host_malloc (run host_malloc calls) := by
  unfold run
  apply pool_inv_foldl host_malloc hnn
  exact ⟨by simp, by simp, by simp⟩

/-- The pointers of the pool are pairwise different: an address enters the pool
once, with the size it was allocated for. -/
theorem run_map_nodup (host_malloc : Nat → Nat) (hinj : Function.Injective host_malloc)
    (calls : List call_t) :
    ((run host_malloc calls).1.map_size_ptr_.map Prod.snd).Nodup := by
  have key : ∀ (calls : List call_t) (st : simple_memory_pool_t × List Nat),
      ((st.1.map_size_ptr_.map Prod.snd).Nodup ∧
        ∀ e ∈ st.1.map_size_ptr_, ∃ i, i < st.1.mallocs ∧ e.2 = host_malloc i) →
      (((calls.foldl (step host_malloc) st).1.map_size_ptr_.map Prod.snd).Nodup ∧
        ∀ e ∈ (calls.foldl (step host_malloc) st).1.map_size_ptr_,
          ∃ i, i < (calls.foldl (step host_malloc) st).1.mallocs ∧ e.2 = host_malloc i) := by
    intro calls
    induction calls with
    | nil => intro st h; exact h
    | cons c rest ih =>
      intro st h
      apply ih
      obtain ⟨pool, used⟩ := st
      obtain ⟨hnd, h1⟩ := h
      simp only at hnd h1
      cases c with
      | allocate size alignment =>
        by_cases hs : size = 0
        · subst hs
          simp only [step, allocate_zero]
          exact ⟨hnd, h1⟩
        · cases hf : find_free pool.is_free_ptr_ pool.map_size_ptr_ size with
          | some p =>
            simp only [step, allocate_reuse host_malloc pool size alignment p hs hf]
            exact ⟨hnd, h1⟩
          | none =>
            simp only [step, allocate_new host_malloc pool size alignment hs hf]
            refine ⟨?_, ?_⟩
            · rw [List.map_append, List.nodup_append]
              refine ⟨hnd, by simp, ?_⟩
              intro a ha hb
              simp only [List.map_cons, List.map_nil, List.mem_singleton] at hb
              obtain ⟨e, he, hea⟩ := List.mem_map.mp ha
              obtain ⟨i, hi, hei⟩ := h1 e he
              rw [hea, hb] at hei
              have := hinj hei
              omega
            · intro e he
              rcases List.mem_append.mp he with he | he
              · obtain ⟨i, hi, hei⟩ := h1 e he
                exact ⟨i, Nat.lt_succ_of_lt hi, hei⟩
              · simp only [List.mem_singleton] at he
                subst he
                exact ⟨pool.mallocs, Nat.lt_succ_self _, rfl⟩
      | deallocate ptr =>
        simp only [step, deallocate]
        exact ⟨hnd, h1⟩
      | clear =>
        simp only [step, clear]
        exact ⟨by simp, by simp⟩
  exact (key calls _ ⟨by simp, by simp⟩).1

/-- Claim C40: in every state the pool reaches by `allocate`, `deallocate` and
`clear` from the empty pool, with an allocator that returns fresh non-null
addresses, `allocate(0)` returns null and changes nothing, and `allocate(size)`
with `size > 0` returns a non-null buffer that is not in use and that the pool
holds with exactly that size (and with no other size); when the pool holds a
free buffer of that size the returned one is such a buffer and the allocator is
not called, otherwise the returned buffer is a new one from the allocator. -/
theorem allocate_never_in_use (host_malloc : Nat → Nat)
    (hinj : Function.Injective host_malloc) (hnn : ∀ i, host_malloc i ≠ 0)
    (calls : List call_t) (size alignment : Nat) :
    (allocate host_malloc (run host_malloc calls).1 0 alignment
        = (0, (run host_malloc calls).1)) ∧
    (0 < size →
      (allocate host_malloc (run host_malloc calls).1 size alignment).1 ≠ 0 ∧
      (allocate host_malloc (run host_malloc calls).1 size alignment).1
        ∉ (run host_malloc calls).2 ∧
      (∀ sz, (sz, (allocate host_malloc (run host_malloc calls).1 size alignment).1)
          ∈ (allocate host_malloc (run host_malloc calls).1 size alignment).2.map_size_ptr_
        ↔ sz = size) ∧
      ((∃ p, (size, p) ∈ (run host_malloc calls).1.map_size_ptr_ ∧
            is_free (run host_malloc calls).1.is_free_ptr_ p = true) →
          (size, (allocate host_malloc (run host_malloc calls).1 size alignment).1)
            ∈ (run host_malloc calls).1.map_size_ptr_ ∧
          is_free (run host_malloc calls).1.is_free_ptr_
            (allocate host_malloc (run host_malloc calls).1 size alignment).1 = true ∧
          (allocate host_malloc (run host_malloc calls).1 size alignment).2.map_size_ptr_
            = (run host_malloc calls).1.map_size_ptr_ ∧
          (allocate host_malloc (run host_malloc calls).1 size alignment).2.mallocs
            = (run host_malloc calls).1.mallocs) ∧
      ((¬ ∃ p, (size, p) ∈ (run host_malloc calls).1.map_size_ptr_ ∧
            is_free (run host_malloc calls).1.is_free_ptr_ p = true) →
          (allocate host_malloc (run host_malloc calls).1 size alignment).1
            = host_malloc (run host_malloc calls).1.mallocs ∧
          (allocate host_malloc (run host_malloc calls).1 size alignment).2.map_size_ptr_
            = (run host_malloc calls).1.map_size_ptr_
              ++ [(size, host_malloc (run host_malloc calls).1.mallocs)] ∧
          (allocate host_malloc (run host_malloc calls).1 size alignment).2.mallocs
            = (run host_malloc calls).1.mallocs + 1)) := by
  have hinv := pool_inv_run host_malloc hnn calls
  have hnd := run_map_nodup host_malloc hinj calls
  generalize run host_malloc calls = st at hinv hnd
  obtain ⟨pool, used⟩ := st
  obtain ⟨h1, h2, h3⟩ := hinv
  simp only at h1 h2 h3 hnd ⊢
  refine ⟨allocate_zero _ _ _, ?_⟩
  intro hpos
  have hs : size ≠ 0 := by omega
  cases hf : find_free pool.is_free_ptr_ pool.map_size_ptr_ size with
  | some p =>
    obtain ⟨hmem, hfree⟩ := find_free_some _ _ _ _ hf
    obtain ⟨i, hi, hpi⟩ := h1 _ hmem
    simp only at hpi
    rw [allocate_reuse host_malloc pool size alignment p hs hf]
    simp only
    refine ⟨by rw [hpi]; exact hnn i, h3 _ hmem hfree, ?_, ?_, ?_⟩
    · intro sz
      constructor
      · intro hsz
        by_contra hne
        have := List.inj_on_of_nodup_map hnd hsz hmem rfl
        exact hne (Prod.mk.inj this).1
      · rintro rfl
        exact hmem
    · intro _
      exact ⟨hmem, hfree, by simp, by simp⟩
    · intro hno
      exact absurd ⟨p, hmem, hfree⟩ hno
  | none =>
    have hnone := find_free_none _ _ _ hf
    rw [allocate_new host_malloc pool size alignment hs hf]
    simp only
    have hfresh : ∀ e ∈ pool.map_size_ptr_, e.2 ≠ host_malloc pool.mallocs := by
      intro e he heq
      obtain ⟨i, hi, hei⟩ := h1 e he
      rw [heq] at hei
      have := hinj hei
      omega
    refine ⟨hnn _, ?_, ?_, ?_, ?_⟩
    · intro hin
      obtain ⟨i, hi, hqi⟩ := h2 _ hin
      have := hinj hqi
      omega
    · intro sz
      constructor
      · intro hsz
        rcases List.mem_append.mp hsz with hsz | hsz
        · exact absurd rfl (hfresh _ hsz)
        · simp only [List.mem_singleton] at hsz
          exact (Prod.mk.inj hsz).1
      · rintro rfl
        simp
    · rintro ⟨p, hp, hpf⟩
      rw [hnone p hp] at hpf
      cases hpf
    · intro _
      exact ⟨by simp, by simp, by simp⟩

/-- Witness for C40: with the allocator that returns the addresses 1, 2, ...,
after two buffers of 8 bytes were allocated and the first one was given back,
`allocate(8)` hands out the first buffer again, which is not in use. -/
theorem allocate_never_in_use_witness :
    Function.Injective sample_host_malloc ∧ (∀ i, sample_host_malloc i ≠ 0) ∧
    (run sample_host_malloc sample_calls).2 = [2] ∧
    (allocate sample_host_malloc (run sample_host_malloc sample_calls).1 8 64).1 = 1 ∧
    (allocate sample_host_malloc (run sample_host_malloc sample_calls).1 8 64).1
      ∉ (run sample_host_malloc sample_calls).2 :=
  ⟨fun a b h => Nat.succ.inj h, fun i => Nat.succ_ne_zero i, by decide, by decide,
   ((allocate_never_in_use sample_host_malloc (fun a b h => Nat.succ.inj h)
      (fun i => Nat.succ_ne_zero i) sample_calls 8 64).2 (by decide)).2.1⟩

end memory_pool

namespace bn_model

/-! ## Theorems -/

theorem tdiv_ne_zero_iff_le {a d : Int} (ha : 0 ≤ a) (hd : 0 < d) :
    Int.tdiv a d ≠ 0 ↔ d ≤ a := by
  rw [Int.tdiv_eq_ediv ha hd.le]
  constructor
  · intro h
    by_contra hlt
    exact h (Int.ediv_eq_zero_of_lt ha (not_le.mp hlt))
  · intro h h0
    have := Int.lt_ediv_add_one_mul_self a hd
    rw [h0] at this
    omega

theorem two_pow_pos_int (i : Nat) : (0 : Int) < 2 ^ i := by positivity

theorem tdiv_two_pow_succ (i : Nat) : Int.tdiv ((2 : Int) ^ (i + 1)) 2 = 2 ^ i := by
  rw [Int.tdiv_eq_ediv (by positivity) (by norm_num), pow_succ]
  exact Int.mul_ediv_cancel _ (by norm_num)

/-- Started at a power of two whose product with `simd` is representable, the
loop of `get_nhwc_vect_size` stops at the largest power of two `2 ^ j` below the
start with `2 ^ j * simd <= ic`. -/
theorem get_nhwc_vect_size_loop_pow2 {ic simd : Int} (hs : 0 < simd) (hic : simd ≤ ic) :
    ∀ (i fuel : Nat), i < fuel → 2 ^ i * simd ≤ INT_MAX →
      ∃ j, j ≤ i ∧ get_nhwc_vect_size_loop ic simd fuel (2 ^ i) = .ok (2 ^ j) ∧
        2 ^ j * simd ≤ ic ∧ ∀ j2, j < j2 → j2 ≤ i → ic < 2 ^ j2 * simd := by
  intro i
  induction i with
  | zero =>
    intro fuel hf hfit
    obtain ⟨f, rfl⟩ : ∃ f, fuel = f + 1 := ⟨fuel - 1, by omega⟩
    refine ⟨0, le_refl _, ?_, by simpa using hic, fun j2 h1 h2 => by omega⟩
    have hmin : ¬ (ic = INT_MIN ∧ (2 : Int) ^ 0 * simd = -1) := by
      rintro ⟨h, -⟩; unfold INT_MIN at h; omega
    have hfits : fits_int (2 ^ 0 * simd) := by
      constructor
      · unfold INT_MIN; simp; omega
      · exact hfit
    have hne : (2 : Int) ^ 0 * simd ≠ 0 := by simp; omega
    have hq : Int.tdiv ic (2 ^ 0 * simd) ≠ 0 :=
      (tdiv_ne_zero_iff_le (by omega) (by simpa using hs)).mpr (by simpa using hic)
    simp only [get_nhwc_vect_size_loop, hfits, hne, hmin, hq, not_true_eq_false, if_false,
      ne_eq, not_false_eq_true, if_true]
  | succ i ih =>
    intro fuel hf hfit
    obtain ⟨f, rfl⟩ : ∃ f, fuel = f + 1 := ⟨fuel - 1, by omega⟩
    have hpos : (0 : Int) < 2 ^ (i + 1) * simd := mul_pos (two_pow_pos_int _) hs
    have hmin : ¬ (ic = INT_MIN ∧ (2 : Int) ^ (i + 1) * simd = -1) := by
      rintro ⟨h, -⟩; unfold INT_MIN at h; omega
    have hfits : fits_int (2 ^ (i + 1) * simd) := by
      constructor
      · unfold INT_MIN; omega
      · exact hfit
    have hne : (2 : Int) ^ (i + 1) * simd ≠ 0 := by omega
    by_cases hle : 2 ^ (i + 1) * simd ≤ ic
    · have hq : Int.tdiv ic (2 ^ (i + 1) * simd) ≠ 0 :=
        (tdiv_ne_zero_iff_le (by omega) hpos).mpr hle
      refine ⟨i + 1, le_refl _, ?_, hle, fun j2 h1 h2 => by omega⟩
      simp only [get_nhwc_vect_size_loop, hfits, hne, hmin, hq, not_true_eq_false, if_false,
        ne_eq, not_false_eq_true, if_true]
    · have hq : ¬ Int.tdiv ic (2 ^ (i + 1) * simd) ≠ 0 := by
        rw [tdiv_ne_zero_iff_le (by omega) hpos]; exact hle
      have hfit2 : (2 : Int) ^ i * simd ≤ INT_MAX := by
        have : (2 : Int) ^ i * simd ≤ 2 ^ (i + 1) * simd := by
          have h2 : (2 : Int) ^ i ≤ 2 ^ (i + 1) := by
            rw [pow_succ]; have := two_pow_pos_int i; omega
          exact Int.mul_le_mul_of_nonneg_right h2 hs.le
        omega
      obtain ⟨j, hj, hrun, hjle, hmax⟩ := ih f (by omega) hfit2
      refine ⟨j, by omega, ?_, hjle, ?_⟩
      · simp only [get_nhwc_vect_size_loop, hfits, hne, hmin, not_true_eq_false, if_false]
        rw [if_neg hq, tdiv_two_pow_succ]
        exact hrun
      · intro j2 h1 h2
        by_cases h3 : j2 ≤ i
        · exact hmax j2 h1 h3
        · have : j2 = i + 1 := by omega
          subst this
          omega

theorem pow2_exponent_lt {k : Nat} {simd : Int} (hs : 0 < simd)
    (hfit : (2 : Int) ^ k * simd ≤ INT_MAX) : k < 31 := by
  by_contra hk
  have h31 : (2 : Int) ^ 31 ≤ 2 ^ k := pow_le_pow_right₀ (by norm_num) (by omega)
  have h1 : (2 : Int) ^ k * 1 ≤ 2 ^ k * simd :=
    Int.mul_le_mul_of_nonneg_left (by omega) (two_pow_pos_int k).le
  unfold INT_MAX at hfit
  norm_num at h31
  omega

theorem pow2_le_pow2 {a b : Nat} (h : (2 : Int) ^ a ≤ 2 ^ b) : a ≤ b := by
  by_contra hlt
  have h1 : (2 : Int) ^ (b + 1) ≤ 2 ^ a := pow_le_pow_right₀ (by norm_num) (by omega)
  have h2 : (2 : Int) ^ b < 2 ^ (b + 1) := by
    rw [pow_succ]; have := two_pow_pos_int b; omega
  omega

theorem le_of_dvd_tmod {ic simd : Int} (hs : 0 < simd) (hic : 0 < ic)
    (hdiv : Int.tmod ic simd = 0) : simd ≤ ic := by
  rw [Int.tmod_eq_emod hic.le hs.le] at hdiv
  exact Int.le_of_dvd hic (Int.dvd_of_emod_eq_zero hdiv)

/-- C1 (amended): for positive `ic` and `simd` with `ic % simd == 0` and a
`max_vect_size` that is a power of two whose product with `simd` is a
representable `int`, `get_nhwc_vect_size(ic, max_vect_size, simd)` returns the
largest power of two `v <= max_vect_size` with `ic / (v * simd) > 0`; in
particular `get_nhwc_vect_size(256, 8, 16) = 8`. -/
theorem get_nhwc_vect_size_largest_pow2 (ic max_vect_size simd : Int)
    (hs : 0 < simd) (hic : 0 < ic) (hdiv : Int.tmod ic simd = 0)
    (hp : is_pow2 max_vect_size) (hfit : max_vect_size * simd ≤ INT_MAX) :
    (∃ v, get_nhwc_vect_size ic max_vect_size simd = .ok v ∧ is_pow2 v ∧
      v ≤ max_vect_size ∧ 0 < Int.tdiv ic (v * simd) ∧
      ∀ w, is_pow2 w → w ≤ max_vect_size → 0 < Int.tdiv ic (w * simd) → w ≤ v) ∧
    get_nhwc_vect_size 256 8 16 = .ok 8 := by
  refine ⟨?_, by decide⟩
  obtain ⟨k, rfl⟩ := hp
  have hle := le_of_dvd_tmod hs hic hdiv
  have hk := pow2_exponent_lt hs hfit
  obtain ⟨j, hj, hrun, hjle, hmax⟩ :=
    get_nhwc_vect_size_loop_pow2 hs hle k 34 (by omega) hfit
  have hposj : (0 : Int) < 2 ^ j * simd := mul_pos (two_pow_pos_int _) hs
  refine ⟨2 ^ j, hrun, ⟨j, rfl⟩, pow_le_pow_right₀ (by norm_num) hj, ?_, ?_⟩
  · have h := (tdiv_ne_zero_iff_le hic.le hposj).mpr hjle
    have h0 : 0 ≤ Int.tdiv ic (2 ^ j * simd) := by
      rw [Int.tdiv_eq_ediv hic.le hposj.le]
      exact Int.ediv_nonneg hic.le hposj.le
    omega
  · rintro w ⟨m, rfl⟩ hwk hw
    have hposm : (0 : Int) < 2 ^ m * simd := mul_pos (two_pow_pos_int _) hs
    have hmk : m ≤ k := pow2_le_pow2 hwk
    have hwle : 2 ^ m * simd ≤ ic := (tdiv_ne_zero_iff_le hic.le hposm).mp (by omega)
    have hmj : m ≤ j := by
      by_contra hlt
      have := hmax m (by omega) hmk
      omega
    exact pow_le_pow_right₀ (by norm_num) hmj

/-- Witness of `get_nhwc_vect_size_largest_pow2` at `ic = 64`, `max_vect_size = 8`,
`simd = 16`. -/
theorem get_nhwc_vect_size_largest_pow2_witness :
    (∃ v, get_nhwc_vect_size 64 8 16 = .ok v ∧ is_pow2 v ∧
      v ≤ 8 ∧ 0 < Int.tdiv 64 (v * 16) ∧
      ∀ w, is_pow2 w → w ≤ 8 → 0 < Int.tdiv 64 (w * 16) → w ≤ v) ∧
    get_nhwc_vect_size 256 8 16 = .ok 8 :=
  get_nhwc_vect_size_largest_pow2 64 8 16 (by decide) (by decide) (by decide)
    ⟨3, by norm_num⟩ (by decide)

theorem six_not_pow2 : ¬ is_pow2 6 := by
  rintro ⟨k, hk⟩
  rcases Nat.lt_or_ge k 3 with h | h
  · interval_cases k <;> norm_num at hk
  · have h8 : (2 : Int) ^ 3 ≤ 2 ^ k := pow_le_pow_right₀ (by norm_num) h
    norm_num at h8
    omega

/-- C1 (counterexample): with `max_vect_size = 6` the function returns 6, which
is not a power of two (the largest power of two with a non-zero quotient is 4);
and with `max_vect_size = 2^20`, `simd = 2^12` the first product overflows `int`
although `v = 2^18` has a non-zero quotient. -/
theorem get_nhwc_vect_size_not_pow2_counterexample :
    (Int.tmod 96 16 = 0 ∧ get_nhwc_vect_size 96 6 16 = .ok 6 ∧ ¬ is_pow2 6 ∧
      (4 : Int) ≤ 6 ∧ 0 < Int.tdiv 96 (4 * 16)) ∧
    (Int.tmod 1073741824 4096 = 0 ∧
      get_nhwc_vect_size 1073741824 1048576 4096 = .error .int_overflow ∧
      0 < Int.tdiv 1073741824 (262144 * 4096)) := by
  refine ⟨⟨by decide, by decide, six_not_pow2, by decide, by decide⟩, by decide, by decide, by decide⟩

/-- C2 (amended): for a positive channel block `ic_block` that is a multiple of
the sub-group width and a power-of-two `max_vect_size` (product with the
sub-group width representable), the vector width `v` of `get_nhwc_vect_size` is
a power of two `<= max_vect_size` with `v * sub_group_size <= ic_block`; it is
at least every power of two `w <= max_vect_size` with
`ic_block % (w * sub_group_size) == 0`; and `ic_block % (v * sub_group_size) == 0`
holds when `ic_block / sub_group_size` is a power of two. -/
theorem get_nhwc_vect_size_block_divisibility (ic_block max_vect_size sub_group_size : Int)
    (hs : 0 < sub_group_size) (hic : 0 < ic_block)
    (hdiv : Int.tmod ic_block sub_group_size = 0)
    (hp : is_pow2 max_vect_size) (hfit : max_vect_size * sub_group_size ≤ INT_MAX) :
    ∃ v, get_nhwc_vect_size ic_block max_vect_size sub_group_size = .ok v ∧ is_pow2 v ∧
      v ≤ max_vect_size ∧ v * sub_group_size ≤ ic_block ∧
      (∀ w, is_pow2 w → w ≤ max_vect_size →
        Int.tmod ic_block (w * sub_group_size) = 0 → w ≤ v) ∧
      (is_pow2 (Int.tdiv ic_block sub_group_size) →
        Int.tmod ic_block (v * sub_group_size) = 0) := by
  obtain ⟨k, rfl⟩ := hp
  have hle := le_of_dvd_tmod hs hic hdiv
  have hk := pow2_exponent_lt hs hfit
  obtain ⟨j, hj, hrun, hjle, hmax⟩ :=
    get_nhwc_vect_size_loop_pow2 hs hle k 34 (by omega) hfit
  have hposj : (0 : Int) < 2 ^ j * sub_group_size := mul_pos (two_pow_pos_int _) hs
  refine ⟨2 ^ j, hrun, ⟨j, rfl⟩, pow_le_pow_right₀ (by norm_num) hj, hjle, ?_, ?_⟩
  · rintro w ⟨m, rfl⟩ hwk hw
    have hposm : (0 : Int) < 2 ^ m * sub_group_size := mul_pos (two_pow_pos_int _) hs
    have hmk : m ≤ k := pow2_le_pow2 hwk
    have hwle : 2 ^ m * sub_group_size ≤ ic_block := le_of_dvd_tmod hposm hic hw
    have hmj : m ≤ j := by
      by_contra hlt
      have := hmax m (by omega) hmk
      omega
    exact pow_le_pow_right₀ (by norm_num) hmj
  · rintro ⟨t, ht⟩
    rw [Int.tdiv_eq_ediv hic.le hs.le] at ht
    rw [Int.tmod_eq_emod hic.le hs.le] at hdiv
    have hicb : ic_block = 2 ^ t * sub_group_size := by
      have := Int.ediv_mul_cancel (Int.dvd_of_emod_eq_zero hdiv)
      rw [ht] at this
      exact this.symm
    have hjt : j ≤ t := by
      have h1 : (2 : Int) ^ j ≤ 2 ^ t := by
        rw [hicb] at hjle
        exact le_of_mul_le_mul_right hjle hs
      exact pow2_le_pow2 h1
    rw [Int.tmod_eq_emod hic.le hposj.le, hicb]
    apply Int.emod_eq_zero_of_dvd
    exact mul_dvd_mul_right (pow_dvd_pow 2 hjt) _

/-- Witness of `get_nhwc_vect_size_block_divisibility` at `ic_block = 48`,
`max_vect_size = 8`, `sub_group_size = 16`. -/
theorem get_nhwc_vect_size_block_divisibility_witness :
    ∃ v, get_nhwc_vect_size 48 8 16 = .ok v ∧ is_pow2 v ∧
      v ≤ 8 ∧ v * 16 ≤ 48 ∧
      (∀ w, is_pow2 w → w ≤ 8 → Int.tmod 48 (w * 16) = 0 → w ≤ v) ∧
      (is_pow2 (Int.tdiv 48 16) → Int.tmod 48 (v * 16) = 0) :=
  get_nhwc_vect_size_block_divisibility 48 8 16 (by decide) (by decide) (by decide)
    ⟨3, by norm_num⟩ (by decide)

/-- C2 (counterexample): for the block `ic_block = 48` of sub-group width 16 and
`max_vect_size = 8` the function returns 2, and 48 is not a multiple of
`2 * 16`. -/
theorem get_nhwc_vect_size_not_divisible_counterexample :
    Int.tmod 48 16 = 0 ∧ get_nhwc_vect_size 48 8 16 = .ok 2 ∧
      Int.tmod 48 (2 * 16) ≠ 0 := by
  decide

theorem float_le_trans {x y z : float} (h1 : x.le y = true) (h2 : y.le z = true) :
    x.le z = true := by
  cases x <;> cases y <;> cases z <;> simp_all [float.le]
  exact le_trans h1 h2

theorem get_ss_util_idx_loop_bounds (v : float) :
    ∀ (l : List float) (i j : Nat), get_ss_util_idx_loop v l i = some j →
      i ≤ j ∧ j < i + l.length := by
  intro l
  induction l with
  | nil => intro i j h; simp [get_ss_util_idx_loop] at h
  | cons b rest ih =>
    intro i j h
    simp only [get_ss_util_idx_loop] at h
    split at h
    · simp only [Option.some.injEq] at h
      subst h
      simp
    · have := ih (i + 1) j h
      simp only [List.length_cons]
      omega

theorem get_ss_util_idx_loop_mono {x y : float} (hxy : x.le y = true) :
    ∀ (l : List float) (i j : Nat), get_ss_util_idx_loop y l i = some j →
      ∃ j2, j2 ≤ j ∧ get_ss_util_idx_loop x l i = some j2 := by
  intro l
  induction l with
  | nil => intro i j h; simp [get_ss_util_idx_loop] at h
  | cons b rest ih =>
    intro i j h
    simp only [get_ss_util_idx_loop] at h ⊢
    by_cases hx : x.le b = true
    · have hb := get_ss_util_idx_loop_bounds y (b :: rest) i j (by simpa [get_ss_util_idx_loop] using h)
      exact ⟨i, hb.1, by simp [hx]⟩
    · have hy : ¬ y.le b = true := fun hy => hx (float_le_trans hxy hy)
      simp only [hy, if_false] at h
      simp only [hx, if_false]
      exact ih (i + 1) j h

theorem get_ss_util_idx_le_five (v : float) : get_ss_util_idx v ≤ 5 := by
  unfold get_ss_util_idx
  split
  · next i h =>
    have := get_ss_util_idx_loop_bounds v ss_util_set 0 i h
    simp [ss_util_set] at this
    omega
  · simp [ss_util_set]

/-- C3: `get_ss_util_idx` is monotonic over the breakpoints
`{0.125, 0.25, 1, 2, 4, 8}`: whenever `x <= y` holds for two utilizations,
`get_ss_util_idx(x) <= get_ss_util_idx(y)`. -/
theorem get_ss_util_idx_monotonic (x y : float) (hxy : x.le y = true) :
    get_ss_util_idx x ≤ get_ss_util_idx y := by
  cases hy : get_ss_util_idx_loop y ss_util_set 0 with
  | none =>
    have h5 : get_ss_util_idx y = 5 := by
      simp only [get_ss_util_idx, hy]
      rfl
    rw [h5]
    exact get_ss_util_idx_le_five x
  | some j =>
    obtain ⟨j2, hj2, hx⟩ := get_ss_util_idx_loop_mono hxy ss_util_set 0 j hy
    simp only [get_ss_util_idx, hy, hx]
    exact hj2

/-- Witness of `get_ss_util_idx_monotonic` at the utilizations 0.5 and 3. -/
theorem get_ss_util_idx_monotonic_witness :
    (float.fin (1 / 2)).le (float.fin 3) = true ∧
      get_ss_util_idx (float.fin (1 / 2)) ≤ get_ss_util_idx (float.fin 3) :=
  ⟨by decide!, get_ss_util_idx_monotonic _ _ (by decide!)⟩

theorem float_lt_not_le {b v : float} (h : b.lt v = true) : v.le b = false := by
  cases b <;> cases v <;> simp_all [float.le, float.lt]

theorem get_ss_util_idx_loop_first (v : float) :
    ∀ (l : List float) (k i : Nat) (b : float), l[i]? = some b → v.le b = true →
      (∀ j c, j < i → l[j]? = some c → v.le c = false) →
      get_ss_util_idx_loop v l k = some (k + i) := by
  intro l
  induction l with
  | nil => intro k i b h; simp at h
  | cons b0 rest ih =>
    intro k i b hb hle hfirst
    cases i with
    | zero =>
      simp only [List.getElem?_cons_zero, Option.some.injEq] at hb
      subst hb
      simp [get_ss_util_idx_loop, hle]
    | succ i =>
      have h0 : v.le b0 = false := hfirst 0 b0 (by omega) (by simp)
      simp only [List.getElem?_cons_succ] at hb
      have := ih (k + 1) i b hb hle (fun j c hj hc => hfirst (j + 1) c (by omega) (by simpa using hc))
      simp only [get_ss_util_idx_loop, h0, Bool.false_eq_true, if_false, this]
      congr 1
      omega

theorem get_ss_util_idx_loop_none (v : float) :
    ∀ (l : List float) (k : Nat), (∀ b ∈ l, b.lt v = true) →
      get_ss_util_idx_loop v l k = none := by
  intro l
  induction l with
  | nil => intro k _; rfl
  | cons b0 rest ih =>
    intro k h
    have h0 : v.le b0 = false := float_lt_not_le (h b0 (by simp))
    simp only [get_ss_util_idx_loop, h0, Bool.false_eq_true, if_false]
    exact ih (k + 1) (fun b hb => h b (by simp [hb]))

/-- C4: for every utilization `x`, `get_ss_util_idx(x)` is the index of the first
breakpoint of `{0.125, 0.25, 1, 2, 4, 8}` that is `>= x`, and is the last index 5
when `x` exceeds every breakpoint; the result is always in `0..5`, and the
utilization 0.5 maps to bucket index 2. -/
theorem get_ss_util_idx_first_breakpoint (x : float) :
    (∀ i b, ss_util_set[i]? = some b → x.le b = true →
      (∀ j c, j < i → ss_util_set[j]? = some c → x.le c = false) →
      get_ss_util_idx x = i) ∧
    ((∀ b ∈ ss_util_set, b.lt x = true) → get_ss_util_idx x = 5) ∧
    get_ss_util_idx x ≤ 5 ∧
    get_ss_util_idx (float.fin (1 / 2)) = 2 := by
  refine ⟨?_, ?_, get_ss_util_idx_le_five x, by decide!⟩
  · intro i b hb hle hfirst
    have := get_ss_util_idx_loop_first x ss_util_set 0 i b hb hle hfirst
    simp only [get_ss_util_idx, this]
    omega
  · intro h
    have := get_ss_util_idx_loop_none x ss_util_set 0 h
    simp only [get_ss_util_idx, this]
    rfl

/-- C5: for a forward workload with `calculate_stats = true` and
`use_stats_one_pass = true` and a candidate with `use_fused_atomics_reduction`
unset and an empty descriptor list, `init_kernel_descriptors` yields exactly
`[default_fwd, calc_mean_var, reduce_mean_var]` in that order, each with
`ncalls = 1`. -/
theorem init_kernel_descriptors_one_pass (p : model_params_t) (conf : nhwc_bnorm_params_t)
    (hw_params : hw_params_t) (reusable_version : Bool) (desc : kernel_desc_t)
    (hfwd : conf.is_forward = true) (hstats : conf.calculate_stats = true)
    (hone : conf.use_stats_one_pass = true) (hatomics : p.use_fused_atomics_reduction = 0)
    (hempty : p.kernel_descs = []) :
    ∃ p2, init_kernel_descriptors p conf hw_params reusable_version desc = .ok p2 ∧
      kinds_and_ncalls p2.kernel_descs =
        [(.default_fwd_ker, 1), (.calc_mean_var_ker, 1), (.reduce_mean_var_ker, 1)] := by
  simp only [init_kernel_descriptors, push_ker_desc, init_ker_desc, get_ncalls, hfwd, hstats,
    hone, hatomics, hempty, if_true, ne_eq, not_true_eq_false, if_false, bind, Except.bind,
    pure, Except.pure, and_self]
  exact ⟨_, rfl, rfl⟩

/-- Witness of `init_kernel_descriptors_one_pass` at the sample workload. -/
theorem init_kernel_descriptors_one_pass_witness :
    ∃ p2, init_kernel_descriptors sample_params (sample_conf true) sample_hw false
        sample_desc = .ok p2 ∧
      kinds_and_ncalls p2.kernel_descs =
        [(.default_fwd_ker, 1), (.calc_mean_var_ker, 1), (.reduce_mean_var_ker, 1)] :=
  init_kernel_descriptors_one_pass sample_params (sample_conf true) sample_hw false
    sample_desc rfl rfl rfl rfl rfl

/-- C6 (amended): for a forward workload with `calculate_stats = true` and
`use_stats_one_pass = false` and a candidate that does not use atomics (empty
descriptor list), `init_kernel_descriptors` yields
`[default_fwd, calc_mean, calc_var, R]` where `R` is `reduce_stats_fwd` for the
non-reusable version and `reusable_reduce_stats_fwd` for the reusable version;
`R` has invocation count 2 and the other three have invocation count 1. -/
theorem init_kernel_descriptors_two_pass (p : model_params_t) (conf : nhwc_bnorm_params_t)
    (hw_params : hw_params_t) (reusable_version : Bool) (desc : kernel_desc_t)
    (hfwd : conf.is_forward = true) (hstats : conf.calculate_stats = true)
    (hone : conf.use_stats_one_pass = false) (hatomics : p.use_fused_atomics_reduction = 0)
    (hempty : p.kernel_descs = []) :
    ∃ p2, init_kernel_descriptors p conf hw_params reusable_version desc = .ok p2 ∧
      kinds_and_ncalls p2.kernel_descs =
        [(.default_fwd_ker, 1), (.calc_mean_ker, 1), (.calc_var_ker, 1),
          (if reusable_version then .reusable_reduce_stats_fwd_ker
            else .reduce_stats_fwd_ker, 2)] := by
  cases reusable_version <;>
  · simp only [init_kernel_descriptors, push_ker_desc, init_ker_desc, get_ncalls, hfwd, hstats,
      hone, hatomics, hempty, if_true, ne_eq, not_true_eq_false, if_false, bind, Except.bind,
      pure, Except.pure, and_self, Bool.false_eq_true]
    exact ⟨_, rfl, rfl⟩

/-- Witness of `init_kernel_descriptors_two_pass` at the sample workload. -/
theorem init_kernel_descriptors_two_pass_witness :
    ∃ p2, init_kernel_descriptors sample_params (sample_conf false) sample_hw false
        sample_desc = .ok p2 ∧
      kinds_and_ncalls p2.kernel_descs =
        [(.default_fwd_ker, 1), (.calc_mean_ker, 1), (.calc_var_ker, 1),
          (if false = true then .reusable_reduce_stats_fwd_ker
            else .reduce_stats_fwd_ker, 2)] :=
  init_kernel_descriptors_two_pass sample_params (sample_conf false) sample_hw false
    sample_desc rfl rfl rfl rfl rfl

/-- C6 (counterexample): for the reusable version of the sample workload the
fourth kernel is `reusable_reduce_stats_fwd`, not `reduce_stats_fwd`. -/
theorem init_kernel_descriptors_two_pass_reusable_counterexample :
    (sample_conf false).is_forward = true ∧ (sample_conf false).calculate_stats = true ∧
    (sample_conf false).use_stats_one_pass = false ∧
    sample_params.use_fused_atomics_reduction = 0 ∧ sample_params.kernel_descs = [] ∧
    (init_kernel_descriptors sample_params (sample_conf false) sample_hw true sample_desc).map
        (fun p2 => kinds_and_ncalls p2.kernel_descs) =
      .ok [(.default_fwd_ker, 1), (.calc_mean_ker, 1), (.calc_var_ker, 1),
        (.reusable_reduce_stats_fwd_ker, 2)] ∧
    (init_kernel_descriptors sample_params (sample_conf false) sample_hw true sample_desc).map
        (fun p2 => kinds_and_ncalls p2.kernel_descs) ≠
      .ok [(.default_fwd_ker, 1), (.calc_mean_ker, 1), (.calc_var_ker, 1),
        (.reduce_stats_fwd_ker, 2)] := by
  decide

/-- C7: kernel decomposition is deterministic: two calls of
`init_kernel_descriptors` with the same workload `conf`, the same candidate `p`
(and version flag) produce the same kernel-descriptor sequence (same kinds, same
order, same invocation counts), whatever the hardware profile and whatever the
default-constructed local descriptor holds. -/
theorem init_kernel_descriptors_deterministic (p : model_params_t)
    (conf : nhwc_bnorm_params_t) (hw1 hw2 : hw_params_t) (reusable_version : Bool)
    (d1 d2 : kernel_desc_t) :
    (init_kernel_descriptors p conf hw1 reusable_version d1).map
        (fun q => kinds_and_ncalls q.kernel_descs) =
      (init_kernel_descriptors p conf hw2 reusable_version d2).map
        (fun q => kinds_and_ncalls q.kernel_descs) := by
  by_cases ha : p.use_fused_atomics_reduction = 0 <;> cases hf : conf.is_forward <;>
    cases hs : conf.calculate_stats <;> cases ho : conf.use_stats_one_pass <;>
    cases reusable_version <;>
    simp [init_kernel_descriptors, push_ker_desc, init_ker_desc, get_ncalls, ha, hf, hs, ho,
      bind, Except.bind, pure, Except.pure, Except.map, kinds_and_ncalls]

theorem div_up_ok {a b : Int} (hb : b ≠ 0) : div_up a b = .ok (Int.tdiv (a + b - 1) b) := by
  simp [div_up, hb]

theorem div_up_val_pos {a b : Int} (ha : 1 ≤ a) (hb : 1 ≤ b) : 1 ≤ Int.tdiv (a + b - 1) b := by
  rw [Int.tdiv_eq_ediv (by omega) (by omega)]
  have h1 : b / b ≤ (a + b - 1) / b := Int.ediv_le_ediv (by omega) (by omega)
  rwa [Int.ediv_self (by omega)] at h1

theorem tdiv_pos_of_le {a b : Int} (hb : 1 ≤ b) (hab : b ≤ a) : 1 ≤ Int.tdiv a b := by
  rw [Int.tdiv_eq_ediv (by omega) (by omega)]
  have h1 : b / b ≤ a / b := Int.ediv_le_ediv (by omega) hab
  rwa [Int.ediv_self (by omega)] at h1

/-- `div_up(a, b)` is the ceiling of `a / b` for positive `a` and `b`. -/
theorem div_up_spec {a b : Int} (ha : 1 ≤ a) (hb : 1 ≤ b) :
    a ≤ Int.tdiv (a + b - 1) b * b ∧ (Int.tdiv (a + b - 1) b - 1) * b < a ∧
      1 ≤ Int.tdiv (a + b - 1) b ∧ Int.tdiv (a + b - 1) b ≤ a := by
  have hpos := div_up_val_pos ha hb
  rw [Int.tdiv_eq_ediv (by omega) (by omega)] at hpos ⊢
  have h1 := Int.ediv_add_emod (a + b - 1) b
  have h2 := Int.emod_nonneg (a + b - 1) (show b ≠ 0 by omega)
  have h3 := Int.emod_lt_of_pos (a + b - 1) (show 0 < b by omega)
  generalize (a + b - 1) / b = c at hpos h1 ⊢
  generalize (a + b - 1) % b = m at h1 h2 h3
  refine ⟨by nlinarith, by nlinarith, hpos, ?_⟩
  by_contra hc
  have hc2 : a + 1 ≤ c := by omega
  nlinarith

/-- The thread count of a trial. -/
theorem trial_nthr_gen_bounds {sp g nthr : Int} (hsp : 1 ≤ sp) (hg : 1 ≤ g) (hnthr : 1 ≤ nthr) :
    1 ≤ Int.tdiv (sp + Int.tdiv (sp * g + nthr - 1) nthr - 1)
        (Int.tdiv (sp * g + nthr - 1) nthr) * g ∧
    Int.tdiv (sp + Int.tdiv (sp * g + nthr - 1) nthr - 1)
        (Int.tdiv (sp * g + nthr - 1) nthr) * g ≤ sp * g ∧
    Int.tdiv (sp + Int.tdiv (sp * g + nthr - 1) nthr - 1)
        (Int.tdiv (sp * g + nthr - 1) nthr) * g < nthr + g := by
  have hS : 1 ≤ sp * g := by nlinarith
  obtain ⟨b1, b2, b3, b4⟩ := div_up_spec hS hnthr
  generalize Int.tdiv (sp * g + nthr - 1) nthr = B at b1 b2 b3 b4 ⊢
  obtain ⟨c1, c2, c3, c4⟩ := div_up_spec hsp b3
  generalize Int.tdiv (sp + B - 1) B = nb at c1 c2 c3 c4 ⊢
  refine ⟨by nlinarith, by nlinarith, ?_⟩
  -- (nb - 1) * B < sp and sp * g <= B * nthr give (nb - 1) * g < nthr
  by_contra hc
  have hc2 : nthr ≤ (nb - 1) * g := by linarith
  have h5 : sp * nthr ≤ sp * ((nb - 1) * g) := by nlinarith
  have h6 : (nb - 1) * (sp * g) ≤ (nb - 1) * (B * nthr) := by nlinarith
  have h7 : (nb - 1) * B * nthr < sp * nthr := by nlinarith
  nlinarith

/-- The products of a trial are in the range of their C++ types when the
thread counts are `int` values and the largest block size is one. -/
theorem sp_block_ranges {sp g eu_count threads_per_eu m : Int}
    (hsp : 1 ≤ sp) (hg : 1 ≤ g) (heu : 1 ≤ eu_count) (hthr : 1 ≤ threads_per_eu)
    (hm : 1 ≤ m) (hm2 : m ≤ 32) (hr1 : 32 * eu_count ≤ INT_MAX)
    (hr2 : eu_count * threads_per_eu ≤ INT_MAX) (hr3 : sp * g ≤ INT_MAX * eu_count) :
    fits_int (m * eu_count) ∧ fits_dim (sp * g) ∧
    fits_dim (Int.tdiv (sp + Int.tdiv (sp * g + m * eu_count - 1) (m * eu_count) - 1)
        (Int.tdiv (sp * g + m * eu_count - 1) (m * eu_count)) * g) ∧
    fits_int (eu_count * threads_per_eu) ∧
    1 ≤ Int.tdiv (sp * g + m * eu_count - 1) (m * eu_count) ∧
    Int.tdiv (sp * g + m * eu_count - 1) (m * eu_count) ≤ INT_MAX := by
  have hnthr : 1 ≤ m * eu_count := by nlinarith
  have hnthr2 : m * eu_count ≤ 32 * eu_count := by nlinarith
  have hnthr3 : eu_count ≤ m * eu_count := by nlinarith
  have hS : 1 ≤ sp * g := by nlinarith
  have hk : 1 ≤ eu_count * threads_per_eu := by nlinarith
  obtain ⟨b1, b2, b3, b4⟩ := div_up_spec hS hnthr
  obtain ⟨n1, n2, n3⟩ := trial_nthr_gen_bounds hsp hg hnthr
  unfold INT_MAX at hr1 hr2 hr3
  have hSd : sp * g ≤ 2147483647 * 2147483647 := by nlinarith
  have hB : Int.tdiv (sp * g + m * eu_count - 1) (m * eu_count) ≤ 2147483647 := by
    by_contra hc
    have hc2 : 2147483648 ≤ Int.tdiv (sp * g + m * eu_count - 1) (m * eu_count) := by omega
    generalize Int.tdiv (sp * g + m * eu_count - 1) (m * eu_count) = B at b1 b2 b3 b4 hc2
    nlinarith
  refine ⟨⟨by unfold INT_MIN; omega, by unfold INT_MAX; omega⟩,
    ⟨by unfold DIM_MIN; omega, by unfold DIM_MAX; omega⟩,
    ⟨by unfold DIM_MIN; omega, by unfold DIM_MAX; omega⟩,
    ⟨by unfold INT_MIN; omega, by unfold INT_MAX; omega⟩, b3, by unfold INT_MAX; exact hB⟩

theorem get_nhwc_sp_block_size_step_ok (sp ic_nsg eu_count threads_per_eu nthr_mul : Int)
    (st : sp_block_search_t) (hsp : 1 ≤ sp) (hnsg : 1 ≤ ic_nsg) (heu : 1 ≤ eu_count)
    (hthr : 1 ≤ threads_per_eu) (hm : 1 ≤ nthr_mul) (hm2 : nthr_mul ≤ 32)
    (hr1 : 32 * eu_count ≤ INT_MAX) (hr2 : eu_count * threads_per_eu ≤ INT_MAX)
    (hr3 : sp * ic_nsg ≤ INT_MAX * eu_count)
    (hst : (1 ≤ st.block_size_thr ∧ st.block_size_thr ≤ INT_MAX) ∧
      (1 ≤ st.block_size_peak_eu_thr ∧ st.block_size_peak_eu_thr ≤ INT_MAX)) :
    ∃ st2, get_nhwc_sp_block_size_step sp ic_nsg eu_count threads_per_eu nthr_mul st = .ok st2 ∧
      (1 ≤ st2.block_size_thr ∧ st2.block_size_thr ≤ INT_MAX) ∧
      (1 ≤ st2.block_size_peak_eu_thr ∧ st2.block_size_peak_eu_thr ≤ INT_MAX) := by
  obtain ⟨f1, f2, f3, f4, hcurr, hcurr2⟩ :=
    sp_block_ranges hsp hnsg heu hthr hm hm2 hr1 hr2 hr3
  have hnthr : 1 ≤ nthr_mul * eu_count := by nlinarith
  have h1 : nthr_mul * eu_count ≠ 0 := by omega
  have h2 : Int.tdiv (sp * ic_nsg + nthr_mul * eu_count - 1) (nthr_mul * eu_count) ≠ 0 := by omega
  have h3 : eu_count ≠ 0 := by omega
  have h4 : eu_count * threads_per_eu ≠ 0 := by
    have : 1 ≤ eu_count * threads_per_eu := by nlinarith
    omega
  simp only [get_nhwc_sp_block_size_step, div_up, rnd_up, bind, Except.bind, pure, Except.pure,
    h1, h2, h3, h4, f1, f2, f3, f4, if_false, not_true_eq_false]
  refine ⟨_, rfl, ?_, ?_⟩
  · split <;> split <;> simp_all
  · split <;> split <;> simp_all

theorem get_nhwc_sp_block_size_loop_ok (sp ic_nsg eu_count threads_per_eu : Int)
    (hsp : 1 ≤ sp) (hnsg : 1 ≤ ic_nsg) (heu : 1 ≤ eu_count) (hthr : 1 ≤ threads_per_eu)
    (hr1 : 32 * eu_count ≤ INT_MAX) (hr2 : eu_count * threads_per_eu ≤ INT_MAX)
    (hr3 : sp * ic_nsg ≤ INT_MAX * eu_count) :
    ∀ (fuel : Nat) (nthr_mul : Int) (st : sp_block_search_t), 1 ≤ nthr_mul →
      33 - nthr_mul ≤ fuel →
      (1 ≤ st.block_size_thr ∧ st.block_size_thr ≤ INT_MAX) ∧
        (1 ≤ st.block_size_peak_eu_thr ∧ st.block_size_peak_eu_thr ≤ INT_MAX) →
      ∃ st2, get_nhwc_sp_block_size_loop sp ic_nsg eu_count threads_per_eu fuel nthr_mul st
          = .ok st2 ∧ (1 ≤ st2.block_size_thr ∧ st2.block_size_thr ≤ INT_MAX) ∧
            (1 ≤ st2.block_size_peak_eu_thr ∧ st2.block_size_peak_eu_thr ≤ INT_MAX) := by
  intro fuel
  induction fuel with
  | zero =>
    intro nthr_mul st hm hfuel hst
    have : ¬ nthr_mul ≤ 32 := by omega
    exact ⟨st, by simp [get_nhwc_sp_block_size_loop, this], hst⟩
  | succ fuel ih =>
    intro nthr_mul st hm hfuel hst
    by_cases hc : nthr_mul ≤ 32
    · obtain ⟨st1, hstep, hst1⟩ := get_nhwc_sp_block_size_step_ok sp ic_nsg eu_count
        threads_per_eu nthr_mul st hsp hnsg heu hthr hm hc hr1 hr2 hr3 hst
      obtain ⟨st2, hloop, hst2⟩ := ih (nthr_mul + 1) st1 (by omega) (by omega) hst1
      refine ⟨st2, ?_, hst2⟩
      simp only [get_nhwc_sp_block_size_loop, hc, if_true, bind, Except.bind, hstep]
      exact hloop
    · exact ⟨st, by simp [get_nhwc_sp_block_size_loop, hc], hst⟩

theorem get_nhwc_sp_block_size_ok (sp ic_dim eu_count threads_per_eu simd : Int)
    (hsp : 1 ≤ sp) (hsimd : 1 ≤ simd) (hic : simd ≤ ic_dim) (heu : 1 ≤ eu_count)
    (hthr : 1 ≤ threads_per_eu) (hr1 : 32 * eu_count ≤ INT_MAX)
    (hr2 : eu_count * threads_per_eu ≤ INT_MAX)
    (hr3 : sp * Int.tdiv ic_dim simd ≤ INT_MAX * eu_count) :
    ∃ v, get_nhwc_sp_block_size sp ic_dim eu_count threads_per_eu simd = .ok v ∧ 1 ≤ v := by
  have hnsg : 1 ≤ Int.tdiv ic_dim simd := tdiv_pos_of_le hsimd hic
  obtain ⟨st, hloop, hst⟩ := get_nhwc_sp_block_size_loop_ok sp (Int.tdiv ic_dim simd) eu_count
    threads_per_eu hsp hnsg heu hthr hr1 hr2 hr3 32 1 ⟨.fin 0, .fin 0, 1, 1⟩ (by omega) (by omega)
    ⟨⟨le_refl _, by decide⟩, ⟨le_refl _, by decide⟩⟩
  have hs0 : simd ≠ 0 := by omega
  have hfa : fits_int st.block_size_thr := ⟨by unfold INT_MIN; omega, hst.1.2⟩
  have hfb : fits_int st.block_size_peak_eu_thr := ⟨by unfold INT_MIN; omega, hst.2.2⟩
  simp only [get_nhwc_sp_block_size, hs0, if_false, bind, Except.bind, hloop, pure, Except.pure,
    into_int, hfa, hfb, if_true]
  split
  · exact ⟨_, rfl, hst.2.1⟩
  · exact ⟨_, rfl, hst.1.1⟩

theorem get_nhwc_sp_block_size_step_eq (sp ic_nsg eu_count threads_per_eu nthr_mul : Int)
    (st : sp_block_search_t) :
    get_nhwc_sp_block_size_step sp ic_nsg eu_count threads_per_eu nthr_mul st
      = (get_nhwc_sp_block_size_trial sp ic_nsg eu_count threads_per_eu nthr_mul).map
          (sp_block_update st) := by
  unfold get_nhwc_sp_block_size_step get_nhwc_sp_block_size_trial
  simp only [bind, Except.bind, pure, Except.pure, Except.map, throw, throwThe,
    MonadExceptOf.throw]
  by_cases c1 : fits_int (nthr_mul * eu_count)
  swap
  · rw [if_pos c1, if_pos c1]
  by_cases c2 : fits_dim (sp * ic_nsg)
  swap
  · rw [if_neg (not_not.mpr c1), if_neg (not_not.mpr c1), if_pos c2, if_pos c2]
  rw [if_neg (not_not.mpr c1), if_neg (not_not.mpr c1), if_neg (not_not.mpr c2),
    if_neg (not_not.mpr c2)]
  try simp only
  cases div_up (sp * ic_nsg) (nthr_mul * eu_count) with
  | error e => rfl
  | ok b =>
    try simp only
    cases div_up sp b with
    | error e => rfl
    | ok nb =>
      try simp only
      by_cases c3 : fits_dim (nb * ic_nsg)
      swap
      · rw [if_pos c3, if_pos c3]
      rw [if_neg (not_not.mpr c3), if_neg (not_not.mpr c3)]
      try simp only
      cases rnd_up (nb * ic_nsg) eu_count with
      | error e => rfl
      | ok r1 =>
        try simp only
        by_cases c4 : fits_int (eu_count * threads_per_eu)
        swap
        · rw [if_pos c4, if_pos c4]
        rw [if_neg (not_not.mpr c4), if_neg (not_not.mpr c4)]
        try simp only
        cases rnd_up (nb * ic_nsg) (eu_count * threads_per_eu) with
        | error e => rfl
        | ok r2 => rfl

theorem get_nhwc_vect_size_loop_ok {ic simd : Int} (hs : 1 ≤ simd) (hic : simd ≤ ic) :
    ∀ (fuel : Nat) (v : Int), 1 ≤ v → v * simd ≤ INT_MAX → v < 2 ^ fuel →
      ∃ v2, get_nhwc_vect_size_loop ic simd fuel v = .ok v2 ∧ 1 ≤ v2 ∧ v2 ≤ v ∧
        v2 * simd ≤ ic := by
  intro fuel
  induction fuel with
  | zero => intro v h1 _ h2; simp at h2; omega
  | succ fuel ih =>
    intro v h1 hfit hlt
    have hpos : 0 < v * simd := by nlinarith
    have hmin : ¬ (ic = INT_MIN ∧ v * simd = -1) := by
      rintro ⟨h, -⟩; unfold INT_MIN at h; omega
    have hfits : fits_int (v * simd) := by
      constructor
      · unfold INT_MIN; omega
      · exact hfit
    have hne : v * simd ≠ 0 := by omega
    by_cases hle : v * simd ≤ ic
    · have hq : Int.tdiv ic (v * simd) ≠ 0 := (tdiv_ne_zero_iff_le (by omega) hpos).mpr hle
      refine ⟨v, ?_, h1, le_refl _, hle⟩
      simp only [get_nhwc_vect_size_loop, hfits, hne, hmin, hq, not_true_eq_false, if_false,
        ne_eq, not_false_eq_true, if_true]
    · have hq : ¬ Int.tdiv ic (v * simd) ≠ 0 := by
        rw [tdiv_ne_zero_iff_le (by omega) hpos]; exact hle
      have hv2 : 2 ≤ v := by
        by_contra h
        have : v = 1 := by omega
        subst this
        omega
      have hhalf : Int.tdiv v 2 = v / 2 := Int.tdiv_eq_ediv (by omega) (by omega)
      have hh1 : 1 ≤ v / 2 := by omega
      have hh2 : v / 2 ≤ v := by omega
      have hh3 : v / 2 * simd ≤ INT_MAX := by
        have : v / 2 * simd ≤ v * simd := Int.mul_le_mul_of_nonneg_right hh2 (by omega)
        omega
      have hh4 : v / 2 < 2 ^ fuel := by
        rw [pow_succ] at hlt
        omega
      obtain ⟨v2, hrun, hv21, hv22, hv23⟩ := ih (v / 2) hh1 hh3 hh4
      refine ⟨v2, ?_, hv21, by omega, hv23⟩
      simp only [get_nhwc_vect_size_loop, hfits, hne, hmin, not_true_eq_false, if_false]
      rw [if_neg hq, hhalf]
      exact hrun

theorem get_nhwc_vect_size_ok (ic max_vect_size simd : Int) (hs : 1 ≤ simd) (hic : simd ≤ ic)
    (hmax : 1 ≤ max_vect_size) (hfit : max_vect_size * simd ≤ INT_MAX) :
    ∃ v, get_nhwc_vect_size ic max_vect_size simd = .ok v ∧ 1 ≤ v ∧ v ≤ max_vect_size ∧
      v * simd ≤ ic := by
  apply get_nhwc_vect_size_loop_ok hs hic 34 max_vect_size hmax hfit
  have h1 : max_vect_size * 1 ≤ max_vect_size * simd :=
    Int.mul_le_mul_of_nonneg_left hs (by omega)
  unfold INT_MAX at hfit
  norm_num
  omega

theorem get_nhwc_calc_stat_ic_ok {ic ic_block sg_size : Int} (hb : 1 ≤ ic_block)
    (hic : ic_block ≤ ic) (hs : 1 ≤ sg_size) :
    ∃ c, get_nhwc_calc_stat_ic ic ic_block sg_size = .ok c ∧ sg_size ≤ c := by
  have hq : 1 ≤ Int.tdiv (ic + ic_block - 1) ic_block := div_up_val_pos (by omega) hb
  refine ⟨Int.tdiv (ic + ic_block - 1) ic_block * sg_size, ?_, by nlinarith⟩
  have hb0 : ic_block ≠ 0 := by omega
  simp [get_nhwc_calc_stat_ic, div_up, hb0, bind, Except.bind, pure, Except.pure]

theorem get_nhwc_calc_stat_ic_range {ic ic_block sg_size : Int} (hb : 1 ≤ ic_block)
    (hic : ic_block ≤ ic) (hs : 1 ≤ sg_size) :
    ∃ c, get_nhwc_calc_stat_ic ic ic_block sg_size = .ok c ∧ sg_size ≤ c ∧
      Int.tdiv c sg_size ≤ ic := by
  have hq : 1 ≤ Int.tdiv (ic + ic_block - 1) ic_block := div_up_val_pos (by omega) hb
  have hq2 : Int.tdiv (ic + ic_block - 1) ic_block ≤ ic := (div_up_spec (by omega) hb).2.2.2
  refine ⟨Int.tdiv (ic + ic_block - 1) ic_block * sg_size, ?_, by nlinarith, ?_⟩
  · have hb0 : ic_block ≠ 0 := by omega
    simp [get_nhwc_calc_stat_ic, div_up, hb0, bind, Except.bind, pure, Except.pure]
  · rw [Int.mul_tdiv_cancel _ (by omega)]
    exact hq2

theorem loop_cond_iff (b ic mx : Int) (rv : Bool) :
    (b ≤ ic ∧ (if rv = true then b ≤ mx else True)) ↔ (b ≤ ic ∧ (rv = true → b ≤ mx)) := by
  cases rv <;> simp

theorem create_params_loop_spec (ext : extern_t) (conf : nhwc_bnorm_params_t)
    (deterministic : Bool) (hw_params : hw_params_t) (reusable_version : Bool)
    (hin : candidate_inputs_ok ext conf hw_params) :
    ∀ (fuel : Nat) (b : Int) (params : List model_params_t),
      (∃ k : Int, 1 ≤ k ∧ b = k * conf.sub_group_size) → conf.ic - b < fuel →
      ∃ out, create_params_loop ext conf deterministic hw_params reusable_version fuel b params
          = .ok (params ++ out) ∧
        appended_from conf deterministic hw_params reusable_version b out := by
  obtain ⟨hsg, hsp, heu, hthr, hmv, hfit, hds1, hds2, hr1, hr2, hr3, -⟩ := hin
  intro fuel
  induction fuel with
  | zero =>
    intro b params _ hfuel
    have hc : ¬ (b ≤ conf.ic ∧ (if reusable_version = true then b ≤ conf.max_ic_block else True)) := by
      rintro ⟨h, -⟩
      simp at hfuel
      omega
    refine ⟨[], by rw [create_params_loop, if_neg hc, List.append_nil], ?_, ?_,
      List.Pairwise.nil⟩
    · intro p hp; simp at hp
    · intro b2 hb2 hadm
      refine absurd ((loop_cond_iff b conf.ic conf.max_ic_block reusable_version).mpr
        ⟨by have := hadm.2.2.1; omega, fun h => by have := hadm.2.2.2 h; omega⟩) hc
  | succ fuel ih =>
    intro b params hk hfuel
    obtain ⟨k, hk1, hkb⟩ := hk
    have hbpos : 1 ≤ b := by rw [hkb]; nlinarith
    have hnext : ∃ k2 : Int, 1 ≤ k2 ∧ b + conf.sub_group_size = k2 * conf.sub_group_size :=
      ⟨k + 1, by omega, by rw [hkb]; ring⟩
    have hfuel2 : conf.ic - (b + conf.sub_group_size) < (fuel : Int) := by
      push_cast at hfuel
      omega
    -- an admissible block size above `b` is `b` itself or at least the next one
    have hgap : ∀ b2, b ≤ b2 → admissible_ic_block conf reusable_version b2 →
        b2 = b ∨ b + conf.sub_group_size ≤ b2 := by
      intro b2 hb2 hadm
      obtain ⟨⟨k2, hk21, hk2b⟩, -⟩ := hadm
      by_cases hkk : k2 ≤ k
      · left
        have : k2 * conf.sub_group_size ≤ k * conf.sub_group_size :=
          Int.mul_le_mul_of_nonneg_right hkk (by omega)
        omega
      · right
        have : (k + 1) * conf.sub_group_size ≤ k2 * conf.sub_group_size :=
          Int.mul_le_mul_of_nonneg_right (by omega) (by omega)
        rw [hk2b, hkb]
        linarith
    by_cases hc : b ≤ conf.ic ∧ (if reusable_version = true then b ≤ conf.max_ic_block else True)
    · have hc2 := (loop_cond_iff b conf.ic conf.max_ic_block reusable_version).mp hc
      have hb0 : b ≠ 0 := by omega
      by_cases hd : Int.tmod conf.ic b = 0
      · have hadm : admissible_ic_block conf reusable_version b :=
          ⟨⟨k, hk1, hkb⟩, hd, hc2.1, hc2.2⟩
        have hbsg : conf.sub_group_size ≤ b := by rw [hkb]; nlinarith
        obtain ⟨c, hcalc, hcs, hcq⟩ := get_nhwc_calc_stat_ic_range hbpos hc2.1 hsg
        have hwork : conf.sp * Int.tdiv c conf.sub_group_size
            ≤ INT_MAX * hw_params.eu_count :=
          le_trans (Int.mul_le_mul_of_nonneg_left hcq (by omega)) hr3
        obtain ⟨s, hsb, hs1⟩ := get_nhwc_sp_block_size_ok conf.sp c hw_params.eu_count
          hw_params.threads_per_eu conf.sub_group_size hsp hsg hcs heu hthr hr1 hr2 hwork
        obtain ⟨v, hvs, hv1, -, -⟩ :=
          get_nhwc_vect_size_ok b conf.max_vect_size.value ext.default_simd hds1 (by omega) hmv hfit
        by_cases ha : hw_params.gpu_arch.ge .xe_hpc = true ∧ ¬ (deterministic = true)
        · have hallowed : atomics_allowed hw_params deterministic :=
            ⟨ha.1, by simpa using ha.2⟩
          obtain ⟨out, hrun, hsound, hcomplete, hsorted⟩ :=
            ih (b + conf.sub_group_size)
              (params ++ [(⟨0, b, s, v, []⟩ : model_params_t)] ++
                [(⟨1, b, s, v, []⟩ : model_params_t)]) hnext hfuel2
          refine ⟨(⟨0, b, s, v, []⟩ : model_params_t) ::
                (⟨1, b, s, v, []⟩ : model_params_t) :: out, ?_, ?_, ?_, ?_⟩
          · simp only [create_params_loop, hc, if_true, hb0, if_false, hd, bind, Except.bind,
              hcalc, hsb, hvs]
            rw [if_pos ha, hrun]
            simp
          · intro p hp
            simp only [List.mem_cons] at hp
            rcases hp with rfl | rfl | hp
            · exact ⟨le_refl _, hadm, Or.inl rfl, hs1, hv1, rfl⟩
            · exact ⟨le_refl _, hadm, Or.inr ⟨rfl, hallowed⟩, hs1, hv1, rfl⟩
            · have := hsound p hp
              exact ⟨by omega, this.2⟩
          · intro b2 hb2 hadm2
            rcases hgap b2 hb2 hadm2 with hb | hge
            · exact ⟨⟨(⟨0, b, s, v, []⟩ : model_params_t), by simp, hb.symm, rfl⟩,
                fun _ => ⟨(⟨1, b, s, v, []⟩ : model_params_t), by simp, hb.symm, rfl⟩⟩
            · obtain ⟨⟨p, hp, hp1, hp2⟩, hat⟩ := hcomplete b2 hge hadm2
              refine ⟨⟨p, by simp [hp], hp1, hp2⟩, fun h => ?_⟩
              obtain ⟨q, hq, hq1, hq2⟩ := hat h
              exact ⟨q, by simp [hq], hq1, hq2⟩
          · refine List.Pairwise.cons ?_ (List.Pairwise.cons ?_ hsorted)
            · intro q hq
              simp only [List.mem_cons] at hq
              rcases hq with rfl | hq
              · exact Or.inr ⟨rfl, rfl, rfl⟩
              · have := (hsound q hq).1
                exact Or.inl (show b < q.ic_block by omega)
            · intro q hq
              have := (hsound q hq).1
              exact Or.inl (show b < q.ic_block by omega)
        · have hnot : ¬ atomics_allowed hw_params deterministic := by
            rintro ⟨h1, h2⟩
            exact ha ⟨h1, by simp [h2]⟩
          obtain ⟨out, hrun, hsound, hcomplete, hsorted⟩ :=
            ih (b + conf.sub_group_size)
              (params ++ [(⟨0, b, s, v, []⟩ : model_params_t)]) hnext hfuel2
          refine ⟨(⟨0, b, s, v, []⟩ : model_params_t) :: out, ?_, ?_, ?_, ?_⟩
          · simp only [create_params_loop, hc, if_true, hb0, if_false, hd, bind, Except.bind,
              hcalc, hsb, hvs]
            rw [if_neg ha, hrun]
            simp
          · intro p hp
            simp only [List.mem_cons] at hp
            rcases hp with rfl | hp
            · exact ⟨le_refl _, hadm, Or.inl rfl, hs1, hv1, rfl⟩
            · have := hsound p hp
              exact ⟨by omega, this.2⟩
          · intro b2 hb2 hadm2
            rcases hgap b2 hb2 hadm2 with hb | hge
            · exact ⟨⟨(⟨0, b, s, v, []⟩ : model_params_t), by simp, hb.symm, rfl⟩,
                fun h => absurd h hnot⟩
            · obtain ⟨⟨p, hp, hp1, hp2⟩, hat⟩ := hcomplete b2 hge hadm2
              refine ⟨⟨p, by simp [hp], hp1, hp2⟩, fun h => absurd h hnot⟩
          · refine List.Pairwise.cons ?_ hsorted
            intro q hq
            have := (hsound q hq).1
            exact Or.inl (show b < q.ic_block by omega)
      · obtain ⟨out, hrun, hsound, hcomplete, hsorted⟩ :=
          ih (b + conf.sub_group_size) params hnext hfuel2
        refine ⟨out, ?_, ?_, ?_, hsorted⟩
        · simp only [create_params_loop, hc, if_true, hb0, if_false, hd]
          exact hrun
        · intro p hp
          have := hsound p hp
          exact ⟨by omega, this.2⟩
        · intro b2 hb2 hadm2
          rcases hgap b2 hb2 hadm2 with hb | hge
          · rw [hb] at hadm2
            exact absurd hadm2.2.1 hd
          · exact hcomplete b2 hge hadm2
    · refine ⟨[], by rw [create_params_loop, if_neg hc, List.append_nil], ?_, ?_,
        List.Pairwise.nil⟩
      · intro p hp; simp at hp
      · intro b2 hb2 hadm
        refine absurd ((loop_cond_iff b conf.ic conf.max_ic_block reusable_version).mpr
          ⟨by have := hadm.2.2.1; omega, fun h => by have := hadm.2.2.2 h; omega⟩) hc

theorem create_params_spec (ext : extern_t) (conf : nhwc_bnorm_params_t)
    (deterministic : Bool) (hw_params : hw_params_t) (reusable_version : Bool)
    (hin : candidate_inputs_ok ext conf hw_params) :
    ∃ params, create_params ext conf deterministic hw_params reusable_version = .ok params ∧
      appended_from conf deterministic hw_params reusable_version conf.sub_group_size
        params := by
  have hsg : 1 ≤ conf.sub_group_size := hin.1
  obtain ⟨out, hrun, hspec⟩ := create_params_loop_spec ext conf deterministic hw_params
    reusable_version hin (conf.ic.toNat + 1) conf.sub_group_size []
    ⟨1, le_refl _, by ring⟩ (by
      have := Int.self_le_toNat conf.ic
      push_cast
      omega)
  exact ⟨out, by simpa [create_params] using hrun, hspec⟩

theorem admissible_ge_sub_group {conf : nhwc_bnorm_params_t} {reusable_version : Bool} {b : Int}
    (hsg : 1 ≤ conf.sub_group_size) (h : admissible_ic_block conf reusable_version b) :
    conf.sub_group_size ≤ b := by
  obtain ⟨⟨k, hk, hb⟩, -⟩ := h
  rw [hb]
  nlinarith

/-- C9: on inputs the creation of the candidates accepts, the set of channel
block sizes of the candidates generated by `get_params_by_model` is exactly the
set of `ic_block` values that are (positive) multiples of `sub_group_size`,
divide `conf.ic` evenly, satisfy `ic_block <= conf.ic` and, for the reusable
version, `ic_block <= conf.max_ic_block`; the candidates appear in increasing
`ic_block` order (the two variants of one block size next to each other, the
two-pass variant first). -/
theorem create_params_ic_blocks (ext : extern_t) (conf : nhwc_bnorm_params_t)
    (deterministic : Bool) (hw_params : hw_params_t) (reusable_version : Bool)
    (hin : candidate_inputs_ok ext conf hw_params) :
    ∃ params, create_params ext conf deterministic hw_params reusable_version = .ok params ∧
      (∀ b, (∃ p ∈ params, p.ic_block = b) ↔ admissible_ic_block conf reusable_version b) ∧
      List.Pairwise (fun p q : model_params_t => p.ic_block ≤ q.ic_block) params ∧
      List.Pairwise candidate_order params := by
  obtain ⟨params, hrun, hsound, hcomplete, hsorted⟩ :=
    create_params_spec ext conf deterministic hw_params reusable_version hin
  refine ⟨params, hrun, ?_, ?_, hsorted⟩
  · intro b
    constructor
    · rintro ⟨p, hp, rfl⟩
      exact (hsound p hp).2.1
    · intro hadm
      obtain ⟨⟨p, hp, hpb, -⟩, -⟩ := hcomplete b (admissible_ge_sub_group hin.1 hadm) hadm
      exact ⟨p, hp, hpb⟩
  · refine hsorted.imp ?_
    intro p q hpq
    rcases hpq with h | ⟨h, -, -⟩
    · exact le_of_lt h
    · exact le_of_eq h

/-- Witness of `create_params_ic_blocks` at the sample workload. -/
theorem create_params_ic_blocks_witness :
    candidate_inputs_ok sample_ext (sample_conf false) sample_hw ∧
    ∃ params, create_params sample_ext (sample_conf false) false sample_hw true = .ok params ∧
      (∀ b, (∃ p ∈ params, p.ic_block = b) ↔ admissible_ic_block (sample_conf false) true b) ∧
      List.Pairwise (fun p q : model_params_t => p.ic_block ≤ q.ic_block) params ∧
      List.Pairwise candidate_order params :=
  ⟨by unfold candidate_inputs_ok; decide,
    create_params_ic_blocks sample_ext (sample_conf false) false sample_hw true
      (by unfold candidate_inputs_ok; decide)⟩

/-- C10: on inputs the creation of the candidates accepts, for each admissible
`ic_block` the candidate list contains the two-pass variant
(`use_fused_atomics_reduction = 0`), and contains the atomics variant
(`use_fused_atomics_reduction = 1`) if and only if the architecture is at or
above `xe_hpc` and `deterministic_` is false; hence when deterministic execution
is required no generated candidate uses atomics. -/
theorem create_params_variants (ext : extern_t) (conf : nhwc_bnorm_params_t)
    (deterministic : Bool) (hw_params : hw_params_t) (reusable_version : Bool)
    (hin : candidate_inputs_ok ext conf hw_params) :
    ∃ params, create_params ext conf deterministic hw_params reusable_version = .ok params ∧
      (∀ b, admissible_ic_block conf reusable_version b →
        (∃ p ∈ params, p.ic_block = b ∧ p.use_fused_atomics_reduction = 0) ∧
        ((∃ p ∈ params, p.ic_block = b ∧ p.use_fused_atomics_reduction = 1) ↔
          (hw_params.gpu_arch.ge .xe_hpc = true ∧ deterministic = false))) ∧
      (deterministic = true → ∀ p ∈ params, p.use_fused_atomics_reduction = 0) := by
  obtain ⟨params, hrun, hsound, hcomplete, -⟩ :=
    create_params_spec ext conf deterministic hw_params reusable_version hin
  refine ⟨params, hrun, ?_, ?_⟩
  · intro b hadm
    obtain ⟨htwo, hatomics⟩ := hcomplete b (admissible_ge_sub_group hin.1 hadm) hadm
    refine ⟨htwo, ?_, hatomics⟩
    rintro ⟨p, hp, -, hp1⟩
    rcases (hsound p hp).2.2.1 with h0 | ⟨-, hallowed⟩
    · omega
    · exact hallowed
  · intro hdet p hp
    rcases (hsound p hp).2.2.1 with h0 | ⟨-, -, hfalse⟩
    · exact h0
    · rw [hdet] at hfalse
      cases hfalse

/-- Witness of `create_params_variants` at the sample workload with
deterministic execution required. -/
theorem create_params_variants_witness :
    candidate_inputs_ok sample_ext (sample_conf false) sample_hw ∧
    ∃ params, create_params sample_ext (sample_conf false) true sample_hw false = .ok params ∧
      (∀ b, admissible_ic_block (sample_conf false) false b →
        (∃ p ∈ params, p.ic_block = b ∧ p.use_fused_atomics_reduction = 0) ∧
        ((∃ p ∈ params, p.ic_block = b ∧ p.use_fused_atomics_reduction = 1) ↔
          (sample_hw.gpu_arch.ge .xe_hpc = true ∧ true = false))) ∧
      (true = true → ∀ p ∈ params, p.use_fused_atomics_reduction = 0) :=
  ⟨by unfold candidate_inputs_ok; decide,
    create_params_variants sample_ext (sample_conf false) true sample_hw false
      (by unfold candidate_inputs_ok; decide)⟩

theorem same_choice_refl (p : model_params_t) : same_choice p p := ⟨rfl, rfl, rfl, rfl⟩

theorem same_choice_trans {p q r : model_params_t} (h1 : same_choice p q)
    (h2 : same_choice q r) : same_choice p r := by
  obtain ⟨a1, a2, a3, a4⟩ := h1
  obtain ⟨b1, b2, b3, b4⟩ := h2
  exact ⟨by rw [b1, a1], by rw [b2, a2], by rw [b3, a3], by rw [b4, a4]⟩

theorem init_kernel_descriptors_ok (p : model_params_t) (conf : nhwc_bnorm_params_t)
    (hw_params : hw_params_t) (reusable_version : Bool) (desc : kernel_desc_t) :
    ∃ p2, init_kernel_descriptors p conf hw_params reusable_version desc = .ok p2 ∧
      same_choice p p2 := by
  by_cases ha : p.use_fused_atomics_reduction = 0 <;> cases hf : conf.is_forward <;>
    cases hs : conf.calculate_stats <;> cases ho : conf.use_stats_one_pass <;>
    cases reusable_version <;>
    simp [init_kernel_descriptors, push_ker_desc, init_ker_desc, get_ncalls, ha, hf, hs, ho,
      bind, Except.bind, pure, Except.pure, same_choice]

theorem make_perf_estimations_loop_ok (ext : extern_t) (p : model_params_t)
    (conf : nhwc_bnorm_params_t) (hw_params : hw_params_t)
    (hest : ∀ p c d h, ∃ d2, ext.make_kernel_perf_estimation p c d h = .ok d2) :
    ∀ descs : List kernel_desc_t,
      ∃ descs2, make_perf_estimations_loop ext p conf hw_params descs = .ok descs2 := by
  intro descs
  induction descs with
  | nil => exact ⟨[], rfl⟩
  | cons d rest ih =>
    obtain ⟨d2, hd⟩ := hest p conf d hw_params
    obtain ⟨rest2, hrest⟩ := ih
    exact ⟨d2 :: rest2, by
      simp [make_perf_estimations_loop, hd, hrest, bind, Except.bind, pure, Except.pure]⟩

theorem make_perf_estimations_ok (ext : extern_t) (p : model_params_t)
    (conf : nhwc_bnorm_params_t) (hw_params : hw_params_t)
    (hest : ∀ p c d h, ∃ d2, ext.make_kernel_perf_estimation p c d h = .ok d2) :
    ∃ p2, make_perf_estimations ext p conf hw_params = .ok p2 ∧ same_choice p p2 := by
  obtain ⟨descs2, h⟩ := make_perf_estimations_loop_ok ext p conf hw_params hest p.kernel_descs
  exact ⟨{ p with kernel_descs := descs2 }, by
    simp [make_perf_estimations, h, bind, Except.bind, pure, Except.pure], rfl, rfl, rfl, rfl⟩

theorem find_best_params_ok (ext : extern_t) (conf : nhwc_bnorm_params_t)
    (hw_params : hw_params_t) (reusable_version : Bool)
    (hest : ∀ p c d h, ∃ d2, ext.make_kernel_perf_estimation p c d h = .ok d2) :
    ∀ (params : List model_params_t) (best : model_params_t × float),
      ∃ r, find_best_params ext conf hw_params reusable_version params best = .ok r ∧
        (same_choice best.1 r.1 ∨ ∃ p ∈ params, same_choice p r.1) := by
  intro params
  induction params with
  | nil => intro best; exact ⟨best, rfl, Or.inl (same_choice_refl _)⟩
  | cons p rest ih =>
    intro best
    obtain ⟨p1, h1, hs1⟩ := init_kernel_descriptors_ok p conf hw_params reusable_version
      ext.default_desc
    obtain ⟨p2, h2, hs2⟩ := make_perf_estimations_ok ext p1 conf hw_params hest
    have hs := same_choice_trans hs1 hs2
    obtain ⟨r, hr, hchoice⟩ := ih
      (if (expected_time hw_params p2.kernel_descs (.fin 0)).lt best.2 = true
        then (p2, expected_time hw_params p2.kernel_descs (.fin 0)) else best)
    refine ⟨r, ?_, ?_⟩
    · simp only [find_best_params, bind, Except.bind, h1, h2]
      exact hr
    · rcases hchoice with h | ⟨q, hq, hqr⟩
      · split at h
        · exact Or.inr ⟨p, by simp, same_choice_trans hs h⟩
        · exact Or.inl h
      · exact Or.inr ⟨q, by simp [hq], hqr⟩

theorem save_best_params_total (conf : nhwc_bnorm_params_t) (best_params : model_params_t)
    (t : float) (hsg : 1 ≤ conf.sub_group_size) (hmv : 1 ≤ conf.max_vect_size.value)
    (hfit : conf.max_vect_size.value * conf.sub_group_size ≤ INT_MAX)
    (hic : conf.sub_group_size ≤ (if ¬ conf.ic_block.is_overridden ∨
      (conf.ic_block.is_overridden ∧ conf.ic_block.value > conf.ic)
      then conf.ic_block.set best_params.ic_block else conf.ic_block).value)
    (hunroll : (SAVE_PARAM conf.update_sp_unroll 1).value ≠ 0)
    (hblock : (SAVE_PARAM conf.update_sp_block
      (SAVE_PARAM conf.stat_sp_block best_params.stat_sp_block).value).value ≠ 0) :
    ∃ conf2, save_best_params conf best_params t = .ok conf2 := by
  have hb0 : (if ¬ conf.ic_block.is_overridden ∨
      (conf.ic_block.is_overridden ∧ conf.ic_block.value > conf.ic)
      then conf.ic_block.set best_params.ic_block else conf.ic_block).value ≠ 0 := by omega
  obtain ⟨v, hv, -⟩ := get_nhwc_vect_size_ok _ _ _ hsg hic hmv hfit
  unfold save_best_params
  simp only [bind, Except.bind, pure, Except.pure, throw, throwThe, MonadExceptOf.throw,
    get_nhwc_calc_stat_ic, div_up, hb0, if_false, hv, hunroll, hblock]
  split <;> exact ⟨_, rfl⟩

theorem save_best_params_ok {conf conf2 : nhwc_bnorm_params_t} {best_params : model_params_t}
    {t : float} (h : save_best_params conf best_params t = .ok conf2) :
    conf2.use_fused_atomics_reduction =
      SAVE_PARAM conf.use_fused_atomics_reduction best_params.use_fused_atomics_reduction ∧
    conf2.ic_block = (if ¬ conf.ic_block.is_overridden ∨
      (conf.ic_block.is_overridden ∧ conf.ic_block.value > conf.ic)
      then conf.ic_block.set best_params.ic_block else conf.ic_block) ∧
    conf2.stat_sp_block = SAVE_PARAM conf.stat_sp_block best_params.stat_sp_block ∧
    conf2.update_sp_block = SAVE_PARAM conf.update_sp_block conf2.stat_sp_block.value ∧
    conf2.update_sp_unroll =
      (if (SAVE_PARAM conf.update_sp_unroll 1).is_overridden ∧
          (Int.tmod conf2.update_sp_block.value (SAVE_PARAM conf.update_sp_unroll 1).value ≠ 0 ∨
           Int.tmod (Int.tmod conf.sp conf2.update_sp_block.value)
             (SAVE_PARAM conf.update_sp_unroll 1).value ≠ 0)
        then (SAVE_PARAM conf.update_sp_unroll 1).set 1
        else SAVE_PARAM conf.update_sp_unroll 1) := by
  unfold save_best_params at h
  simp only [bind, Except.bind, pure, Except.pure, throw, throwThe, MonadExceptOf.throw] at h
  split at h
  · cases h
  split at h
  · cases h
  split at h
  · cases h
  split at h
  · next hbad =>
    cases h
    simp [hbad]
  · next hbad =>
    split at h
    · cases h
    · cases h
      simp [hbad]

theorem get_params_by_model_save {ext : extern_t} {conf conf2 : nhwc_bnorm_params_t}
    {deterministic : Bool} {hw_params : hw_params_t} {reusable_version : Bool}
    (h : get_params_by_model ext conf deterministic hw_params reusable_version = .ok conf2) :
    ∃ best_params t, save_best_params conf best_params t = .ok conf2 := by
  unfold get_params_by_model at h
  simp only [bind, Except.bind] at h
  split at h
  · cases h
  split at h
  · cases h
  exact ⟨_, _, h⟩

theorem get_params_by_model_total (ext : extern_t) (conf : nhwc_bnorm_params_t)
    (deterministic : Bool) (hw_params : hw_params_t) (reusable_version : Bool)
    (hin : candidate_inputs_ok ext conf hw_params) (hsel : selection_inputs_ok ext conf) :
    ∃ best t conf2,
      (best.ic_block = ext.default_params.ic_block ∨
        admissible_ic_block conf reusable_version best.ic_block) ∧
      save_best_params conf best t = .ok conf2 ∧
      get_params_by_model ext conf deterministic hw_params reusable_version = .ok conf2 := by
  obtain ⟨hest, hfit, hdic, hdsp, hpic, hpsp, hpub, hpun⟩ := hsel
  have hsg : 1 ≤ conf.sub_group_size := hin.1
  have hmv : 1 ≤ conf.max_vect_size.value := hin.2.2.2.2.1
  obtain ⟨params, hrun, hsound, -, -⟩ :=
    create_params_spec ext conf deterministic hw_params reusable_version hin
  obtain ⟨r, hr, hchoice⟩ := find_best_params_ok ext conf hw_params reusable_version hest
    params (ext.default_params, FLT_MAX)
  have hbest : (r.1.ic_block = ext.default_params.ic_block ∨
      admissible_ic_block conf reusable_version r.1.ic_block) ∧
      conf.sub_group_size ≤ r.1.ic_block ∧ 1 ≤ r.1.stat_sp_block := by
    rcases hchoice with ⟨-, h2, h3, -⟩ | ⟨p, hp, -, h2, h3, -⟩
    · simp only at h2 h3
      exact ⟨Or.inl h2, by omega, by omega⟩
    · obtain ⟨-, hadm, -, hsp1, -, -⟩ := hsound p hp
      rw [← h2] at hadm
      exact ⟨Or.inr hadm, admissible_ge_sub_group hsg hadm, by omega⟩
  obtain ⟨hwhich, hbic, hbsp⟩ := hbest
  obtain ⟨conf2, hsave⟩ := save_best_params_total conf r.1 r.2 hsg hmv hfit
    (by
      split
      · simpa [param_t.set] using hbic
      · next hc =>
        have : conf.ic_block.is_overridden = true := by
          by_contra hno
          exact hc (Or.inl hno)
        exact hpic this)
    (by
      unfold SAVE_PARAM
      split
      · simp [param_t.set]
      · next hc =>
        have := hpun (by simpa using hc)
        omega)
    (by
      cases hub : conf.update_sp_block.is_overridden
      · cases hst : conf.stat_sp_block.is_overridden
        · simp [SAVE_PARAM, param_t.set, hub, hst]
          omega
        · have := hpsp hst
          simp [SAVE_PARAM, param_t.set, hub, hst]
          omega
      · have := hpub hub
        simp [SAVE_PARAM, param_t.set, hub]
        omega)
  refine ⟨r.1, r.2, conf2, hwhich, hsave, ?_⟩
  simp only [get_params_by_model, bind, Except.bind, hrun, hr]
  exact hsave

/-- C8 (amended): `get_params_by_model` keeps a pinned
`use_fused_atomics_reduction`, `stat_sp_block` and `update_sp_block`; it keeps a
pinned `ic_block` that does not exceed `conf.ic`; it keeps a pinned
`update_sp_unroll` that divides both the final `update_sp_block` and
`conf.sp % update_sp_block`, and replaces any other pinned `update_sp_unroll`
by 1. -/
theorem get_params_by_model_pinned (ext : extern_t) (conf : nhwc_bnorm_params_t)
    (deterministic : Bool) (hw_params : hw_params_t) (reusable_version : Bool)
    (conf2 : nhwc_bnorm_params_t)
    (h : get_params_by_model ext conf deterministic hw_params reusable_version = .ok conf2) :
    (conf.use_fused_atomics_reduction.is_overridden = true →
      conf2.use_fused_atomics_reduction = conf.use_fused_atomics_reduction) ∧
    (conf.stat_sp_block.is_overridden = true → conf2.stat_sp_block = conf.stat_sp_block) ∧
    (conf.update_sp_block.is_overridden = true →
      conf2.update_sp_block = conf.update_sp_block) ∧
    (conf.ic_block.is_overridden = true → conf.ic_block.value ≤ conf.ic →
      conf2.ic_block = conf.ic_block) ∧
    (conf.update_sp_unroll.is_overridden = true →
      Int.tmod conf2.update_sp_block.value conf.update_sp_unroll.value = 0 →
      Int.tmod (Int.tmod conf.sp conf2.update_sp_block.value)
        conf.update_sp_unroll.value = 0 →
      conf2.update_sp_unroll = conf.update_sp_unroll) ∧
    (conf.update_sp_unroll.is_overridden = true →
      (Int.tmod conf2.update_sp_block.value conf.update_sp_unroll.value ≠ 0 ∨
        Int.tmod (Int.tmod conf.sp conf2.update_sp_block.value)
          conf.update_sp_unroll.value ≠ 0) →
      conf2.update_sp_unroll.value = 1) := by
  obtain ⟨best, t, hsave⟩ := get_params_by_model_save h
  obtain ⟨h1, h2, h3, h4, h5⟩ := save_best_params_ok hsave
  refine ⟨?_, ?_, ?_, ?_, ?_, ?_⟩
  · intro hov
    rw [h1]; simp [SAVE_PARAM, hov]
  · intro hov
    rw [h3]; simp [SAVE_PARAM, hov]
  · intro hov
    rw [h4]; simp [SAVE_PARAM, hov]
  · intro hov hle
    rw [h2]; simp [hov]; omega
  · intro hov hd1 hd2
    have hsv : SAVE_PARAM conf.update_sp_unroll 1 = conf.update_sp_unroll := by
      simp [SAVE_PARAM, hov]
    rw [h5, hsv]
    simp [hd1, hd2]
  · intro hov hbad
    have hsv : SAVE_PARAM conf.update_sp_unroll 1 = conf.update_sp_unroll := by
      simp [SAVE_PARAM, hov]
    rw [h5, hsv, if_pos ⟨hov, hbad⟩]
    rfl

theorem sample_ext_estimates :
    ∀ (p : model_params_t) (c : nhwc_bnorm_params_t) (d : kernel_desc_t) (h : hw_params_t),
      ∃ d2, sample_ext.make_kernel_perf_estimation p c d h = .ok d2 :=
  fun _ _ _ _ => ⟨_, rfl⟩

/-- Witness of `get_params_by_model_pinned` at the sample workload with
`ic_block = 32`, `stat_sp_block = 8` and `update_sp_unroll = 2` pinned. -/
theorem get_params_by_model_pinned_witness :
    ∃ conf2, get_params_by_model sample_ext sample_conf_pinned false sample_hw false
        = .ok conf2 ∧
      ((sample_conf_pinned.use_fused_atomics_reduction.is_overridden = true →
        conf2.use_fused_atomics_reduction = sample_conf_pinned.use_fused_atomics_reduction) ∧
      (sample_conf_pinned.stat_sp_block.is_overridden = true →
        conf2.stat_sp_block = sample_conf_pinned.stat_sp_block) ∧
      (sample_conf_pinned.update_sp_block.is_overridden = true →
        conf2.update_sp_block = sample_conf_pinned.update_sp_block) ∧
      (sample_conf_pinned.ic_block.is_overridden = true →
        sample_conf_pinned.ic_block.value ≤ sample_conf_pinned.ic →
        conf2.ic_block = sample_conf_pinned.ic_block) ∧
      (sample_conf_pinned.update_sp_unroll.is_overridden = true →
        Int.tmod conf2.update_sp_block.value sample_conf_pinned.update_sp_unroll.value = 0 →
        Int.tmod (Int.tmod sample_conf_pinned.sp conf2.update_sp_block.value)
          sample_conf_pinned.update_sp_unroll.value = 0 →
        conf2.update_sp_unroll = sample_conf_pinned.update_sp_unroll) ∧
      (sample_conf_pinned.update_sp_unroll.is_overridden = true →
        (Int.tmod conf2.update_sp_block.value sample_conf_pinned.update_sp_unroll.value ≠ 0 ∨
          Int.tmod (Int.tmod sample_conf_pinned.sp conf2.update_sp_block.value)
            sample_conf_pinned.update_sp_unroll.value ≠ 0) →
        conf2.update_sp_unroll.value = 1)) := by
  obtain ⟨_, _, conf2, -, -, h⟩ := get_params_by_model_total sample_ext sample_conf_pinned
    false sample_hw false (by unfold candidate_inputs_ok; decide)
    ⟨sample_ext_estimates, by decide, by decide, by decide, by decide, by decide, by decide,
      by decide⟩
  exact ⟨conf2, h,
    get_params_by_model_pinned sample_ext sample_conf_pinned false sample_hw false conf2 h⟩

/-- C8 (counterexample): with `update_sp_block` pinned to 4 and `update_sp_unroll`
pinned to 3 the planner returns `update_sp_unroll = 1`; with `ic_block` pinned to
64 on a workload of 32 channels it returns an `ic_block` of at most 32. -/
theorem get_params_by_model_pinned_counterexample :
    (sample_conf_wrong_unroll.update_sp_unroll = ⟨3, true⟩ ∧
      ∃ conf2, get_params_by_model sample_ext sample_conf_wrong_unroll false sample_hw false
          = .ok conf2 ∧ conf2.update_sp_unroll.value = 1) ∧
    (sample_conf_wrong_ic_block.ic_block = ⟨64, true⟩ ∧
      ∃ conf2, get_params_by_model sample_ext sample_conf_wrong_ic_block false sample_hw false
          = .ok conf2 ∧ conf2.ic_block.value ≤ 32 ∧ conf2.ic_block.value ≠ 64) := by
  refine ⟨⟨rfl, ?_⟩, ⟨rfl, ?_⟩⟩
  · obtain ⟨best, t, conf2, -, hsave, h⟩ := get_params_by_model_total sample_ext
      sample_conf_wrong_unroll false sample_hw false (by unfold candidate_inputs_ok; decide)
      ⟨sample_ext_estimates, by decide, by decide, by decide, by decide, by decide, by decide,
        by decide⟩
    refine ⟨conf2, h, ?_⟩
    obtain ⟨-, -, -, h4, h5⟩ := save_best_params_ok hsave
    have hb : conf2.update_sp_block = ⟨4, true⟩ := by
      rw [h4]; rfl
    rw [h5, hb]
    decide
  · obtain ⟨best, t, conf2, hwhich, hsave, h⟩ := get_params_by_model_total sample_ext
      sample_conf_wrong_ic_block false sample_hw false (by unfold candidate_inputs_ok; decide)
      ⟨sample_ext_estimates, by decide, by decide, by decide, by decide, by decide, by decide,
        by decide⟩
    obtain ⟨-, h2, -⟩ := save_best_params_ok hsave
    have hv : conf2.ic_block.value = best.ic_block := by
      rw [h2]; rfl
    have hle : best.ic_block ≤ 32 := by
      rcases hwhich with h16 | hadm
      · rw [h16]; decide
      · exact hadm.2.2.1
    exact ⟨conf2, h, by omega, by omega⟩

theorem get_nhwc_vect_size_loop_step (ic simd : Int) (fuel : Nat) (v : Int)
    (hrec : get_nhwc_vect_size_loop ic simd fuel (Int.tdiv v 2) ≠ .error .out_of_fuel) :
    get_nhwc_vect_size_loop ic simd (fuel + 1) v ≠ .error .out_of_fuel := by
  by_cases h1 : fits_int (v * simd)
  · by_cases h2 : v * simd = 0
    · simp only [get_nhwc_vect_size_loop, h2]
      split <;> simp
    · by_cases h3 : ic = INT_MIN ∧ v * simd = -1
      · simp [get_nhwc_vect_size_loop, h1, h2, h3]
      · by_cases h4 : Int.tdiv ic (v * simd) = 0
        · simp only [get_nhwc_vect_size_loop, h1, h2, h3, h4, not_true_eq_false, if_false,
            ne_eq]
          exact hrec
        · simp [get_nhwc_vect_size_loop, h1, h2, h3, h4]
  · simp [get_nhwc_vect_size_loop, h1]

theorem get_nhwc_vect_size_loop_fuel (ic simd : Int) :
    ∀ (fuel : Nat) (v : Int), v.natAbs < 2 ^ fuel →
      get_nhwc_vect_size_loop ic simd (fuel + 1) v ≠ .error .out_of_fuel := by
  intro fuel
  induction fuel with
  | zero =>
    intro v hv
    have hv0 : v = 0 := by omega
    subst hv0
    have hfits : fits_int 0 := by
      unfold fits_int INT_MIN INT_MAX; omega
    simp [get_nhwc_vect_size_loop, hfits]
  | succ fuel ih =>
    intro v hv
    apply get_nhwc_vect_size_loop_step
    apply ih
    rw [Int.natAbs_tdiv]
    apply Nat.div_lt_of_lt_mul
    rw [pow_succ] at hv
    show v.natAbs < 2 * 2 ^ fuel
    omega

theorem get_nhwc_vect_size_loop_stop (ic simd : Int) (fuel : Nat) (v : Int)
    (h : ¬ fits_int (v * simd) ∨ v * simd = 0) :
    get_nhwc_vect_size_loop ic simd (fuel + 1) v ≠ .error .out_of_fuel := by
  by_cases h1 : fits_int (v * simd)
  · have h2 : v * simd = 0 := by
      rcases h with h | h
      · exact absurd h1 h
      · exact h
    simp only [get_nhwc_vect_size_loop, h2]
    split <;> simp
  · simp [get_nhwc_vect_size_loop, h1]

/-- The step budget of `get_nhwc_vect_size` is never used up: the loop stops, with
a value or with a fault of the C++ code, for all arguments. -/
theorem get_nhwc_vect_size_fuel (ic max_vect_size simd : Int) :
    get_nhwc_vect_size ic max_vect_size simd ≠ .error .out_of_fuel := by
  unfold get_nhwc_vect_size
  by_cases h1 : fits_int (max_vect_size * simd)
  · by_cases h2 : max_vect_size * simd = 0
    · exact get_nhwc_vect_size_loop_stop ic simd 33 max_vect_size (Or.inr h2)
    · apply get_nhwc_vect_size_loop_step ic simd 33
      apply get_nhwc_vect_size_loop_fuel ic simd 32
      obtain ⟨h3, h4⟩ := h1
      unfold INT_MIN at h3
      unfold INT_MAX at h4
      have hs : simd ≠ 0 := by
        rintro rfl
        simp at h2
      have hle : max_vect_size.natAbs ≤ (max_vect_size * simd).natAbs := by
        rw [Int.natAbs_mul]
        exact Nat.le_mul_of_pos_right _ (Int.natAbs_pos.mpr hs)
      rw [Int.natAbs_tdiv]
      apply Nat.div_lt_of_lt_mul
      show max_vect_size.natAbs < 2 * 2 ^ 32
      norm_num
      omega
  · exact get_nhwc_vect_size_loop_stop ic simd 33 max_vect_size (Or.inl h1)

theorem div_up_fault {a b : Int} {e : fault_t} (h : div_up a b = .error e) :
    e = .div_by_zero := by
  unfold div_up at h
  split at h
  · injection h with h; exact h.symm
  · cases h

theorem rnd_up_fault {a b : Int} {e : fault_t} (h : rnd_up a b = .error e) :
    e = .div_by_zero := by
  unfold rnd_up at h
  simp only [bind, Except.bind, pure, Except.pure] at h
  split at h
  · next e2 he =>
    injection h with h
    subst h
    exact div_up_fault he
  · cases h

theorem get_nhwc_sp_block_size_step_fault {sp ic_nsg eu_count threads_per_eu nthr_mul : Int}
    {st : sp_block_search_t} {e : fault_t}
    (h : get_nhwc_sp_block_size_step sp ic_nsg eu_count threads_per_eu nthr_mul st = .error e) :
    e = .div_by_zero ∨ e = .int_overflow := by
  unfold get_nhwc_sp_block_size_step at h
  simp only [bind, Except.bind, pure, Except.pure, throw, throwThe, MonadExceptOf.throw] at h
  by_cases c1 : fits_int (nthr_mul * eu_count)
  swap
  · rw [if_pos c1] at h
    injection h with h; exact Or.inr h.symm
  by_cases c2 : fits_dim (sp * ic_nsg)
  swap
  · rw [if_neg (not_not.mpr c1), if_pos c2] at h
    injection h with h; exact Or.inr h.symm
  rw [if_neg (not_not.mpr c1), if_neg (not_not.mpr c2)] at h
  try simp only at h
  cases hd1 : div_up (sp * ic_nsg) (nthr_mul * eu_count) with
  | error e2 =>
    rw [hd1] at h
    injection h with h; subst h; exact Or.inl (div_up_fault hd1)
  | ok b =>
    rw [hd1] at h
    try simp only at h
    cases hd2 : div_up sp b with
    | error e2 =>
      rw [hd2] at h
      injection h with h; subst h; exact Or.inl (div_up_fault hd2)
    | ok nb =>
      rw [hd2] at h
      try simp only at h
      by_cases c3 : fits_dim (nb * ic_nsg)
      swap
      · rw [if_pos c3] at h
        injection h with h; exact Or.inr h.symm
      rw [if_neg (not_not.mpr c3)] at h
      try simp only at h
      cases hd3 : rnd_up (nb * ic_nsg) eu_count with
      | error e2 =>
        rw [hd3] at h
        injection h with h; subst h; exact Or.inl (rnd_up_fault hd3)
      | ok r1 =>
        rw [hd3] at h
        try simp only at h
        by_cases c4 : fits_int (eu_count * threads_per_eu)
        swap
        · rw [if_pos c4] at h
          injection h with h; exact Or.inr h.symm
        rw [if_neg (not_not.mpr c4)] at h
        try simp only at h
        cases hd4 : rnd_up (nb * ic_nsg) (eu_count * threads_per_eu) with
        | error e2 =>
          rw [hd4] at h
          injection h with h; subst h; exact Or.inl (rnd_up_fault hd4)
        | ok r2 =>
          rw [hd4] at h
          cases h

/-- The step budget of the search loop of `get_nhwc_sp_block_size` is never used
up: started at `nthr_mul = 1` with 32 steps, the loop ends with a value or with a
fault of the C++ code. -/
theorem get_nhwc_sp_block_size_loop_fuel (sp ic_nsg eu_count threads_per_eu : Int) :
    ∀ (fuel : Nat) (nthr_mul : Int) (st : sp_block_search_t), 33 - nthr_mul ≤ fuel →
      get_nhwc_sp_block_size_loop sp ic_nsg eu_count threads_per_eu fuel nthr_mul st
        ≠ .error .out_of_fuel := by
  intro fuel
  induction fuel with
  | zero =>
    intro nthr_mul st h
    have : ¬ nthr_mul ≤ 32 := by
      simp at h
      omega
    simp [get_nhwc_sp_block_size_loop, this]
  | succ fuel ih =>
    intro nthr_mul st h
    by_cases hc : nthr_mul ≤ 32
    · cases hstep : get_nhwc_sp_block_size_step sp ic_nsg eu_count threads_per_eu nthr_mul st with
      | error e =>
        rcases get_nhwc_sp_block_size_step_fault hstep with rfl | rfl <;>
          simp [get_nhwc_sp_block_size_loop, hc, hstep, bind, Except.bind]
      | ok st2 =>
        simp only [get_nhwc_sp_block_size_loop, hc, if_true, hstep, bind, Except.bind]
        exact ih _ _ (by push_cast at h; omega)
    · simp [get_nhwc_sp_block_size_loop, hc]

/-- C20: the reduction strategies are never mixed in one kernel sequence.  The
descriptors `init_kernel_descriptors` appends to the candidate (forward with
`calculate_stats`, or backward) end with `reduce_aux_init`, `reduce_aux_finalize`
and hold no reduction kernel (`reduce_stats_fwd`, `reusable_reduce_stats_fwd`,
`reduce_mean_var`, `reduce_stats_bwd`) when `use_fused_atomics_reduction` is set;
they hold exactly one reduction kernel and no `reduce_aux_*` kernel when it is
not set; forward without `calculate_stats` appends `default_fwd` only. -/
theorem init_kernel_descriptors_reduction_exclusive (p : model_params_t)
    (conf : nhwc_bnorm_params_t) (hw_params : hw_params_t) (reusable_version : Bool)
    (desc : kernel_desc_t) :
    ∃ q new, init_kernel_descriptors p conf hw_params reusable_version desc = .ok q ∧
      q.kernel_descs = p.kernel_descs ++ new ∧
      ((conf.is_forward = false ∨ conf.calculate_stats = true) →
        p.use_fused_atomics_reduction ≠ 0 →
        (∃ pre, new.map (fun d => d.kernel) =
          pre ++ [.reduce_aux_init_ker, .reduce_aux_finalize_ker]) ∧
        ∀ d ∈ new, is_reduction_kernel d.kernel = false) ∧
      ((conf.is_forward = false ∨ conf.calculate_stats = true) →
        p.use_fused_atomics_reduction = 0 →
        (new.filter (fun d => is_reduction_kernel d.kernel)).length = 1 ∧
        ∀ d ∈ new, d.kernel ≠ .reduce_aux_init_ker ∧ d.kernel ≠ .reduce_aux_finalize_ker) ∧
      (conf.is_forward = true → conf.calculate_stats = false →
        new.map (fun d => d.kernel) = [.default_fwd_ker]) := by
  by_cases ha : p.use_fused_atomics_reduction = 0 <;> cases hf : conf.is_forward <;>
    cases hs : conf.calculate_stats <;> cases ho : conf.use_stats_one_pass <;>
    cases reusable_version <;>
    simp [init_kernel_descriptors, push_ker_desc, init_ker_desc, get_ncalls, ha, hf, hs, ho,
      bind, Except.bind, pure, Except.pure, is_reduction_kernel] <;>
    first
      | exact ⟨[_], rfl⟩
      | exact ⟨[_, _], rfl⟩
      | exact ⟨[_, _, _], rfl⟩

theorem get_kernel_input_size_fault {p : model_params_t} {conf : nhwc_bnorm_params_t}
    {desc : kernel_desc_t} {e : fault_t} (h : get_kernel_input_size p conf desc = .error e) :
    e = .div_by_zero := by
  unfold get_kernel_input_size at h
  by_cases hb : p.stat_sp_block = 0 <;> by_cases hs : conf.sub_group_size = 0 <;>
    cases hk : desc.kernel <;>
    simp [div_up, rnd_up, hb, hs, hk, bind, Except.bind, pure, Except.pure] at h <;>
    exact h.symm

theorem get_kernel_output_size_fault {p : model_params_t} {conf : nhwc_bnorm_params_t}
    {desc : kernel_desc_t} {e : fault_t} (h : get_kernel_output_size p conf desc = .error e) :
    e = .div_by_zero := by
  unfold get_kernel_output_size at h
  by_cases hb : p.stat_sp_block = 0 <;> by_cases hs : conf.sub_group_size = 0 <;>
    by_cases ha : p.use_fused_atomics_reduction = 0 <;> cases hk : desc.kernel <;>
    simp [div_up, rnd_up, hb, hs, ha, hk, bind, Except.bind, pure, Except.pure] at h <;>
    exact h.symm

theorem get_kernel_input_size_ok (p : model_params_t) (conf : nhwc_bnorm_params_t)
    (desc : kernel_desc_t) (hb : p.stat_sp_block ≠ 0) (hs : conf.sub_group_size ≠ 0) :
    ∃ v, get_kernel_input_size p conf desc = .ok v := by
  unfold get_kernel_input_size
  cases hk : desc.kernel <;>
    simp [div_up, rnd_up, hb, hs, hk, bind, Except.bind, pure, Except.pure]

theorem get_kernel_output_size_ok (p : model_params_t) (conf : nhwc_bnorm_params_t)
    (desc : kernel_desc_t) (hb : p.stat_sp_block ≠ 0) (hs : conf.sub_group_size ≠ 0) :
    ∃ v, get_kernel_output_size p conf desc = .ok v := by
  unfold get_kernel_output_size
  by_cases ha : p.use_fused_atomics_reduction = 0 <;> cases hk : desc.kernel <;>
    simp [div_up, rnd_up, hb, hs, ha, hk, bind, Except.bind, pure, Except.pure]

theorem get_ncalls_congr {p q : model_params_t} (conf : nhwc_bnorm_params_t)
    (kernel : kernel_kind_t) (h : q.use_fused_atomics_reduction = p.use_fused_atomics_reduction) :
    get_ncalls q conf kernel = get_ncalls p conf kernel := by
  unfold get_ncalls; rw [h]

theorem init_kernel_descriptors_ncalls (p : model_params_t)
    (conf : nhwc_bnorm_params_t) (hw_params : hw_params_t) (reusable_version : Bool)
    (desc : kernel_desc_t) :
    ∃ q new, init_kernel_descriptors p conf hw_params reusable_version desc = .ok q ∧
      q.kernel_descs = p.kernel_descs ++ new ∧ new ≠ [] ∧
      ∀ d ∈ new, 1 ≤ d.ncalls ∧ get_ncalls p conf d.kernel = .ok d.ncalls := by
  by_cases ha : p.use_fused_atomics_reduction = 0 <;> cases hf : conf.is_forward <;>
    cases hs : conf.calculate_stats <;> cases ho : conf.use_stats_one_pass <;>
    cases reusable_version <;>
    simp [init_kernel_descriptors, push_ker_desc, init_ker_desc, get_ncalls, ha, hf, hs, ho,
      bind, Except.bind, pure, Except.pure]

/-- C27: every kernel descriptor emitted by `init_kernel_descriptors` is
invoked: each descriptor it appends has `ncalls >= 1`, the value `get_ncalls`
returns for its kind, and neither `get_kernel_input_size` nor
`get_kernel_output_size` ends in `gpu_error_not_expected()` for it; they return
a size as soon as the block size and the sub-group size are non-zero. -/
theorem init_kernel_descriptors_invoked (p : model_params_t)
    (conf : nhwc_bnorm_params_t) (hw_params : hw_params_t) (reusable_version : Bool)
    (desc : kernel_desc_t) :
    ∃ q new, init_kernel_descriptors p conf hw_params reusable_version desc = .ok q ∧
      q.kernel_descs = p.kernel_descs ++ new ∧
      ∀ d ∈ new, 1 ≤ d.ncalls ∧ get_ncalls q conf d.kernel = .ok d.ncalls ∧
        get_kernel_input_size q conf d ≠ .error .not_expected ∧
        get_kernel_output_size q conf d ≠ .error .not_expected ∧
        (q.stat_sp_block ≠ 0 → conf.sub_group_size ≠ 0 →
          (∃ v, get_kernel_input_size q conf d = .ok v) ∧
          ∃ v, get_kernel_output_size q conf d = .ok v) := by
  obtain ⟨q, new, hq, hnew, _, hall⟩ :=
    init_kernel_descriptors_ncalls p conf hw_params reusable_version desc
  obtain ⟨q2, hq2, hsame⟩ := init_kernel_descriptors_ok p conf hw_params reusable_version desc
  have hqq : q2 = q := by rw [hq] at hq2; exact (Except.ok.inj hq2).symm
  subst hqq
  refine ⟨q2, new, hq, hnew, fun d hd => ⟨(hall d hd).1, ?_, fun h => ?_, fun h => ?_,
    fun hb hs => ⟨get_kernel_input_size_ok q2 conf d hb hs,
      get_kernel_output_size_ok q2 conf d hb hs⟩⟩⟩
  · rw [get_ncalls_congr conf d.kernel hsame.1]; exact (hall d hd).2
  · exact absurd (get_kernel_input_size_fault h) (by decide)
  · exact absurd (get_kernel_output_size_fault h) (by decide)

/-- C21 (amended): for a `default_fwd` kernel with `calculate_stats = false`, or a
`default_bwd` kernel with `calculate_diff_stats = false`,
`get_expected_data_location` assigns HBM to the input location for every byte
volume and architecture; the output location is placed by size like that of any
other kernel: it is L3 exactly when the architecture is not `xe_hpg` and
`output_nbytes < L3_size`, and HBM otherwise. -/
theorem get_expected_data_location_no_stats (p : model_params_t)
    (conf : nhwc_bnorm_params_t) (hw_params : hw_params_t) (desc : kernel_desc_t)
    (h : (desc.kernel = .default_fwd_ker ∧ conf.calculate_stats = false) ∨
      (desc.kernel = .default_bwd_ker ∧ conf.calculate_diff_stats = false)) :
    (get_expected_data_location p conf hw_params desc).input_location = .HBM ∧
    ((get_expected_data_location p conf hw_params desc).output_location = .L3 ↔
      (hw_params.gpu_arch ≠ .xe_hpg ∧ desc.output_nbytes < hw_params.L3_size)) ∧
    ((get_expected_data_location p conf hw_params desc).output_location = .HBM ↔
      ¬ (hw_params.gpu_arch ≠ .xe_hpg ∧ desc.output_nbytes < hw_params.L3_size)) := by
  unfold get_expected_data_location
  rcases h with ⟨hk, hc⟩ | ⟨hk, hc⟩ <;>
    by_cases ha : hw_params.gpu_arch = .xe_hpg <;>
    by_cases ho : desc.output_nbytes < hw_params.L3_size <;>
    simp [hk, hc, ha, ho]

theorem get_expected_data_location_no_stats_witness :
    (get_expected_data_location sample_params sample_conf_no_stats sample_hw
        sample_default_fwd_desc).input_location = .HBM ∧
    ((get_expected_data_location sample_params sample_conf_no_stats sample_hw
        sample_default_fwd_desc).output_location = .L3 ↔
      (sample_hw.gpu_arch ≠ .xe_hpg ∧
        sample_default_fwd_desc.output_nbytes < sample_hw.L3_size)) ∧
    ((get_expected_data_location sample_params sample_conf_no_stats sample_hw
        sample_default_fwd_desc).output_location = .HBM ↔
      ¬ (sample_hw.gpu_arch ≠ .xe_hpg ∧
        sample_default_fwd_desc.output_nbytes < sample_hw.L3_size)) :=
  get_expected_data_location_no_stats sample_params sample_conf_no_stats sample_hw
    sample_default_fwd_desc (Or.inl ⟨rfl, rfl⟩)

/-- C21 (counterexample): on `xe_hpc` the `default_fwd` kernel of a workload with
`calculate_stats = false` that writes 4096 bytes gets the output location L3,
not HBM. -/
theorem get_expected_data_location_no_stats_counterexample :
    sample_default_fwd_desc.kernel = .default_fwd_ker ∧
    sample_conf_no_stats.calculate_stats = false ∧
    (get_expected_data_location sample_params sample_conf_no_stats sample_hw
      sample_default_fwd_desc).output_location = .L3 ∧
    (get_expected_data_location sample_params sample_conf_no_stats sample_hw
      sample_default_fwd_desc).output_location ≠ .HBM := by
  decide

/-- C22: placement rule of `get_expected_data_location`.  On `xe_hpg` both
locations are HBM; on any other architecture the output is L3 iff
`output_nbytes < L3_size` (else HBM), and the input is L3 iff, for `calc_mean`
and `calc_var`, `input_nbytes + output_nbytes < L3_size`, and for any other
kernel that is not a no-stats default kernel, `input_nbytes < L3_size` (else
HBM); the result is never SLM, and no other member of the descriptor changes. -/
theorem get_expected_data_location_rule (p : model_params_t)
    (conf : nhwc_bnorm_params_t) (hw_params : hw_params_t) (desc : kernel_desc_t) :
    (hw_params.gpu_arch = .xe_hpg →
      (get_expected_data_location p conf hw_params desc).input_location = .HBM ∧
      (get_expected_data_location p conf hw_params desc).output_location = .HBM) ∧
    (hw_params.gpu_arch ≠ .xe_hpg →
      ((get_expected_data_location p conf hw_params desc).output_location =
        if desc.output_nbytes < hw_params.L3_size then .L3 else .HBM) ∧
      ((desc.kernel = .calc_mean_ker ∨ desc.kernel = .calc_var_ker) →
        (get_expected_data_location p conf hw_params desc).input_location =
          if desc.input_nbytes + desc.output_nbytes < hw_params.L3_size then .L3 else .HBM) ∧
      (¬ (desc.kernel = .calc_mean_ker ∨ desc.kernel = .calc_var_ker) →
        ¬ ((desc.kernel = .default_fwd_ker ∧ conf.calculate_stats = false) ∨
          (desc.kernel = .default_bwd_ker ∧ conf.calculate_diff_stats = false)) →
        (get_expected_data_location p conf hw_params desc).input_location =
          if desc.input_nbytes < hw_params.L3_size then .L3 else .HBM)) ∧
    (get_expected_data_location p conf hw_params desc).input_location ≠ .SLM ∧
    (get_expected_data_location p conf hw_params desc).output_location ≠ .SLM ∧
    get_expected_data_location p conf hw_params desc =
      { desc with
        input_location := (get_expected_data_location p conf hw_params desc).input_location
        output_location :=
          (get_expected_data_location p conf hw_params desc).output_location } := by
  unfold get_expected_data_location
  by_cases ha : hw_params.gpu_arch = .xe_hpg <;>
    by_cases ho : desc.output_nbytes < hw_params.L3_size <;>
    by_cases hi : desc.input_nbytes < hw_params.L3_size <;>
    by_cases hio : desc.input_nbytes + desc.output_nbytes < hw_params.L3_size <;>
    by_cases hk : (desc.kernel = .calc_mean_ker ∨ desc.kernel = .calc_var_ker) <;>
    by_cases hn : ((desc.kernel = .default_fwd_ker ∧ conf.calculate_stats = false) ∨
          (desc.kernel = .default_bwd_ker ∧ conf.calculate_diff_stats = false)) <;>
    simp [ha, ho, hi, hio, hk, hn]

/-- C28: in two-pass mode (`use_fused_atomics_reduction` not set) the byte
volumes of producer and consumer agree: the output size of `calc_mean` and of
`calc_var` equals the input size of `reduce_stats_fwd` (and of its reusable
variant), the output size of `calc_mean_var` equals the input size of
`reduce_mean_var`, and the output size of `calc_stats` equals the input size of
`reduce_stats_bwd`; the sizes are computed as soon as the block size and the
sub-group size are non-zero. -/
theorem kernel_sizes_producer_consumer (p : model_params_t) (conf : nhwc_bnorm_params_t)
    (producer consumer : kernel_desc_t) (h0 : p.use_fused_atomics_reduction = 0)
    (hpair : (producer.kernel, consumer.kernel) ∈
      [(kernel_kind_t.calc_mean_ker, kernel_kind_t.reduce_stats_fwd_ker),
       (.calc_var_ker, .reduce_stats_fwd_ker),
       (.calc_mean_ker, .reusable_reduce_stats_fwd_ker),
       (.calc_var_ker, .reusable_reduce_stats_fwd_ker),
       (.calc_mean_var_ker, .reduce_mean_var_ker),
       (.calc_stats_ker, .reduce_stats_bwd_ker)]) :
    get_kernel_output_size p conf producer = get_kernel_input_size p conf consumer ∧
    (p.stat_sp_block ≠ 0 → conf.sub_group_size ≠ 0 →
      ∃ v, get_kernel_output_size p conf producer = .ok v ∧
        get_kernel_input_size p conf consumer = .ok v) := by
  have heq : get_kernel_output_size p conf producer = get_kernel_input_size p conf consumer := by
    simp only [List.mem_cons, Prod.mk.injEq, List.mem_singleton, List.not_mem_nil, or_false]
      at hpair
    unfold get_kernel_output_size get_kernel_input_size
    rcases hpair with ⟨h1, h2⟩ | ⟨h1, h2⟩ | ⟨h1, h2⟩ | ⟨h1, h2⟩ | ⟨h1, h2⟩ | ⟨h1, h2⟩ <;>
      simp [h1, h2, h0]
  refine ⟨heq, fun hb hs => ?_⟩
  obtain ⟨v, hv⟩ := get_kernel_output_size_ok p conf producer hb hs
  exact ⟨v, hv, heq ▸ hv⟩

theorem kernel_sizes_producer_consumer_witness :
    get_kernel_output_size sample_params (sample_conf true)
        { sample_desc with kernel := .calc_mean_var_ker } =
      get_kernel_input_size sample_params (sample_conf true)
        { sample_desc with kernel := .reduce_mean_var_ker } ∧
    (sample_params.stat_sp_block ≠ 0 → (sample_conf true).sub_group_size ≠ 0 →
      ∃ v, get_kernel_output_size sample_params (sample_conf true)
          { sample_desc with kernel := .calc_mean_var_ker } = .ok v ∧
        get_kernel_input_size sample_params (sample_conf true)
          { sample_desc with kernel := .reduce_mean_var_ker } = .ok v) :=
  kernel_sizes_producer_consumer sample_params (sample_conf true)
    { sample_desc with kernel := .calc_mean_var_ker }
    { sample_desc with kernel := .reduce_mean_var_ker } rfl (by decide)

theorem save_best_params_legal {conf conf2 : nhwc_bnorm_params_t} {best_params : model_params_t}
    {t : float} (h : save_best_params conf best_params t = .ok conf2) :
    conf2.sp = conf.sp ∧
    conf2.expected_time_ms = float.mul binary64 t (float.round binary64 (1 / 1000000)) ∧
    conf2.update_sp_unroll.value ≠ 0 ∧ conf2.update_sp_block.value ≠ 0 ∧
    Int.tmod conf2.update_sp_block.value conf2.update_sp_unroll.value = 0 ∧
    Int.tmod (Int.tmod conf2.sp conf2.update_sp_block.value) conf2.update_sp_unroll.value = 0 := by
  unfold save_best_params at h
  simp only [bind, Except.bind, pure, Except.pure, throw, throwThe, MonadExceptOf.throw] at h
  split at h
  · cases h
  split at h
  · cases h
  split at h
  · cases h
  next hu =>
  split at h
  · next hbad =>
    cases h
    cases hov : conf.update_sp_unroll.is_overridden <;>
      simp [SAVE_PARAM, param_t.set, hov] at hbad hu ⊢
    intro h0
    rw [h0] at hbad
    simp at hbad
  · next hbad =>
    split at h
    · cases h
    · next hb =>
      cases h
      cases hov : conf.update_sp_unroll.is_overridden <;>
        simp [SAVE_PARAM, param_t.set, hov] at hbad hu hb ⊢
      · exact hb
      · by_cases hbad2 : Int.tmod (Int.tmod conf.sp (SAVE_PARAM conf.update_sp_block
            (SAVE_PARAM conf.stat_sp_block best_params.stat_sp_block).value).value)
            conf.update_sp_unroll.value = 0
        · simp [SAVE_PARAM, param_t.set] at hbad2
          simp [hbad2, hbad, hu, hb]
        · simp [SAVE_PARAM, param_t.set] at hbad2
          simp [hbad2, hbad, hu, hb]

/-- C14: whenever `get_params_by_model` returns, `update_sp_block` and
`update_sp_unroll` are non-zero and the final unroll factor is legal:
`conf.update_sp_block % conf.update_sp_unroll == 0` and
`(conf.sp % conf.update_sp_block) % conf.update_sp_unroll == 0`; a pinned unroll
factor that violates this is replaced by 1 instead of failing. -/
theorem get_params_by_model_unroll_legal (ext : extern_t) (conf : nhwc_bnorm_params_t)
    (deterministic : Bool) (hw_params : hw_params_t) (reusable_version : Bool)
    (conf2 : nhwc_bnorm_params_t)
    (h : get_params_by_model ext conf deterministic hw_params reusable_version = .ok conf2) :
    conf2.update_sp_block.value ≠ 0 ∧ conf2.update_sp_unroll.value ≠ 0 ∧
    Int.tmod conf2.update_sp_block.value conf2.update_sp_unroll.value = 0 ∧
    Int.tmod (Int.tmod conf2.sp conf2.update_sp_block.value) conf2.update_sp_unroll.value = 0 ∧
    (conf.update_sp_unroll.is_overridden = true →
      (Int.tmod conf2.update_sp_block.value conf.update_sp_unroll.value ≠ 0 ∨
        Int.tmod (Int.tmod conf.sp conf2.update_sp_block.value)
          conf.update_sp_unroll.value ≠ 0) →
      conf2.update_sp_unroll = ⟨1, true⟩) := by
  obtain ⟨best_params, t, hsave⟩ := get_params_by_model_save h
  obtain ⟨-, -, hu, hb, h1, h2⟩ := save_best_params_legal hsave
  obtain ⟨-, -, -, -, h5⟩ := save_best_params_ok hsave
  refine ⟨hb, hu, h1, h2, fun hov hbad => ?_⟩
  have hs : SAVE_PARAM conf.update_sp_unroll 1 = conf.update_sp_unroll := by
    simp [SAVE_PARAM, hov]
  rw [hs] at h5
  rw [h5, if_pos ⟨hov, hbad⟩]
  simp [param_t.set, hov]

theorem get_params_by_model_unroll_legal_witness :
    ∃ conf2, get_params_by_model sample_ext sample_conf_wrong_unroll false sample_hw true
        = .ok conf2 ∧
      (conf2.update_sp_block.value ≠ 0 ∧ conf2.update_sp_unroll.value ≠ 0 ∧
      Int.tmod conf2.update_sp_block.value conf2.update_sp_unroll.value = 0 ∧
      Int.tmod (Int.tmod conf2.sp conf2.update_sp_block.value)
        conf2.update_sp_unroll.value = 0 ∧
      (sample_conf_wrong_unroll.update_sp_unroll.is_overridden = true →
        (Int.tmod conf2.update_sp_block.value
            sample_conf_wrong_unroll.update_sp_unroll.value ≠ 0 ∨
          Int.tmod (Int.tmod sample_conf_wrong_unroll.sp conf2.update_sp_block.value)
            sample_conf_wrong_unroll.update_sp_unroll.value ≠ 0) →
        conf2.update_sp_unroll = ⟨1, true⟩)) := by
  obtain ⟨_, _, conf2, -, -, h⟩ := get_params_by_model_total sample_ext
    sample_conf_wrong_unroll false sample_hw true (by unfold candidate_inputs_ok; decide)
    ⟨sample_ext_estimates, by decide, by decide, by decide, by decide, by decide, by decide,
      by decide⟩
  exact ⟨conf2, h, get_params_by_model_unroll_legal sample_ext sample_conf_wrong_unroll false
    sample_hw true conf2 h⟩

/-- C30 (amended): for `ic >= simd >= 1` and `max_vect_size >= 1` whose product
`max_vect_size * simd` is a representable `int`, the loop of `get_nhwc_vect_size`
terminates without dividing by zero and returns `v` with
`1 <= v <= max_vect_size` and `v * simd <= ic`; for every input the loop ends
within its 34 steps. -/
theorem get_nhwc_vect_size_terminates (ic max_vect_size simd : Int) (hs : 1 ≤ simd)
    (hic : simd ≤ ic) (hmax : 1 ≤ max_vect_size) (hfit : max_vect_size * simd ≤ INT_MAX) :
    (∃ v, get_nhwc_vect_size ic max_vect_size simd = .ok v ∧ 1 ≤ v ∧ v ≤ max_vect_size ∧
      v * simd ≤ ic) ∧
    ∀ ic2 max2 simd2 : Int, get_nhwc_vect_size ic2 max2 simd2 ≠ .error .out_of_fuel :=
  ⟨get_nhwc_vect_size_ok ic max_vect_size simd hs hic hmax hfit, get_nhwc_vect_size_fuel⟩

theorem get_nhwc_vect_size_terminates_witness :
    (∃ v, get_nhwc_vect_size 48 8 16 = .ok v ∧ 1 ≤ v ∧ v ≤ 8 ∧ v * 16 ≤ 48) ∧
    ∀ ic2 max2 simd2 : Int, get_nhwc_vect_size ic2 max2 simd2 ≠ .error .out_of_fuel :=
  get_nhwc_vect_size_terminates 48 8 16 (by decide) (by decide) (by decide) (by decide)

/-- C30 (counterexample): for `ic = 4`, `simd = 4` and `max_vect_size = 2^30` the
`int` product `vect_size * simd` of the first step is `2^32`, which is not
representable, so no `v` is returned. -/
theorem get_nhwc_vect_size_overflow_counterexample :
    (1 : Int) ≤ 4 ∧ (4 : Int) ≤ 4 ∧ (1 : Int) ≤ 1073741824 ∧
    get_nhwc_vect_size 4 1073741824 4 = .error .int_overflow ∧
    ¬ ∃ v, get_nhwc_vect_size 4 1073741824 4 = .ok v := by
  have h : get_nhwc_vect_size 4 1073741824 4 = .error .int_overflow := by decide
  refine ⟨by decide, by decide, by decide, h, ?_⟩
  rintro ⟨v, hv⟩
  rw [h] at hv
  cases hv

theorem get_nhwc_vect_size_loop_no_status (ic simd : Int) :
    ∀ (fuel : Nat) (v : Int) (s : status_t),
      get_nhwc_vect_size_loop ic simd fuel v ≠ .error (.status s) := by
  intro fuel
  induction fuel with
  | zero => intro v s h; simp [get_nhwc_vect_size_loop] at h
  | succ n ih =>
    intro v s h
    unfold get_nhwc_vect_size_loop at h
    simp only at h
    split at h
    · cases h
    split at h
    · cases h
    split at h
    · cases h
    split at h
    · cases h
    · exact ih _ s h

theorem save_best_params_no_status (conf : nhwc_bnorm_params_t) (best_params : model_params_t)
    (t : float) (s : status_t) : save_best_params conf best_params t ≠ .error (.status s) := by
  intro h
  unfold save_best_params at h
  simp only [bind, Except.bind, pure, Except.pure, throw, throwThe, MonadExceptOf.throw] at h
  split at h
  · next e hc =>
    cases h
    unfold get_nhwc_calc_stat_ic at hc
    simp only [bind, Except.bind, pure, Except.pure] at hc
    split at hc
    · next e2 hd => cases hc; exact absurd (div_up_fault hd) (by simp)
    · cases hc
  split at h
  · next e hv =>
    cases h
    exact get_nhwc_vect_size_loop_no_status _ _ _ _ s hv
  split at h
  · cases h
  split at h
  · cases h
  · split at h
    · cases h
    · cases h

theorem get_params_by_model_of_empty {ext : extern_t} {conf : nhwc_bnorm_params_t}
    {deterministic : Bool} {hw_params : hw_params_t} {reusable_version : Bool}
    (hempty : create_params ext conf deterministic hw_params reusable_version = .ok []) :
    get_params_by_model ext conf deterministic hw_params reusable_version =
      save_best_params conf ext.default_params FLT_MAX := by
  unfold get_params_by_model
  rw [hempty]
  rfl

/-- C11 (code): when the candidate set is empty, `get_params_by_model` does not
report a failure status: it saves the default-constructed `best_params` and
`best_expected_time = FLT_MAX` into `conf`, so that an `ic_block` that is not
pinned becomes the default-constructed one and `expected_time_ms` becomes
`FLT_MAX * 1e-6`, and returns `status::success` (or stops in a division by
zero of the saving code). -/
theorem get_params_by_model_empty_candidates (ext : extern_t) (conf : nhwc_bnorm_params_t)
    (deterministic : Bool) (hw_params : hw_params_t) (reusable_version : Bool)
    (hempty : create_params ext conf deterministic hw_params reusable_version = .ok []) :
    get_params_by_model ext conf deterministic hw_params reusable_version =
      save_best_params conf ext.default_params FLT_MAX ∧
    (∀ s, get_params_by_model ext conf deterministic hw_params reusable_version ≠
      .error (.status s)) ∧
    (∀ conf2, get_params_by_model ext conf deterministic hw_params reusable_version = .ok conf2 →
      (conf.ic_block.is_overridden = false →
        conf2.ic_block.value = ext.default_params.ic_block) ∧
      conf2.expected_time_ms =
        float.mul binary64 FLT_MAX (float.round binary64 (1 / 1000000))) := by
  have heq := get_params_by_model_of_empty hempty
  refine ⟨heq, fun s => ?_, fun conf2 h => ?_⟩
  · rw [heq]; exact save_best_params_no_status _ _ _ s
  · rw [heq] at h
    obtain ⟨-, h2, -⟩ := save_best_params_ok h
    obtain ⟨-, ht, -⟩ := save_best_params_legal h
    refine ⟨fun hov => ?_, ht⟩
    rw [h2]
    simp [hov, param_t.set]

theorem get_params_by_model_empty_candidates_witness :
    create_params sample_ext sample_conf_small_max_ic_block false sample_hw true = .ok [] ∧
    (get_params_by_model sample_ext sample_conf_small_max_ic_block false sample_hw true =
      save_best_params sample_conf_small_max_ic_block sample_ext.default_params FLT_MAX ∧
    (∀ s, get_params_by_model sample_ext sample_conf_small_max_ic_block false sample_hw true ≠
      .error (.status s)) ∧
    (∀ conf2, get_params_by_model sample_ext sample_conf_small_max_ic_block false sample_hw true
        = .ok conf2 →
      (sample_conf_small_max_ic_block.ic_block.is_overridden = false →
        conf2.ic_block.value = sample_ext.default_params.ic_block) ∧
      conf2.expected_time_ms =
        float.mul binary64 FLT_MAX (float.round binary64 (1 / 1000000)))) ∧
    ∃ conf2, get_params_by_model sample_ext sample_conf_small_max_ic_block false sample_hw true
      = .ok conf2 :=
  ⟨by decide,
    get_params_by_model_empty_candidates sample_ext sample_conf_small_max_ic_block false
      sample_hw true (by decide),
    by
      obtain ⟨_, _, conf2, -, -, h⟩ := get_params_by_model_total sample_ext
        sample_conf_small_max_ic_block false sample_hw true
        (by unfold candidate_inputs_ok; decide)
        ⟨sample_ext_estimates, by decide, by decide, by decide, by decide, by decide,
          by decide, by decide⟩
      exact ⟨conf2, h⟩⟩

theorem ss_util_set_length : ss_util_set.length = 6 := rfl

theorem appr_table_length : appr_table.length = 96 := by decide

theorem get_ss_util_idx_breakpoint (b : Nat) (hb : b < 6) :
    get_ss_util_idx (ss_util_set.getD b (.fin 8)) = b := by
  interval_cases b <;> decide!

theorem get_appr_table_idx_onto (i : Nat) (hi : i < 96) :
    get_appr_table_idx (ss_util_set.getD (i % 6) (.fin 8))
      (if i / 6 % 2 = 1 then .f16 else .f32) (if i / 12 % 2 = 1 then .write else .read)
      (decide (i / 24 % 2 = 0)) (if i / 48 % 2 = 1 then .L3 else .HBM) = i := by
  have hb := get_ss_util_idx_breakpoint (i % 6) (Nat.mod_lt _ (by decide))
  unfold get_appr_table_idx
  rw [hb, ss_util_set_length]
  have h1 : (if (if i / 6 % 2 = 1 then data_type_t.f16 else .f32) = .f16 ∨
      (if i / 6 % 2 = 1 then data_type_t.f16 else .f32) = .bf16 then 1 else 0 : Nat)
      = i / 6 % 2 := by
    split_ifs <;> simp_all
  have h2 : (if (if i / 12 % 2 = 1 then mem_operation_t.write else .read) = .read
      then 0 else 1 : Nat) = i / 12 % 2 := by
    split_ifs <;> simp_all
  have h3 : (if decide (i / 24 % 2 = 0) = true then 0 else 1 : Nat) = i / 24 % 2 := by
    split_ifs <;> simp_all
  have h4 : (if (if i / 48 % 2 = 1 then data_location_t.L3 else .HBM) = .HBM
      then 0 else 1 : Nat) = i / 48 % 2 := by
    split_ifs <;> simp_all
  simp only [h1, h2, h3, h4]
  omega

/-- C26: `get_appr_table_idx` maps the composite key (occupancy bucket `0..5`,
16-bit vs wider data type, read vs write, reusable vs not, HBM vs non-HBM
location) one-to-one onto the indices `0..95` of `appr_table`, which has exactly
96 entries: every index is in bounds, two keys with the same index agree in all
five components, and every index `0..95` belongs to some key. -/
theorem get_appr_table_idx_bijective :
    appr_table.length = 96 ∧
    (∀ (ss_util : float) (dt : data_type_t) (op : mem_operation_t) (is_reusable : Bool)
        (location : data_location_t),
      get_appr_table_idx ss_util dt op is_reusable location < appr_table.length) ∧
    (∀ (ss1 ss2 : float) (dt1 dt2 : data_type_t) (op1 op2 : mem_operation_t)
        (r1 r2 : Bool) (loc1 loc2 : data_location_t),
      get_appr_table_idx ss1 dt1 op1 r1 loc1 = get_appr_table_idx ss2 dt2 op2 r2 loc2 →
      get_ss_util_idx ss1 = get_ss_util_idx ss2 ∧
      ((dt1 = .f16 ∨ dt1 = .bf16) ↔ (dt2 = .f16 ∨ dt2 = .bf16)) ∧
      op1 = op2 ∧ r1 = r2 ∧ (loc1 = .HBM ↔ loc2 = .HBM)) ∧
    (∀ i, i < 96 → ∃ (ss_util : float) (dt : data_type_t) (op : mem_operation_t)
        (is_reusable : Bool) (location : data_location_t),
      get_appr_table_idx ss_util dt op is_reusable location = i) := by
  refine ⟨appr_table_length, ?_, ?_, ?_⟩
  · intro ss_util dt op is_reusable location
    have h5 := get_ss_util_idx_le_five ss_util
    rw [appr_table_length]
    simp only [get_appr_table_idx, ss_util_set_length]
    split_ifs <;> omega
  · intro ss1 ss2 dt1 dt2 op1 op2 r1 r2 loc1 loc2 h
    have h1 := get_ss_util_idx_le_five ss1
    have h2 := get_ss_util_idx_le_five ss2
    simp only [get_appr_table_idx, ss_util_set_length] at h
    have hd1 : (if dt1 = .f16 ∨ dt1 = .bf16 then 1 else 0 : Nat) ≤ 1 := by split_ifs <;> omega
    have hd2 : (if dt2 = .f16 ∨ dt2 = .bf16 then 1 else 0 : Nat) ≤ 1 := by split_ifs <;> omega
    have ho1 : (if op1 = .read then 0 else 1 : Nat) ≤ 1 := by split_ifs <;> omega
    have ho2 : (if op2 = .read then 0 else 1 : Nat) ≤ 1 := by split_ifs <;> omega
    have hr1 : (if r1 = true then 0 else 1 : Nat) ≤ 1 := by split_ifs <;> omega
    have hr2 : (if r2 = true then 0 else 1 : Nat) ≤ 1 := by split_ifs <;> omega
    have hl1 : (if loc1 = .HBM then 0 else 1 : Nat) ≤ 1 := by split_ifs <;> omega
    have hl2 : (if loc2 = .HBM then 0 else 1 : Nat) ≤ 1 := by split_ifs <;> omega
    have e1 : get_ss_util_idx ss1 = get_ss_util_idx ss2 := by omega
    have e2 : (if dt1 = .f16 ∨ dt1 = .bf16 then 1 else 0 : Nat) =
        (if dt2 = .f16 ∨ dt2 = .bf16 then 1 else 0) := by omega
    have e3 : (if op1 = .read then 0 else 1 : Nat) = (if op2 = .read then 0 else 1) := by omega
    have e4 : (if r1 = true then 0 else 1 : Nat) = (if r2 = true then 0 else 1) := by omega
    have e5 : (if loc1 = .HBM then 0 else 1 : Nat) = (if loc2 = .HBM then 0 else 1) := by omega
    refine ⟨e1, ?_, ?_, ?_, ?_⟩
    · by_cases c1 : dt1 = .f16 ∨ dt1 = .bf16 <;> by_cases c2 : dt2 = .f16 ∨ dt2 = .bf16 <;>
        simp [c1, c2] at e2 ⊢
    · cases op1 <;> cases op2 <;> simp at e3 ⊢
    · cases r1 <;> cases r2 <;> simp at e4 ⊢
    · by_cases c1 : loc1 = .HBM <;> by_cases c2 : loc2 = .HBM <;> simp [c1, c2] at e5 ⊢
  · intro i hi
    exact ⟨_, _, _, _, _, get_appr_table_idx_onto i hi⟩

theorem f32_one : f32 1 = .fin 1 := by decide!

theorem f32_four : f32 4 = .fin 4 := by decide!

theorem f32_2_5 : f32 (25 / 10) = .fin (5 / 2) := by decide!

theorem f32_1_5 : f32 (15 / 10) = .fin (3 / 2) := by decide!

theorem f32_1_8 : f32 (18 / 10) = .fin (15099494 / 8388608) := by decide!

theorem f32_1_2 : f32 (12 / 10) = .fin (10066330 / 8388608) := by decide!

theorem f32_1_3 : f32 (13 / 10) = .fin (10905190 / 8388608) := by decide!

/-- C25: `get_vectorization_factor` is a discount that shrinks with the vector
width: for each data type and each of the two versions the factor is
non-increasing along the vector widths 1, 2, 4, 8, is at least 1 for every
width, and equals exactly 1 for the width 8 and for every width other than 1, 2
and 4. -/
theorem get_vectorization_factor_discount (dt : data_type_t) (is_reusable : Bool) :
    (get_vectorization_factor 2 dt is_reusable).le (get_vectorization_factor 1 dt is_reusable)
      = true ∧
    (get_vectorization_factor 4 dt is_reusable).le (get_vectorization_factor 2 dt is_reusable)
      = true ∧
    (get_vectorization_factor 8 dt is_reusable).le (get_vectorization_factor 4 dt is_reusable)
      = true ∧
    (∀ vect_size : Int,
      (float.fin 1).le (get_vectorization_factor vect_size dt is_reusable) = true) ∧
    get_vectorization_factor 8 dt is_reusable = .fin 1 ∧
    (∀ vect_size : Int, vect_size ≠ 1 → vect_size ≠ 2 → vect_size ≠ 4 →
      get_vectorization_factor vect_size dt is_reusable = .fin 1) := by
  have hv : ∀ vect_size : Int,
      (float.fin 1).le (get_vectorization_factor vect_size dt is_reusable) = true := by
    intro v
    unfold get_vectorization_factor
    simp only [f32_one, f32_four, f32_2_5, f32_1_5, f32_1_8, f32_1_2, f32_1_3]
    split_ifs <;> decide!
  refine ⟨?_, ?_, ?_, hv, ?_, ?_⟩
  · cases dt <;> cases is_reusable <;>
      simp [get_vectorization_factor, f32_one, f32_four, f32_2_5, f32_1_5, f32_1_8, f32_1_2,
        f32_1_3] <;> decide!
  · cases dt <;> cases is_reusable <;>
      simp [get_vectorization_factor, f32_one, f32_four, f32_2_5, f32_1_5, f32_1_8, f32_1_2,
        f32_1_3] <;> decide!
  · cases dt <;> cases is_reusable <;>
      simp [get_vectorization_factor, f32_one, f32_four, f32_2_5, f32_1_5, f32_1_8, f32_1_2,
        f32_1_3] <;> decide!
  · cases dt <;> cases is_reusable <;> simp [get_vectorization_factor, f32_one]
  · intro v h1 h2 h4
    cases dt <;> cases is_reusable <;> simp [get_vectorization_factor, f32_one, h1, h2, h4]

/-! ### Rounding to a floating-point format: order and exactness -/

theorem pow2q_eq (e : Int) : pow2q e = (2 : ℚ) ^ e := by
  unfold pow2q
  split_ifs with h
  · have h2 : e = ((e.toNat : Nat) : Int) := (Int.toNat_of_nonneg h).symm
    conv_rhs => rw [h2]
    rw [zpow_natCast]
  · have h2 : e = -(((-e).toNat : Nat) : Int) := by omega
    conv_rhs => rw [h2]
    rw [zpow_neg, zpow_natCast, one_div]

theorem pow2q_pos (e : Int) : 0 < pow2q e := by
  rw [pow2q_eq]; exact zpow_pos (by norm_num) e

theorem pow2q_add (a b : Int) : pow2q (a + b) = pow2q a * pow2q b := by
  simp only [pow2q_eq]; exact zpow_add₀ (by norm_num) a b

theorem pow2q_le {a b : Int} (h : a ≤ b) : pow2q a ≤ pow2q b := by
  simp only [pow2q_eq]; exact zpow_le_zpow_right₀ (by norm_num) h

theorem pow2q_lt {a b : Int} (h : a < b) : pow2q a < pow2q b := by
  simp only [pow2q_eq]; exact zpow_lt_zpow_right₀ (by norm_num) h

theorem pow2q_natCast (n : Nat) : pow2q (n : Int) = (2 : ℚ) ^ n := by
  rw [pow2q_eq, zpow_natCast]

theorem pow2q_zero : pow2q 0 = 1 := by
  rw [pow2q_eq]; simp

theorem ilog2_estimate (N D LN LD : Nat) (hD : 0 < D)
    (hn1 : 2 ^ LN ≤ N) (hn2 : N < 2 ^ (LN + 1)) (hd1 : 2 ^ LD ≤ D) (hd2 : D < 2 ^ (LD + 1)) :
    pow2q ((LN : Int) - (LD : Int) + (-1)) < (N : ℚ) / (D : ℚ) ∧
    (N : ℚ) / (D : ℚ) < pow2q ((LN : Int) - (LD : Int) + 1) := by
  have hdpos : (0 : ℚ) < (D : ℚ) := by exact_mod_cast hD
  have hn1q : (2 : ℚ) ^ LN ≤ (N : ℚ) := by exact_mod_cast hn1
  have hn2q : (N : ℚ) < (2 : ℚ) ^ (LN + 1) := by exact_mod_cast hn2
  have hd1q : (2 : ℚ) ^ LD ≤ (D : ℚ) := by exact_mod_cast hd1
  have hd2q : (D : ℚ) < (2 : ℚ) ^ (LD + 1) := by exact_mod_cast hd2
  have hpn : (0 : ℚ) < (2 : ℚ) ^ LN := by positivity
  have hpd : (0 : ℚ) < (2 : ℚ) ^ LD := by positivity
  have e0 : ∀ k : Int, pow2q ((LN : Int) - (LD : Int) + k)
      = (2 : ℚ) ^ LN / (2 : ℚ) ^ LD * pow2q k := by
    intro k
    rw [pow2q_add, pow2q_eq, zpow_sub₀ (by norm_num), zpow_natCast, zpow_natCast]
  have h3 : (D : ℚ) < 2 * (2 : ℚ) ^ LD := by rw [pow_succ] at hd2q; linarith
  have h4 : (N : ℚ) < 2 * (2 : ℚ) ^ LN := by rw [pow_succ] at hn2q; linarith
  constructor
  · rw [e0, pow2q_eq]
    have : (2 : ℚ) ^ (-1 : Int) = 1 / 2 := by norm_num
    rw [this, div_mul_eq_mul_div, div_lt_div_iff₀ hpd hdpos]
    nlinarith
  · rw [e0, pow2q_eq]
    have : (2 : ℚ) ^ (1 : Int) = 2 := by norm_num
    rw [this, div_mul_eq_mul_div, div_lt_div_iff₀ hdpos hpd]
    nlinarith

/-- `ilog2` is the floor of the binary logarithm. -/
theorem ilog2_spec (a : ℚ) (ha : 0 < a) : pow2q (ilog2 a) ≤ a ∧ a < pow2q (ilog2 a + 1) := by
  have hnum : 0 < a.num := Rat.num_pos.mpr ha
  have hn0 : a.num.natAbs ≠ 0 := by omega
  have hd0 : a.den ≠ 0 := a.den_nz
  have hnq : (a.num : ℚ) = (a.num.natAbs : ℚ) := by
    have h := Int.natAbs_of_nonneg hnum.le
    calc (a.num : ℚ) = (((a.num.natAbs : Nat) : Int) : ℚ) := by rw [h]
      _ = (a.num.natAbs : ℚ) := Int.cast_natCast _
  have haeq : (a.num.natAbs : ℚ) / (a.den : ℚ) = a := by
    rw [← hnq]; exact Rat.num_div_den a
  obtain ⟨hlow, hhigh⟩ := ilog2_estimate a.num.natAbs a.den (Nat.log2 a.num.natAbs)
    (Nat.log2 a.den) (Nat.pos_of_ne_zero hd0) (Nat.log2_self_le hn0) Nat.lt_log2_self
    (Nat.log2_self_le hd0) Nat.lt_log2_self
  rw [haeq] at hlow hhigh
  unfold ilog2
  simp only
  split_ifs with hc
  · constructor
    · have : (Nat.log2 a.num.natAbs : Int) - (Nat.log2 a.den : Int) - 1
          = (Nat.log2 a.num.natAbs : Int) - (Nat.log2 a.den : Int) + (-1) := by ring
      rw [this]; exact le_of_lt hlow
    · have : (Nat.log2 a.num.natAbs : Int) - (Nat.log2 a.den : Int) - 1 + 1
          = (Nat.log2 a.num.natAbs : Int) - (Nat.log2 a.den : Int) := by ring
      rw [this]; exact hc
  · exact ⟨not_lt.mp hc, hhigh⟩

theorem ilog2_mono {a b : ℚ} (ha : 0 < a) (hab : a ≤ b) : ilog2 a ≤ ilog2 b := by
  obtain ⟨s1, -⟩ := ilog2_spec a ha
  obtain ⟨-, t2⟩ := ilog2_spec b (lt_of_lt_of_le ha hab)
  by_contra hc
  have := pow2q_le (show ilog2 b + 1 ≤ ilog2 a by omega)
  linarith

theorem ilog2_lt {a : ℚ} {e : Int} (ha : 0 < a) (h : a < pow2q e) : ilog2 a < e := by
  obtain ⟨s1, -⟩ := ilog2_spec a ha
  by_contra hc
  have := pow2q_le (not_lt.mp hc)
  linarith

theorem ilog2_ge {a : ℚ} {e : Int} (h : pow2q e ≤ a) : e ≤ ilog2 a := by
  have ha : 0 < a := lt_of_lt_of_le (pow2q_pos e) h
  obtain ⟨-, s2⟩ := ilog2_spec a ha
  by_contra hc
  have := pow2q_le (show ilog2 a + 1 ≤ e by omega)
  linarith

theorem round_half_even_floor (a : ℚ) :
    round_half_even a = ⌊a⌋ ∨ round_half_even a = ⌊a⌋ + 1 := by
  unfold round_half_even
  simp only [← Rat.floor_def]
  split_ifs <;> simp

theorem round_half_even_intCast (n : Int) : round_half_even (n : ℚ) = n := by
  unfold round_half_even
  simp only [← Rat.floor_def, Int.floor_intCast, sub_self]
  norm_num

theorem round_half_even_mono {a b : ℚ} (hab : a ≤ b) :
    round_half_even a ≤ round_half_even b := by
  have hf : ⌊a⌋ ≤ ⌊b⌋ := Int.floor_mono hab
  rcases lt_or_eq_of_le hf with hlt | heq
  · rcases round_half_even_floor a with h1 | h1 <;>
      rcases round_half_even_floor b with h2 | h2 <;> omega
  · unfold round_half_even
    simp only [← Rat.floor_def]
    rw [← heq]
    have hab2 : a - (⌊a⌋ : ℚ) ≤ b - (⌊a⌋ : ℚ) := by linarith
    split_ifs <;> first | omega | (exfalso; linarith)

theorem round_half_even_le {a : ℚ} {n : Int} (h : a ≤ n) : round_half_even a ≤ n := by
  have := round_half_even_mono h
  rwa [round_half_even_intCast] at this

theorem le_round_half_even {a : ℚ} {n : Int} (h : (n : ℚ) ≤ a) : n ≤ round_half_even a := by
  have := round_half_even_mono h
  rwa [round_half_even_intCast] at this
theorem round_pos_eq (fmt : float_format) {q : ℚ} (hq : 0 < q) :
    float.round fmt q =
      if pow2q (fmt.emax + 1) ≤ round_mag fmt q then .pinf else .fin (round_mag fmt q) := by
  have h1 : q ≠ 0 := ne_of_gt hq
  have h2 : ¬ q < 0 := not_lt.mpr hq.le
  simp only [float.round, round_mag, h1, h2, if_false]

theorem round_neg_eq (fmt : float_format) {q : ℚ} (hq : q < 0) :
    float.round fmt q =
      if pow2q (fmt.emax + 1) ≤ round_mag fmt (-q) then .ninf
      else .fin (-(round_mag fmt (-q))) := by
  have h1 : q ≠ 0 := ne_of_lt hq
  simp only [float.round, round_mag, h1, hq, if_false, if_true]

theorem round_zero (fmt : float_format) : float.round fmt 0 = .fin 0 := by
  simp [float.round]

theorem prec_pred (fmt : float_format) (hp : 1 ≤ fmt.prec) :
    (fmt.prec : Int) - 1 = ((fmt.prec - 1 : Nat) : Int) := by omega

theorem round_mag_nonneg (fmt : float_format) {a : ℚ} (ha : 0 < a) : 0 ≤ round_mag fmt a := by
  unfold round_mag
  simp only
  have hu := pow2q_pos (max (ilog2 a) fmt.emin - ((fmt.prec : Int) - 1))
  have h0 : (0 : ℚ) ≤ a / pow2q (max (ilog2 a) fmt.emin - ((fmt.prec : Int) - 1)) :=
    div_nonneg ha.le hu.le
  have h1 : (0 : Int) ≤ round_half_even
      (a / pow2q (max (ilog2 a) fmt.emin - ((fmt.prec : Int) - 1))) :=
    le_round_half_even (by simpa using h0)
  have h2 : (0 : ℚ) ≤ (round_half_even
      (a / pow2q (max (ilog2 a) fmt.emin - ((fmt.prec : Int) - 1))) : ℚ) := by exact_mod_cast h1
  exact mul_nonneg h2 hu.le

/-- The rounded magnitude stays below the next power of two. -/
theorem round_mag_le_pow (fmt : float_format) (hp : 1 ≤ fmt.prec) {a : ℚ} (ha : 0 < a) :
    round_mag fmt a ≤ pow2q (max (ilog2 a) fmt.emin + 1) := by
  obtain ⟨-, s2⟩ := ilog2_spec a ha
  have hM : ilog2 a + 1 ≤ max (ilog2 a) fmt.emin + 1 := by
    have := le_max_left (ilog2 a) fmt.emin; omega
  have ha2 : a < pow2q (max (ilog2 a) fmt.emin + 1) := lt_of_lt_of_le s2 (pow2q_le hM)
  unfold round_mag
  simp only
  generalize max (ilog2 a) fmt.emin = M at ha2 ⊢
  have hu := pow2q_pos (M - ((fmt.prec : Int) - 1))
  have hsplit : pow2q (M + 1) = pow2q ((fmt.prec : Nat) : Int) * pow2q (M - ((fmt.prec : Int) - 1)) := by
    rw [← pow2q_add]; congr 1; ring
  have hdiv : a / pow2q (M - ((fmt.prec : Int) - 1)) ≤ (((2 : Int) ^ fmt.prec : Int) : ℚ) := by
    rw [div_le_iff₀ hu]
    have : (((2 : Int) ^ fmt.prec : Int) : ℚ) = pow2q ((fmt.prec : Nat) : Int) := by
      rw [pow2q_natCast]; push_cast; rfl
    rw [this, ← hsplit]
    exact ha2.le
  have h1 := round_half_even_le hdiv
  have h2 : (round_half_even (a / pow2q (M - ((fmt.prec : Int) - 1))) : ℚ)
      ≤ (((2 : Int) ^ fmt.prec : Int) : ℚ) := by exact_mod_cast h1
  have h3 : (((2 : Int) ^ fmt.prec : Int) : ℚ) = pow2q ((fmt.prec : Nat) : Int) := by
    rw [pow2q_natCast]; push_cast; rfl
  rw [hsplit, ← h3]
  exact mul_le_mul_of_nonneg_right h2 hu.le

/-- In the normal range the rounded magnitude stays in the binade of `a`. -/
theorem round_mag_ge_pow (fmt : float_format) (hp : 1 ≤ fmt.prec) {a : ℚ} (ha : 0 < a)
    (hn : fmt.emin ≤ ilog2 a) : pow2q (ilog2 a) ≤ round_mag fmt a := by
  obtain ⟨s1, -⟩ := ilog2_spec a ha
  unfold round_mag
  simp only
  rw [max_eq_left hn]
  generalize ilog2 a = M at s1 ⊢
  have hu := pow2q_pos (M - ((fmt.prec : Int) - 1))
  have hsplit : pow2q M = pow2q ((fmt.prec - 1 : Nat) : Int) * pow2q (M - ((fmt.prec : Int) - 1)) := by
    rw [← pow2q_add]; congr 1
    have := prec_pred fmt hp
    omega
  have h3 : (((2 : Int) ^ (fmt.prec - 1) : Int) : ℚ) = pow2q ((fmt.prec - 1 : Nat) : Int) := by
    rw [pow2q_natCast]; push_cast; rfl
  have hdiv : (((2 : Int) ^ (fmt.prec - 1) : Int) : ℚ) ≤ a / pow2q (M - ((fmt.prec : Int) - 1)) := by
    rw [le_div_iff₀ hu, h3, ← hsplit]
    exact s1
  have h1 := le_round_half_even hdiv
  have h2 : (((2 : Int) ^ (fmt.prec - 1) : Int) : ℚ)
      ≤ (round_half_even (a / pow2q (M - ((fmt.prec : Int) - 1))) : ℚ) := by exact_mod_cast h1
  rw [hsplit, ← h3]
  exact mul_le_mul_of_nonneg_right h2 hu.le

theorem round_mag_mono (fmt : float_format) (hp : 1 ≤ fmt.prec) {a b : ℚ} (ha : 0 < a)
    (hab : a ≤ b) : round_mag fmt a ≤ round_mag fmt b := by
  have hb : 0 < b := lt_of_lt_of_le ha hab
  have hlog := ilog2_mono ha hab
  have hM : max (ilog2 a) fmt.emin ≤ max (ilog2 b) fmt.emin := max_le_max hlog (le_refl _)
  rcases lt_or_eq_of_le hM with hlt | heq
  · have hn : fmt.emin ≤ ilog2 b := by
      by_contra hc
      have h1 : max (ilog2 b) fmt.emin = fmt.emin := max_eq_right (by omega)
      have h2 := le_max_right (ilog2 a) fmt.emin
      omega
    have hMb : max (ilog2 b) fmt.emin = ilog2 b := max_eq_left hn
    calc round_mag fmt a ≤ pow2q (max (ilog2 a) fmt.emin + 1) := round_mag_le_pow fmt hp ha
      _ ≤ pow2q (ilog2 b) := pow2q_le (by omega)
      _ ≤ round_mag fmt b := round_mag_ge_pow fmt hp hb hn
  · unfold round_mag
    simp only
    rw [heq]
    have hu := pow2q_pos (max (ilog2 b) fmt.emin - ((fmt.prec : Int) - 1))
    have hdiv : a / pow2q (max (ilog2 b) fmt.emin - ((fmt.prec : Int) - 1))
        ≤ b / pow2q (max (ilog2 b) fmt.emin - ((fmt.prec : Int) - 1)) :=
      div_le_div_of_nonneg_right hab hu.le
    have h1 := round_half_even_mono hdiv
    have h2 : (round_half_even (a / pow2q (max (ilog2 b) fmt.emin - ((fmt.prec : Int) - 1))) : ℚ)
        ≤ (round_half_even (b / pow2q (max (ilog2 b) fmt.emin - ((fmt.prec : Int) - 1))) : ℚ) := by
      exact_mod_cast h1
    exact mul_le_mul_of_nonneg_right h2 hu.le

/-- A multiple `k * 2^e` of a representable unit with `k < 2^prec` is not moved
by the rounding. -/
theorem round_mag_exact (fmt : float_format) (k : Nat) (e : Int) (hk0 : 0 < k)
    (hk : k < 2 ^ fmt.prec) (he : fmt.emin - ((fmt.prec : Int) - 1) ≤ e) :
    round_mag fmt ((k : ℚ) * pow2q e) = (k : ℚ) * pow2q e := by
  have hkq : (0 : ℚ) < (k : ℚ) := by exact_mod_cast hk0
  have ha : 0 < (k : ℚ) * pow2q e := mul_pos hkq (pow2q_pos e)
  have hlt : (k : ℚ) * pow2q e < pow2q ((fmt.prec : Int) + e) := by
    rw [pow2q_add, pow2q_natCast]
    have : (k : ℚ) < (2 : ℚ) ^ fmt.prec := by exact_mod_cast hk
    exact mul_lt_mul_of_pos_right this (pow2q_pos e)
  have hlog := ilog2_lt ha hlt
  have hM : max (ilog2 ((k : ℚ) * pow2q e)) fmt.emin - ((fmt.prec : Int) - 1) ≤ e := by
    rcases max_cases (ilog2 ((k : ℚ) * pow2q e)) fmt.emin with ⟨h, -⟩ | ⟨h, -⟩ <;> omega
  unfold round_mag
  simp only
  generalize max (ilog2 ((k : ℚ) * pow2q e)) fmt.emin - ((fmt.prec : Int) - 1) = u at hM ⊢
  have hu := pow2q_pos u
  have hsplit : pow2q e = pow2q (((e - u).toNat : Nat) : Int) * pow2q u := by
    rw [← pow2q_add]; congr 1; omega
  have hint : (k : ℚ) * pow2q e / pow2q u = (((k : Int) * 2 ^ (e - u).toNat : Int) : ℚ) := by
    rw [hsplit, ← mul_assoc, mul_div_assoc, div_self (ne_of_gt hu), mul_one, pow2q_natCast]
    push_cast; rfl
  rw [hint, round_half_even_intCast]
  conv_rhs => rw [hsplit]
  rw [pow2q_natCast]
  push_cast
  ring
theorem round_neg (fmt : float_format) (q : ℚ) :
    float.round fmt (-q) = float.neg (float.round fmt q) := by
  rcases lt_trichotomy q 0 with h | h | h
  · rw [round_neg_eq fmt h, round_pos_eq fmt (show 0 < -q by linarith)]
    split_ifs <;> simp [float.neg]
  · subst h; simp [round_zero, float.neg]
  · rw [round_pos_eq fmt h, round_neg_eq fmt (show -q < 0 by linarith), neg_neg]
    split_ifs <;> simp [float.neg]

theorem round_nonneg (fmt : float_format) {q : ℚ} (hq : 0 ≤ q) : (float.round fmt q).nonneg := by
  rcases eq_or_lt_of_le hq with h | h
  · subst h; simp [round_zero, float.nonneg]
  · rw [round_pos_eq fmt h]
    split_ifs
    · simp [float.nonneg]
    · simpa [float.nonneg] using round_mag_nonneg fmt h

theorem round_nonpos (fmt : float_format) {q : ℚ} (hq : q ≤ 0) :
    (float.neg (float.round fmt q)).nonneg := by
  rw [← round_neg]; exact round_nonneg fmt (by linarith)

theorem float_nonneg_le_of_nonpos {x y : float} (hx : (float.neg x).nonneg) (hy : y.nonneg) :
    x.le y = true := by
  cases x <;> cases y <;> simp [float.neg, float.nonneg, float.le] at hx hy ⊢
  linarith

/-- Rounding to a format is monotone. -/
theorem round_mono (fmt : float_format) (hp : 1 ≤ fmt.prec) {q1 q2 : ℚ} (h : q1 ≤ q2) :
    (float.round fmt q1).le (float.round fmt q2) = true := by
  rcases lt_or_le 0 q1 with h1 | h1
  · have h2 : 0 < q2 := lt_of_lt_of_le h1 h
    have hm := round_mag_mono fmt hp h1 h
    rw [round_pos_eq fmt h1, round_pos_eq fmt h2]
    split_ifs with c1 c2 c2
    · simp [float.le]
    · exact absurd (le_trans c1 hm) c2
    · simp [float.le]
    · simpa [float.le] using hm
  · rcases lt_or_le q2 0 with h2 | h2
    · have h1n : q1 < 0 := lt_of_le_of_lt h h2
      have hm := round_mag_mono fmt hp (show 0 < -q2 by linarith) (show -q2 ≤ -q1 by linarith)
      rw [round_neg_eq fmt h1n, round_neg_eq fmt h2]
      split_ifs with c1 c2 c2
      · simp [float.le]
      · simp [float.le]
      · exact absurd (le_trans c2 hm) c1
      · simpa [float.le] using hm
    · exact float_nonneg_le_of_nonpos (round_nonpos fmt h1) (round_nonneg fmt h2)

theorem round_exact (fmt : float_format) (k : Nat) (e : Int)
    (hk : k < 2 ^ fmt.prec) (he : fmt.emin - ((fmt.prec : Int) - 1) ≤ e)
    (hfin : (k : ℚ) * pow2q e < pow2q (fmt.emax + 1)) :
    float.round fmt ((k : ℚ) * pow2q e) = .fin ((k : ℚ) * pow2q e) := by
  rcases Nat.eq_zero_or_pos k with h0 | h0
  · subst h0; simp [round_zero]
  · have hkq : (0 : ℚ) < (k : ℚ) := by exact_mod_cast h0
    have ha : 0 < (k : ℚ) * pow2q e := mul_pos hkq (pow2q_pos e)
    rw [round_pos_eq fmt ha, round_mag_exact fmt k e h0 hk he, if_neg (not_le.mpr hfin)]

theorem round_exact_neg (fmt : float_format) (k : Nat) (e : Int)
    (hk : k < 2 ^ fmt.prec) (he : fmt.emin - ((fmt.prec : Int) - 1) ≤ e)
    (hfin : (k : ℚ) * pow2q e < pow2q (fmt.emax + 1)) :
    float.round fmt (-((k : ℚ) * pow2q e)) = .fin (-((k : ℚ) * pow2q e)) := by
  rw [round_neg, round_exact fmt k e hk he hfin]; rfl

/-- An `int` of at most 24 bits is converted to `float` without rounding. -/
theorem of_int_exact (n : Int) (h1 : -16777216 ≤ n) (h2 : n ≤ 16777216) :
    float.of_int binary32 n = .fin (n : ℚ) := by
  unfold float.of_int
  have key : ∀ k : Nat, k ≤ 16777216 → float.round binary32 (k : ℚ) = .fin (k : ℚ) := by
    intro k hk
    rcases Nat.lt_or_ge k 16777216 with hlt | hge
    · have := round_exact binary32 k 0 (by simpa [binary32] using hlt) (by simp [binary32])
        (by
          rw [pow2q_zero, mul_one, pow2q_eq]
          have : (k : ℚ) < 16777216 := by exact_mod_cast hlt
          have h3 : ((2 : ℚ) ^ (binary32.emax + 1)) = 2 ^ (128 : Nat) := by
            simp [binary32]; norm_cast
          rw [h3]
          linarith [show (16777216 : ℚ) ≤ 2 ^ (128 : Nat) by norm_num])
      simpa [pow2q_zero] using this
    · have hk2 : k = 16777216 := by omega
      subst hk2
      have := round_exact binary32 1 24 (by simp [binary32]) (by simp [binary32])
        (by
          rw [pow2q_eq, pow2q_eq]
          simp only [binary32]
          norm_num)
      have h24 : pow2q 24 = 16777216 := by
        rw [pow2q_eq]; norm_num
      rw [h24] at this
      simpa using this
  rcases le_or_lt 0 n with hn | hn
  · have hk := key n.toNat (by omega)
    have : ((n.toNat : Nat) : ℚ) = (n : ℚ) := by
      have := Int.toNat_of_nonneg hn
      exact_mod_cast this
    rwa [this] at hk
  · have hk := key (-n).toNat (by omega)
    have : (((-n).toNat : Nat) : ℚ) = -(n : ℚ) := by
      have := Int.toNat_of_nonneg (show 0 ≤ -n by omega)
      exact_mod_cast this
    rw [this] at hk
    have h3 := round_neg binary32 (-(n : ℚ))
    rw [neg_neg, hk] at h3
    simpa [float.neg] using h3

theorem float_mul_nonneg (fmt : float_format) {a b : float} (ha : a.nonneg) (hb : b.pos_fin) :
    (float.mul fmt a b).nonneg := by
  cases b with
  | fin y =>
    have hy : 0 < y := hb
    cases a with
    | fin x =>
      have hx : 0 ≤ x := ha
      simpa [float.mul] using round_nonneg fmt (mul_nonneg hx hy.le)
    | pinf =>
      simp [float.mul, float.inf_times, ne_of_gt hy, not_lt.mpr hy.le, float.nonneg]
    | nan => exact absurd ha (by simp [float.nonneg])
    | ninf => exact absurd ha (by simp [float.nonneg])
  | nan => exact absurd hb (by simp [float.pos_fin])
  | pinf => exact absurd hb (by simp [float.pos_fin])
  | ninf => exact absurd hb (by simp [float.pos_fin])

theorem float_div_nonneg (fmt : float_format) {a b : float} (ha : a.nonneg) (hb : b.pos_fin) :
    (float.div fmt a b).nonneg := by
  cases b with
  | fin y =>
    have hy : 0 < y := hb
    cases a with
    | fin x =>
      have hx : 0 ≤ x := ha
      simpa [float.div, ne_of_gt hy] using round_nonneg fmt (div_nonneg hx hy.le)
    | pinf =>
      simp [float.div, not_lt.mpr hy.le, float.nonneg]
    | nan => exact absurd ha (by simp [float.nonneg])
    | ninf => exact absurd ha (by simp [float.nonneg])
  | nan => exact absurd hb (by simp [float.pos_fin])
  | pinf => exact absurd hb (by simp [float.pos_fin])
  | ninf => exact absurd hb (by simp [float.pos_fin])

theorem float_add_nonneg (fmt : float_format) {a b : float} (ha : a.nonneg) (hb : b.nonneg) :
    (float.add fmt a b).nonneg := by
  cases a <;> cases b <;> simp [float.nonneg, float.add] at ha hb ⊢
  exact round_nonneg fmt (add_nonneg ha hb)

/-- The rounded magnitude is a multiple `k * 2^e` of a representable unit with
`k < 2^prec`. -/
theorem round_mag_repr (fmt : float_format) (hp : 1 ≤ fmt.prec) {a : ℚ} (ha : 0 < a) :
    ∃ (k : Nat) (e : Int), k < 2 ^ fmt.prec ∧ fmt.emin - ((fmt.prec : Int) - 1) ≤ e ∧
      round_mag fmt a = (k : ℚ) * pow2q e := by
  obtain ⟨-, s2⟩ := ilog2_spec a ha
  have hM : ilog2 a + 1 ≤ max (ilog2 a) fmt.emin + 1 := by
    have := le_max_left (ilog2 a) fmt.emin; omega
  have ha2 : a < pow2q (max (ilog2 a) fmt.emin + 1) := lt_of_lt_of_le s2 (pow2q_le hM)
  have hMe : fmt.emin ≤ max (ilog2 a) fmt.emin := le_max_right _ _
  unfold round_mag
  simp only
  generalize max (ilog2 a) fmt.emin = M at ha2 hMe ⊢
  have hu := pow2q_pos (M - ((fmt.prec : Int) - 1))
  have hsplit : pow2q (M + 1)
      = pow2q ((fmt.prec : Nat) : Int) * pow2q (M - ((fmt.prec : Int) - 1)) := by
    rw [← pow2q_add]; congr 1; ring
  have h3 : (((2 : Int) ^ fmt.prec : Int) : ℚ) = pow2q ((fmt.prec : Nat) : Int) := by
    rw [pow2q_natCast]; push_cast; rfl
  have hdiv : a / pow2q (M - ((fmt.prec : Int) - 1)) ≤ (((2 : Int) ^ fmt.prec : Int) : ℚ) := by
    rw [div_le_iff₀ hu, h3, ← hsplit]
    exact ha2.le
  have h1 := round_half_even_le hdiv
  have h0 : (0 : Int) ≤ round_half_even (a / pow2q (M - ((fmt.prec : Int) - 1))) :=
    le_round_half_even (by simpa using div_nonneg ha.le hu.le)
  generalize round_half_even (a / pow2q (M - ((fmt.prec : Int) - 1))) = n at h0 h1
  rcases lt_or_eq_of_le h1 with hlt | heq
  · refine ⟨n.toNat, M - ((fmt.prec : Int) - 1), ?_, by omega, ?_⟩
    · have : ((n.toNat : Nat) : Int) < ((2 ^ fmt.prec : Nat) : Int) := by
        rw [Int.toNat_of_nonneg h0]; push_cast; exact hlt
      exact_mod_cast this
    · have : ((n.toNat : Nat) : ℚ) = (n : ℚ) := by
        have := Int.toNat_of_nonneg h0
        exact_mod_cast this
      rw [this]
  · refine ⟨2 ^ (fmt.prec - 1), M - ((fmt.prec : Int) - 1) + 1, ?_, by omega, ?_⟩
    · exact Nat.pow_lt_pow_right (by norm_num) (by omega)
    · subst heq
      rw [pow2q_add, h3]
      have h4 : pow2q ((fmt.prec : Nat) : Int)
          = (((2 ^ (fmt.prec - 1) : Nat)) : ℚ) * pow2q 1 := by
        have : ((fmt.prec : Nat) : Int) = ((fmt.prec - 1 : Nat) : Int) + 1 := by omega
        rw [this, pow2q_add, pow2q_natCast]; push_cast; rfl
      rw [h4]; ring

/-- A finite result of a rounding is a number of the format. -/
theorem round_fin_repr (fmt : float_format) (hp : 1 ≤ fmt.prec) {q r : ℚ}
    (h : float.round fmt q = .fin r) :
    ∃ (k : Nat) (e : Int), k < 2 ^ fmt.prec ∧ fmt.emin - ((fmt.prec : Int) - 1) ≤ e ∧
      (r = (k : ℚ) * pow2q e ∨ r = -((k : ℚ) * pow2q e)) := by
  rcases lt_trichotomy q 0 with hq | hq | hq
  · rw [round_neg_eq fmt hq] at h
    split_ifs at h
    obtain ⟨k, e, hk, he, hr⟩ := round_mag_repr fmt hp (show 0 < -q by linarith)
    refine ⟨k, e, hk, he, Or.inr ?_⟩
    cases h
    rw [hr]
  · subst hq
    rw [round_zero] at h
    cases h
    exact ⟨0, fmt.emin - ((fmt.prec : Int) - 1), by positivity, le_refl _, Or.inl (by simp)⟩
  · rw [round_pos_eq fmt hq] at h
    split_ifs at h
    obtain ⟨k, e, hk, he, hr⟩ := round_mag_repr fmt hp hq
    refine ⟨k, e, hk, he, Or.inl ?_⟩
    cases h
    rw [hr]

/-- A number of the format times a power of two is not moved by the rounding,
unless it overflows. -/
theorem round_scale_exact (fmt : float_format) (hp : 1 ≤ fmt.prec) {q r : ℚ}
    (h : float.round fmt q = .fin r) (j : Nat)
    (hfin : |r| * (2 : ℚ) ^ j < pow2q (fmt.emax + 1)) :
    float.round fmt (r * (2 : ℚ) ^ j) = .fin (r * (2 : ℚ) ^ j) := by
  obtain ⟨k, e, hk, he, hr⟩ := round_fin_repr fmt hp h
  have hnn : (0 : ℚ) ≤ (k : ℚ) * pow2q e := mul_nonneg (by positivity) (pow2q_pos e).le
  have habs : |r| = (k : ℚ) * pow2q e := by
    rcases hr with hr | hr
    · rw [hr, abs_of_nonneg hnn]
    · rw [hr, abs_neg, abs_of_nonneg hnn]
  have hsc : (k : ℚ) * pow2q e * (2 : ℚ) ^ j = (k : ℚ) * pow2q (e + (j : Int)) := by
    rw [pow2q_add, pow2q_natCast]; ring
  rw [habs, hsc] at hfin
  rcases hr with hr | hr
  · rw [hr, hsc]
    exact round_exact fmt k (e + (j : Int)) hk (by omega) hfin
  · have : -((k : ℚ) * pow2q e) * (2 : ℚ) ^ j = -((k : ℚ) * pow2q (e + (j : Int))) := by
      rw [← hsc]; ring
    rw [hr, this]
    exact round_exact_neg fmt k (e + (j : Int)) hk (by omega) hfin

theorem float_mul_fin (fmt : float_format) {x y : float} {w : ℚ}
    (h : float.mul fmt x y = .fin w) : ∃ q, float.round fmt q = .fin w := by
  cases x <;> cases y <;> simp only [float.mul, float.inf_times] at h <;>
    first
    | exact ⟨_, h⟩
    | (split_ifs at h)
    | cases h

theorem of_int_64 : float.of_int binary32 64 = .fin 64 := by
  have := of_int_exact 64 (by norm_num) (by norm_num)
  simpa using this

/-- C23: in `get_estimated_kernel_time`, with every other input fixed, a set
`use_fused_atomics_reduction` leaves the read time unchanged; for `calc_mean`,
`calc_var`, `calc_mean_var` and `calc_stats` it multiplies the write time by 64
in single precision, which is the exact product `64 * w` for a finite write time
`w` unless the product overflows; for every other kernel kind the descriptor
the function leaves, and so `time_ns`, is the same. -/
theorem get_estimated_kernel_time_atomics (m : estimator_t) (p : model_params_t)
    (conf : nhwc_bnorm_params_t) (hw_params : hw_params_t) (desc : kernel_desc_t) (v : Int) :
    v ≠ 0 →
    (get_estimated_kernel_time_locals m { p with use_fused_atomics_reduction := v } conf
        hw_params desc).r_ns_location
      = (get_estimated_kernel_time_locals m { p with use_fused_atomics_reduction := 0 } conf
        hw_params desc).r_ns_location ∧
    (get_estimated_kernel_time_locals m { p with use_fused_atomics_reduction := v } conf
        hw_params desc).read_ns
      = (get_estimated_kernel_time_locals m { p with use_fused_atomics_reduction := 0 } conf
        hw_params desc).read_ns ∧
    ((desc.kernel = .calc_mean_ker ∨ desc.kernel = .calc_var_ker
        ∨ desc.kernel = .calc_mean_var_ker ∨ desc.kernel = .calc_stats_ker) →
      (get_estimated_kernel_time_locals m { p with use_fused_atomics_reduction := v } conf
          hw_params desc).w_ns_location
        = float.mul binary32
          (get_estimated_kernel_time_locals m { p with use_fused_atomics_reduction := 0 } conf
            hw_params desc).w_ns_location (.fin 64) ∧
      ∀ w : ℚ,
        (get_estimated_kernel_time_locals m { p with use_fused_atomics_reduction := 0 } conf
          hw_params desc).w_ns_location = .fin w →
        |w| * 64 < 2 ^ 128 →
        (get_estimated_kernel_time_locals m { p with use_fused_atomics_reduction := v } conf
          hw_params desc).w_ns_location = .fin (w * 64)) ∧
    (¬ (desc.kernel = .calc_mean_ker ∨ desc.kernel = .calc_var_ker
        ∨ desc.kernel = .calc_mean_var_ker ∨ desc.kernel = .calc_stats_ker) →
      get_estimated_kernel_time m { p with use_fused_atomics_reduction := v } conf hw_params desc
        = get_estimated_kernel_time m { p with use_fused_atomics_reduction := 0 } conf
          hw_params desc) := by
  intro hv
  refine ⟨rfl, rfl, ?_, ?_⟩
  · intro hk
    have h1 : (get_estimated_kernel_time_locals m { p with use_fused_atomics_reduction := v } conf
          hw_params desc).w_ns_location
        = float.mul binary32
          (get_estimated_kernel_time_locals m { p with use_fused_atomics_reduction := 0 } conf
            hw_params desc).w_ns_location (.fin 64) := by
      simp only [get_estimated_kernel_time_locals, hv, hk, ne_eq, not_false_eq_true, and_self,
        if_true, of_int_64, not_true_eq_false, false_and, if_false]
    refine ⟨h1, ?_⟩
    intro w hw hfin
    rw [h1]
    have hw2 := hw
    simp only [get_estimated_kernel_time_locals, ne_eq, not_true_eq_false, false_and,
      if_false] at hw2
    obtain ⟨q, hq⟩ := float_mul_fin binary32 hw2
    rw [hw]
    simp only [float.mul]
    have h64 : (64 : ℚ) = (2 : ℚ) ^ (6 : Nat) := by norm_num
    rw [h64]
    apply round_scale_exact binary32 (by simp [binary32]) hq 6
    rw [pow2q_eq]
    simp only [binary32]
    rw [← h64]
    calc |w| * 64 < 2 ^ 128 := hfin
      _ = (2 : ℚ) ^ ((127 : Int) + 1) := by norm_num
  · intro hk
    simp only [get_estimated_kernel_time, get_estimated_kernel_time_locals, hk, and_false,
      if_false]

theorem get_estimated_kernel_time_atomics_witness :
    (1 : Int) ≠ 0 ∧
    (get_estimated_kernel_time_locals sample_estimator
        { sample_params with use_fused_atomics_reduction := 1 } (sample_conf false) sample_hw
        sample_calc_mean_desc).w_ns_location
      = float.mul binary32
        (get_estimated_kernel_time_locals sample_estimator
          { sample_params with use_fused_atomics_reduction := 0 } (sample_conf false) sample_hw
          sample_calc_mean_desc).w_ns_location (.fin 64) :=
  ⟨by decide,
    ((get_estimated_kernel_time_atomics sample_estimator sample_params (sample_conf false)
      sample_hw sample_calc_mean_desc 1 (by decide)).2.2.1 (Or.inl rfl)).1⟩

theorem make_kernel_perf_estimation_zero_lws (m : estimator_t) (p : model_params_t)
    (conf : nhwc_bnorm_params_t) (desc : kernel_desc_t) (hw_params : hw_params_t)
    (hstat : ∀ k c, (m.nhwc_bnorm_kernel_dispatching k c).1 = .success)
    (hsg : conf.sub_group_size ≠ 0) (hsp : p.stat_sp_block ≠ 0) :
    ((m.nhwc_bnorm_kernel_dispatching desc.kernel (conf_dry_run p conf)).2.local_nelems = 0 →
      make_kernel_perf_estimation m p conf desc hw_params = .error (.status .runtime_error)) ∧
    ((m.nhwc_bnorm_kernel_dispatching desc.kernel (conf_dry_run p conf)).2.local_nelems ≠ 0 →
      ∃ d2, make_kernel_perf_estimation m p conf desc hw_params = .ok d2) := by
  have hs := hstat desc.kernel (conf_dry_run p conf)
  constructor
  · intro hz
    simp [make_kernel_perf_estimation, get_estimated_hw_utilization, hs, hz, bind, Except.bind,
      throw, throwThe, MonadExceptOf.throw, pure, Except.pure]
  · intro hnz
    simp only [make_kernel_perf_estimation, get_estimated_hw_utilization,
      get_used_ss_thr_utilization, hs, hnz, hsg, bind, Except.bind, throw, throwThe,
      MonadExceptOf.throw, pure, Except.pure, ne_eq, not_true_eq_false, if_false]
    obtain ⟨v1, h1⟩ := get_kernel_input_size_ok p conf
      { desc with
        num_wgs := Int.tdiv
          (m.nhwc_bnorm_kernel_dispatching desc.kernel (conf_dry_run p conf)).2.global_nelems
          (m.nhwc_bnorm_kernel_dispatching desc.kernel (conf_dry_run p conf)).2.local_nelems,
        used_ss_thr_util := float.div binary32
          (float.of_int binary32 (Int.tdiv
            (m.nhwc_bnorm_kernel_dispatching desc.kernel (conf_dry_run p conf)).2.global_nelems
            conf.sub_group_size))
          (float.of_int binary32
            (min (Int.tdiv
              (m.nhwc_bnorm_kernel_dispatching desc.kernel (conf_dry_run p conf)).2.global_nelems
              (m.nhwc_bnorm_kernel_dispatching desc.kernel (conf_dry_run p conf)).2.local_nelems
                * hw_params.eus_per_ss * hw_params.threads_per_eu)
              (hw_params.eu_count * hw_params.threads_per_eu))),
        ss_util := m.get_ss_utilization hw_params.max_ss
          (m.nhwc_bnorm_kernel_dispatching desc.kernel (conf_dry_run p conf)).2 } hsp hsg
    rw [h1]
    simp only
    obtain ⟨v2, h2⟩ := get_kernel_output_size_ok p conf
      { desc with
        num_wgs := Int.tdiv
          (m.nhwc_bnorm_kernel_dispatching desc.kernel (conf_dry_run p conf)).2.global_nelems
          (m.nhwc_bnorm_kernel_dispatching desc.kernel (conf_dry_run p conf)).2.local_nelems,
        used_ss_thr_util := float.div binary32
          (float.of_int binary32 (Int.tdiv
            (m.nhwc_bnorm_kernel_dispatching desc.kernel (conf_dry_run p conf)).2.global_nelems
            conf.sub_group_size))
          (float.of_int binary32
            (min (Int.tdiv
              (m.nhwc_bnorm_kernel_dispatching desc.kernel (conf_dry_run p conf)).2.global_nelems
              (m.nhwc_bnorm_kernel_dispatching desc.kernel (conf_dry_run p conf)).2.local_nelems
                * hw_params.eus_per_ss * hw_params.threads_per_eu)
              (hw_params.eu_count * hw_params.threads_per_eu))),
        ss_util := m.get_ss_utilization hw_params.max_ss
          (m.nhwc_bnorm_kernel_dispatching desc.kernel (conf_dry_run p conf)).2,
        input_nbytes := v1 } hsp hsg
    rw [h2]
    exact ⟨_, rfl⟩

/-- A descriptor of the candidate whose dispatch dry run gives a local range
without elements. -/
theorem make_perf_estimations_loop_zero_lws (m : estimator_t) (dsimd : Int)
    (dparams : model_params_t) (ddesc : kernel_desc_t) (p : model_params_t)
    (conf : nhwc_bnorm_params_t) (hw_params : hw_params_t)
    (hstat : ∀ k c, (m.nhwc_bnorm_kernel_dispatching k c).1 = .success)
    (hsg : conf.sub_group_size ≠ 0) (hsp : p.stat_sp_block ≠ 0) :
    ∀ descs : List kernel_desc_t,
      ((∃ d ∈ descs, (m.nhwc_bnorm_kernel_dispatching d.kernel
          (conf_dry_run p conf)).2.local_nelems = 0) →
        make_perf_estimations_loop (extern_of m dsimd dparams ddesc) p conf hw_params descs
          = .error (.status .runtime_error)) ∧
      ((∀ d ∈ descs, (m.nhwc_bnorm_kernel_dispatching d.kernel
          (conf_dry_run p conf)).2.local_nelems ≠ 0) →
        ∃ r, make_perf_estimations_loop (extern_of m dsimd dparams ddesc) p conf hw_params descs
          = .ok r) := by
  intro descs
  induction descs with
  | nil =>
    exact ⟨fun ⟨d, hd, _⟩ => by simp at hd, fun _ => ⟨[], rfl⟩⟩
  | cons d rest ih =>
    obtain ⟨kz, kok⟩ := make_kernel_perf_estimation_zero_lws m p conf d hw_params hstat hsg hsp
    by_cases hz : (m.nhwc_bnorm_kernel_dispatching d.kernel
        (conf_dry_run p conf)).2.local_nelems = 0
    · constructor
      · intro _
        simp [make_perf_estimations_loop, extern_of, kz hz, bind, Except.bind]
      · intro hall
        exact absurd hz (hall d (by simp))
    · obtain ⟨d2, hd2⟩ := kok hz
      constructor
      · rintro ⟨e, he, hez⟩
        have he2 : e ∈ rest := by
          rcases List.mem_cons.mp he with rfl | h
          · exact absurd hez hz
          · exact h
        have h3 := ih.1 ⟨e, he2, hez⟩
        simp only [extern_of] at h3
        simp [make_perf_estimations_loop, extern_of, hd2, h3, bind, Except.bind]
      · intro hall
        obtain ⟨r, hr⟩ := ih.2 (fun e he => hall e (List.mem_cons_of_mem _ he))
        simp only [extern_of] at hr
        exact ⟨d2 :: r, by
          simp [make_perf_estimations_loop, extern_of, hd2, hr, bind, Except.bind, pure,
            Except.pure]⟩

theorem find_best_params_zero_lws (m : estimator_t) (dsimd : Int)
    (dparams : model_params_t) (ddesc : kernel_desc_t)
    (conf : nhwc_bnorm_params_t) (hw_params : hw_params_t) (reusable_version : Bool)
    (hstat : ∀ k c, (m.nhwc_bnorm_kernel_dispatching k c).1 = .success)
    (hsg : conf.sub_group_size ≠ 0) :
    ∀ (params : List model_params_t) (best : model_params_t × float),
      (∀ p ∈ params, p.stat_sp_block ≠ 0) →
      (∃ p ∈ params, ∃ q, init_kernel_descriptors p conf hw_params reusable_version ddesc = .ok q ∧
        ∃ d ∈ q.kernel_descs, (m.nhwc_bnorm_kernel_dispatching d.kernel
          (conf_dry_run q conf)).2.local_nelems = 0) →
      find_best_params (extern_of m dsimd dparams ddesc) conf hw_params reusable_version
        params best = .error (.status .runtime_error) := by
  intro params
  induction params with
  | nil => rintro best - ⟨p, hp, -⟩; simp at hp
  | cons p rest ih =>
    intro best hsp hex
    obtain ⟨q, hq, hsame⟩ := init_kernel_descriptors_ok p conf hw_params reusable_version ddesc
    have hqsp : q.stat_sp_block ≠ 0 := by
      rw [hsame.2.2.1]; exact hsp p (by simp)
    obtain ⟨lz, lok⟩ := make_perf_estimations_loop_zero_lws m dsimd dparams ddesc q conf
      hw_params hstat hsg hqsp q.kernel_descs
    by_cases hz : ∃ d ∈ q.kernel_descs, (m.nhwc_bnorm_kernel_dispatching d.kernel
        (conf_dry_run q conf)).2.local_nelems = 0
    · have h1 := lz hz
      have hd : (extern_of m dsimd dparams ddesc).default_desc = ddesc := rfl
      simp only [find_best_params, hd, hq, make_perf_estimations, h1, bind, Except.bind]
    · have hall : ∀ d ∈ q.kernel_descs, (m.nhwc_bnorm_kernel_dispatching d.kernel
          (conf_dry_run q conf)).2.local_nelems ≠ 0 := by
        intro d hd hd0
        exact hz ⟨d, hd, hd0⟩
      obtain ⟨r, hr⟩ := lok hall
      have hrest : ∃ p2 ∈ rest, ∃ q2,
          init_kernel_descriptors p2 conf hw_params reusable_version ddesc = .ok q2 ∧
          ∃ d ∈ q2.kernel_descs, (m.nhwc_bnorm_kernel_dispatching d.kernel
            (conf_dry_run q2 conf)).2.local_nelems = 0 := by
        obtain ⟨p2, hp2, q2, hq2, hd⟩ := hex
        rcases List.mem_cons.mp hp2 with rfl | h
        · rw [hq] at hq2
          cases hq2
          exact absurd hd hz
        · exact ⟨p2, h, q2, hq2, hd⟩
      have hih := ih (if (expected_time hw_params r (.fin 0)).lt best.2 = true
          then ({ q with kernel_descs := r }, expected_time hw_params r (.fin 0)) else best)
        (fun p2 hp2 => hsp p2 (List.mem_cons_of_mem _ hp2)) hrest
      have hd : (extern_of m dsimd dparams ddesc).default_desc = ddesc := rfl
      simp only [find_best_params, hd, hq, make_perf_estimations, hr, bind, Except.bind,
        pure, Except.pure]
      exact hih

theorem get_nhwc_sp_block_size_trial_ne_zero {sp ic_nsg eu_count threads_per_eu nthr_mul : Int}
    {t : sp_block_trial_t}
    (h : get_nhwc_sp_block_size_trial sp ic_nsg eu_count threads_per_eu nthr_mul = .ok t) :
    t.curr_block_size ≠ 0 := by
  unfold get_nhwc_sp_block_size_trial at h
  simp only [bind, Except.bind, pure, Except.pure, throw, throwThe, MonadExceptOf.throw] at h
  by_cases c1 : fits_int (nthr_mul * eu_count)
  swap
  · rw [if_pos c1] at h
    cases h
  by_cases c2 : fits_dim (sp * ic_nsg)
  swap
  · rw [if_neg (not_not.mpr c1), if_pos c2] at h
    cases h
  rw [if_neg (not_not.mpr c1), if_neg (not_not.mpr c2)] at h
  try simp only at h
  cases hd1 : div_up (sp * ic_nsg) (nthr_mul * eu_count) with
  | error e2 =>
    rw [hd1] at h
    cases h
  | ok b =>
    rw [hd1] at h
    try simp only at h
    have hb : b ≠ 0 := by
      intro hb0
      rw [hb0] at h
      simp [div_up] at h
    cases hd2 : div_up sp b with
    | error e2 =>
      rw [hd2] at h
      cases h
    | ok nb =>
      rw [hd2] at h
      try simp only at h
      by_cases c3 : fits_dim (nb * ic_nsg)
      swap
      · rw [if_pos c3] at h
        cases h
      rw [if_neg (not_not.mpr c3)] at h
      try simp only at h
      cases hd3 : rnd_up (nb * ic_nsg) eu_count with
      | error e2 =>
        rw [hd3] at h
        cases h
      | ok r1 =>
        rw [hd3] at h
        try simp only at h
        by_cases c4 : fits_int (eu_count * threads_per_eu)
        swap
        · rw [if_pos c4] at h
          cases h
        rw [if_neg (not_not.mpr c4)] at h
        try simp only at h
        cases hd4 : rnd_up (nb * ic_nsg) (eu_count * threads_per_eu) with
        | error e2 =>
          rw [hd4] at h
          cases h
        | ok r2 =>
          rw [hd4] at h
          injection h with h
          rw [← h]
          exact hb

theorem sp_block_update_ne_zero (st : sp_block_search_t) (t : sp_block_trial_t)
    (ht : t.curr_block_size ≠ 0)
    (hst : st.block_size_thr ≠ 0 ∧ st.block_size_peak_eu_thr ≠ 0) :
    (sp_block_update st t).block_size_thr ≠ 0 ∧
      (sp_block_update st t).block_size_peak_eu_thr ≠ 0 := by
  unfold sp_block_update
  simp only
  constructor
  · split <;> split <;> simp_all
  · split <;> split <;> simp_all

theorem get_nhwc_sp_block_size_loop_ne_zero (sp ic_nsg eu_count threads_per_eu : Int) :
    ∀ (fuel : Nat) (nthr_mul : Int) (st st2 : sp_block_search_t),
      get_nhwc_sp_block_size_loop sp ic_nsg eu_count threads_per_eu fuel nthr_mul st = .ok st2 →
      st.block_size_thr ≠ 0 ∧ st.block_size_peak_eu_thr ≠ 0 →
      st2.block_size_thr ≠ 0 ∧ st2.block_size_peak_eu_thr ≠ 0 := by
  intro fuel
  induction fuel with
  | zero =>
    intro nthr_mul st st2 h hst
    unfold get_nhwc_sp_block_size_loop at h
    split at h
    · cases h
    · injection h with h
      rw [← h]; exact hst
  | succ fuel ih =>
    intro nthr_mul st st2 h hst
    unfold get_nhwc_sp_block_size_loop at h
    split at h
    · rw [get_nhwc_sp_block_size_step_eq] at h
      cases ht : get_nhwc_sp_block_size_trial sp ic_nsg eu_count threads_per_eu nthr_mul with
      | error e =>
        rw [ht] at h
        simp [Except.map, bind, Except.bind] at h
      | ok t =>
        rw [ht] at h
        simp only [Except.map, bind, Except.bind] at h
        exact ih _ _ _ h
          (sp_block_update_ne_zero st t (get_nhwc_sp_block_size_trial_ne_zero ht) hst)
    · injection h with h
      rw [← h]; exact hst

/-- A block size `get_nhwc_sp_block_size` returns is not zero. -/
theorem get_nhwc_sp_block_size_ne_zero {sp ic_dim eu_count threads_per_eu simd v : Int}
    (h : get_nhwc_sp_block_size sp ic_dim eu_count threads_per_eu simd = .ok v) : v ≠ 0 := by
  unfold get_nhwc_sp_block_size at h
  simp only [bind, Except.bind, pure, Except.pure, throw, throwThe, MonadExceptOf.throw] at h
  split at h
  · cases h
  · try simp only at h
    cases hl : get_nhwc_sp_block_size_loop sp (Int.tdiv ic_dim simd) eu_count threads_per_eu 32 1
        ⟨.fin 0, .fin 0, 1, 1⟩ with
    | error e =>
      rw [hl] at h
      cases h
    | ok st =>
      rw [hl] at h
      try simp only at h
      have hst := get_nhwc_sp_block_size_loop_ne_zero sp _ eu_count threads_per_eu 32 1 _ st hl
        ⟨by decide, by decide⟩
      unfold into_int at h
      split at h
      · split at h
        · injection h with h
          rw [← h]; exact hst.2
        · cases h
      · split at h
        · injection h with h
          rw [← h]; exact hst.1
        · cases h

/-- The candidates the creation loop appends hold a block size of the spatial
search that is not zero. -/
theorem create_params_loop_stat_sp_block (ext : extern_t) (conf : nhwc_bnorm_params_t)
    (deterministic : Bool) (hw_params : hw_params_t) (reusable_version : Bool) :
    ∀ (fuel : Nat) (b : Int) (params out : List model_params_t),
      create_params_loop ext conf deterministic hw_params reusable_version fuel b params
        = .ok out →
      (∀ p ∈ params, p.stat_sp_block ≠ 0) → ∀ p ∈ out, p.stat_sp_block ≠ 0 := by
  intro fuel
  induction fuel with
  | zero =>
    intro b params out h hp
    by_cases hc : b ≤ conf.ic ∧ (if reusable_version = true then b ≤ conf.max_ic_block else True)
    · rw [create_params_loop, if_pos hc] at h
      cases h
    · rw [create_params_loop, if_neg hc] at h
      injection h with h
      rw [← h]; exact hp
  | succ fuel ih =>
    intro b params out h hp
    by_cases hc : b ≤ conf.ic ∧ (if reusable_version = true then b ≤ conf.max_ic_block else True)
    · rw [create_params_loop, if_pos hc] at h
      by_cases hb0 : b = 0
      · rw [if_pos hb0] at h
        cases h
      rw [if_neg hb0] at h
      by_cases hd : Int.tmod conf.ic b = 0
      · rw [if_pos hd] at h
        simp only [bind, Except.bind] at h
        cases hcs : get_nhwc_calc_stat_ic conf.ic b conf.sub_group_size with
        | error e => rw [hcs] at h; cases h
        | ok c =>
          rw [hcs] at h
          simp only at h
          cases hs : get_nhwc_sp_block_size conf.sp c hw_params.eu_count
              hw_params.threads_per_eu conf.sub_group_size with
          | error e => rw [hs] at h; cases h
          | ok s =>
            rw [hs] at h
            simp only at h
            cases hv : get_nhwc_vect_size b conf.max_vect_size.value ext.default_simd with
            | error e => rw [hv] at h; cases h
            | ok v =>
              rw [hv] at h
              simp only at h
              have hs0 := get_nhwc_sp_block_size_ne_zero hs
              refine ih _ _ _ h ?_
              intro p hpm
              split at hpm
              · simp only [List.mem_append, List.mem_singleton] at hpm
                rcases hpm with (hpm | rfl) | rfl
                · exact hp p hpm
                · exact hs0
                · exact hs0
              · simp only [List.mem_append, List.mem_singleton] at hpm
                rcases hpm with hpm | rfl
                · exact hp p hpm
                · exact hs0
      · rw [if_neg hd] at h
        exact ih _ _ _ h hp
    · rw [create_params_loop, if_neg hc] at h
      injection h with h
      rw [← h]; exact hp

theorem create_params_stat_sp_block {ext : extern_t} {conf : nhwc_bnorm_params_t}
    {deterministic : Bool} {hw_params : hw_params_t} {reusable_version : Bool}
    {params : List model_params_t}
    (h : create_params ext conf deterministic hw_params reusable_version = .ok params) :
    ∀ p ∈ params, p.stat_sp_block ≠ 0 :=
  create_params_loop_stat_sp_block ext conf deterministic hw_params reusable_version _ _ [] params
    h (fun p hp => by simp at hp)

/-- Candidates are created only for a sub-group size that is not zero. -/
theorem create_params_sub_group {ext : extern_t} {conf : nhwc_bnorm_params_t}
    {deterministic : Bool} {hw_params : hw_params_t} {reusable_version : Bool}
    {params : List model_params_t}
    (h : create_params ext conf deterministic hw_params reusable_version = .ok params)
    (hne : params ≠ []) : conf.sub_group_size ≠ 0 := by
  intro hsg
  unfold create_params at h
  rw [hsg] at h
  by_cases hc : (0 : Int) ≤ conf.ic ∧
      (if reusable_version = true then (0 : Int) ≤ conf.max_ic_block else True)
  · rw [create_params_loop, if_pos hc, if_pos rfl] at h
    cases h
  · rw [create_params_loop, if_neg hc] at h
    injection h with h
    exact hne h.symm

theorem get_params_by_model_zero_lws_aux (m : estimator_t) (dsimd : Int)
    (dparams : model_params_t) (ddesc : kernel_desc_t)
    (conf : nhwc_bnorm_params_t) (deterministic : Bool) (hw_params : hw_params_t)
    (reusable_version : Bool) (params : List model_params_t)
    (hcp : create_params (extern_of m dsimd dparams ddesc) conf deterministic hw_params
      reusable_version = .ok params)
    (hstat : ∀ k c, (m.nhwc_bnorm_kernel_dispatching k c).1 = .success)
    (hex : ∃ p ∈ params, ∃ q,
      init_kernel_descriptors p conf hw_params reusable_version ddesc = .ok q ∧
      ∃ d ∈ q.kernel_descs, (m.nhwc_bnorm_kernel_dispatching d.kernel
        (conf_dry_run q conf)).2.local_nelems = 0) :
    get_params_by_model (extern_of m dsimd dparams ddesc) conf deterministic hw_params
      reusable_version = .error (.status .runtime_error) := by
  have hne : params ≠ [] := by
    obtain ⟨p, hp, -⟩ := hex
    exact List.ne_nil_of_mem hp
  have h := find_best_params_zero_lws m dsimd dparams ddesc conf hw_params reusable_version
    hstat (create_params_sub_group hcp hne) params (dparams, FLT_MAX)
    (create_params_stat_sp_block hcp) hex
  have hd : (extern_of m dsimd dparams ddesc).default_params = dparams := rfl
  simp only [get_params_by_model, hcp, bind, Except.bind, hd, h]

/-- The candidates of the sample workload when the dispatch gives a local range
without elements to the kernels of the candidates with `ic_block = 32`. -/
theorem sample_zero_lws_candidates :
    ∃ params, create_params
        (extern_of sample_estimator_zero_lws 16 sample_ext.default_params sample_desc)
        (sample_conf false) true sample_hw false = .ok params ∧
      ∃ p ∈ params, ∃ q,
        init_kernel_descriptors p (sample_conf false) sample_hw false sample_desc = .ok q ∧
        ∃ d ∈ q.kernel_descs, (sample_estimator_zero_lws.nhwc_bnorm_kernel_dispatching d.kernel
          (conf_dry_run q (sample_conf false))).2.local_nelems = 0 := by
  obtain ⟨params, hcp, -, hcomplete, -⟩ := create_params_spec
    (extern_of sample_estimator_zero_lws 16 sample_ext.default_params sample_desc)
    (sample_conf false) true sample_hw false (by unfold candidate_inputs_ok; decide)
  have hadm : admissible_ic_block (sample_conf false) false 32 :=
    ⟨⟨2, by decide, by decide⟩, by decide, by decide, by decide⟩
  obtain ⟨⟨p, hp, hpb, -⟩, -⟩ := hcomplete 32 (by decide) hadm
  obtain ⟨q, new, hq, hdescs, hne, -⟩ := init_kernel_descriptors_ncalls p (sample_conf false)
    sample_hw false sample_desc
  obtain ⟨q2, hq2, hsame⟩ := init_kernel_descriptors_ok p (sample_conf false) sample_hw false
    sample_desc
  rw [hq] at hq2
  cases hq2
  obtain ⟨d, hd⟩ := List.exists_mem_of_ne_nil new hne
  refine ⟨params, hcp, p, hp, q, hq, d, ?_, ?_⟩
  · rw [hdescs]; exact List.mem_append_right _ hd
  · have hb : (conf_dry_run q (sample_conf false)).ic_block.value = 32 := by
      simp only [conf_dry_run, param_t.set]
      rw [hsame.2.1, hpb]
    simp [sample_estimator_zero_lws, hb]

/-- C12 (amended): a local range without elements is not recoverable.  When
every dispatch reports success and the dispatch dry run gives a local range with
zero elements to a kernel of some candidate of the created list,
`get_params_by_model` does not exclude that candidate and go on: it returns
`status::runtime_error`, and `conf` is not written. -/
theorem get_params_by_model_zero_lws (m : estimator_t) (dsimd : Int)
    (dparams : model_params_t) (ddesc : kernel_desc_t)
    (conf : nhwc_bnorm_params_t) (deterministic : Bool) (hw_params : hw_params_t)
    (reusable_version : Bool) (params : List model_params_t)
    (hcp : create_params (extern_of m dsimd dparams ddesc) conf deterministic hw_params
      reusable_version = .ok params)
    (hstat : ∀ k c, (m.nhwc_bnorm_kernel_dispatching k c).1 = .success)
    (hex : ∃ p ∈ params, ∃ q,
      init_kernel_descriptors p conf hw_params reusable_version ddesc = .ok q ∧
      ∃ d ∈ q.kernel_descs, (m.nhwc_bnorm_kernel_dispatching d.kernel
        (conf_dry_run q conf)).2.local_nelems = 0) :
    get_params_by_model (extern_of m dsimd dparams ddesc) conf deterministic hw_params
      reusable_version = .error (.status .runtime_error) :=
  get_params_by_model_zero_lws_aux m dsimd dparams ddesc conf deterministic hw_params
    reusable_version params hcp hstat hex

/-- Witness of `get_params_by_model_zero_lws` at the sample workload, the
dispatch giving a local range without elements to the kernels of the candidates
with `ic_block = 32`. -/
theorem get_params_by_model_zero_lws_witness :
    (∀ k c, (sample_estimator_zero_lws.nhwc_bnorm_kernel_dispatching k c).1 = .success) ∧
    get_params_by_model
      (extern_of sample_estimator_zero_lws 16 sample_ext.default_params sample_desc)
      (sample_conf false) true sample_hw false = .error (.status .runtime_error) := by
  obtain ⟨params, hcp, hex⟩ := sample_zero_lws_candidates
  exact ⟨fun _ _ => rfl,
    get_params_by_model_zero_lws sample_estimator_zero_lws 16 sample_ext.default_params
      sample_desc (sample_conf false) true sample_hw false params hcp (fun _ _ => rfl) hex⟩

/-- Counterexample to C12: the dispatch gives a local range without elements to
the kernels of the candidates with `ic_block = 32` and 16 elements to the
kernels of the others, among them the admissible `ic_block = 16`;
`get_params_by_model` does not return success with the remaining candidate, it
returns `status::runtime_error`. -/
theorem get_params_by_model_zero_lws_counterexample :
    admissible_ic_block (sample_conf false) false 16 ∧
    (∀ k c, c.ic_block.value = 16 →
      (sample_estimator_zero_lws.nhwc_bnorm_kernel_dispatching k c).2.local_nelems = 16) ∧
    (∀ k c, c.ic_block.value = 32 →
      (sample_estimator_zero_lws.nhwc_bnorm_kernel_dispatching k c).2.local_nelems = 0) ∧
    get_params_by_model
      (extern_of sample_estimator_zero_lws 16 sample_ext.default_params sample_desc)
      (sample_conf false) true sample_hw false = .error (.status .runtime_error) ∧
    ¬ ∃ conf2, get_params_by_model
      (extern_of sample_estimator_zero_lws 16 sample_ext.default_params sample_desc)
      (sample_conf false) true sample_hw false = .ok conf2 := by
  obtain ⟨params, hcp, hex⟩ := sample_zero_lws_candidates
  have hrun := get_params_by_model_zero_lws_aux sample_estimator_zero_lws 16
    sample_ext.default_params sample_desc (sample_conf false) true sample_hw false params hcp
    (fun _ _ => rfl) hex
  refine ⟨⟨⟨1, by decide, by decide⟩, by decide, by decide, by decide⟩, ?_, ?_, hrun, ?_⟩
  · intro k c h
    simp [sample_estimator_zero_lws, h]
  · intro k c h
    simp [sample_estimator_zero_lws, h]
  · rintro ⟨conf2, h⟩
    rw [hrun] at h
    cases h

theorem float_lt_le {x y : float} (h : x.lt y = true) : x.le y = true := by
  cases x <;> cases y <;> simp_all [float.le, float.lt]
  exact le_of_lt h

theorem float_lt_of_lt_of_le {x y z : float} (h1 : x.lt y = true) (h2 : y.le z = true) :
    x.lt z = true := by
  cases x <;> cases y <;> cases z <;> simp_all [float.le, float.lt]
  exact lt_of_lt_of_le h1 h2

theorem float_le_of_not_lt {x y : float} (hx : x ≠ .nan) (hy : y ≠ .nan)
    (h : x.lt y = false) : y.le x = true := by
  cases x <;> cases y <;> simp_all [float.le, float.lt]

theorem float_le_refl {x : float} (hx : x ≠ .nan) : x.le x = true := by
  cases x <;> simp_all [float.le]

theorem float_lt_ne_nan {x y : float} (h : x.lt y = true) : x ≠ .nan ∧ y ≠ .nan := by
  cases x <;> cases y <;> simp_all [float.lt]

/-- The trial in closed form, for sizes in the range of their C++ types. -/
theorem get_nhwc_sp_block_size_trial_ok (sp ic_nsg eu_count threads_per_eu nthr_mul : Int)
    (hsp : 1 ≤ sp) (hnsg : 1 ≤ ic_nsg) (heu : 1 ≤ eu_count) (hthr : 1 ≤ threads_per_eu)
    (hm : 1 ≤ nthr_mul) (hm2 : nthr_mul ≤ 32) (hr1 : 32 * eu_count ≤ INT_MAX)
    (hr2 : eu_count * threads_per_eu ≤ INT_MAX) (hr3 : sp * ic_nsg ≤ INT_MAX * eu_count) :
    get_nhwc_sp_block_size_trial sp ic_nsg eu_count threads_per_eu nthr_mul
      = .ok (sp_block_trial_value sp ic_nsg eu_count threads_per_eu nthr_mul) := by
  obtain ⟨f1, f2, f3, f4, hcurr, -⟩ :=
    sp_block_ranges hsp hnsg heu hthr hm hm2 hr1 hr2 hr3
  have hnthr : 1 ≤ nthr_mul * eu_count := by nlinarith
  have h1 : nthr_mul * eu_count ≠ 0 := by omega
  have h2 : Int.tdiv (sp * ic_nsg + nthr_mul * eu_count - 1) (nthr_mul * eu_count) ≠ 0 := by omega
  have h3 : eu_count ≠ 0 := by omega
  have h4 : eu_count * threads_per_eu ≠ 0 := by
    have : 1 ≤ eu_count * threads_per_eu := by nlinarith
    omega
  simp only [get_nhwc_sp_block_size_trial, sp_block_trial_value, div_up, rnd_up, bind,
    Except.bind, pure, Except.pure, h1, h2, h3, h4, f1, f2, f3, f4, if_false, not_true_eq_false]

theorem get_nhwc_sp_block_size_loop_foldl (sp ic_nsg eu_count threads_per_eu : Int)
    (T : Nat → sp_block_trial_t)
    (hT : ∀ i : Nat, i < 32 →
      get_nhwc_sp_block_size_trial sp ic_nsg eu_count threads_per_eu ((i : Int) + 1) = .ok (T i)) :
    ∀ (fuel k : Nat) (st : sp_block_search_t), fuel + k = 32 →
      get_nhwc_sp_block_size_loop sp ic_nsg eu_count threads_per_eu fuel ((k : Int) + 1) st
        = .ok (((List.range' k fuel).map T).foldl sp_block_update st) := by
  intro fuel
  induction fuel with
  | zero =>
    intro k st hk
    have : ¬ ((k : Int) + 1 ≤ 32) := by omega
    simp [get_nhwc_sp_block_size_loop, this]
  | succ fuel ih =>
    intro k st hk
    have hc : (k : Int) + 1 ≤ 32 := by omega
    have hstep := get_nhwc_sp_block_size_step_eq sp ic_nsg eu_count threads_per_eu
      ((k : Int) + 1) st
    rw [hT k (by omega)] at hstep
    simp only [Except.map] at hstep
    have hnext := ih (k + 1) (sp_block_update st (T k)) (by omega)
    have hcast : (((k + 1 : Nat) : Int) + 1) = (k : Int) + 1 + 1 := by push_cast; ring
    rw [hcast] at hnext
    simp only [get_nhwc_sp_block_size_loop, hc, if_true, bind, Except.bind, hstep, hnext,
      List.range'_succ, List.map_cons, List.foldl_cons]

theorem sp_block_update_foldl_thr :
    ∀ (ts : List sp_block_trial_t) (st : sp_block_search_t),
      ((ts.foldl sp_block_update st).efficiency_thr, (ts.foldl sp_block_update st).block_size_thr)
        = ts.foldl (keep_max (fun _ => true)) (st.efficiency_thr, st.block_size_thr) := by
  intro ts
  induction ts with
  | nil => intro st; rfl
  | cons t rest ih =>
    intro st
    simp only [List.foldl_cons]
    rw [ih]
    congr 1
    unfold sp_block_update keep_max
    simp only [true_and]
    split_ifs <;> rfl

theorem sp_block_update_foldl_peak :
    ∀ (ts : List sp_block_trial_t) (st : sp_block_search_t),
      ((ts.foldl sp_block_update st).efficiency_peak_eu_thr,
        (ts.foldl sp_block_update st).block_size_peak_eu_thr)
        = ts.foldl (keep_max peak_eus) (st.efficiency_peak_eu_thr, st.block_size_peak_eu_thr) := by
  intro ts
  induction ts with
  | nil => intro st; rfl
  | cons t rest ih =>
    intro st
    simp only [List.foldl_cons]
    rw [ih]
    congr 1
    unfold sp_block_update keep_max peak_eus
    simp only
    split_ifs <;> rfl

theorem round_between (fmt : float_format) (hp : 1 ≤ fmt.prec) {lo hi q : ℚ}
    (hlo : float.round fmt lo = .fin lo) (hhi : float.round fmt hi = .fin hi)
    (h1 : lo ≤ q) (h2 : q ≤ hi) :
    ∃ r, float.round fmt q = .fin r ∧ lo ≤ r ∧ r ≤ hi := by
  have m1 := round_mono fmt hp h1
  have m2 := round_mono fmt hp h2
  rw [hlo] at m1
  rw [hhi] at m2
  cases hq : float.round fmt q with
  | nan => rw [hq] at m1; simp [float.le] at m1
  | ninf => rw [hq] at m1; simp [float.le] at m1
  | pinf => rw [hq] at m2; simp [float.le] at m2
  | fin r =>
    rw [hq] at m1 m2
    exact ⟨r, rfl, by simpa [float.le] using m1, by simpa [float.le] using m2⟩

theorem round32_one : float.round binary32 1 = .fin 1 := by
  have := round_exact binary32 1 0 (by simp [binary32]) (by simp [binary32])
    (by rw [pow2q_eq, pow2q_eq]; simp only [binary32]; norm_num)
  simpa [pow2q_zero] using this

theorem round32_pow64 : float.round binary32 (2 ^ 64) = .fin (2 ^ 64) := by
  have := round_exact binary32 1 64 (by simp [binary32]) (by simp [binary32])
    (by rw [pow2q_eq, pow2q_eq]; simp only [binary32]; norm_num)
  have h : pow2q 64 = 2 ^ 64 := by rw [pow2q_eq]; norm_num
  rw [h] at this
  simpa using this

theorem round32_pow_neg64 : float.round binary32 (1 / 2 ^ 64) = .fin (1 / 2 ^ 64) := by
  have := round_exact binary32 1 (-64) (by simp [binary32]) (by simp [binary32])
    (by rw [pow2q_eq, pow2q_eq]; simp only [binary32]; norm_num)
  have h : pow2q (-64) = 1 / 2 ^ 64 := by rw [pow2q_eq]; norm_num
  rw [h] at this
  simpa using this

/-- A positive integer below `2^64` converts to a finite `float >= 1`. -/
theorem of_int_bounds (n : Int) (h1 : 1 ≤ n) (h2 : n ≤ 2 ^ 64) :
    ∃ r : ℚ, float.of_int binary32 n = .fin r ∧ 1 ≤ r ∧ r ≤ 2 ^ 64 := by
  unfold float.of_int
  apply round_between binary32 (by simp [binary32]) round32_one round32_pow64
  · exact_mod_cast h1
  · exact_mod_cast h2

/-- The quotient of two converted positive integers below `2^64` is a finite
positive `float`. -/
theorem div_of_int_pos (n r : Int) (hn1 : 1 ≤ n) (hn2 : n ≤ 2 ^ 64) (hr1 : 1 ≤ r)
    (hr2 : r ≤ 2 ^ 64) :
    (float.div binary32 (float.of_int binary32 n) (float.of_int binary32 r)).pos_fin := by
  obtain ⟨a, ha, ha1, ha2⟩ := of_int_bounds n hn1 hn2
  obtain ⟨b, hb, hb1, hb2⟩ := of_int_bounds r hr1 hr2
  rw [ha, hb]
  have hb0 : b ≠ 0 := by linarith
  simp only [float.div, hb0, if_false]
  have hbpos : (0 : ℚ) < b := by linarith
  obtain ⟨q, hq, hq1, -⟩ := round_between binary32 (by simp [binary32]) round32_pow_neg64
    round32_pow64 (show (1 : ℚ) / 2 ^ 64 ≤ a / b by
      rw [div_le_div_iff₀ (by positivity) hbpos]
      nlinarith)
    (show a / b ≤ 2 ^ 64 by
      rw [div_le_iff₀ hbpos]
      nlinarith)
  rw [hq]
  show 0 < q
  have : (0 : ℚ) < 1 / 2 ^ 64 := by positivity
  linarith

theorem round32_below_one :
    float.round binary32 (1 - 1 / 2 ^ 24) = .fin (1 - 1 / 2 ^ 24) := by
  have := round_exact binary32 (2 ^ 24 - 1) (-24) (by simp [binary32]) (by simp [binary32])
    (by rw [pow2q_eq, pow2q_eq]; simp only [binary32]; norm_num)
  have h : ((2 ^ 24 - 1 : Nat) : ℚ) * pow2q (-24) = 1 - 1 / 2 ^ 24 := by
    rw [pow2q_eq]; norm_num
  rw [h] at this
  exact this

/-- The packing efficiency of two thread counts below `2^24` is 1 only when the
counts are equal. -/
theorem div_of_int_eq_one (n r : Int) (hn1 : 1 ≤ n) (hnr : n ≤ r) (hr2 : r ≤ 2 ^ 24) :
    (float.div binary32 (float.of_int binary32 n) (float.of_int binary32 r)).eq
      (float.of_int binary32 1) = true ↔ n = r := by
  have e1 : float.of_int binary32 1 = .fin 1 := by
    simpa using of_int_exact 1 (by norm_num) (by norm_num)
  have en := of_int_exact n (by omega) (by
    have : (2 : Int) ^ 24 = 16777216 := by norm_num
    omega)
  have er := of_int_exact r (by omega) (by
    have : (2 : Int) ^ 24 = 16777216 := by norm_num
    omega)
  have hrq : (0 : ℚ) < (r : ℚ) := by exact_mod_cast (show (0 : Int) < r by omega)
  rw [e1, en, er]
  simp only [float.div, ne_of_gt hrq, if_false]
  constructor
  · intro h
    by_contra hne
    have hlt : n < r := lt_of_le_of_ne hnr hne
    have hq : (n : ℚ) / (r : ℚ) ≤ 1 - 1 / 2 ^ 24 := by
      rw [div_le_iff₀ hrq]
      have h1 : (n : ℚ) + 1 ≤ (r : ℚ) := by exact_mod_cast (show n + 1 ≤ r by omega)
      have h2 : (r : ℚ) ≤ 2 ^ 24 := by exact_mod_cast hr2
      nlinarith
    have hm := round_mono binary32 (by simp [binary32]) hq
    rw [round32_below_one] at hm
    cases hv : float.round binary32 ((n : ℚ) / (r : ℚ)) with
    | nan => rw [hv] at h; simp [float.eq] at h
    | ninf => rw [hv] at h; simp [float.eq] at h
    | pinf => rw [hv] at h; simp [float.eq] at h
    | fin v =>
      rw [hv] at h hm
      simp only [float.eq, decide_eq_true_eq] at h
      simp only [float.le, decide_eq_true_eq] at hm
      subst h
      norm_num at hm
  · intro h
    subst h
    rw [div_self (ne_of_gt hrq), round32_one]
    simp [float.eq]

/-- Whatever the size of the counts, equal thread counts below `2^64` give the
packing efficiency 1. -/
theorem div_of_int_self (n : Int) (hn1 : 1 ≤ n) (hn2 : n ≤ 2 ^ 64) :
    (float.div binary32 (float.of_int binary32 n) (float.of_int binary32 n)).eq
      (float.of_int binary32 1) = true := by
  have e1 : float.of_int binary32 1 = .fin 1 := by
    simpa using of_int_exact 1 (by norm_num) (by norm_num)
  obtain ⟨a, ha, ha1, -⟩ := of_int_bounds n hn1 hn2
  have ha0 : a ≠ 0 := by linarith
  rw [e1, ha]
  simp only [float.div, ha0, if_false, div_self ha0, round32_one]
  simp [float.eq]

theorem div_up_ceil {a b : Int} (ha : 1 ≤ a) (hb : 1 ≤ b) :
    Int.tdiv (a + b - 1) b = ⌈(a : ℚ) / (b : ℚ)⌉ := by
  obtain ⟨h1, h2, -, -⟩ := div_up_spec ha hb
  have hbq : (0 : ℚ) < (b : ℚ) := by exact_mod_cast (show (0 : Int) < b by omega)
  symm
  rw [Int.ceil_eq_iff]
  constructor
  · rw [lt_div_iff₀ hbq]
    have : ((Int.tdiv (a + b - 1) b - 1) * b : Int) < a := h2
    exact_mod_cast this
  · rw [div_le_iff₀ hbq]
    exact_mod_cast h1

/-- `rnd_up(n, k)` for positive `n` and `k`: the least multiple of `k` that is
not below `n`. -/
theorem rnd_up_spec {n k : Int} (hn : 1 ≤ n) (hk : 1 ≤ k) :
    n ≤ Int.tdiv (n + k - 1) k * k ∧ Int.tdiv (n + k - 1) k * k ≤ n + k - 1 ∧
      (Int.tdiv (n + k - 1) k * k = n ↔ n % k = 0) := by
  obtain ⟨h1, h2, h3, -⟩ := div_up_spec hn hk
  refine ⟨h1, by nlinarith, ?_⟩
  constructor
  · intro h
    rw [← h]
    exact Int.mul_emod_left _ _
  · intro h
    obtain ⟨c, hc⟩ := Int.dvd_of_emod_eq_zero h
    have hcpos : 1 ≤ c := by
      by_contra hneg
      have : c ≤ 0 := by omega
      nlinarith
    generalize Int.tdiv (n + k - 1) k = d at h1 h2 h3 ⊢
    have hle : d ≤ c := by
      by_contra hgt
      have : c + 1 ≤ d := by omega
      nlinarith
    have hge : c ≤ d := by
      by_contra hlt
      have : d + 1 ≤ c := by omega
      nlinarith
    have : d = c := by omega
    rw [this, hc]; ring

theorem float_lt_of_not_le {x y : float} (hx : x ≠ .nan) (hy : y ≠ .nan)
    (h : x.le y = false) : y.lt x = true := by
  cases x <;> cases y <;> simp_all [float.le, float.lt]

theorem float_pos_fin_ne_nan {x : float} (h : x.pos_fin) : x ≠ .nan := by
  cases x <;> simp_all [float.pos_fin]

theorem float_pos_fin_lt {x : float} (h : x.pos_fin) : (float.fin 0).lt x = true := by
  cases x <;> simp_all [float.pos_fin, float.lt]

/-- The running maximum keeps the first of the qualifying trials of greatest
thread efficiency: either the start pair, no qualifying trial being above it,
or the pair of the qualifying trial at an index `i` that is above the start,
not below any qualifying trial, and above every earlier qualifying trial. -/
theorem keep_max_foldl_spec (qualifies : sp_block_trial_t → Bool) :
    ∀ (ts : List sp_block_trial_t) (best : float × Int),
      best.1 ≠ .nan →
      (ts.foldl (keep_max qualifies) best).1 ≠ .nan ∧
      best.1.le (ts.foldl (keep_max qualifies) best).1 = true ∧
      (∀ t ∈ ts, qualifies t = true → t.curr_efficiency_thr ≠ .nan →
        t.curr_efficiency_thr.le (ts.foldl (keep_max qualifies) best).1 = true) ∧
      ((ts.foldl (keep_max qualifies) best = best ∧
          ∀ t ∈ ts, qualifies t = true → best.1.lt t.curr_efficiency_thr = false) ∨
        ∃ (i : Nat) (t : sp_block_trial_t), ts[i]? = some t ∧ qualifies t = true ∧
          ts.foldl (keep_max qualifies) best = (t.curr_efficiency_thr, t.curr_block_size) ∧
          best.1.lt t.curr_efficiency_thr = true ∧
          ∀ (j : Nat) (tj : sp_block_trial_t), j < i → ts[j]? = some tj →
            qualifies tj = true → t.curr_efficiency_thr.le tj.curr_efficiency_thr = false) := by
  intro ts
  induction ts with
  | nil =>
    intro best hb
    exact ⟨hb, float_le_refl hb, by simp, Or.inl ⟨rfl, by simp⟩⟩
  | cons c rest ih =>
    intro best hb
    by_cases hup : qualifies c = true ∧ best.1.lt c.curr_efficiency_thr = true
    · have hk : keep_max qualifies best c = (c.curr_efficiency_thr, c.curr_block_size) := by
        simp [keep_max, hup.1, hup.2]
      have hcn := (float_lt_ne_nan hup.2).2
      obtain ⟨r1, r2, r3, r4⟩ := ih (c.curr_efficiency_thr, c.curr_block_size) hcn
      simp only [List.foldl_cons]
      rw [hk]
      dsimp only at r2 r4
      refine ⟨r1, float_le_trans (float_lt_le hup.2) r2, ?_, ?_⟩
      · intro t ht hq hnan
        rcases List.mem_cons.mp ht with rfl | hin
        · exact r2
        · exact r3 t hin hq hnan
      · right
        rcases r4 with ⟨heq, hall⟩ | ⟨i, t, hi, hq, heq, hlt, hearlier⟩
        · refine ⟨0, c, by simp, hup.1, heq, hup.2, ?_⟩
          intro j tj hj
          omega
        · refine ⟨i + 1, t, by simpa using hi, hq, heq, ?_, ?_⟩
          · exact float_lt_of_lt_of_le hup.2 (float_lt_le hlt)
          · intro j tj hj htj hqj
            cases j with
            | zero =>
              simp only [List.getElem?_cons_zero, Option.some.injEq] at htj
              subst htj
              exact float_lt_not_le hlt
            | succ j =>
              simp only [List.getElem?_cons_succ] at htj
              exact hearlier j tj (by omega) htj hqj
    · have hk : keep_max qualifies best c = best := by
        simp only [keep_max]
        rw [if_neg hup]
      obtain ⟨r1, r2, r3, r4⟩ := ih best hb
      simp only [List.foldl_cons]
      rw [hk]
      have hc_le : qualifies c = true → c.curr_efficiency_thr ≠ .nan →
          c.curr_efficiency_thr.le best.1 = true := by
        intro hq hnan
        apply float_le_of_not_lt hb hnan
        by_contra hlt
        exact hup ⟨hq, by simpa using hlt⟩
      refine ⟨r1, r2, ?_, ?_⟩
      · intro t ht hq hnan
        rcases List.mem_cons.mp ht with rfl | hin
        · exact float_le_trans (hc_le hq hnan) r2
        · exact r3 t hin hq hnan
      · rcases r4 with ⟨heq, hall⟩ | ⟨i, t, hi, hq, heq, hlt, hearlier⟩
        · left
          refine ⟨heq, ?_⟩
          intro t ht hq
          rcases List.mem_cons.mp ht with rfl | hin
          · by_contra hlt
            exact hup ⟨hq, by simpa using hlt⟩
          · exact hall t hin hq
        · right
          refine ⟨i + 1, t, by simpa using hi, hq, heq, hlt, ?_⟩
          intro j tj hj htj hqj
          cases j with
          | zero =>
            simp only [List.getElem?_cons_zero, Option.some.injEq] at htj
            subst htj
            by_contra hle
            have hle2 : t.curr_efficiency_thr.le c.curr_efficiency_thr = true := by
              simpa using hle
            exact hup ⟨hqj, float_lt_of_lt_of_le hlt hle2⟩
          | succ j =>
            simp only [List.getElem?_cons_succ] at htj
            exact hearlier j tj (by omega) htj hqj

/-- The result of `get_nhwc_sp_block_size` in terms of the two running maxima
over its 32 trials. -/
theorem get_nhwc_sp_block_size_eq (sp ic_dim eu_count threads_per_eu simd : Int)
    (hsp : 1 ≤ sp) (hsimd : 1 ≤ simd) (hic : simd ≤ ic_dim) (heu : 1 ≤ eu_count)
    (hthr : 1 ≤ threads_per_eu) (hr1 : 32 * eu_count ≤ INT_MAX)
    (hr2 : eu_count * threads_per_eu ≤ INT_MAX)
    (hr3 : sp * Int.tdiv ic_dim simd ≤ INT_MAX * eu_count) :
    get_nhwc_sp_block_size sp ic_dim eu_count threads_per_eu simd = into_int
      (sp_block_result (sp_block_trials sp (Int.tdiv ic_dim simd) eu_count threads_per_eu)) := by
  have hnsg : 1 ≤ Int.tdiv ic_dim simd := tdiv_pos_of_le hsimd hic
  have hs0 : simd ≠ 0 := by omega
  have hloop := get_nhwc_sp_block_size_loop_foldl sp (Int.tdiv ic_dim simd) eu_count
    threads_per_eu
    (fun i => sp_block_trial_value sp (Int.tdiv ic_dim simd) eu_count threads_per_eu
      ((i : Int) + 1))
    (fun i hi => get_nhwc_sp_block_size_trial_ok sp (Int.tdiv ic_dim simd) eu_count
      threads_per_eu ((i : Int) + 1) hsp hnsg heu hthr (by omega) (by omega) hr1 hr2 hr3)
    32 0 ⟨.fin 0, .fin 0, 1, 1⟩ rfl
  have h01 : ((0 : Nat) : Int) + 1 = 1 := by norm_num
  rw [h01, ← List.range_eq_range'] at hloop
  have htrials : List.map (fun (i : Nat) => sp_block_trial_value sp (Int.tdiv ic_dim simd)
      eu_count threads_per_eu ((i : Int) + 1)) (List.range 32)
      = sp_block_trials sp (Int.tdiv ic_dim simd) eu_count threads_per_eu := rfl
  rw [htrials] at hloop
  have hthr2 := sp_block_update_foldl_thr
    (sp_block_trials sp (Int.tdiv ic_dim simd) eu_count threads_per_eu) ⟨.fin 0, .fin 0, 1, 1⟩
  have hpeak := sp_block_update_foldl_peak
    (sp_block_trials sp (Int.tdiv ic_dim simd) eu_count threads_per_eu) ⟨.fin 0, .fin 0, 1, 1⟩
  simp only at hthr2 hpeak
  simp only [get_nhwc_sp_block_size, hs0, if_false, bind, Except.bind, pure, Except.pure]
  rw [hloop]
  simp only
  unfold sp_block_result
  rw [← hthr2, ← hpeak]
  split_ifs <;> rfl

/-- Properties of a trial of the sweep, for sizes in the range of their C++
types. -/
theorem sp_block_trial_value_spec (sp g eu_count threads_per_eu m : Int)
    (hsp : 1 ≤ sp) (hg : 1 ≤ g) (heu : 1 ≤ eu_count) (hthr : 1 ≤ threads_per_eu)
    (hm : 1 ≤ m) (hm2 : m ≤ 32)
    (hr1 : sp * g < 2 ^ 63) (hr2 : eu_count * threads_per_eu < 2 ^ 31) :
    (sp_block_trial_value sp g eu_count threads_per_eu m).curr_efficiency_thr.pos_fin ∧
    (sp_block_trial_value sp g eu_count threads_per_eu m).curr_block_size
      = ⌈((sp * g : Int) : ℚ) / ((m * eu_count : Int) : ℚ)⌉ ∧
    1 ≤ (sp_block_trial_value sp g eu_count threads_per_eu m).curr_block_size ∧
    (sp_block_trial_value sp g eu_count threads_per_eu m).curr_block_size ≤ sp * g ∧
    1 ≤ (sp_block_trial_value sp g eu_count threads_per_eu m).nthr_gen ∧
    ((sp_block_trial_value sp g eu_count threads_per_eu m).nthr_gen % eu_count = 0 →
      peak_eus (sp_block_trial_value sp g eu_count threads_per_eu m) = true) ∧
    (33 * eu_count + g ≤ 2 ^ 24 →
      peak_eus (sp_block_trial_value sp g eu_count threads_per_eu m) = true →
      (sp_block_trial_value sp g eu_count threads_per_eu m).nthr_gen % eu_count = 0) := by
  have hnthr : 1 ≤ m * eu_count := by nlinarith
  have hS : 1 ≤ sp * g := by nlinarith
  have hk : 1 ≤ eu_count * threads_per_eu := by nlinarith
  have heuk : eu_count ≤ eu_count * threads_per_eu := by nlinarith
  obtain ⟨b1, b2, b3, b4⟩ := div_up_spec hS hnthr
  obtain ⟨n1, n2, n3⟩ := trial_nthr_gen_bounds hsp hg hnthr
  have hceil := div_up_ceil hS hnthr
  simp only [sp_block_trial_value, peak_eus]
  generalize Int.tdiv (sp + Int.tdiv (sp * g + m * eu_count - 1) (m * eu_count) - 1)
    (Int.tdiv (sp * g + m * eu_count - 1) (m * eu_count)) * g = N at n1 n2 n3 ⊢
  obtain ⟨e1, e2, e3⟩ := rnd_up_spec n1 heu
  obtain ⟨t1, t2, -⟩ := rnd_up_spec n1 hk
  have p63 : (2 : Int) ^ 63 + 2 ^ 31 ≤ 2 ^ 64 := by norm_num
  have p24 : (2 : Int) ^ 24 ≤ 2 ^ 64 := by norm_num
  refine ⟨?_, hceil, b3, b4, n1, ?_, ?_⟩
  · exact div_of_int_pos N _ n1 (by omega) (by omega) (by omega)
  · intro hmod
    rw [e3.mpr hmod]
    exact div_of_int_self N n1 (by omega)
  · intro hsmall heq
    have hmeu : m * eu_count ≤ 32 * eu_count := by nlinarith
    have := (div_of_int_eq_one N _ n1 e1 (by omega)).mp heq
    exact e3.mp this.symm

theorem sp_block_trials_getElem (sp g eu_count threads_per_eu : Int) (i : Nat)
    (t : sp_block_trial_t) :
    (sp_block_trials sp g eu_count threads_per_eu)[i]? = some t ↔
      i < 32 ∧ sp_block_trial_value sp g eu_count threads_per_eu ((i : Int) + 1) = t := by
  unfold sp_block_trials
  rw [List.getElem?_map]
  by_cases h : i < 32
  · rw [List.getElem?_range h]
    simp [h]
  · rw [List.getElem?_eq_none (by simp only [List.length_range]; omega)]
    simp [h]

theorem sp_block_trials_mem (sp g eu_count threads_per_eu : Int) (t : sp_block_trial_t)
    (h : t ∈ sp_block_trials sp g eu_count threads_per_eu) :
    ∃ i : Nat, i < 32 ∧ sp_block_trial_value sp g eu_count threads_per_eu ((i : Int) + 1) = t := by
  obtain ⟨i, hi⟩ := List.mem_iff_getElem?.mp h
  exact ⟨i, (sp_block_trials_getElem sp g eu_count threads_per_eu i t).mp hi⟩

/-- The selection of `get_nhwc_sp_block_size` over its trials, all of positive
thread efficiency. -/
theorem sp_block_result_spec (ts : List sp_block_trial_t)
    (hpos : ∀ t ∈ ts, t.curr_efficiency_thr.pos_fin) (hne : ts ≠ []) :
    ((∃ t ∈ ts, peak_eus t = true) →
      ∃ (i : Nat) (t : sp_block_trial_t), ts[i]? = some t ∧ peak_eus t = true ∧
        sp_block_result ts = t.curr_block_size ∧
        (∀ t2 ∈ ts, peak_eus t2 = true →
          t2.curr_efficiency_thr.le t.curr_efficiency_thr = true) ∧
        (∀ (j : Nat) (tj : sp_block_trial_t), j < i → ts[j]? = some tj → peak_eus tj = true →
          tj.curr_efficiency_thr.lt t.curr_efficiency_thr = true)) ∧
    ((¬ ∃ t ∈ ts, peak_eus t = true) →
      ∃ (i : Nat) (t : sp_block_trial_t), ts[i]? = some t ∧
        sp_block_result ts = t.curr_block_size ∧
        (∀ t2 ∈ ts, t2.curr_efficiency_thr.le t.curr_efficiency_thr = true) ∧
        (∀ (j : Nat) (tj : sp_block_trial_t), j < i → ts[j]? = some tj →
          tj.curr_efficiency_thr.lt t.curr_efficiency_thr = true)) := by
  have h0 : (float.fin 0, (1 : Int)).1 ≠ float.nan := by simp
  obtain ⟨-, -, p3, p4⟩ := keep_max_foldl_spec peak_eus ts (.fin 0, 1) h0
  obtain ⟨-, -, q3, q4⟩ := keep_max_foldl_spec (fun _ => true) ts (.fin 0, 1) h0
  have hmem : ∀ (j : Nat) (tj : sp_block_trial_t), ts[j]? = some tj → tj ∈ ts :=
    fun j tj h => List.mem_iff_getElem?.mpr ⟨j, h⟩
  constructor
  · rintro ⟨t0, ht0, hq0⟩
    rcases p4 with ⟨-, hall⟩ | ⟨i, t, hi, hq, heq, hlt, hearlier⟩
    · have h1 := hall t0 ht0 hq0
      have h2 := float_pos_fin_lt (hpos t0 ht0)
      simp only at h1
      rw [h1] at h2
      cases h2
    · refine ⟨i, t, hi, hq, ?_, ?_, ?_⟩
      · unfold sp_block_result
        rw [heq]
        simp only at hlt ⊢
        rw [if_pos hlt]
      · intro t2 ht2 hq2
        have := p3 t2 ht2 hq2 (float_pos_fin_ne_nan (hpos t2 ht2))
        rw [heq] at this
        exact this
      · intro j tj hj htj hqj
        exact float_lt_of_not_le (float_pos_fin_ne_nan (hpos t (hmem i t hi)))
          (float_pos_fin_ne_nan (hpos tj (hmem j tj htj))) (hearlier j tj hj htj hqj)
  · intro hno
    have hpeak : ts.foldl (keep_max peak_eus) (.fin 0, 1) = (.fin 0, 1) := by
      rcases p4 with ⟨heq, -⟩ | ⟨i, t, hi, hq, -⟩
      · exact heq
      · exact absurd ⟨t, hmem i t hi, hq⟩ hno
    rcases q4 with ⟨-, hall⟩ | ⟨i, t, hi, -, heq, hlt, hearlier⟩
    · obtain ⟨t0, ht0⟩ := List.exists_mem_of_ne_nil ts hne
      have h1 := hall t0 ht0 rfl
      have h2 := float_pos_fin_lt (hpos t0 ht0)
      simp only at h1
      rw [h1] at h2
      cases h2
    · refine ⟨i, t, hi, ?_, ?_, ?_⟩
      · unfold sp_block_result
        rw [hpeak, heq]
        simp [float.lt]
      · intro t2 ht2
        have := q3 t2 ht2 rfl (float_pos_fin_ne_nan (hpos t2 ht2))
        rw [heq] at this
        exact this
      · intro j tj hj htj
        exact float_lt_of_not_le (float_pos_fin_ne_nan (hpos t (hmem i t hi)))
          (float_pos_fin_ne_nan (hpos tj (hmem j tj htj))) (hearlier j tj hj htj rfl)

theorem sp_block_work_range {sp g eu_count : Int}
    (hr1 : 32 * eu_count ≤ INT_MAX) (hr3 : sp * g ≤ INT_MAX * eu_count) :
    sp * g < 2 ^ 63 := by
  unfold INT_MAX at hr1 hr3
  have : sp * g ≤ 2147483647 * 2147483647 := by nlinarith
  norm_num
  omega

/-- The value `get_nhwc_sp_block_size` returns is the block size of one of its
trials, for sizes in the range of their C++ types. -/
theorem sp_block_result_is_trial (sp g eu_count threads_per_eu : Int)
    (hsp : 1 ≤ sp) (hg : 1 ≤ g) (heu : 1 ≤ eu_count) (hthr : 1 ≤ threads_per_eu)
    (hr1 : 32 * eu_count ≤ INT_MAX) (hr2 : eu_count * threads_per_eu ≤ INT_MAX)
    (hr3 : sp * g ≤ INT_MAX * eu_count) :
    ∃ i : Nat, i < 32 ∧
      sp_block_result (sp_block_trials sp g eu_count threads_per_eu)
        = (sp_block_trial_value sp g eu_count threads_per_eu ((i : Int) + 1)).curr_block_size ∧
      fits_int (sp_block_result (sp_block_trials sp g eu_count threads_per_eu)) := by
  have hw := sp_block_work_range hr1 hr3
  have hr2b : eu_count * threads_per_eu < 2 ^ 31 := by
    unfold INT_MAX at hr2
    norm_num
    omega
  have hpos : ∀ t ∈ sp_block_trials sp g eu_count threads_per_eu,
      t.curr_efficiency_thr.pos_fin := by
    intro t ht
    obtain ⟨i, hi, rfl⟩ := sp_block_trials_mem _ _ _ _ t ht
    exact (sp_block_trial_value_spec sp _ eu_count threads_per_eu ((i : Int) + 1) hsp hg heu
      hthr (by omega) (by omega) hw hr2b).1
  have hne : sp_block_trials sp g eu_count threads_per_eu ≠ [] := by
    intro h
    have := (sp_block_trials_getElem sp g eu_count threads_per_eu 0 _).mpr
      ⟨by norm_num, rfl⟩
    rw [h] at this
    simp at this
  obtain ⟨hA, hB⟩ := sp_block_result_spec _ hpos hne
  have hsel : ∃ (i : Nat) (t : sp_block_trial_t),
      (sp_block_trials sp g eu_count threads_per_eu)[i]? = some t ∧
      sp_block_result (sp_block_trials sp g eu_count threads_per_eu)
        = t.curr_block_size := by
    by_cases hex : ∃ t ∈ sp_block_trials sp g eu_count threads_per_eu,
        peak_eus t = true
    · obtain ⟨i, t, hi, -, hv, -⟩ := hA hex
      exact ⟨i, t, hi, hv⟩
    · obtain ⟨i, t, hi, hv, -⟩ := hB hex
      exact ⟨i, t, hi, hv⟩
  obtain ⟨i, t, hi, hv⟩ := hsel
  obtain ⟨hi32, rfl⟩ := (sp_block_trials_getElem _ _ _ _ i t).mp hi
  obtain ⟨-, -, -, -, c1, c2⟩ := sp_block_ranges (m := (i : Int) + 1) hsp hg heu hthr
    (by omega) (by omega) hr1 hr2 hr3
  refine ⟨i, hi32, hv, ?_⟩
  rw [hv]
  exact ⟨by unfold INT_MIN; simp only [sp_block_trial_value]; omega,
    by simp only [sp_block_trial_value]; exact c2⟩

/-- C29 (amended): for `sp >= 1`, `ic_dim >= simd >= 1`, `eu_count >= 1` and
`threads_per_eu >= 1`, with the thread counts `32 * eu_count` and
`eu_count * threads_per_eu` in the range of `int` and the work size
`sp * (ic_dim / simd)` at most `INT_MAX * eu_count` (the largest trial block
is an `int`), `get_nhwc_sp_block_size` runs without a fault and returns the
block size of one of its 32 trials: the ceiling of
`sp * (ic_dim / simd) / (m * eu_count)` for a multiplier `m` in `1 .. 32`,
which lies between 1 and `sp * (ic_dim / simd)` and is an `int`. -/
theorem get_nhwc_sp_block_size_is_trial (sp ic_dim eu_count threads_per_eu simd : Int)
    (hsp : 1 ≤ sp) (hsimd : 1 ≤ simd) (hic : simd ≤ ic_dim) (heu : 1 ≤ eu_count)
    (hthr : 1 ≤ threads_per_eu) (hr1 : 32 * eu_count ≤ INT_MAX)
    (hr2 : eu_count * threads_per_eu ≤ INT_MAX)
    (hr3 : sp * Int.tdiv ic_dim simd ≤ INT_MAX * eu_count) :
    ∃ v m : Int, get_nhwc_sp_block_size sp ic_dim eu_count threads_per_eu simd = .ok v ∧
      1 ≤ m ∧ m ≤ 32 ∧
      v = ⌈((sp * Int.tdiv ic_dim simd : Int) : ℚ) / ((m * eu_count : Int) : ℚ)⌉ ∧
      1 ≤ v ∧ v ≤ sp * Int.tdiv ic_dim simd ∧ fits_int v := by
  have hg : 1 ≤ Int.tdiv ic_dim simd := tdiv_pos_of_le hsimd hic
  have heq := get_nhwc_sp_block_size_eq sp ic_dim eu_count threads_per_eu simd hsp hsimd hic
    heu hthr hr1 hr2 hr3
  obtain ⟨i, hi32, hv, hfit⟩ := sp_block_result_is_trial sp _ eu_count threads_per_eu hsp hg
    heu hthr hr1 hr2 hr3
  have hw := sp_block_work_range hr1 hr3
  have hr2b : eu_count * threads_per_eu < 2 ^ 31 := by
    unfold INT_MAX at hr2
    norm_num
    omega
  obtain ⟨-, s2, s3, s4, -⟩ := sp_block_trial_value_spec sp _ eu_count threads_per_eu
    ((i : Int) + 1) hsp hg heu hthr (by omega) (by omega) hw hr2b
  refine ⟨_, (i : Int) + 1, ?_, by omega, by omega, ?_, ?_, ?_, hfit⟩
  · rw [heq, into_int, if_pos hfit]
  · rw [hv]; exact s2
  · rw [hv]; exact s3
  · rw [hv]; exact s4

theorem get_nhwc_sp_block_size_is_trial_witness :
    ∃ v m : Int, get_nhwc_sp_block_size 1024 32 64 8 16 = .ok v ∧
      1 ≤ m ∧ m ≤ 32 ∧
      v = ⌈((1024 * Int.tdiv 32 16 : Int) : ℚ) / ((m * 64 : Int) : ℚ)⌉ ∧
      1 ≤ v ∧ v ≤ 1024 * Int.tdiv 32 16 ∧ fits_int v :=
  get_nhwc_sp_block_size_is_trial 1024 32 64 8 16 (by decide) (by decide) (by decide)
    (by decide) (by decide) (by decide) (by decide) (by decide)

/-- Counterexample to C29: with `2^26` execution units the 32nd trial forms the
`int` product `32 * 2^26 = 2^31`, and the call ends with a fault although
`sp = 1024 >= 1`, `ic_dim = 32 >= simd = 16 >= 1`, `eu_count >= 1` and
`threads_per_eu = 8 >= 1`. -/
theorem get_nhwc_sp_block_size_overflow_counterexample :
    (1 : Int) ≤ 1024 ∧ (16 : Int) ≤ 32 ∧ (1 : Int) ≤ 16 ∧ (1 : Int) ≤ 67108864 ∧ (1 : Int) ≤ 8 ∧
    get_nhwc_sp_block_size 1024 32 67108864 8 16 = .error .int_overflow := by
  refine ⟨by decide, by decide, by decide, by decide, by decide, ?_⟩
  decide

theorem get_vectorization_factor_pos (vect_size : Int) (dt : data_type_t) (is_reusable : Bool) :
    (get_vectorization_factor vect_size dt is_reusable).pos_fin := by
  unfold get_vectorization_factor
  simp only
  split_ifs <;>
    simp only [f32_one, f32_four, f32_2_5, f32_1_5, f32_1_8, f32_1_2, f32_1_3, float.pos_fin] <;>
    norm_num

theorem of_int_nonneg (fmt : float_format) {n : Int} (hn : 0 ≤ n) :
    (float.of_int fmt n).nonneg :=
  round_nonneg fmt (by exact_mod_cast hn)

theorem binary32_prec : 1 ≤ binary32.prec := by simp [binary32]

theorem binary64_prec : 1 ≤ binary64.prec := by simp [binary64]

theorem float_pos_fin_64 : (float.of_int binary32 64).pos_fin := by
  rw [of_int_64]; show (0 : ℚ) < 64; norm_num

theorem round_eq_of_repr (fmt : float_format) {q : ℚ} (k : Nat) (e : Int)
    (hq : q = (k : ℚ) * pow2q e) (hk : k < 2 ^ fmt.prec)
    (he : fmt.emin - ((fmt.prec : Int) - 1) ≤ e)
    (hfin : (k : ℚ) * pow2q e < pow2q (fmt.emax + 1)) :
    float.round fmt q = .fin q := by
  rw [hq]; exact round_exact fmt k e hk he hfin

theorem round_eq_of_repr_neg (fmt : float_format) {q : ℚ} (k : Nat) (e : Int)
    (hq : q = -((k : ℚ) * pow2q e)) (hk : k < 2 ^ fmt.prec)
    (he : fmt.emin - ((fmt.prec : Int) - 1) ≤ e)
    (hfin : (k : ℚ) * pow2q e < pow2q (fmt.emax + 1)) :
    float.round fmt q = .fin q := by
  rw [hq]; exact round_exact_neg fmt k e hk he hfin

theorem round32_half : float.round binary32 (1 / 2) = .fin (1 / 2) :=
  round_eq_of_repr binary32 1 (-1) (by rw [pow2q_eq]; norm_num) (by norm_num [binary32])
    (by norm_num [binary32]) (by rw [pow2q_eq, pow2q_eq]; norm_num [binary32])

theorem round32_quarter : float.round binary32 (1 / 4) = .fin (1 / 4) :=
  round_eq_of_repr binary32 1 (-2) (by rw [pow2q_eq]; norm_num) (by norm_num [binary32])
    (by norm_num [binary32]) (by rw [pow2q_eq, pow2q_eq]; norm_num [binary32])

theorem round32_two : float.round binary32 2 = .fin 2 :=
  round_eq_of_repr binary32 1 1 (by rw [pow2q_eq]; norm_num) (by norm_num [binary32])
    (by norm_num [binary32]) (by rw [pow2q_eq, pow2q_eq]; norm_num [binary32])

theorem f32_zero : f32 0 = .fin 0 := round_zero binary32

theorem f32_two : f32 2 = .fin 2 := round32_two

theorem f32_quarter : f32 (25 / 100) = .fin (1 / 4) := by
  have h : (25 : ℚ) / 100 = 1 / 4 := by norm_num
  unfold f32
  rw [h, round32_quarter]

theorem float_min_self (x : float) : float.min x x = x := by
  unfold float.min
  split_ifs <;> rfl

theorem float_add_fin (fmt : float_format) (a b : ℚ) :
    float.add fmt (.fin a) (.fin b) = float.round fmt (a + b) := rfl

theorem float_sub_fin (fmt : float_format) (a b : ℚ) :
    float.sub fmt (.fin a) (.fin b) = float.round fmt (a - b) := by
  simp only [float.sub, float.neg, float.add, sub_eq_add_neg]

theorem float_mul_fin_fin (fmt : float_format) (a b : ℚ) :
    float.mul fmt (.fin a) (.fin b) = float.round fmt (a * b) := rfl

theorem float_div_fin_fin (fmt : float_format) (a b : ℚ) (hb : b ≠ 0) :
    float.div fmt (.fin a) (.fin b) = float.round fmt (a / b) := by
  simp only [float.div, hb, if_false]

theorem round32_pow2 (j : Nat) (hj : j ≤ 127) :
    float.round binary32 ((2 : ℚ) ^ j) = .fin ((2 : ℚ) ^ j) := by
  apply round_eq_of_repr binary32 1 (j : Int)
  · rw [pow2q_natCast]; simp
  · norm_num [binary32]
  · simp only [binary32]; omega
  · rw [pow2q_natCast, pow2q_eq]
    simp only [binary32]
    have h1 : ((127 : Int) + 1) = ((128 : Nat) : Int) := by norm_num
    rw [h1, zpow_natCast]
    have : (2 : ℚ) ^ j < 2 ^ 128 := pow_lt_pow_right₀ (by norm_num) (by omega)
    simpa using this

theorem round_int_exact (fmt : float_format) (h53 : 24 ≤ fmt.prec)
    (hemin : fmt.emin ≤ 0) (hemax : 25 ≤ fmt.emax) (n : Int)
    (h1 : -16777216 ≤ n) (h2 : n ≤ 16777216) :
    float.round fmt (n : ℚ) = .fin (n : ℚ) := by
  have key : ∀ k : Nat, k ≤ 16777216 → float.round fmt (k : ℚ) = .fin (k : ℚ) := by
    intro k hk
    have hpow : (2 : Nat) ^ 24 ≤ 2 ^ fmt.prec := Nat.pow_le_pow_right (by norm_num) h53
    rcases Nat.lt_or_ge k 16777216 with hlt | hge
    · have := round_exact fmt k 0 (by omega) (by omega)
        (by
          rw [pow2q_zero, mul_one]
          have h3 : pow2q 25 ≤ pow2q (fmt.emax + 1) := pow2q_le (by omega)
          have h4 : pow2q 25 = 33554432 := by rw [pow2q_eq]; norm_num
          have : (k : ℚ) < 16777216 := by exact_mod_cast hlt
          linarith)
      simpa [pow2q_zero] using this
    · have hk2 : k = 16777216 := by omega
      subst hk2
      have := round_exact fmt 1 24 (by
          have : 1 < 2 ^ 24 := by norm_num
          omega) (by omega)
        (by
          have h3 : pow2q 25 ≤ pow2q (fmt.emax + 1) := pow2q_le (by omega)
          have h4 : pow2q 25 = 33554432 := by rw [pow2q_eq]; norm_num
          have h5 : pow2q 24 = 16777216 := by rw [pow2q_eq]; norm_num
          rw [h5]
          norm_num
          linarith)
      have h24 : pow2q 24 = 16777216 := by rw [pow2q_eq]; norm_num
      rw [h24] at this
      simpa using this
  rcases le_or_lt 0 n with hn | hn
  · have hk := key n.toNat (by omega)
    have : ((n.toNat : Nat) : ℚ) = (n : ℚ) := by
      have := Int.toNat_of_nonneg hn
      exact_mod_cast this
    rwa [this] at hk
  · have hk := key (-n).toNat (by omega)
    have : (((-n).toNat : Nat) : ℚ) = -(n : ℚ) := by
      have := Int.toNat_of_nonneg (show 0 ≤ -n by omega)
      exact_mod_cast this
    rw [this] at hk
    have h3 := round_neg fmt (-(n : ℚ))
    rw [neg_neg, hk] at h3
    simpa [float.neg] using h3

/-- Rounding to `float` keeps a number between two integers of at most 24
bits. -/
theorem round32_between (lo hi : Int) (hlo : -16777216 ≤ lo) (hhi : hi ≤ 16777216) {q : ℚ}
    (h1 : (lo : ℚ) ≤ q) (h2 : q ≤ (hi : ℚ)) :
    ∃ r, float.round binary32 q = .fin r ∧ (lo : ℚ) ≤ r ∧ r ≤ (hi : ℚ) := by
  have hlh : (lo : ℚ) ≤ (hi : ℚ) := le_trans h1 h2
  have hlh2 : lo ≤ hi := by exact_mod_cast hlh
  exact round_between binary32 binary32_prec
    (round_int_exact binary32 (by norm_num [binary32]) (by norm_num [binary32])
      (by norm_num [binary32]) lo hlo (by omega))
    (round_int_exact binary32 (by norm_num [binary32]) (by norm_num [binary32])
      (by norm_num [binary32]) hi (by omega) hhi) h1 h2

/-- Rounding to `double` keeps a number between two integers of at most 24
bits. -/
theorem round64_between (lo hi : Int) (hlo : -16777216 ≤ lo) (hhi : hi ≤ 16777216) {q : ℚ}
    (h1 : (lo : ℚ) ≤ q) (h2 : q ≤ (hi : ℚ)) :
    ∃ r, float.round binary64 q = .fin r ∧ (lo : ℚ) ≤ r ∧ r ≤ (hi : ℚ) := by
  have hlh : (lo : ℚ) ≤ (hi : ℚ) := le_trans h1 h2
  have hlh2 : lo ≤ hi := by exact_mod_cast hlh
  exact round_between binary64 binary64_prec
    (round_int_exact binary64 (by norm_num [binary64]) (by norm_num [binary64])
      (by norm_num [binary64]) lo hlo (by omega))
    (round_int_exact binary64 (by norm_num [binary64]) (by norm_num [binary64])
      (by norm_num [binary64]) hi (by omega) hhi) h1 h2

/-- The value `a * log(x) + b` of `get_appr_val` for the curve `ln`, between
integer bounds. -/
theorem get_appr_val_ln_between (m : estimator_t) (a b L : ℚ) (x : float)
    (hlog : m.log x = .fin L) (p1 p2 s1 s2 : Int)
    (hp1 : -16777216 ≤ p1) (hp2 : p2 ≤ 16777216) (hs1 : -16777216 ≤ s1) (hs2 : s2 ≤ 16777216)
    (h1 : (p1 : ℚ) ≤ a * L) (h2 : a * L ≤ (p2 : ℚ))
    (h3 : (s1 : ℚ) ≤ (p1 : ℚ) + b) (h4 : (p2 : ℚ) + b ≤ (s2 : ℚ)) :
    ∃ y, get_appr_val m (.fin a) (.fin b) x .ln = .fin y ∧ (s1 : ℚ) ≤ y ∧ y ≤ (s2 : ℚ) := by
  obtain ⟨q1, e1, l1, u1⟩ := round64_between p1 p2 hp1 hp2 h1 h2
  obtain ⟨q2, e2, l2, u2⟩ := round64_between s1 s2 hs1 hs2
    (show (s1 : ℚ) ≤ q1 + b by linarith) (show q1 + b ≤ (s2 : ℚ) by linarith)
  obtain ⟨q3, e3, l3, u3⟩ := round32_between s1 s2 hs1 hs2 l2 u2
  refine ⟨q3, ?_, l3, u3⟩
  simp only [get_appr_val, hlog, float_mul_fin_fin, e1, float_add_fin, e2, float.cast, e3]

/-- The times are not negative when the bandwidths and the three utilization
factors are positive finite numbers. -/
theorem get_estimated_kernel_time_nonneg_of_factors (m : estimator_t) (p : model_params_t)
    (conf : nhwc_bnorm_params_t) (hw_params : hw_params_t) (desc : kernel_desc_t)
    (hin : 0 ≤ desc.input_nbytes) (hout : 0 ≤ desc.output_nbytes)
    (hbw_in : (if desc.input_location = .L3 then hw_params.L3_bw
      else hw_params.HBM_bw).pos_fin)
    (hbw_out : (if desc.output_location = .L3 then hw_params.L3_bw
      else hw_params.HBM_bw).pos_fin)
    (hss : (get_ss_utilization_factor m (float.min desc.ss_util (f32 1)) conf.data_type
      desc.reusable_version).pos_fin)
    (hthr_r : (get_thr_utilization_factor m desc.ss_util desc.used_ss_thr_util
      desc.input_location hw_params.gpu_arch .read conf.data_type
      desc.reusable_version).pos_fin)
    (hthr_w : (get_thr_utilization_factor m desc.ss_util desc.used_ss_thr_util
      desc.output_location hw_params.gpu_arch .write conf.data_type
      desc.reusable_version).pos_fin) :
    (get_estimated_kernel_time_locals m p conf hw_params desc).r_ns_location.nonneg ∧
    (get_estimated_kernel_time_locals m p conf hw_params desc).w_ns_location.nonneg ∧
    (get_estimated_kernel_time_locals m p conf hw_params desc).read_ns.nonneg ∧
    (get_estimated_kernel_time_locals m p conf hw_params desc).write_ns.nonneg ∧
    (get_estimated_kernel_time m p conf hw_params desc).time_ns.nonneg := by
  have hv := get_vectorization_factor_pos
    (if is_reduction_kernel desc.kernel = true ∧ desc.reusable_version = true
      then m.def_reduction_vect else p.vect_size) conf.data_type desc.reusable_version
  have a0 := of_int_nonneg binary32 hin
  have a1 := float_div_nonneg binary32 a0 hbw_in
  have a2 := float_mul_nonneg binary32 a1 hss
  have a3 := float_mul_nonneg binary32 a2 hthr_r
  have a4 := float_mul_nonneg binary32 a3 hv
  have b0 := of_int_nonneg binary32 hout
  have b1 := float_div_nonneg binary32 b0 hbw_out
  have b2 := float_mul_nonneg binary32 b1 hss
  have b3 := float_mul_nonneg binary32 b2 hthr_w
  by_cases hat : p.use_fused_atomics_reduction ≠ 0 ∧
      (desc.kernel = .calc_mean_ker ∨ desc.kernel = .calc_var_ker
        ∨ desc.kernel = .calc_mean_var_ker ∨ desc.kernel = .calc_stats_ker)
  · have b4 := float_mul_nonneg binary32 b3 float_pos_fin_64
    have b5 := float_mul_nonneg binary32 b4 hv
    simp only [get_estimated_kernel_time, get_estimated_kernel_time_locals, if_pos hat]
    exact ⟨a3, b4, a4, b5, float_add_nonneg binary32 a4 b5⟩
  · have b5 := float_mul_nonneg binary32 b3 hv
    simp only [get_estimated_kernel_time, get_estimated_kernel_time_locals, if_neg hat]
    exact ⟨a3, b3, a4, b5, float_add_nonneg binary32 a4 b5⟩

theorem f32_int (n : Int) (h1 : -16777216 ≤ n) (h2 : n ≤ 16777216) :
    f32 (n : ℚ) = .fin (n : ℚ) :=
  round_int_exact binary32 (by norm_num [binary32]) (by norm_num [binary32])
    (by norm_num [binary32]) n h1 h2

/-- Rounding to `float` keeps a number between two numbers of the format. -/
theorem round32_in (q : ℚ) {lo hi : ℚ} (hlo : float.round binary32 lo = .fin lo)
    (hhi : float.round binary32 hi = .fin hi) (h1 : lo ≤ q) (h2 : q ≤ hi) :
    ∃ r, float.round binary32 q = .fin r ∧ lo ≤ r ∧ r ≤ hi :=
  round_between binary32 binary32_prec hlo hhi h1 h2

theorem round32_eighth : float.round binary32 (1 / 8) = .fin (1 / 8) :=
  round_eq_of_repr binary32 1 (-3) (by rw [pow2q_eq]; norm_num) (by norm_num [binary32])
    (by norm_num [binary32]) (by rw [pow2q_eq, pow2q_eq]; norm_num [binary32])

theorem round64_half : float.round binary64 (1 / 2) = .fin (1 / 2) :=
  round_eq_of_repr binary64 1 (-1) (by rw [pow2q_eq]; norm_num) (by norm_num [binary64])
    (by norm_num [binary64]) (by rw [pow2q_eq, pow2q_eq]; norm_num [binary64])

theorem round64_one : float.round binary64 1 = .fin 1 := by
  have := round_eq_of_repr binary64 (q := 1) 1 0 (by rw [pow2q_eq]; norm_num)
    (by norm_num [binary64]) (by norm_num [binary64])
    (by rw [pow2q_eq, pow2q_eq]; norm_num [binary64])
  exact this

theorem f32_eighth : f32 (125 / 1000) = .fin (1 / 8) := by
  have h : (125 : ℚ) / 1000 = 1 / 8 := by norm_num
  unfold f32
  rw [h, round32_eighth]

/-- A `double` literal between 1/2 and 1 stored into a `float` is a number
between 1/2 and 1. -/
theorem f32_of_double_between {q : ℚ} (h1 : 1 / 2 ≤ q) (h2 : q ≤ 1) :
    ∃ r, f32_of_double q = .fin r ∧ 1 / 2 ≤ r ∧ r ≤ 1 := by
  obtain ⟨a, ha, la, ua⟩ := round_between binary64 binary64_prec round64_half round64_one h1 h2
  obtain ⟨b, hb, lb, ub⟩ := round_between binary32 binary32_prec round32_half round32_one la ua
  exact ⟨b, by simp only [f32_of_double, ha, float.cast, hb], lb, ub⟩

theorem float_min_fin_one (u : ℚ) : float.min (.fin u) (.fin 1) = .fin (min u 1) := by
  unfold float.min
  by_cases h : (1 : ℚ) < u
  · simp only [float.lt, h, decide_True, if_true]
    rw [min_eq_right (le_of_lt h)]
  · simp only [float.lt, h, decide_False, Bool.false_eq_true, if_false]
    rw [min_eq_left (not_lt.mp h)]

/-- The sub-slice factor of the non-reusable version, `1 / min(util, 1)`, for a
utilization of at least `2^-64`: a number between 1 and `2^64`. -/
theorem get_ss_utilization_factor_bounds (m : estimator_t) (u : ℚ) (hu : 1 / 2 ^ 64 ≤ u)
    (dt : data_type_t) :
    ∃ s, get_ss_utilization_factor m (float.min (.fin u) (f32 1)) dt false = .fin s ∧
      1 ≤ s ∧ s ≤ 2 ^ 64 := by
  have hw1 : 1 / 2 ^ 64 ≤ min u 1 := le_min hu (by norm_num)
  have hw2 : min u 1 ≤ 1 := min_le_right _ _
  have hwpos : (0 : ℚ) < min u 1 := lt_of_lt_of_le (by norm_num) hw1
  have hmm : min (min u 1) 1 = min u 1 := min_eq_left hw2
  obtain ⟨s, hs, ls, us⟩ := round_between binary32 binary32_prec round32_one round32_pow64
    (show (1 : ℚ) ≤ 1 / min u 1 by rw [le_div_iff₀ hwpos]; linarith)
    (show 1 / min u 1 ≤ (2 : ℚ) ^ 64 by
      rw [div_le_iff₀ hwpos]
      have : (2 : ℚ) ^ 64 * (1 / 2 ^ 64) ≤ 2 ^ 64 * min u 1 :=
        mul_le_mul_of_nonneg_left hw1 (by norm_num)
      have e : (2 : ℚ) ^ 64 * (1 / 2 ^ 64) = 1 := by norm_num
      linarith)
  refine ⟨s, ?_, ls, us⟩
  have h : get_ss_utilization_factor m (float.min (.fin u) (f32 1)) dt false
      = float.div binary32 (f32 1) (float.min (float.min (.fin u) (f32 1)) (f32 1)) := by
    simp [get_ss_utilization_factor]
  rw [h, f32_one, float_min_fin_one, float_min_fin_one, hmm,
    float_div_fin_fin binary32 1 _ (ne_of_gt hwpos), hs]

/-- The two-piece line of the thread factor of the non-reusable version, through
`(0, 0)`, `(c, b)` and `(1, 1)` with `1/8 <= c <= 1/4` and `1/2 <= b <= 1`, at a
point between `2^-64` and 1: a number between `2^-64` and 2. -/
theorem solve_2pieces_linear_function_bounds (x c b : ℚ) (hx1 : 1 / 2 ^ 64 ≤ x) (hx2 : x ≤ 1)
    (hc1 : 1 / 8 ≤ c) (hc2 : c ≤ 1 / 4) (hb1 : 1 / 2 ≤ b) (hb2 : b ≤ 1) :
    ∃ S, solve_2pieces_linear_function (.fin x) (.fin 0) (.fin c) (.fin 1) (.fin 0) (.fin b)
        (.fin 1) = .fin S ∧ 1 / 2 ^ 64 ≤ S ∧ S ≤ 2 := by
  unfold solve_2pieces_linear_function solve_2p_line
  simp only [float_sub_fin, float.lt]
  by_cases hlt : x < c
  · simp only [hlt, decide_True, if_true]
    obtain ⟨dx, hdx, ldx, udx⟩ := round32_in (c - 0) round32_eighth round32_quarter
      (by linarith) (by linarith)
    obtain ⟨dy, hdy, ldy, udy⟩ := round32_in (b - 0) round32_half round32_one
      (by linarith) (by linarith)
    have hdxpos : (0 : ℚ) < dx := by linarith
    obtain ⟨q, hq, lq, uq⟩ := round32_in (dy / dx) round32_two
      (show float.round binary32 8 = .fin 8 by
        have := round32_pow2 3 (by norm_num); norm_num at this; exact this)
      (by rw [le_div_iff₀ hdxpos]; linarith) (by rw [div_le_iff₀ hdxpos]; linarith)
    obtain ⟨xs, hxs, lxs, uxs⟩ := round32_in (x - 0) round32_pow_neg64 round32_quarter
      (by linarith) (by linarith)
    obtain ⟨pr, hpr, lpr, upr⟩ := round32_in (q * xs) round32_pow_neg64 round32_two
      (by
        have h64 : (0 : ℚ) ≤ 1 / 2 ^ 64 := by norm_num
        nlinarith)
      (by nlinarith)
    obtain ⟨res, hres, lres, ures⟩ := round32_in (pr + 0) round32_pow_neg64 round32_two
      (by linarith) (by linarith)
    refine ⟨res, ?_, lres, ures⟩
    rw [hdx, hdy, hxs, float_div_fin_fin binary32 dy dx (ne_of_gt hdxpos), hq, float_mul_fin_fin,
      hpr, float_add_fin, hres]
  · simp only [hlt, decide_False, Bool.false_eq_true, if_false]
    have hge : c ≤ x := not_lt.mp hlt
    obtain ⟨dx, hdx, ldx, udx⟩ := round32_in (1 - c) round32_half round32_one
      (by linarith) (by linarith)
    obtain ⟨dy, hdy, ldy, udy⟩ := round32_in (1 - b) (round_zero binary32) round32_half
      (by linarith) (by linarith)
    have hdxpos : (0 : ℚ) < dx := by linarith
    obtain ⟨q, hq, lq, uq⟩ := round32_in (dy / dx) (round_zero binary32) round32_one
      (by exact div_nonneg ldy hdxpos.le) (by rw [div_le_iff₀ hdxpos]; linarith)
    obtain ⟨xs, hxs, lxs, uxs⟩ := round32_in (x - c) (round_zero binary32) round32_one
      (by linarith) (by linarith)
    obtain ⟨pr, hpr, lpr, upr⟩ := round32_in (q * xs) (round_zero binary32) round32_one
      (by exact mul_nonneg lq lxs) (by nlinarith)
    obtain ⟨res, hres, lres, ures⟩ := round32_in (pr + b) round32_half round32_two
      (by linarith) (by linarith)
    refine ⟨res, ?_, ?_, ures⟩
    · rw [hdx, hdy, hxs, float_div_fin_fin binary32 dy dx (ne_of_gt hdxpos), hq,
        float_mul_fin_fin, hpr, float_add_fin, hres]
    · have : (1 : ℚ) / 2 ^ 64 ≤ 1 / 2 := by norm_num
      linarith

/-- The thread factor of the non-reusable version, for a sub-slice utilization
that is not negative and a thread utilization of at least `2^-64`, on L3 or on
an architecture other than `xe_hpg`: a number between 1/2 and `2^64`. -/
theorem get_thr_utilization_factor_bounds (m : estimator_t) (u t : ℚ) (hu : 0 ≤ u)
    (ht : 1 / 2 ^ 64 ≤ t) (location : data_location_t) (gpu_arch : gpu_arch_t)
    (op : mem_operation_t) (dt : data_type_t)
    (hloc : location = .L3 ∨ gpu_arch ≠ .xe_hpg) :
    ∃ f, get_thr_utilization_factor m (.fin u) (.fin t) location gpu_arch op dt false = .fin f ∧
      1 / 2 ≤ f ∧ f ≤ 2 ^ 64 := by
  have hx1 : 1 / 2 ^ 64 ≤ min t 1 := le_min ht (by norm_num)
  have hx2 : min t 1 ≤ 1 := min_le_right _ _
  have hw1 : 0 ≤ min u 1 := le_min hu (by norm_num)
  have hw2 : min u 1 ≤ 1 := min_le_right _ _
  -- the factor is the inverse of the value of the two-piece line
  have hinv : ∀ S : ℚ, 1 / 2 ^ 64 ≤ S → S ≤ 2 →
      ∃ f, float.div binary32 (.fin 1) (.fin S) = .fin f ∧ 1 / 2 ≤ f ∧ f ≤ 2 ^ 64 := by
    intro S hS1 hS2
    have hSpos : (0 : ℚ) < S := lt_of_lt_of_le (by norm_num) hS1
    obtain ⟨f, hf, lf, uf⟩ := round32_in (1 / S) round32_half round32_pow64
      (by rw [le_div_iff₀ hSpos]; linarith)
      (by
        rw [div_le_iff₀ hSpos]
        have : (2 : ℚ) ^ 64 * (1 / 2 ^ 64) ≤ 2 ^ 64 * S :=
          mul_le_mul_of_nonneg_left hS1 (by norm_num)
        have e : (2 : ℚ) ^ 64 * (1 / 2 ^ 64) = 1 := by norm_num
        linarith)
    exact ⟨f, by rw [float_div_fin_fin binary32 1 S (ne_of_gt hSpos), hf], lf, uf⟩
  by_cases hl3 : location = .L3
  · obtain ⟨h, hh, lh, uh⟩ := round32_in (min u 1 / 2) (round_zero binary32) round32_half
      (by linarith) (by linarith)
    obtain ⟨yb, hyb, lyb, uyb⟩ := round32_in (1 - h) round32_half round32_one
      (by linarith) (by linarith)
    obtain ⟨S, hS, lS, uS⟩ := solve_2pieces_linear_function_bounds (min t 1) (1 / 4) yb hx1 hx2
      (by norm_num) (by norm_num) lyb uyb
    obtain ⟨f, hf, lf, uf⟩ := hinv S lS uS
    refine ⟨f, ?_, lf, uf⟩
    have hdef : get_thr_utilization_factor m (.fin u) (.fin t) location gpu_arch op dt false
        = float.div binary32 (f32 1)
          (solve_2pieces_linear_function (float.min (.fin t) (f32 1)) (f32 0)
            (f32 (25 / 100)) (f32 1) (f32 0)
            (float.sub binary32 (f32 1) (float.div binary32 (float.min (.fin u) (f32 1)) (f32 2)))
            (f32 1)) := by
      simp [get_thr_utilization_factor, hl3]
    rw [hdef, f32_one, f32_zero, f32_two, f32_quarter, float_min_fin_one, float_min_fin_one,
      float_div_fin_fin binary32 _ 2 (by norm_num), hh, float_sub_fin, hyb, hS, hf]
  · have harch : gpu_arch ≠ .xe_hpg := by
      rcases hloc with h | h
      · exact absurd h hl3
      · exact h
    by_cases hge : gpu_arch.ge .xe_hpc = true
    · have hyb : ∃ yb, (if (float.min (.fin u) (f32 1)).lt (float.round binary64 (25 / 100)) = true
          then f32_of_double (9 / 10) else f32_of_double (7 / 10)) = .fin yb ∧
          1 / 2 ≤ yb ∧ yb ≤ 1 := by
        split
        · exact f32_of_double_between (by norm_num) (by norm_num)
        · exact f32_of_double_between (by norm_num) (by norm_num)
      obtain ⟨yb, hyb, lyb, uyb⟩ := hyb
      obtain ⟨S, hS, lS, uS⟩ := solve_2pieces_linear_function_bounds (min t 1) (1 / 8) yb hx1 hx2
        (by norm_num) (by norm_num) lyb uyb
      obtain ⟨f, hf, lf, uf⟩ := hinv S lS uS
      refine ⟨f, ?_, lf, uf⟩
      have hdef : get_thr_utilization_factor m (.fin u) (.fin t) location gpu_arch op dt false
          = float.div binary32 (f32 1)
            (solve_2pieces_linear_function (float.min (.fin t) (f32 1)) (f32 0)
              (f32 (125 / 1000)) (f32 1) (f32 0)
              (if (float.min (.fin u) (f32 1)).lt (float.round binary64 (25 / 100)) = true
                then f32_of_double (9 / 10) else f32_of_double (7 / 10))
              (f32 1)) := by
        simp [get_thr_utilization_factor, hl3, harch, hge]
      rw [hdef, hyb, f32_one, f32_zero, f32_eighth, float_min_fin_one, hS, hf]
    · refine ⟨1, ?_, by norm_num, by norm_num⟩
      have hdef : get_thr_utilization_factor m (.fin u) (.fin t) location gpu_arch op dt false
          = f32 1 := by
        simp [get_thr_utilization_factor, hl3, harch, hge]
      rw [hdef, f32_one]

theorem sample_appr_table_idx : get_appr_table_idx (.fin 1) .f32 .read true .HBM = 2 := by
  decide!

theorem sample_appr_table_entry : appr_table[2]? = some ⟨f32 156, f32 595, .ln⟩ := rfl

theorem sample_appr_table_idx_write :
    get_appr_table_idx (.fin 1) .f32 .write true .HBM = 14 := by
  decide!

theorem sample_appr_table_entry_write : appr_table[14]? = some ⟨f32 116, f32 707, .ln⟩ := rfl

/-- The table-driven thread factor of a reusable f32 kernel on one sub-slice
with the thread utilization 1/64, for an entry `{a, b, ln}` of the table whose
values at 1/64 and at 32 lie between the given integers. -/
theorem sample_thr_factor_of_entry (op : mem_operation_t) (idx : Nat) (a b : Int)
    (ha1 : -16777216 ≤ a) (ha2 : a ≤ 16777216) (hb1 : -16777216 ≤ b) (hb2 : b ≤ 16777216)
    (hidx : get_appr_table_idx (.fin 1) .f32 op true .HBM = idx)
    (hentry : appr_table[idx]? = some ⟨f32 (a : ℚ), f32 (b : ℚ), .ln⟩)
    (p1 p2 s1 s2 q1 q2 t1 t2 : Int)
    (hp1 : -16777216 ≤ p1) (hp2 : p2 ≤ 16777216) (hs1 : -16777216 ≤ s1) (hs2 : s2 ≤ 16777216)
    (hq1 : -16777216 ≤ q1) (hq2 : q2 ≤ 16777216) (ht1 : -16777216 ≤ t1) (ht2 : t2 ≤ 16777216)
    (h1 : (p1 : ℚ) ≤ (a : ℚ) * (-(4682486076124019 / 1125899906842624)))
    (h2 : (a : ℚ) * (-(4682486076124019 / 1125899906842624)) ≤ (p2 : ℚ))
    (h3 : (s1 : ℚ) ≤ (p1 : ℚ) + (b : ℚ)) (h4 : (p2 : ℚ) + (b : ℚ) ≤ (s2 : ℚ))
    (h5 : (q1 : ℚ) ≤ (a : ℚ) * (7804143460206699 / 2251799813685248))
    (h6 : (a : ℚ) * (7804143460206699 / 2251799813685248) ≤ (q2 : ℚ))
    (h7 : (t1 : ℚ) ≤ (q1 : ℚ) + (b : ℚ)) (h8 : (q2 : ℚ) + (b : ℚ) ≤ (t2 : ℚ)) :
    ∃ y ym : ℚ, (s1 : ℚ) ≤ y ∧ y ≤ (s2 : ℚ) ∧ (t1 : ℚ) ≤ ym ∧ ym ≤ (t2 : ℚ) ∧
      get_thr_utilization_factor sample_estimator (.fin 1) (.fin (1 / 64)) .HBM .xe_hpc
        op .f32 true = float.div binary32 (.fin ym) (.fin y) := by
  have hmin1 : float.min (.fin 1) (.fin 8) = .fin 1 := by
    simp only [float.min, float.lt]
    norm_num
  have hmin2 : float.min (.fin (1 / 64)) (.fin 32) = .fin (1 / 64) := by
    simp only [float.min, float.lt]
    norm_num
  have hmax : sample_estimator.max_appr_thr_util = .fin 32 := rfl
  have hmas : sample_estimator.max_appr_ss_util = .fin 8 := rfl
  have h : get_thr_utilization_factor sample_estimator (.fin 1) (.fin (1 / 64)) .HBM .xe_hpc
      op .f32 true
      = float.div binary32
        (get_appr_val sample_estimator (f32 (a : ℚ)) (f32 (b : ℚ)) (.fin 32) .ln)
        (get_appr_val sample_estimator (f32 (a : ℚ)) (f32 (b : ℚ)) (.fin (1 / 64)) .ln) := by
    simp only [get_thr_utilization_factor, hmax, hmas, hmin1, hmin2, hidx, hentry, if_true]
  have hlog1 : sample_estimator.log (.fin (1 / 64))
      = .fin (-(4682486076124019 / 1125899906842624)) := by
    simp [sample_estimator]
  have hlog2 : sample_estimator.log (.fin 32)
      = .fin (7804143460206699 / 2251799813685248) := by
    simp only [sample_estimator]
    norm_num
  obtain ⟨y, hy, ly, uy⟩ := get_appr_val_ln_between sample_estimator (a : ℚ) (b : ℚ) _ _ hlog1
    p1 p2 s1 s2 hp1 hp2 hs1 hs2 h1 h2 h3 h4
  obtain ⟨ym, hym, lym, uym⟩ := get_appr_val_ln_between sample_estimator (a : ℚ) (b : ℚ) _ _ hlog2
    q1 q2 t1 t2 hq1 hq2 ht1 ht2 h5 h6 h7 h8
  refine ⟨y, ym, ly, uy, lym, uym, ?_⟩
  rw [h, f32_int a ha1 ha2, f32_int b hb1 hb2, hy, hym]

/-- The table-driven thread factor of the sample kernel of the reusable version
for the read direction, `y_max / y` with `y = 156 * log(1/64) + 595 < 0`, lies
between -22 and -21. -/
theorem sample_thr_utilization_factor_reusable :
    ∃ f : ℚ, get_thr_utilization_factor sample_estimator (.fin 1) (.fin (1 / 64)) .HBM .xe_hpc
        .read .f32 true = .fin f ∧ -22 ≤ f ∧ f ≤ -21 := by
  obtain ⟨y, ym, ly, uy, lym, uym, h⟩ := sample_thr_factor_of_entry .read 2 156 595
    (by norm_num) (by norm_num) (by norm_num) (by norm_num)
    sample_appr_table_idx (by simpa using sample_appr_table_entry)
    (-649) (-648) (-54) (-53) 540 541 1135 1136
    (by norm_num) (by norm_num) (by norm_num) (by norm_num)
    (by norm_num) (by norm_num) (by norm_num) (by norm_num)
    (by norm_num) (by norm_num) (by norm_num) (by norm_num)
    (by norm_num) (by norm_num) (by norm_num) (by norm_num)
  push_cast at ly uy lym uym
  have hyneg : y < 0 := by linarith
  obtain ⟨f, hf, lf, uf⟩ := round32_between (-22) (-21) (by norm_num) (by norm_num)
    (show ((-22 : Int) : ℚ) ≤ ym / y by
      rw [le_div_iff_of_neg hyneg]
      push_cast
      nlinarith)
    (show ym / y ≤ ((-21 : Int) : ℚ) by
      rw [div_le_iff_of_neg hyneg]
      push_cast
      nlinarith)
  refine ⟨f, ?_, by push_cast at lf; linarith, by push_cast at uf; linarith⟩
  rw [h, float_div_fin_fin binary32 ym y (ne_of_lt hyneg), hf]

/-- The table-driven thread factor of the sample kernel of the reusable version
for the write direction, `y_max / y` with `y = 116 * log(1/64) + 707 > 0`, lies
between 4 and 5. -/
theorem sample_thr_utilization_factor_reusable_write :
    ∃ f : ℚ, get_thr_utilization_factor sample_estimator (.fin 1) (.fin (1 / 64)) .HBM .xe_hpc
        .write .f32 true = .fin f ∧ 4 ≤ f ∧ f ≤ 5 := by
  obtain ⟨y, ym, ly, uy, lym, uym, h⟩ := sample_thr_factor_of_entry .write 14 116 707
    (by norm_num) (by norm_num) (by norm_num) (by norm_num)
    sample_appr_table_idx_write (by simpa using sample_appr_table_entry_write)
    (-483) (-482) 224 225 402 403 1109 1110
    (by norm_num) (by norm_num) (by norm_num) (by norm_num)
    (by norm_num) (by norm_num) (by norm_num) (by norm_num)
    (by norm_num) (by norm_num) (by norm_num) (by norm_num)
    (by norm_num) (by norm_num) (by norm_num) (by norm_num)
  push_cast at ly uy lym uym
  have hypos : 0 < y := by linarith
  obtain ⟨f, hf, lf, uf⟩ := round32_between 4 5 (by norm_num) (by norm_num)
    (show ((4 : Int) : ℚ) ≤ ym / y by
      rw [le_div_iff₀ hypos]
      push_cast
      nlinarith)
    (show ym / y ≤ ((5 : Int) : ℚ) by
      rw [div_le_iff₀ hypos]
      push_cast
      nlinarith)
  refine ⟨f, ?_, by push_cast at lf; linarith, by push_cast at uf; linarith⟩
  rw [h, float_div_fin_fin binary32 ym y (ne_of_gt hypos), hf]

/-- The sub-slice factor of the sample kernel of the reusable version,
`5.3 * pow(1, -0.7) / pow(1, -0.7)`, lies between 5 and 6. -/
theorem sample_ss_utilization_factor_reusable :
    ∃ s : ℚ, get_ss_utilization_factor sample_estimator (float.min (.fin 1) (f32 1)) .f32 true
        = .fin s ∧ 5 ≤ s ∧ s ≤ 6 := by
  have h : get_ss_utilization_factor sample_estimator (float.min (.fin 1) (f32 1)) .f32 true
      = float.cast binary32 (float.div binary64
          (float.mul binary64 (f32 (53 / 10))
            (sample_estimator.pow (float.min (.fin 1) (f32 1)) (f32 (-(7 / 10)))))
          (sample_estimator.pow (f32 1) (f32 (-(7 / 10))))) := by
    simp [get_ss_utilization_factor, get_pow_ratio]
  have hpow : ∀ y, sample_estimator.pow (.fin 1) y = .fin 1 := by
    intro y
    simp [sample_estimator]
  obtain ⟨a, ha, la, ua⟩ := round32_between 5 6 (by norm_num) (by norm_num)
    (show ((5 : Int) : ℚ) ≤ 53 / 10 by norm_num) (show (53 / 10 : ℚ) ≤ ((6 : Int) : ℚ) by norm_num)
  obtain ⟨q1, e1, l1, u1⟩ := round64_between 5 6 (by norm_num) (by norm_num)
    (show ((5 : Int) : ℚ) ≤ a * 1 by linarith) (show a * 1 ≤ ((6 : Int) : ℚ) by linarith)
  obtain ⟨q2, e2, l2, u2⟩ := round64_between 5 6 (by norm_num) (by norm_num)
    (show ((5 : Int) : ℚ) ≤ q1 / 1 by rw [div_one]; exact l1)
    (show q1 / 1 ≤ ((6 : Int) : ℚ) by rw [div_one]; exact u1)
  obtain ⟨q3, e3, l3, u3⟩ := round32_between 5 6 (by norm_num) (by norm_num) l2 u2
  refine ⟨q3, ?_, by push_cast at l3; linarith, by push_cast at u3; linarith⟩
  have hf : f32 (53 / 10) = .fin a := ha
  rw [h, f32_one, float_min_self, hpow, hf, float_mul_fin_fin, e1,
    float_div_fin_fin binary64 q1 1 (by norm_num), e2]
  simp only [float.cast, e3]


/-- The read time and the predicted latency of the sample kernel of the reusable
version for an input volume that converts to the `float` `1000 * a`: the read
time is at most `-262 * a` ns and the latency lies between `-330 * a + 50` and
`-262 * a + 75` ns. -/
theorem sample_reusable_time (n a : Int)
    (h : float.of_int binary32 n = .fin (1000 * (a : ℚ))) (ha1 : 1 ≤ a) (ha2 : a ≤ 8) :
    ∃ r T : ℚ,
      (get_estimated_kernel_time_locals sample_estimator sample_params (sample_conf false)
        sample_hw { sample_reusable_desc with input_nbytes := n }).read_ns = .fin r ∧
      r ≤ -262 * (a : ℚ) ∧
      (get_estimated_kernel_time sample_estimator sample_params (sample_conf false) sample_hw
        { sample_reusable_desc with input_nbytes := n }).time_ns = .fin T ∧
      -330 * (a : ℚ) + 50 ≤ T ∧ T ≤ -262 * (a : ℚ) + 75 := by
  obtain ⟨s, hs, ls, us⟩ := sample_ss_utilization_factor_reusable
  obtain ⟨f, hf, lf, uf⟩ := sample_thr_utilization_factor_reusable
  obtain ⟨g, hg, lg, ug⟩ := sample_thr_utilization_factor_reusable_write
  have hv : get_vectorization_factor
      (if is_reduction_kernel sample_reusable_desc.kernel = true ∧
          sample_reusable_desc.reusable_version = true
        then sample_estimator.def_reduction_vect else sample_params.vect_size)
      (sample_conf false).data_type sample_reusable_desc.reusable_version = .fin (5 / 2) := by
    have h : get_vectorization_factor
        (if is_reduction_kernel sample_reusable_desc.kernel = true ∧
            sample_reusable_desc.reusable_version = true
          then sample_estimator.def_reduction_vect else sample_params.vect_size)
        (sample_conf false).data_type sample_reusable_desc.reusable_version = f32 (25 / 10) := by
      simp [get_vectorization_factor, sample_reusable_desc, sample_params, sample_conf,
        is_reduction_kernel]
    rw [h, f32_2_5]
  have hat : ¬ (sample_params.use_fused_atomics_reduction ≠ 0 ∧
      (sample_reusable_desc.kernel = .calc_mean_ker ∨ sample_reusable_desc.kernel = .calc_var_ker
        ∨ sample_reusable_desc.kernel = .calc_mean_var_ker
        ∨ sample_reusable_desc.kernel = .calc_stats_ker)) := by
    simp [sample_params]
  have h1000 : float.of_int binary32 1000 = .fin 1000 := by
    simpa using of_int_exact 1000 (by norm_num) (by norm_num)
  have haq1 : (1 : ℚ) ≤ (a : ℚ) := by exact_mod_cast ha1
  have haq2 : (a : ℚ) ≤ 8 := by exact_mod_cast ha2
  -- the read time
  obtain ⟨x0, e0, l0, u0⟩ := round32_between a a (by omega) (by omega)
    (show (a : ℚ) ≤ 1000 * (a : ℚ) / 1000 by linarith)
    (show 1000 * (a : ℚ) / 1000 ≤ (a : ℚ) by linarith)
  obtain ⟨x1, e1, l1, u1⟩ := round32_between (5 * a) (6 * a) (by omega) (by omega)
    (show ((5 * a : Int) : ℚ) ≤ x0 * s by push_cast; nlinarith)
    (show x0 * s ≤ ((6 * a : Int) : ℚ) by push_cast; nlinarith)
  push_cast at l1 u1
  obtain ⟨x2, e2, l2, u2⟩ := round32_between (-132 * a) (-105 * a) (by omega) (by omega)
    (show ((-132 * a : Int) : ℚ) ≤ x1 * f by push_cast; nlinarith)
    (show x1 * f ≤ ((-105 * a : Int) : ℚ) by push_cast; nlinarith)
  push_cast at l2 u2
  obtain ⟨x3, e3, l3, u3⟩ := round32_between (-330 * a) (-262 * a) (by omega) (by omega)
    (show ((-330 * a : Int) : ℚ) ≤ x2 * (5 / 2) by push_cast; nlinarith)
    (show x2 * (5 / 2) ≤ ((-262 * a : Int) : ℚ) by push_cast; nlinarith)
  push_cast at l3 u3
  -- the write time
  obtain ⟨w0, c0, m0, v0⟩ := round32_between 1 1 (by norm_num) (by norm_num)
    (show ((1 : Int) : ℚ) ≤ 1000 / 1000 by norm_num)
    (show (1000 / 1000 : ℚ) ≤ ((1 : Int) : ℚ) by norm_num)
  push_cast at m0 v0
  obtain ⟨w1, c1, m1, v1⟩ := round32_between 5 6 (by norm_num) (by norm_num)
    (show ((5 : Int) : ℚ) ≤ w0 * s by push_cast; nlinarith)
    (show w0 * s ≤ ((6 : Int) : ℚ) by push_cast; nlinarith)
  push_cast at m1 v1
  obtain ⟨w2, c2, m2, v2⟩ := round32_between 20 30 (by norm_num) (by norm_num)
    (show ((20 : Int) : ℚ) ≤ w1 * g by push_cast; nlinarith)
    (show w1 * g ≤ ((30 : Int) : ℚ) by push_cast; nlinarith)
  push_cast at m2 v2
  obtain ⟨w3, c3, m3, v3⟩ := round32_between 50 75 (by norm_num) (by norm_num)
    (show ((50 : Int) : ℚ) ≤ w2 * (5 / 2) by push_cast; nlinarith)
    (show w2 * (5 / 2) ≤ ((75 : Int) : ℚ) by push_cast; nlinarith)
  push_cast at m3 v3
  obtain ⟨T, eT, lT, uT⟩ := round32_between (-330 * a + 50) (-262 * a + 75) (by omega) (by omega)
    (show ((-330 * a + 50 : Int) : ℚ) ≤ x3 + w3 by push_cast; linarith)
    (show x3 + w3 ≤ ((-262 * a + 75 : Int) : ℚ) by push_cast; linarith)
  push_cast at lT uT
  have hread : float.mul binary32 (float.mul binary32 (float.mul binary32
      (float.div binary32 (float.of_int binary32 n) (.fin 1000))
      (get_ss_utilization_factor sample_estimator (float.min (.fin 1) (f32 1)) .f32 true))
      (get_thr_utilization_factor sample_estimator (.fin 1) (.fin (1 / 64)) .HBM .xe_hpc .read
        .f32 true))
      (get_vectorization_factor
        (if is_reduction_kernel sample_reusable_desc.kernel = true ∧
            sample_reusable_desc.reusable_version = true
          then sample_estimator.def_reduction_vect else sample_params.vect_size)
        (sample_conf false).data_type sample_reusable_desc.reusable_version) = .fin x3 := by
    rw [hs, hf, hv, h, float_div_fin_fin binary32 _ _ (by norm_num), e0, float_mul_fin_fin, e1,
      float_mul_fin_fin, e2, float_mul_fin_fin, e3]
  have hwrite : float.mul binary32
      (if sample_params.use_fused_atomics_reduction ≠ 0 ∧
          (sample_reusable_desc.kernel = .calc_mean_ker
            ∨ sample_reusable_desc.kernel = .calc_var_ker
            ∨ sample_reusable_desc.kernel = .calc_mean_var_ker
            ∨ sample_reusable_desc.kernel = .calc_stats_ker)
        then float.mul binary32 (float.mul binary32 (float.mul binary32
          (float.div binary32 (float.of_int binary32 1000) (.fin 1000))
          (get_ss_utilization_factor sample_estimator (float.min (.fin 1) (f32 1)) .f32 true))
          (get_thr_utilization_factor sample_estimator (.fin 1) (.fin (1 / 64)) .HBM .xe_hpc
            .write .f32 true)) (float.of_int binary32 64)
        else float.mul binary32 (float.mul binary32
          (float.div binary32 (float.of_int binary32 1000) (.fin 1000))
          (get_ss_utilization_factor sample_estimator (float.min (.fin 1) (f32 1)) .f32 true))
          (get_thr_utilization_factor sample_estimator (.fin 1) (.fin (1 / 64)) .HBM .xe_hpc
            .write .f32 true))
      (get_vectorization_factor
        (if is_reduction_kernel sample_reusable_desc.kernel = true ∧
            sample_reusable_desc.reusable_version = true
          then sample_estimator.def_reduction_vect else sample_params.vect_size)
        (sample_conf false).data_type sample_reusable_desc.reusable_version) = .fin w3 := by
    rw [if_neg hat, hs, hg, hv, h1000, float_div_fin_fin binary32 _ _ (by norm_num), c0,
      float_mul_fin_fin, c1, float_mul_fin_fin, c2, float_mul_fin_fin, c3]
  refine ⟨x3, T, hread, u3, ?_, lT, uT⟩
  show float.add binary32
      (float.mul binary32 (float.mul binary32 (float.mul binary32
        (float.div binary32 (float.of_int binary32 n) (.fin 1000))
        (get_ss_utilization_factor sample_estimator (float.min (.fin 1) (f32 1)) .f32 true))
        (get_thr_utilization_factor sample_estimator (.fin 1) (.fin (1 / 64)) .HBM .xe_hpc .read
          .f32 true))
        (get_vectorization_factor
          (if is_reduction_kernel sample_reusable_desc.kernel = true ∧
              sample_reusable_desc.reusable_version = true
            then sample_estimator.def_reduction_vect else sample_params.vect_size)
          (sample_conf false).data_type sample_reusable_desc.reusable_version))
      (float.mul binary32
        (if sample_params.use_fused_atomics_reduction ≠ 0 ∧
            (sample_reusable_desc.kernel = .calc_mean_ker
              ∨ sample_reusable_desc.kernel = .calc_var_ker
              ∨ sample_reusable_desc.kernel = .calc_mean_var_ker
              ∨ sample_reusable_desc.kernel = .calc_stats_ker)
          then float.mul binary32 (float.mul binary32 (float.mul binary32
            (float.div binary32 (float.of_int binary32 1000) (.fin 1000))
            (get_ss_utilization_factor sample_estimator (float.min (.fin 1) (f32 1)) .f32 true))
            (get_thr_utilization_factor sample_estimator (.fin 1) (.fin (1 / 64)) .HBM .xe_hpc
              .write .f32 true)) (float.of_int binary32 64)
          else float.mul binary32 (float.mul binary32
            (float.div binary32 (float.of_int binary32 1000) (.fin 1000))
            (get_ss_utilization_factor sample_estimator (float.min (.fin 1) (f32 1)) .f32 true))
            (get_thr_utilization_factor sample_estimator (.fin 1) (.fin (1 / 64)) .HBM .xe_hpc
              .write .f32 true))
        (get_vectorization_factor
          (if is_reduction_kernel sample_reusable_desc.kernel = true ∧
              sample_reusable_desc.reusable_version = true
            then sample_estimator.def_reduction_vect else sample_params.vect_size)
          (sample_conf false).data_type sample_reusable_desc.reusable_version)) = .fin T
  rw [hread, hwrite, float_add_fin, eT]

/-- C24: the code returns negative times.  For the `default_fwd` kernel of the
reusable version that reads 4000 and writes 1000 bytes of HBM (f32, `xe_hpc`
profile), with non-negative byte volumes, the sub-slice utilization 1 and the
positive thread utilization 1/64, the table-driven factor `y_max / y` of
`get_thr_utilization_factor` is negative (entry `{156, 595, ln}`,
`y = 156 * log(1/64) + 595 < 0`; only the upper end of the thread utilization
is clamped), and so are the read time and `time_ns`; the non-reusable version
of the same kernel has a `time_ns` that is not negative. -/
theorem get_estimated_kernel_time_negative :
    0 ≤ sample_reusable_desc.input_nbytes ∧ 0 ≤ sample_reusable_desc.output_nbytes ∧
    sample_reusable_desc.ss_util = .fin 1 ∧ sample_reusable_desc.used_ss_thr_util = .fin (1 / 64) ∧
    (∃ f : ℚ, get_thr_utilization_factor sample_estimator sample_reusable_desc.ss_util
        sample_reusable_desc.used_ss_thr_util sample_reusable_desc.input_location
        sample_hw.gpu_arch .read (sample_conf false).data_type
        sample_reusable_desc.reusable_version = .fin f ∧ f ≤ -21) ∧
    (∃ r : ℚ, (get_estimated_kernel_time_locals sample_estimator sample_params
        (sample_conf false) sample_hw sample_reusable_desc).read_ns = .fin r ∧ r ≤ -1048) ∧
    (∃ T : ℚ, (get_estimated_kernel_time sample_estimator sample_params
        (sample_conf false) sample_hw sample_reusable_desc).time_ns = .fin T ∧ T ≤ -973) ∧
    (get_estimated_kernel_time sample_estimator sample_params (sample_conf false) sample_hw
      { sample_reusable_desc with reusable_version := false }).time_ns.nonneg := by
  obtain ⟨f, hf, -, uf⟩ := sample_thr_utilization_factor_reusable
  have h4 : float.of_int binary32 4000 = .fin (1000 * ((4 : Int) : ℚ)) := by
    have := of_int_exact 4000 (by norm_num) (by norm_num)
    rw [this]; norm_num
  obtain ⟨r, T, er, ur, eT, -, uT⟩ := sample_reusable_time 4000 4 h4 (by norm_num) (by norm_num)
  push_cast at ur uT
  obtain ⟨s, hs, ls, -⟩ := get_ss_utilization_factor_bounds sample_estimator 1 (by norm_num) .f32
  obtain ⟨fr, hfr, lfr, -⟩ := get_thr_utilization_factor_bounds sample_estimator 1 (1 / 64)
    (by norm_num) (by norm_num) .HBM .xe_hpc .read .f32 (Or.inr (by decide))
  obtain ⟨fw, hfw, lfw, -⟩ := get_thr_utilization_factor_bounds sample_estimator 1 (1 / 64)
    (by norm_num) (by norm_num) .HBM .xe_hpc .write .f32 (Or.inr (by decide))
  refine ⟨by decide, by decide, rfl, rfl, ⟨f, hf, uf⟩, ⟨r, er, by linarith⟩,
    ⟨T, eT, by linarith⟩, ?_⟩
  refine (get_estimated_kernel_time_nonneg_of_factors sample_estimator sample_params
    (sample_conf false) sample_hw { sample_reusable_desc with reusable_version := false }
    (by decide) (by decide) (by show (0 : ℚ) < 1000; norm_num)
    (by show (0 : ℚ) < 1000; norm_num) ?_ ?_ ?_).2.2.2.2
  · show (get_ss_utilization_factor sample_estimator (float.min (.fin 1) (f32 1)) .f32
      false).pos_fin
    rw [hs]
    show (0 : ℚ) < s
    linarith
  · show (get_thr_utilization_factor sample_estimator (.fin 1) (.fin (1 / 64)) .HBM .xe_hpc
      .read .f32 false).pos_fin
    rw [hfr]
    show (0 : ℚ) < fr
    linarith
  · show (get_thr_utilization_factor sample_estimator (.fin 1) (.fin (1 / 64)) .HBM .xe_hpc
      .write .f32 false).pos_fin
    rw [hfw]
    show (0 : ℚ) < fw
    linarith

end bn_model
